import Mathlib

/-!
Verification development for the typeset pretty-printer (soren-n/typeset-rs).

The definitions below are a shallow embedding of the Rust sources:
  * `src/typeset/src/avl.rs`, `map.rs`, `order.rs`, `list.rs`
  * `src/typeset/src/compiler/types/*`
  * `src/typeset/src/compiler/passes/*` (the ten passes)
  * `src/typeset/src/compiler/render/engine.rs`
  * `src/typeset/src/compiler/pipeline.rs`, `error.rs`

Rust `usize`/`u64` values are modelled as `Nat` (no arithmetic in the code
relies on wrap-around; the single subtraction `lvl - pos` in `_get_offset`
is modelled explicitly as a fallible operation, see `Render.getOffset`).
Arena allocation is dropped (pure values), `Cell` mutation in pass 5 is
modelled by explicit state passing over an edge/node store, CPS
continuations that are applied exactly once are written in direct style,
and the function-valued accumulators of `serialize`/`fixed` are
defunctionalised into lists of wrapper constructors.  Rust `panic!` /
`unreachable!` is modelled by `Option.none`; every pass that contains an
`unreachable!` branch therefore returns an `Option`.
-/

set_option maxRecDepth 10000

namespace Typeset

/-! ## order.rs -/

inductive Order where
  | EQ : Order
  | LT : Order
  | GT : Order
deriving Repr, DecidableEq

/-- `order.rs::total` on natural numbers. -/
def total (left right : Nat) : Order :=
  if left = right then Order.EQ
  else if left < right then Order.LT
  else Order.GT

/-! ## avl.rs (persistent AVL tree, embedded with its exact height bookkeeping) -/

inductive Avl (T : Type) where
  | null : Avl T
  | node (count height : Nat) (data : T) (left right : Avl T) : Avl T
deriving Repr

def Avl.getCount {T : Type} : Avl T → Nat
  | Avl.null => 0
  | Avl.node count _ _ _ _ => count

def Avl.getHeight {T : Type} : Avl T → Nat
  | Avl.null => 0
  | Avl.node _ height _ _ _ => height

/-- `avl.rs::_local_inbalance`; the height difference is compared as in the
source (`h_l as i64 - h_r as i64`), modelled with `Int`. -/
def Avl.localInbalance {T : Type} (pos : Order) : Avl T → Order
  | Avl.null => Order.EQ
  | Avl.node _ _ _ l r =>
    let hL : Int := Int.ofNat (Avl.getHeight l)
    let hR : Int := Int.ofNat (Avl.getHeight r)
    let hDiff : Int := hL - hR
    match pos with
    | Order.EQ =>
      if hDiff > 1 then Order.LT else if hDiff < -1 then Order.GT else Order.EQ
    | Order.LT =>
      if hDiff > 1 then Order.LT else if hDiff < 0 then Order.GT else Order.EQ
    | Order.GT =>
      if hDiff > 0 then Order.LT else if hDiff < -1 then Order.GT else Order.EQ

/-- `avl.rs::_local_rebalance::_rotate_left`.  The `unreachable!` branches
(rotating a tree without the required children) are modelled by returning
the tree unchanged; `rotateLeft` is only invoked by `localRebalance` when
the right child has positive reported height, hence is a node. -/
def Avl.rotateLeft {T : Type} : Avl T → Avl T
  | Avl.null => Avl.null
  | Avl.node cP _ u a q =>
    match q with
    | Avl.null => Avl.node cP 0 u a q
    | Avl.node _ _ v b c =>
      let cA := Avl.getCount a
      let hA := Avl.getHeight a
      let cB := Avl.getCount b
      let hB := Avl.getHeight b
      let cL := cA + cB + 1
      let hL := Nat.max hA hB + 1
      let hR := Avl.getHeight c
      Avl.node cP (Nat.max hL hR + 1) v (Avl.node cL hL u a b) c

/-- `avl.rs::_local_rebalance::_rotate_right`. -/
def Avl.rotateRight {T : Type} : Avl T → Avl T
  | Avl.null => Avl.null
  | Avl.node cQ _ v p c =>
    match p with
    | Avl.null => Avl.node cQ 0 v p c
    | Avl.node _ _ u a b =>
      let cB := Avl.getCount b
      let cC := Avl.getCount c
      let cR := cB + cC + 1
      let hL := Avl.getHeight a
      let hB := Avl.getHeight b
      let hC := Avl.getHeight c
      let hR := Nat.max hB hC + 1
      Avl.node cQ (Nat.max hL hR + 1) u a (Avl.node cR hR v b c)

def Avl.localRebalance {T : Type} (pos : Order) (tree : Avl T) : Avl T :=
  match Avl.localInbalance pos tree with
  | Order.EQ => tree
  | Order.LT => Avl.rotateRight tree
  | Order.GT => Avl.rotateLeft tree

/-- `avl.rs::insert`, direct-style version of the two-continuation CPS.
The result of `_visit` distinguishes the `updated` path (key replaced,
no shape change) from the `inserted` path; the `inserted` continuations of
the source compose `_local_rebalance` at each level, which here is the
recursive rebuild in `insertVisit`.  The source computes the new height on
the `GT` path from the OLD right subtree (`get_height(right) + 1`); this is
kept verbatim. -/
def Avl.insertVisit {T : Type} (order : T → T → Order) (data : T)
    (tree : Avl T) (pos : Order) : Bool × Avl T :=
  match tree with
  | Avl.null => (false, Avl.node 1 1 data Avl.null Avl.null)
  | Avl.node count height data1 left right =>
    match order data data1 with
    | Order.EQ => (true, Avl.node count height data left right)
    | Order.LT =>
      match Avl.insertVisit order data left Order.LT with
      | (true, left1) => (true, Avl.node count height data1 left1 right)
      | (false, left1) =>
        let height1 := Nat.max (Avl.getHeight left1 + 1) height
        (false, Avl.localRebalance pos (Avl.node (count + 1) height1 data1 left1 right))
    | Order.GT =>
      match Avl.insertVisit order data right Order.GT with
      | (true, right1) => (true, Avl.node count height data1 left right1)
      | (false, right1) =>
        let height1 := Nat.max (Avl.getHeight right + 1) height
        (false, Avl.localRebalance pos (Avl.node (count + 1) height1 data1 left right1))

def Avl.insert {T : Type} (order : T → T → Order) (data : T) (tree : Avl T) : Avl T :=
  match Avl.insertVisit order data tree Order.EQ with
  | (true, tree1) => tree1
  | (false, tree1) => Avl.localRebalance Order.EQ tree1

def Avl.isMember {T : Type} (order : T → T → Order) (item : T) : Avl T → Bool
  | Avl.null => false
  | Avl.node _ _ data left right =>
    match order item data with
    | Order.EQ => true
    | Order.LT => Avl.isMember order item left
    | Order.GT => Avl.isMember order item right

/-- `avl.rs::to_list`.  Note the traversal order of the source: the node's
data is prepended to the accumulator BEFORE visiting the left subtree, and
the right subtree is visited last; this is not an in-order traversal. -/
def Avl.toListVisit {T : Type} : Avl T → List T → List T
  | Avl.null, result => result
  | Avl.node _ _ data left right, result =>
    let result1 := data :: result
    let result2 := Avl.toListVisit left result1
    Avl.toListVisit right result2

def Avl.toList {T : Type} (tree : Avl T) : List T :=
  Avl.toListVisit tree []

/-! ## map.rs (persistent map on top of the AVL) -/

inductive Entry (K V : Type) where
  | peek (key : K) : Entry K V
  | bind (key : K) (value : V) : Entry K V
deriving Repr

def Entry.key {K V : Type} : Entry K V → K
  | Entry.peek key => key
  | Entry.bind key _ => key

/-- `map.rs::Map`, specialised to `Nat` keys ordered by `total` (the only
instantiation the compiler and renderer use). -/
def Map (V : Type) : Type := Avl (Entry Nat V)

def Map.entryOrder {V : Type} (left right : Entry Nat V) : Order :=
  total (Entry.key left) (Entry.key right)

def Map.empty {V : Type} : Map V := Avl.null

def Map.insert {V : Type} (m : Map V) (key : Nat) (value : V) : Map V :=
  Avl.insert Map.entryOrder (Entry.bind key value) m

def Map.lookup {V : Type} (m : Map V) (key : Nat) : Option V :=
  match m with
  | Avl.null => none
  | Avl.node _ _ entry left right =>
    match total key (Entry.key entry) with
    | Order.LT => Map.lookup left key
    | Order.GT => Map.lookup right key
    | Order.EQ =>
      match entry with
      | Entry.peek _ => none
      | Entry.bind _ value => some value

/-- `map.rs::lookup_unsafe`; the `unreachable!` branches are `none`. -/
def Map.lookupUnsafe {V : Type} (m : Map V) (key : Nat) : Option V :=
  match m with
  | Avl.null => none
  | Avl.node _ _ entry left right =>
    match total key (Entry.key entry) with
    | Order.LT => Map.lookupUnsafe left key
    | Order.GT => Map.lookupUnsafe right key
    | Order.EQ =>
      match entry with
      | Entry.peek _ => none
      | Entry.bind _ value => some value

def Map.contains {V : Type} (m : Map V) (key : Nat) : Bool :=
  Avl.isMember Map.entryOrder (Entry.peek key) m

def Map.size {V : Type} (m : Map V) : Nat := Avl.getCount m

/-- `map.rs::values`: `to_list` then projection (`List::map` of the source
preserves order). `Peek` entries are never stored by `insert`; they are
skipped here exactly as the `unreachable!` arm would refuse them. -/
def Map.values {V : Type} (m : Map V) : List V :=
  (Avl.toList m).filterMap (fun entry =>
    match entry with
    | Entry.peek _ => none
    | Entry.bind _ value => some value)

def Map.keys {V : Type} (m : Map V) : List Nat :=
  (Avl.toList m).filterMap (fun entry =>
    match entry with
    | Entry.peek _ => none
    | Entry.bind key _ => some key)

/-! ## compiler/types/layout.rs -/

structure Attr where
  pad : Bool
  fix : Bool
deriving Repr, DecidableEq

inductive Layout where
  | null : Layout
  | text (data : String) : Layout
  | fix (layout : Layout) : Layout
  | grp (layout : Layout) : Layout
  | seq (layout : Layout) : Layout
  | nest (layout : Layout) : Layout
  | pack (layout : Layout) : Layout
  | line (left right : Layout) : Layout
  | comp (left right : Layout) (attr : Attr) : Layout
deriving Repr, DecidableEq

/-! ## compiler/types/intermediate.rs : Broken, Edsl -/

inductive Broken where
  | null : Broken
  | text (data : String) : Broken
  | fix (layout : Broken) : Broken
  | grp (layout : Broken) : Broken
  | seq (broken : Bool) (layout : Broken) : Broken
  | nest (layout : Broken) : Broken
  | pack (layout : Broken) : Broken
  | line (left right : Broken) : Broken
  | comp (left right : Broken) (attr : Attr) : Broken
deriving Repr, DecidableEq

inductive Edsl where
  | null : Edsl
  | text (data : String) : Edsl
  | fix (layout : Edsl) : Edsl
  | grp (layout : Edsl) : Edsl
  | seq (layout : Edsl) : Edsl
  | nest (layout : Edsl) : Edsl
  | pack (layout : Edsl) : Edsl
  | line (left right : Edsl) : Edsl
  | comp (left right : Edsl) (attr : Attr) : Edsl
deriving Repr, DecidableEq

/-! ## Pass 1: broken.rs -/

/-- `broken.rs::_mark::_visit`: bottom-up tagging with "contains a Line". -/
def markVisit : Layout → Bool × Broken
  | Layout.null => (false, Broken.null)
  | Layout.text data => (false, Broken.text data)
  | Layout.fix layout1 =>
    let (b, layout2) := markVisit layout1
    (b, Broken.fix layout2)
  | Layout.grp layout1 =>
    let (b, layout2) := markVisit layout1
    (b, Broken.grp layout2)
  | Layout.seq layout1 =>
    let (b, layout2) := markVisit layout1
    (b, Broken.seq b layout2)
  | Layout.nest layout1 =>
    let (b, layout2) := markVisit layout1
    (b, Broken.nest layout2)
  | Layout.pack layout1 =>
    let (b, layout2) := markVisit layout1
    (b, Broken.pack layout2)
  | Layout.line left right =>
    let (_, left1) := markVisit left
    let (_, right1) := markVisit right
    (true, Broken.line left1 right1)
  | Layout.comp left right attr =>
    let (lB, left1) := markVisit left
    let (rB, right1) := markVisit right
    (lB || rB, Broken.comp left1 right1 attr)

def mark (layout : Layout) : Broken := (markVisit layout).2

/-- `broken.rs::_remove`, direct style (the CPS continuation of the source
is applied exactly once to the rebuilt subtree). -/
def remove : Broken → Bool → Edsl
  | Broken.null, _ => Edsl.null
  | Broken.text data, _ => Edsl.text data
  | Broken.fix layout1, _ => Edsl.fix (remove layout1 false)
  | Broken.grp layout1, _ => Edsl.grp (remove layout1 false)
  | Broken.seq bSeq layout1, _ =>
    if bSeq then remove layout1 true
    else Edsl.seq (remove layout1 false)
  | Broken.nest layout1, broken => Edsl.nest (remove layout1 broken)
  | Broken.pack layout1, broken => Edsl.pack (remove layout1 broken)
  | Broken.line left right, broken =>
    Edsl.line (remove left broken) (remove right broken)
  | Broken.comp left right attr, broken =>
    let left1 := remove left broken
    let right1 := remove right broken
    if broken && !attr.fix then Edsl.line left1 right1
    else Edsl.comp left1 right1 attr

/-- `broken.rs::broken` (pass 1). -/
def broken (layout : Layout) : Edsl :=
  remove (mark layout) false

/-! ## compiler/types/intermediate.rs : Serial -/

inductive SerialTerm where
  | null : SerialTerm
  | text (data : String) : SerialTerm
  | nest (term : SerialTerm) : SerialTerm
  | pack (index : Nat) (term : SerialTerm) : SerialTerm
deriving Repr, DecidableEq

inductive SerialComp where
  | line : SerialComp
  | comp (attr : Attr) : SerialComp
  | grp (index : Nat) (comp : SerialComp) : SerialComp
  | seq (index : Nat) (comp : SerialComp) : SerialComp
deriving Repr, DecidableEq

inductive Serial where
  | next (term : SerialTerm) (comp : SerialComp) (serial : Serial) : Serial
  | last (term : SerialTerm) (serial : Serial) : Serial
  | past : Serial
deriving Repr, DecidableEq

/-! ## Pass 2: serialize.rs

The source threads two function-valued accumulators (`terms`, `comps`)
holding the pending `Nest`/`Pack` wrappers for terms and `Grp`/`Seq` tags
for comps; they are defunctionalised here into lists of wrapper
constructors (outermost wrapper first; descending into a scope appends at
the tail, which matches `compose(terms, |t| _nest(t))` of the source).
The `glue` closure of the source encodes how the last term of a subtree
attaches to the serial that follows it; here `serializeVisit` instead
returns the inner `(term, comp)` pairs together with the subtree's last
term, and each caller attaches the connector itself, which is the same
defunctionalisation. -/

inductive TermWrap where
  | nest : TermWrap
  | pack (index : Nat) : TermWrap
deriving Repr, DecidableEq

inductive CompWrap where
  | grp (index : Nat) : CompWrap
  | seq (index : Nat) : CompWrap
deriving Repr, DecidableEq

/-- Apply pending term wrappers, outermost first. -/
def applyTermWraps : List TermWrap → SerialTerm → SerialTerm
  | [], term => term
  | TermWrap.nest :: wraps, term => SerialTerm.nest (applyTermWraps wraps term)
  | TermWrap.pack index :: wraps, term => SerialTerm.pack index (applyTermWraps wraps term)

/-- Apply pending comp wrappers, outermost first. -/
def applyCompWraps : List CompWrap → SerialComp → SerialComp
  | [], comp => comp
  | CompWrap.grp index :: wraps, comp => SerialComp.grp index (applyCompWraps wraps comp)
  | CompWrap.seq index :: wraps, comp => SerialComp.seq index (applyCompWraps wraps comp)

/-- `serialize.rs::_visit`.  Returns the updated counters `(i, j)`, the
inner `(term, connector)` pairs of the subtree in order, and the subtree's
last term (to be glued by the caller).  Note that the `Null` leaf does NOT
receive the pending term wrappers (the source applies `terms` only in the
`Text` case), and that `Line` connectors never receive `Grp`/`Seq`
wrappers (the source wraps only `Comp` connectors). -/
def serializeVisit (layout : Edsl) (i j : Nat) (fixed : Bool)
    (terms : List TermWrap) (comps : List CompWrap) :
    Nat × Nat × List (SerialTerm × SerialComp) × SerialTerm :=
  match layout with
  | Edsl.null => (i, j, [], SerialTerm.null)
  | Edsl.text data => (i, j, [], applyTermWraps terms (SerialTerm.text data))
  | Edsl.fix layout1 => serializeVisit layout1 i j true terms comps
  | Edsl.grp layout1 =>
    serializeVisit layout1 (i + 1) j fixed terms (comps ++ [CompWrap.grp i])
  | Edsl.seq layout1 =>
    serializeVisit layout1 (i + 1) j fixed terms (comps ++ [CompWrap.seq i])
  | Edsl.nest layout1 =>
    serializeVisit layout1 i j fixed (terms ++ [TermWrap.nest]) comps
  | Edsl.pack layout1 =>
    serializeVisit layout1 i (j + 1) fixed (terms ++ [TermWrap.pack j]) comps
  | Edsl.line left right =>
    let (i1, j1, pairsL, lastL) := serializeVisit left i j fixed terms comps
    let (i2, j2, pairsR, lastR) := serializeVisit right i1 j1 fixed terms comps
    (i2, j2, pairsL ++ [(lastL, SerialComp.line)] ++ pairsR, lastR)
  | Edsl.comp left right attr =>
    let attr1 : Attr := { pad := attr.pad, fix := fixed || attr.fix }
    let connector := applyCompWraps comps (SerialComp.comp attr1)
    let (i1, j1, pairsL, lastL) := serializeVisit left i j fixed terms comps
    let (i2, j2, pairsR, lastR) := serializeVisit right i1 j1 fixed terms comps
    (i2, j2, pairsL ++ [(lastL, connector)] ++ pairsR, lastR)

/-- Rebuild the `Serial` chain: inner pairs become `Next` items, the final
term becomes `Last(term, Past)` (the top-level glue of the source). -/
def buildSerial : List (SerialTerm × SerialComp) → SerialTerm → Serial
  | [], lastTerm => Serial.last lastTerm Serial.past
  | (term, comp) :: pairs, lastTerm =>
    Serial.next term comp (buildSerial pairs lastTerm)

/-- `serialize.rs::serialize` (pass 2). -/
def serialize (layout : Edsl) : Serial :=
  let (_, _, pairs, lastTerm) := serializeVisit layout 0 0 false [] []
  buildSerial pairs lastTerm

/-! ## compiler/types/intermediate.rs : LinearDoc -/

inductive LinearTerm where
  | null : LinearTerm
  | text (data : String) : LinearTerm
  | nest (term : LinearTerm) : LinearTerm
  | pack (index : Nat) (term : LinearTerm) : LinearTerm
deriving Repr, DecidableEq

inductive LinearComp where
  | comp (attr : Attr) : LinearComp
  | grp (index : Nat) (comp : LinearComp) : LinearComp
  | seq (index : Nat) (comp : LinearComp) : LinearComp
deriving Repr, DecidableEq

inductive LinearObj where
  | next (term : LinearTerm) (comp : LinearComp) (obj : LinearObj) : LinearObj
  | last (term : LinearTerm) : LinearObj
deriving Repr, DecidableEq

inductive LinearDoc where
  | nil : LinearDoc
  | cons (obj : LinearObj) (doc : LinearDoc) : LinearDoc
deriving Repr, DecidableEq

/-! ## Pass 3: linearize.rs -/

/-- `linearize.rs::_visit_term` (pure copy; the CPS of the source only
rebuilds the same wrapper spine). -/
def linearizeTerm : SerialTerm → LinearTerm
  | SerialTerm.null => LinearTerm.null
  | SerialTerm.text data => LinearTerm.text data
  | SerialTerm.nest term1 => LinearTerm.nest (linearizeTerm term1)
  | SerialTerm.pack index term1 => LinearTerm.pack index (linearizeTerm term1)

/-- `linearize.rs::_visit_comp`; the `Line` case is `unreachable!`. -/
def linearizeComp : SerialComp → Option LinearComp
  | SerialComp.line => none
  | SerialComp.comp attr => some (LinearComp.comp attr)
  | SerialComp.grp index comp1 => (linearizeComp comp1).map (LinearComp.grp index)
  | SerialComp.seq index comp1 => (linearizeComp comp1).map (LinearComp.seq index)

/-- Close the accumulated `(term, comp)` items of the current object. -/
def buildLinearObj : List (LinearTerm × LinearComp) → LinearTerm → LinearObj
  | [], lastTerm => LinearObj.last lastTerm
  | (term, comp) :: items, lastTerm =>
    LinearObj.next term comp (buildLinearObj items lastTerm)

/-- `linearize.rs::_visit_serial`, with the object-prefix closure `line`
defunctionalised into the accumulated item list.  The catch-all arm of the
source (`Last` not followed by `Past`) is `unreachable!`. -/
def linearizeVisit : Serial → List (LinearTerm × LinearComp) → Option LinearDoc
  | Serial.next term SerialComp.line serial1, acc => do
    let rest ← linearizeVisit serial1 []
    some (LinearDoc.cons (buildLinearObj acc (linearizeTerm term)) rest)
  | Serial.next term comp serial1, acc => do
    let comp1 ← linearizeComp comp
    linearizeVisit serial1 (acc ++ [(linearizeTerm term, comp1)])
  | Serial.last term Serial.past, acc =>
    some (LinearDoc.cons (buildLinearObj acc (linearizeTerm term)) LinearDoc.nil)
  | _, _ => none

/-- `linearize.rs::linearize` (pass 3). -/
def linearize (serial : Serial) : Option LinearDoc :=
  linearizeVisit serial []

/-! ## compiler/types/intermediate.rs : FixedDoc -/

inductive FixedTerm where
  | null : FixedTerm
  | text (data : String) : FixedTerm
  | nest (term : FixedTerm) : FixedTerm
  | pack (index : Nat) (term : FixedTerm) : FixedTerm
deriving Repr, DecidableEq

inductive FixedComp where
  | comp (pad : Bool) : FixedComp
  | grp (index : Nat) (comp : FixedComp) : FixedComp
  | seq (index : Nat) (comp : FixedComp) : FixedComp
deriving Repr, DecidableEq

inductive FixedFix where
  | next (term : FixedTerm) (comp : FixedComp) (fix : FixedFix) : FixedFix
  | last (term : FixedTerm) : FixedFix
deriving Repr, DecidableEq

inductive FixedItem where
  | fix (fix : FixedFix) : FixedItem
  | term (term : FixedTerm) : FixedItem
deriving Repr, DecidableEq

inductive FixedObj where
  | next (item : FixedItem) (comp : FixedComp) (obj : FixedObj) : FixedObj
  | last (item : FixedItem) : FixedObj
deriving Repr, DecidableEq

inductive FixedDoc where
  | Eod : FixedDoc
  | Break (obj : FixedObj) (doc : FixedDoc) : FixedDoc
deriving Repr, DecidableEq

/-! ## Pass 4: fixed.rs -/

def fixedTerm : LinearTerm → FixedTerm
  | LinearTerm.null => FixedTerm.null
  | LinearTerm.text data => FixedTerm.text data
  | LinearTerm.nest term1 => FixedTerm.nest (fixedTerm term1)
  | LinearTerm.pack index term1 => FixedTerm.pack index (fixedTerm term1)

/-- `fixed.rs::_visit_comp`: recover the or-folded `fix` bit and strip the
attr down to `pad`. -/
def fixedComp : LinearComp → Bool × FixedComp
  | LinearComp.comp attr => (attr.fix, FixedComp.comp attr.pad)
  | LinearComp.grp index comp1 =>
    let (isFixed, comp2) := fixedComp comp1
    (isFixed, FixedComp.grp index comp2)
  | LinearComp.seq index comp1 =>
    let (isFixed, comp2) := fixedComp comp1
    (isFixed, FixedComp.seq index comp2)

/-- Close a pending fix chain (the `line` closure of the source). -/
def buildFixedFix : List (FixedTerm × FixedComp) → FixedTerm → FixedFix
  | [], lastTerm => FixedFix.last lastTerm
  | (term, comp) :: items, lastTerm =>
    FixedFix.next term comp (buildFixedFix items lastTerm)

mutual

/-- `fixed.rs::_visit_obj`. -/
def fixedVisitObj : LinearObj → FixedObj
  | LinearObj.next term comp obj1 =>
    let term1 := fixedTerm term
    let (isFixed, comp1) := fixedComp comp
    if isFixed then fixedVisitFix obj1 [(term1, comp1)]
    else FixedObj.next (FixedItem.term term1) comp1 (fixedVisitObj obj1)
  | LinearObj.last term => FixedObj.last (FixedItem.term (fixedTerm term))

/-- `fixed.rs::_visit_fix`; `acc` is the defunctionalised `line` prefix of
the open fix chain. -/
def fixedVisitFix : LinearObj → List (FixedTerm × FixedComp) → FixedObj
  | LinearObj.next term comp obj1, acc =>
    let term1 := fixedTerm term
    let (isFixed, comp1) := fixedComp comp
    if isFixed then fixedVisitFix obj1 (acc ++ [(term1, comp1)])
    else
      FixedObj.next (FixedItem.fix (buildFixedFix acc term1)) comp1 (fixedVisitObj obj1)
  | LinearObj.last term, acc =>
    FixedObj.last (FixedItem.fix (buildFixedFix acc (fixedTerm term)))

end

/-- `fixed.rs::fixed` (pass 4). -/
def fixed : LinearDoc → FixedDoc
  | LinearDoc.nil => FixedDoc.Eod
  | LinearDoc.cons obj doc1 => FixedDoc.Break (fixedVisitObj obj) (fixed doc1)

/-! ## Pass 5: structurize.rs

The Pass-5 graph of the source is a web of bump-allocated nodes and edges
mutated through `Cell`s; here it is modelled as an explicit store:
nodes and edges live in lists addressed by index, each node carries its
`ins`/`outs` adjacency as a list of edge ids (the doubly-linked
`ins_head/ins_tail/ins_prev/ins_next` chains of the source represent
exactly such a list, with tail-append, removal and splicing as the only
operations), and each edge carries its `prop`, `source` and `target`.
All `unreachable!` branches and `*_unsafe` accesses are `none`. -/

inductive Property (T : Type) where
  | grp (val : T) : Property T
  | seq (val : T) : Property T
deriving Repr, DecidableEq

mutual

inductive GraphTerm where
  | null : GraphTerm
  | text (data : String) : GraphTerm
  | fix (fix : GraphFix) : GraphTerm
  | nest (term : GraphTerm) : GraphTerm
  | pack (index : Nat) (term : GraphTerm) : GraphTerm
deriving Repr, DecidableEq

inductive GraphFix where
  | last (term : GraphTerm) : GraphFix
  | next (term : GraphTerm) (fix : GraphFix) (pad : Bool) : GraphFix
deriving Repr, DecidableEq

end

structure GraphEdge where
  prop : Property Unit
  source : Nat
  target : Nat
deriving Repr, DecidableEq

structure GraphNode where
  term : GraphTerm
  ins : List Nat
  outs : List Nat
deriving Repr, DecidableEq

structure Graph where
  nodes : List GraphNode
  edges : List GraphEdge
deriving Repr, DecidableEq

inductive GraphDoc where
  | Eod : GraphDoc
  | Break (graph : Graph) (pads : List Bool) (doc : GraphDoc) : GraphDoc
deriving Repr, DecidableEq

def Graph.getNode (g : Graph) (index : Nat) : Option GraphNode :=
  g.nodes.get? index

def Graph.setNode (g : Graph) (index : Nat) (node : GraphNode) : Graph :=
  { g with nodes := g.nodes.set index node }

def Graph.getEdge (g : Graph) (id : Nat) : Option GraphEdge :=
  g.edges.get? id

def Graph.setEdge (g : Graph) (id : Nat) (edge : GraphEdge) : Graph :=
  { g with edges := g.edges.set id edge }

def Graph.ofTerms (terms : List GraphTerm) : Graph :=
  { nodes := terms.map (fun term => { term := term, ins := [], outs := [] }),
    edges := [] }

/-- `structurize.rs::_graphify::_lift_stack`. -/
def liftStack : FixedComp → List (Property Nat) × Bool
  | FixedComp.comp pad => ([], pad)
  | FixedComp.grp index comp1 =>
    let (props, pad) := liftStack comp1
    (Property.grp index :: props, pad)
  | FixedComp.seq index comp1 =>
    let (props, pad) := liftStack comp1
    (Property.seq index :: props, pad)

/-- The tag-to-span map of graphify (`type Graph<'a> = Map<...>` in the
source; renamed to avoid clashing with the edge store). -/
def PropsMap : Type := Map (Property (Nat × Option Nat))

/-- `structurize.rs::_graphify::_close`. -/
def closeProps (toNode : Nat) (props : PropsMap) :
    List (Property Nat) → Option PropsMap
  | [] => some props
  | Property.grp index :: stack1 => do
    match Map.lookupUnsafe props index with
    | none => none
    | some (Property.seq _) => none
    | some (Property.grp (fromNode, _)) =>
      closeProps toNode (Map.insert props index (Property.grp (fromNode, some toNode))) stack1
  | Property.seq index :: stack1 => do
    match Map.lookupUnsafe props index with
    | none => none
    | some (Property.grp _) => none
    | some (Property.seq (fromNode, _)) =>
      closeProps toNode (Map.insert props index (Property.seq (fromNode, some toNode))) stack1

/-- `structurize.rs::_graphify::_open`. -/
def openProps (fromNode : Nat) (props : PropsMap) :
    List (Property Nat) → PropsMap
  | [] => props
  | Property.grp index :: stack1 =>
    openProps fromNode (Map.insert props index (Property.grp (fromNode, none))) stack1
  | Property.seq index :: stack1 =>
    openProps fromNode (Map.insert props index (Property.seq (fromNode, none))) stack1

/-- `structurize.rs::_graphify::_update`. -/
def updateProps (node : Nat) (props : PropsMap) :
    List (Property Nat) → List (Property Nat) → Option (List (Property Nat) × PropsMap)
  | scope, [] => do
    let props1 ← closeProps node props scope
    some ([], props1)
  | [], stack => some (stack, openProps node props stack)
  | Property.grp left :: scope1, Property.grp right :: stack1 =>
    if left > right then none
    else if left = right then do
      let (stack2, props1) ← updateProps node props scope1 stack1
      some (Property.grp left :: stack2, props1)
    else do
      let props1 ← closeProps node props (Property.grp left :: scope1)
      some (Property.grp right :: stack1,
        openProps node props1 (Property.grp right :: stack1))
  | Property.seq left :: scope1, Property.seq right :: stack1 =>
    if left > right then none
    else if left = right then do
      let (stack2, props1) ← updateProps node props scope1 stack1
      some (Property.seq left :: stack2, props1)
    else do
      let props1 ← closeProps node props (Property.seq left :: scope1)
      some (Property.seq right :: stack1,
        openProps node props1 (Property.seq right :: stack1))
  | scope, stack => do
    let props1 ← closeProps node props scope
    some (stack, openProps node props1 stack)

/-- Append an edge (`make_edge` + `_push_outs` + `_push_ins`: the new edge
is tail-appended to the source's `outs` and the target's `ins`). -/
def Graph.addEdge (g : Graph) (prop : Property Unit)
    (fromIndex toIndex : Nat) : Option Graph := do
  let fromNode ← g.getNode fromIndex
  let toNode ← g.getNode toIndex
  let id := g.edges.length
  let g1 : Graph := { g with edges := g.edges ++ [⟨prop, fromIndex, toIndex⟩] }
  let g2 := g1.setNode fromIndex { fromNode with outs := fromNode.outs ++ [id] }
  let fromNode2 ← g2.getNode fromIndex
  let _ := fromNode2
  if fromIndex = toIndex then none
  else do
    let toNode1 ← g2.getNode toIndex
    let _ := toNode
    some (g2.setNode toIndex { toNode1 with ins := toNode1.ins ++ [id] })

/-- `structurize.rs::_graphify::_transpose`: walk the recorded spans in
`Map::values` order and materialise the edges; `from == to` spans yield no
edge, an unclosed span (`to = None`) is `unreachable!`. -/
def transpose (g : Graph) : List (Property (Nat × Option Nat)) → Option Graph
  | [] => some g
  | Property.grp (fromIndex, some toIndex) :: props1 =>
    if fromIndex = toIndex then transpose g props1
    else do
      let g1 ← g.addEdge (Property.grp ()) fromIndex toIndex
      transpose g1 props1
  | Property.seq (fromIndex, some toIndex) :: props1 =>
    if fromIndex = toIndex then transpose g props1
    else do
      let g1 ← g.addEdge (Property.seq ()) fromIndex toIndex
      transpose g1 props1
  | _ => none

def graphifyTerm : FixedTerm → GraphTerm
  | FixedTerm.null => GraphTerm.null
  | FixedTerm.text data => GraphTerm.text data
  | FixedTerm.nest term1 => GraphTerm.nest (graphifyTerm term1)
  | FixedTerm.pack index term1 => GraphTerm.pack index (graphifyTerm term1)

/-- `structurize.rs::_graphify::_visit_fix`. -/
def graphifyVisitFix (fix : FixedFix) (index : Nat) (scope : List (Property Nat))
    (props : PropsMap) : Option (GraphFix × List (Property Nat) × PropsMap) :=
  match fix with
  | FixedFix.next term comp fix1 => do
    let term1 := graphifyTerm term
    let (stack, pad) := liftStack comp
    let (scope1, props1) ← updateProps index props scope stack
    let (fix2, scope2, props2) ← graphifyVisitFix fix1 index scope1 props1
    some (GraphFix.next term1 fix2 pad, scope2, props2)
  | FixedFix.last term => some (GraphFix.last (graphifyTerm term), scope, props)

/-- `structurize.rs::_graphify::_visit_obj`; the difference-list
accumulators `nodes`/`pads` are ordinary lists here (append preserves the
order of the source). -/
def graphifyVisitObj (obj : FixedObj) (index : Nat) (scope : List (Property Nat))
    (nodes : List GraphTerm) (pads : List Bool) (props : PropsMap) :
    Option (List GraphTerm × List Bool × PropsMap) :=
  match obj with
  | FixedObj.next item comp obj1 =>
    match item with
    | FixedItem.term term => do
      let term1 := graphifyTerm term
      let nodes2 := nodes ++ [term1]
      let (stack, pad) := liftStack comp
      let pads2 := pads ++ [pad]
      let (scope1, props1) ← updateProps index props scope stack
      graphifyVisitObj obj1 (index + 1) scope1 nodes2 pads2 props1
    | FixedItem.fix fix => do
      let (fix1, scope1, props1) ← graphifyVisitFix fix index scope props
      let nodes2 := nodes ++ [GraphTerm.fix fix1]
      let (stack, pad) := liftStack comp
      let pads2 := pads ++ [pad]
      let (scope2, props2) ← updateProps index props1 scope1 stack
      graphifyVisitObj obj1 (index + 1) scope2 nodes2 pads2 props2
  | FixedObj.last item =>
    match item with
    | FixedItem.term term => do
      let nodes2 := nodes ++ [graphifyTerm term]
      let props1 ← closeProps index props scope
      some (nodes2, pads, props1)
    | FixedItem.fix fix => do
      let (fix1, scope1, props1) ← graphifyVisitFix fix index scope props
      let nodes2 := nodes ++ [GraphTerm.fix fix1]
      let props2 ← closeProps index props1 scope1
      some (nodes2, pads, props2)

/-- `structurize.rs::_graphify::_visit_doc`. -/
def graphify : FixedDoc → Option GraphDoc
  | FixedDoc.Eod => some GraphDoc.Eod
  | FixedDoc.Break obj doc1 => do
    let (nodes, pads, props) ← graphifyVisitObj obj 0 [] [] [] Map.empty
    let g ← transpose (Graph.ofTerms nodes) (Map.values props)
    let doc2 ← graphify doc1
    some (GraphDoc.Break g pads doc2)

/-! ### solve -/

/-- Insert `block` directly after the element `anchor`. -/
def spliceAfter (anchor : Nat) (block : List Nat) : List Nat → Option (List Nat)
  | [] => none
  | x :: xs =>
    if x = anchor then some (x :: (block ++ xs))
    else (spliceAfter anchor block xs).map (fun ys => x :: ys)

/-- Insert `item` directly before the element `anchor`. -/
def spliceBefore (anchor item : Nat) : List Nat → Option (List Nat)
  | [] => none
  | x :: xs =>
    if x = anchor then some (item :: x :: xs)
    else (spliceBefore anchor item xs).map (fun ys => x :: ys)

/-- `structurize.rs::_solve::_move_ins`: detach the whole `ins` block of
the block edges' target and re-attach it, re-targeted, directly after
`anchorId` in the anchor's target's `ins` list. -/
def moveIns (g : Graph) (block : List Nat) (anchorId : Nat) : Option Graph :=
  match block with
  | [] => none
  | headId :: _ => do
    let headE ← g.getEdge headId
    let fromNode ← g.getNode headE.target
    let g1 := g.setNode headE.target { fromNode with ins := [] }
    let anchor ← g1.getEdge anchorId
    let toIndex := anchor.target
    let g2 := block.foldl (fun acc id =>
      match acc.getEdge id with
      | none => acc
      | some e => acc.setEdge id { e with target := toIndex }) g1
    let toNode ← g2.getNode toIndex
    let ins1 ← spliceAfter anchorId block toNode.ins
    some (g2.setNode toIndex { toNode with ins := ins1 })

/-- `structurize.rs::_solve::_move_out`: unlink `currId` from its source's
`outs`, re-source it to the anchor's source and insert it directly before
`anchorId` there. -/
def moveOut (g : Graph) (currId anchorId : Nat) : Option Graph := do
  let currE ← g.getEdge currId
  let srcNode ← g.getNode currE.source
  let g1 := g.setNode currE.source { srcNode with outs := srcNode.outs.erase currId }
  let anchor ← g1.getEdge anchorId
  let node := anchor.source
  let g2 := g1.setEdge currId { currE with source := node }
  let nodeN ← g2.getNode node
  let outs1 ← spliceBefore anchorId currId nodeN.outs
  some (g2.setNode node { nodeN with outs := outs1 })

/-- `structurize.rs::_solve::_leftmost`: the incoming edge whose source
node has the smallest index (first one wins ties). -/
def leftmostVisit (g : Graph) (rest : List Nat) (index : Nat) (result : Nat) :
    Option Nat :=
  match rest with
  | [] => some result
  | nextId :: rest1 => do
    let nextE ← g.getEdge nextId
    let index1 := nextE.source
    if index1 < index then leftmostVisit g rest1 index1 nextId
    else leftmostVisit g rest1 index result

def leftmost (g : Graph) (ins : List Nat) : Option Nat :=
  match ins with
  | [] => none
  | headId :: rest => do
    let headE ← g.getEdge headId
    leftmostVisit g rest headE.source headId

/-- `structurize.rs::_solve::_resolve::_visit`: scan the outgoing edges;
each `Seq` edge is moved out (re-sourced to the previously examined edge's
source), the first `Grp` edge is returned.  The list argument is the
remaining suffix of the node's `outs` (reading `outs_next` before the move
in the source yields exactly this suffix). -/
def resolveVisit (g : Graph) (outsIds : List Nat) (edgeId : Nat) :
    Option (Graph × Option Nat) :=
  match outsIds with
  | [] => some (g, none)
  | currId :: rest => do
    let currE ← g.getEdge currId
    match currE.prop with
    | Property.grp _ => some (g, some currId)
    | Property.seq _ => do
      let g1 ← moveOut g currId edgeId
      resolveVisit g1 rest currId

/-- `structurize.rs::_solve::_visit_node`, iterating over node indices with
the remaining count as fuel (`count - index` in the source). -/
def solveVisitNode (g : Graph) : Nat → Nat → Option Graph
  | 0, _ => some g
  | remaining + 1, index => do
    let node ← g.getNode index
    match node.ins, node.outs with
    | _ :: _, _ :: _ => do
      let insFirst ← leftmost g node.ins
      let (g1, found) ← resolveVisit g node.outs insFirst
      match found with
      | none => solveVisitNode g1 remaining (index + 1)
      | some grpId => do
        let g2 ← moveIns g1 node.ins grpId
        solveVisitNode g2 remaining (index + 1)
    | _, _ => solveVisitNode g remaining (index + 1)

/-- `structurize.rs::_solve::_visit_doc`. -/
def solve : GraphDoc → Option GraphDoc
  | GraphDoc.Eod => some GraphDoc.Eod
  | GraphDoc.Break g pads doc1 => do
    let g1 ← solveVisitNode g g.nodes.length 0
    let doc2 ← solve doc1
    some (GraphDoc.Break g1 pads doc2)

/-! ### rebuild -/

inductive RebuildTerm where
  | null : RebuildTerm
  | text (data : String) : RebuildTerm
  | nest (term : RebuildTerm) : RebuildTerm
  | pack (index : Nat) (term : RebuildTerm) : RebuildTerm
deriving Repr, DecidableEq

inductive RebuildFix where
  | term (term : RebuildTerm) : RebuildFix
  | comp (left right : RebuildFix) (pad : Bool) : RebuildFix
deriving Repr, DecidableEq

inductive RebuildObj where
  | term (term : RebuildTerm) : RebuildObj
  | fix (fix : RebuildFix) : RebuildObj
  | grp (obj : RebuildObj) : RebuildObj
  | seq (obj : RebuildObj) : RebuildObj
  | comp (left right : RebuildObj) (pad : Bool) : RebuildObj
deriving Repr, DecidableEq

inductive RebuildDoc where
  | Eod : RebuildDoc
  | Break (obj : RebuildObj) (doc : RebuildDoc) : RebuildDoc
deriving Repr, DecidableEq

/-- `RebuildCont` of the source: a pending close continuation. -/
def RebuildCont : Type := RebuildObj → RebuildObj

/-- `structurize.rs::_rebuild::_topology` for one node. -/
def topologyNode (g : Graph) (node : GraphNode) :
    Option (GraphTerm × Nat × List (Property Unit)) := do
  let propOuts ← node.outs.mapM (fun id => (g.getEdge id).map GraphEdge.prop)
  some (node.term, node.ins.length, propOuts)

/-- `structurize.rs::_rebuild::_topology`. -/
def topology (g : Graph) :
    Option (List GraphTerm × List Nat × List (List (Property Unit))) := do
  let rows ← g.nodes.mapM (topologyNode g)
  some (rows.map (fun r => r.1), rows.map (fun r => r.2.1), rows.map (fun r => r.2.2))

/-- `structurize.rs::_rebuild::_open::_visit`. -/
def rebuildOpenVisit : List (Property Unit) → List RebuildCont → List RebuildCont
  | [], stack => stack
  | Property.grp _ :: props1, stack =>
    rebuildOpenVisit props1 ((fun obj => RebuildObj.grp obj) :: stack)
  | Property.seq _ :: props1, stack =>
    rebuildOpenVisit props1 ((fun obj => RebuildObj.seq obj) :: stack)

/-- `structurize.rs::_rebuild::_open`. -/
def rebuildOpen (props : List (Property Unit)) (stack : List RebuildCont)
    (part : RebuildObj → RebuildObj) : Option (List RebuildCont) :=
  match stack with
  | top :: stack1 =>
    some (rebuildOpenVisit props ((fun obj => top (part obj)) :: stack1))
  | [] => none

/-- `structurize.rs::_rebuild::_close`. -/
def rebuildClose : Nat → List RebuildCont → RebuildObj →
    Option (List RebuildCont × RebuildObj)
  | 0, stack, result => some (stack, result)
  | count + 1, stack, result =>
    match stack with
    | top :: stack1 => rebuildClose count stack1 (top result)
    | [] => none

/-- `structurize.rs::_rebuild::_final`. -/
def rebuildFinal (stack : List RebuildCont) (term : RebuildObj) :
    Option RebuildObj :=
  match stack with
  | [lastCont] => some (lastCont term)
  | _ => none

/-- `structurize.rs::_rebuild::_visit_term`; a nested `Fix` term is
`unreachable!`. -/
def rebuildVisitTerm : GraphTerm → Option RebuildTerm
  | GraphTerm.null => some RebuildTerm.null
  | GraphTerm.text data => some (RebuildTerm.text data)
  | GraphTerm.nest term1 => (rebuildVisitTerm term1).map RebuildTerm.nest
  | GraphTerm.pack index term1 => (rebuildVisitTerm term1).map (RebuildTerm.pack index)
  | GraphTerm.fix _ => none

/-- `structurize.rs::_rebuild::_visit_fix`. -/
def rebuildVisitFix : GraphFix → Option RebuildFix
  | GraphFix.last term => (rebuildVisitTerm term).map RebuildFix.term
  | GraphFix.next term fix1 pad => do
    let term1 ← rebuildVisitTerm term
    let fix2 ← rebuildVisitFix fix1
    some (RebuildFix.comp (RebuildFix.term term1) fix2 pad)

/-- One step of `structurize.rs::_rebuild::_visit_line` once the current
item has been converted to a `RebuildObj`; shared between the `Fix` and
plain-term arms, whose bodies in the source are identical up to the item. -/
def rebuildVisitLineStep (item : RebuildObj) (ins : List Nat)
    (outs : List (List (Property Unit))) (stack : List RebuildCont)
    (part : RebuildObj → RebuildObj) (pad : Bool) :
    Option (List Nat × List (List (Property Unit)) × List RebuildCont ×
      (RebuildObj → RebuildObj)) :=
  match ins, outs with
  | inProps :: ins1, outProps :: outs1 =>
    if inProps = 0 && outProps.isEmpty then
      some (ins1, outs1, stack,
        fun obj => part (RebuildObj.comp item obj pad))
    else if outProps.isEmpty then do
      let (stack1, closed) ← rebuildClose inProps stack (part item)
      some (ins1, outs1, stack1, fun obj => RebuildObj.comp closed obj pad)
    else if inProps = 0 then do
      let stack1 ← rebuildOpen outProps stack part
      some (ins1, outs1, stack1, fun obj => RebuildObj.comp item obj pad)
    else none
  | _, _ => none

/-- Final item of `_visit_line` (the single/last-term arms). -/
def rebuildVisitLineLast (item : RebuildObj) (ins : List Nat)
    (outs : List (List (Property Unit))) (stack : List RebuildCont)
    (part : RebuildObj → RebuildObj) : Option RebuildObj :=
  match ins, outs with
  | [inProps], [outProps] =>
    if outProps.isEmpty then
      if inProps = 0 then rebuildFinal stack (part item)
      else do
        let (stack1, closed) ← rebuildClose inProps stack (part item)
        rebuildFinal stack1 closed
    else none
  | _, _ => none

/-- `structurize.rs::_rebuild::_visit_line`. -/
def rebuildVisitLine : List GraphTerm → List Bool → List Nat →
    List (List (Property Unit)) → List RebuildCont →
    (RebuildObj → RebuildObj) → Option RebuildObj
  | [GraphTerm.fix fix], [], ins, outs, stack, part => do
    let fix1 ← rebuildVisitFix fix
    rebuildVisitLineLast (RebuildObj.fix fix1) ins outs stack part
  | [term], [], ins, outs, stack, part => do
    let term1 ← rebuildVisitTerm term
    rebuildVisitLineLast (RebuildObj.term term1) ins outs stack part
  | GraphTerm.fix fix :: terms1, pad :: pads1, ins, outs, stack, part => do
    let fix1 ← rebuildVisitFix fix
    let (ins1, outs1, stack1, part1) ←
      rebuildVisitLineStep (RebuildObj.fix fix1) ins outs stack part pad
    rebuildVisitLine terms1 pads1 ins1 outs1 stack1 part1
  | term :: terms1, pad :: pads1, ins, outs, stack, part => do
    let term1 ← rebuildVisitTerm term
    let (ins1, outs1, stack1, part1) ←
      rebuildVisitLineStep (RebuildObj.term term1) ins outs stack part pad
    rebuildVisitLine terms1 pads1 ins1 outs1 stack1 part1
  | _, _, _, _, _, _ => none

/-- `structurize.rs::_rebuild::_visit_doc`. -/
def rebuildDoc : GraphDoc → Option RebuildDoc
  | GraphDoc.Eod => some RebuildDoc.Eod
  | GraphDoc.Break g pads doc1 => do
    let (terms, ins, outs) ← topology g
    let obj ← rebuildVisitLine terms pads ins outs [fun obj => obj] (fun obj => obj)
    let doc2 ← rebuildDoc doc1
    some (RebuildDoc.Break obj doc2)

/-- `structurize.rs::structurize` (pass 5). -/
def structurize (doc : FixedDoc) : Option RebuildDoc := do
  let doc1 ← graphify doc
  let doc2 ← solve doc1
  rebuildDoc doc2

/-! ## compiler/types/intermediate.rs : DenullDoc -/

inductive DenullTerm where
  | text (data : String) : DenullTerm
  | nest (term : DenullTerm) : DenullTerm
  | pack (index : Nat) (term : DenullTerm) : DenullTerm
deriving Repr, DecidableEq

inductive DenullFix where
  | term (term : DenullTerm) : DenullFix
  | comp (left right : DenullFix) (pad : Bool) : DenullFix
deriving Repr, DecidableEq

inductive DenullObj where
  | term (term : DenullTerm) : DenullObj
  | fix (fix : DenullFix) : DenullObj
  | grp (obj : DenullObj) : DenullObj
  | seq (obj : DenullObj) : DenullObj
  | comp (left right : DenullObj) (pad : Bool) : DenullObj
deriving Repr, DecidableEq

inductive DenullDoc where
  | Eod : DenullDoc
  | Line (obj : DenullObj) : DenullDoc
  | Empty (doc : DenullDoc) : DenullDoc
  | Break (obj : DenullObj) (doc : DenullDoc) : DenullDoc
deriving Repr, DecidableEq

/-! ## Pass 6: denull.rs

The source passes three continuations (`last_none`, `last_some`,
`next_none`); they are defunctionalised into the result type `DenullRes`:
`lastNone` = the subtree denulled to nothing, `lastSome` = it survives,
`nextNone pad obj` = its leading side was dropped and `pad` is the
OR-combination of the dropped padding.  The `unreachable!` continuation
passed for the left side of a `Comp` becomes `none`. -/

inductive DenullRes (T : Type) where
  | lastNone : DenullRes T
  | lastSome (obj : T) : DenullRes T
  | nextNone (pad : Bool) (obj : T) : DenullRes T
deriving Repr

/-- `denull.rs::_visit_term`; `none` = the term is empty. -/
def denullTerm : RebuildTerm → Option DenullTerm
  | RebuildTerm.null => none
  | RebuildTerm.text data =>
    if data.isEmpty then none else some (DenullTerm.text data)
  | RebuildTerm.nest term1 => (denullTerm term1).map DenullTerm.nest
  | RebuildTerm.pack index term1 => (denullTerm term1).map (DenullTerm.pack index)

/-- `denull.rs::_visit_fix`. -/
def denullVisitFix : RebuildFix → Option (DenullRes DenullFix)
  | RebuildFix.term term =>
    match denullTerm term with
    | none => some DenullRes.lastNone
    | some term1 => some (DenullRes.lastSome (DenullFix.term term1))
  | RebuildFix.comp left right lPad => do
    let lRes ← denullVisitFix left
    match lRes with
    | DenullRes.lastNone => do
      let rRes ← denullVisitFix right
      match rRes with
      | DenullRes.lastNone => some DenullRes.lastNone
      | DenullRes.lastSome right1 => some (DenullRes.nextNone lPad right1)
      | DenullRes.nextNone rPad right1 =>
        some (DenullRes.nextNone (lPad || rPad) right1)
    | DenullRes.lastSome left1 => do
      let rRes ← denullVisitFix right
      match rRes with
      | DenullRes.lastNone => some (DenullRes.lastSome left1)
      | DenullRes.lastSome right1 =>
        some (DenullRes.lastSome (DenullFix.comp left1 right1 lPad))
      | DenullRes.nextNone rPad right1 =>
        some (DenullRes.lastSome (DenullFix.comp left1 right1 (lPad || rPad)))
    | DenullRes.nextNone _ _ => none

/-- `denull.rs::_visit_obj`. -/
def denullVisitObj : RebuildObj → Option (DenullRes DenullObj)
  | RebuildObj.term term =>
    match denullTerm term with
    | none => some DenullRes.lastNone
    | some term1 => some (DenullRes.lastSome (DenullObj.term term1))
  | RebuildObj.fix fix => do
    let res ← denullVisitFix fix
    match res with
    | DenullRes.lastNone => some DenullRes.lastNone
    | DenullRes.lastSome fix1 => some (DenullRes.lastSome (DenullObj.fix fix1))
    | DenullRes.nextNone _ fix1 => some (DenullRes.lastSome (DenullObj.fix fix1))
  | RebuildObj.grp obj1 => do
    let res ← denullVisitObj obj1
    match res with
    | DenullRes.lastNone => some DenullRes.lastNone
    | DenullRes.lastSome obj2 => some (DenullRes.lastSome (DenullObj.grp obj2))
    | DenullRes.nextNone _ obj2 => some (DenullRes.lastSome (DenullObj.grp obj2))
  | RebuildObj.seq obj1 => do
    let res ← denullVisitObj obj1
    match res with
    | DenullRes.lastNone => some DenullRes.lastNone
    | DenullRes.lastSome obj2 => some (DenullRes.lastSome (DenullObj.seq obj2))
    | DenullRes.nextNone _ obj2 => some (DenullRes.lastSome (DenullObj.seq obj2))
  | RebuildObj.comp left right lPad => do
    let lRes ← denullVisitObj left
    match lRes with
    | DenullRes.lastNone => do
      let rRes ← denullVisitObj right
      match rRes with
      | DenullRes.lastNone => some DenullRes.lastNone
      | DenullRes.lastSome right1 => some (DenullRes.nextNone lPad right1)
      | DenullRes.nextNone rPad right1 =>
        some (DenullRes.nextNone (lPad || rPad) right1)
    | DenullRes.lastSome left1 => do
      let rRes ← denullVisitObj right
      match rRes with
      | DenullRes.lastNone => some (DenullRes.lastSome left1)
      | DenullRes.lastSome right1 =>
        some (DenullRes.lastSome (DenullObj.comp left1 right1 lPad))
      | DenullRes.nextNone rPad right1 =>
        some (DenullRes.lastSome (DenullObj.comp left1 right1 (lPad || rPad)))
    | DenullRes.nextNone _ _ => none

/-- `denull.rs::_visit_doc`; the inner `Option` is the `none`/`some`
continuation pair of the source (`none` = everything from here on was
`Eod`). -/
def denullVisitDoc : RebuildDoc → Option (Option DenullDoc)
  | RebuildDoc.Eod => some none
  | RebuildDoc.Break obj doc1 => do
    let objRes ← denullVisitObj obj
    let rest ← denullVisitDoc doc1
    match objRes with
    | DenullRes.lastNone =>
      match rest with
      | none => some (some DenullDoc.Eod)
      | some doc2 => some (some (DenullDoc.Empty doc2))
    | DenullRes.lastSome obj1 =>
      match rest with
      | none => some (some (DenullDoc.Line obj1))
      | some doc2 => some (some (DenullDoc.Break obj1 doc2))
    | DenullRes.nextNone _ obj1 =>
      match rest with
      | none => some (some (DenullDoc.Line obj1))
      | some doc2 => some (some (DenullDoc.Break obj1 doc2))

/-- `denull.rs::denull` (pass 6). -/
def denull (doc : RebuildDoc) : Option DenullDoc := do
  let res ← denullVisitDoc doc
  some (res.getD DenullDoc.Eod)

/-! ## Pass 7: identities.rs -/

inductive Count where
  | zero : Count
  | one : Count
  | many : Count
deriving Repr, DecidableEq

/-- `identities.rs::_add`. -/
def addCount : Count → Count → Count
  | Count.zero, right => right
  | left, Count.zero => left
  | _, _ => Count.many

/-- `identities.rs::_elim_seqs::_visit_obj`. -/
def elimSeqsObj : DenullObj → Bool → Count × DenullObj
  | DenullObj.term term, _ => (Count.zero, DenullObj.term term)
  | DenullObj.fix (DenullFix.term term), _ => (Count.zero, DenullObj.term term)
  | DenullObj.fix fix, _ => (Count.zero, DenullObj.fix fix)
  | DenullObj.grp obj1, _ =>
    let (_, obj2) := elimSeqsObj obj1 false
    (Count.zero, DenullObj.grp obj2)
  | DenullObj.seq obj1, underSeq =>
    if underSeq then elimSeqsObj obj1 true
    else
      let (count, obj2) := elimSeqsObj obj1 true
      match count with
      | Count.zero => (count, obj2)
      | Count.one => (count, obj2)
      | Count.many => (Count.many, DenullObj.seq obj2)
  | DenullObj.comp left right pad, underSeq =>
    let (lCount, left1) := elimSeqsObj left underSeq
    let (rCount, right1) := elimSeqsObj right underSeq
    (addCount Count.one (addCount lCount rCount), DenullObj.comp left1 right1 pad)

/-- `identities.rs::_elim_seqs::_visit_doc`. -/
def elimSeqsDoc : DenullDoc → DenullDoc
  | DenullDoc.Eod => DenullDoc.Eod
  | DenullDoc.Empty doc1 => DenullDoc.Empty (elimSeqsDoc doc1)
  | DenullDoc.Break obj doc1 =>
    DenullDoc.Break (elimSeqsObj obj false).2 (elimSeqsDoc doc1)
  | DenullDoc.Line obj => DenullDoc.Line (elimSeqsObj obj false).2

/-- `identities.rs::_elim_grps::_visit_obj`. -/
def elimGrpsObj : DenullObj → Bool → Count × DenullObj
  | DenullObj.term term, _ => (Count.zero, DenullObj.term term)
  | DenullObj.fix (DenullFix.term term), _ => (Count.zero, DenullObj.term term)
  | DenullObj.fix fix, _ => (Count.zero, DenullObj.fix fix)
  | DenullObj.grp obj1, inHead =>
    if inHead then elimGrpsObj obj1 true
    else
      let (count, obj2) := elimGrpsObj obj1 false
      match count with
      | Count.zero => (Count.zero, obj2)
      | Count.one => (Count.zero, DenullObj.grp obj2)
      | Count.many => (Count.zero, DenullObj.grp obj2)
  | DenullObj.seq obj1, _ =>
    let (count, obj2) := elimGrpsObj obj1 false
    (count, DenullObj.seq obj2)
  | DenullObj.comp left right pad, inHead =>
    let (lCount, left1) := elimGrpsObj left inHead
    let (rCount, right1) := elimGrpsObj right false
    (addCount Count.one (addCount lCount rCount), DenullObj.comp left1 right1 pad)

/-- `identities.rs::_elim_grps::_visit_doc`. -/
def elimGrpsDoc : DenullDoc → DenullDoc
  | DenullDoc.Eod => DenullDoc.Eod
  | DenullDoc.Empty doc1 => DenullDoc.Empty (elimGrpsDoc doc1)
  | DenullDoc.Break obj doc1 =>
    DenullDoc.Break (elimGrpsObj obj true).2 (elimGrpsDoc doc1)
  | DenullDoc.Line obj => DenullDoc.Line (elimGrpsObj obj true).2

/-- `identities.rs::identities` (pass 7). -/
def identities (doc : DenullDoc) : DenullDoc :=
  elimGrpsDoc (elimSeqsDoc doc)

/-! ## Pass 8: reassociate.rs -/

/-- `reassociate.rs::_visit_obj`, direct style: the result is the value the
source passes to `cont`; `part` is the `partial` accumulator. -/
def reassocObj : DenullObj → (DenullObj → DenullObj) → DenullObj
  | DenullObj.term term, part => part (DenullObj.term term)
  | DenullObj.fix fix, part => part (DenullObj.fix fix)
  | DenullObj.grp obj1, part =>
    part (DenullObj.grp (reassocObj obj1 (fun obj => obj)))
  | DenullObj.seq obj1, part =>
    part (DenullObj.seq (reassocObj obj1 (fun obj => obj)))
  | DenullObj.comp left right pad, part =>
    reassocObj left (fun obj1 => DenullObj.comp obj1 (reassocObj right part) pad)

/-- `reassociate.rs::reassociate` (pass 8). -/
def reassociate : DenullDoc → DenullDoc
  | DenullDoc.Eod => DenullDoc.Eod
  | DenullDoc.Empty doc1 => DenullDoc.Empty (reassociate doc1)
  | DenullDoc.Break obj doc1 =>
    DenullDoc.Break (reassocObj obj (fun obj1 => obj1)) (reassociate doc1)
  | DenullDoc.Line obj => DenullDoc.Line (reassocObj obj (fun obj1 => obj1))

/-! ## compiler/types/intermediate.rs : FinalDoc, and Pass 9: rescope.rs -/

inductive FinalDocObjFix where
  | text (data : String) : FinalDocObjFix
  | comp (left right : FinalDocObjFix) (pad : Bool) : FinalDocObjFix
deriving Repr, DecidableEq

inductive FinalDocObj where
  | text (data : String) : FinalDocObj
  | fix (fix : FinalDocObjFix) : FinalDocObj
  | grp (obj : FinalDocObj) : FinalDocObj
  | seq (obj : FinalDocObj) : FinalDocObj
  | nest (obj : FinalDocObj) : FinalDocObj
  | pack (index : Nat) (obj : FinalDocObj) : FinalDocObj
  | comp (left right : FinalDocObj) (pad : Bool) : FinalDocObj
deriving Repr, DecidableEq

inductive FinalDoc where
  | Eod : FinalDoc
  | Empty (doc : FinalDoc) : FinalDoc
  | Break (obj : FinalDocObj) (doc : FinalDoc) : FinalDoc
  | Line (obj : FinalDocObj) : FinalDoc
deriving Repr, DecidableEq

/-- `rescope.rs::Prop` (named `ScopeProp` here; `Prop` is taken in Lean). -/
inductive ScopeProp where
  | nest : ScopeProp
  | pack (index : Nat) : ScopeProp
deriving Repr, DecidableEq

/-- `rescope.rs::_join_props`: split the outer wrapper lists of the two
sides of a comp into the shared prefix and the two remainders. -/
def joinProps : List ScopeProp → List ScopeProp →
    List ScopeProp × List ScopeProp × List ScopeProp
  | ScopeProp.nest :: l1, ScopeProp.nest :: r1 =>
    let (l2, r2, c) := joinProps l1 r1
    (l2, r2, ScopeProp.nest :: c)
  | ScopeProp.pack lIndex :: l1, ScopeProp.pack rIndex :: r1 =>
    if lIndex ≠ rIndex then
      (ScopeProp.pack lIndex :: l1, ScopeProp.pack rIndex :: r1, [])
    else
      let (l2, r2, c) := joinProps l1 r1
      (l2, r2, ScopeProp.pack lIndex :: c)
  | l, r => (l, r, [])

/-- `rescope.rs::_apply_props` (head of the list is the outermost
wrapper). -/
def applyProps : List ScopeProp → FinalDocObj → FinalDocObj
  | [], obj => obj
  | ScopeProp.nest :: props1, obj => FinalDocObj.nest (applyProps props1 obj)
  | ScopeProp.pack index :: props1, obj =>
    FinalDocObj.pack index (applyProps props1 obj)

/-- `rescope.rs::_visit_term`: peel the `Nest`/`Pack` wrappers off a term
(outermost first). -/
def rescopeTerm : DenullTerm → List ScopeProp × FinalDocObj
  | DenullTerm.text data => ([], FinalDocObj.text data)
  | DenullTerm.nest term1 =>
    let (props, obj) := rescopeTerm term1
    (ScopeProp.nest :: props, obj)
  | DenullTerm.pack index term1 =>
    let (props, obj) := rescopeTerm term1
    (ScopeProp.pack index :: props, obj)

/-- `rescope.rs::_visit_fix_term`. -/
def rescopeFixTerm : DenullTerm → List ScopeProp × FinalDocObjFix
  | DenullTerm.text data => ([], FinalDocObjFix.text data)
  | DenullTerm.nest term1 =>
    let (props, obj) := rescopeFixTerm term1
    (ScopeProp.nest :: props, obj)
  | DenullTerm.pack index term1 =>
    let (props, obj) := rescopeFixTerm term1
    (ScopeProp.pack index :: props, obj)

/-- `rescope.rs::_visit_fix`; note that the wrapper list of the RIGHT side
of a fix comp is discarded by the source (`_r_props`). -/
def rescopeVisitFix : DenullFix → List ScopeProp × FinalDocObjFix
  | DenullFix.term term => rescopeFixTerm term
  | DenullFix.comp left right pad =>
    let (lProps, left1) := rescopeVisitFix left
    let (_, right1) := rescopeVisitFix right
    (lProps, FinalDocObjFix.comp left1 right1 pad)

/-- `rescope.rs::_visit_obj`. -/
def rescopeVisitObj : DenullObj → List ScopeProp × FinalDocObj
  | DenullObj.term term => rescopeTerm term
  | DenullObj.fix fix =>
    let (props, fix1) := rescopeVisitFix fix
    (props, FinalDocObj.fix fix1)
  | DenullObj.grp obj1 =>
    let (props, obj2) := rescopeVisitObj obj1
    (props, FinalDocObj.grp obj2)
  | DenullObj.seq obj1 =>
    let (props, obj2) := rescopeVisitObj obj1
    (props, FinalDocObj.seq obj2)
  | DenullObj.comp left right pad =>
    let (lProps, left1) := rescopeVisitObj left
    let (rProps, right1) := rescopeVisitObj right
    let (lProps1, rProps1, cProps) := joinProps lProps rProps
    (cProps,
      FinalDocObj.comp (applyProps lProps1 left1) (applyProps rProps1 right1) pad)

/-- `rescope.rs::rescope` (pass 9). -/
def rescope : DenullDoc → FinalDoc
  | DenullDoc.Eod => FinalDoc.Eod
  | DenullDoc.Empty doc1 => FinalDoc.Empty (rescope doc1)
  | DenullDoc.Break obj doc1 =>
    let (props, obj1) := rescopeVisitObj obj
    FinalDoc.Break (applyProps props obj1) (rescope doc1)
  | DenullDoc.Line obj =>
    let (props, obj1) := rescopeVisitObj obj
    FinalDoc.Line (applyProps props obj1)

/-! ## compiler/types/doc.rs and Pass 10: heap.rs -/

inductive DocObjFix where
  | text (data : String) : DocObjFix
  | comp (left right : DocObjFix) (pad : Bool) : DocObjFix
deriving Repr, DecidableEq

inductive DocObj where
  | text (data : String) : DocObj
  | fix (fix : DocObjFix) : DocObj
  | grp (obj : DocObj) : DocObj
  | seq (obj : DocObj) : DocObj
  | nest (obj : DocObj) : DocObj
  | pack (index : Nat) (obj : DocObj) : DocObj
  | comp (left right : DocObj) (pad : Bool) : DocObj
deriving Repr, DecidableEq

inductive Doc where
  | Eod : Doc
  | Empty (doc : Doc) : Doc
  | Break (obj : DocObj) (doc : Doc) : Doc
  | Line (obj : DocObj) : Doc
deriving Repr, DecidableEq

def heapFix : FinalDocObjFix → DocObjFix
  | FinalDocObjFix.text data => DocObjFix.text data
  | FinalDocObjFix.comp left right pad =>
    DocObjFix.comp (heapFix left) (heapFix right) pad

def heapObj : FinalDocObj → DocObj
  | FinalDocObj.text data => DocObj.text data
  | FinalDocObj.fix fix => DocObj.fix (heapFix fix)
  | FinalDocObj.grp obj1 => DocObj.grp (heapObj obj1)
  | FinalDocObj.seq obj1 => DocObj.seq (heapObj obj1)
  | FinalDocObj.nest obj1 => DocObj.nest (heapObj obj1)
  | FinalDocObj.pack index obj1 => DocObj.pack index (heapObj obj1)
  | FinalDocObj.comp left right pad =>
    DocObj.comp (heapObj left) (heapObj right) pad

/-- `heap.rs::move_to_heap` (pass 10): pure structural copy. -/
def moveToHeap : FinalDoc → Doc
  | FinalDoc.Eod => Doc.Eod
  | FinalDoc.Empty doc1 => Doc.Empty (moveToHeap doc1)
  | FinalDoc.Break obj doc1 => Doc.Break (heapObj obj) (moveToHeap doc1)
  | FinalDoc.Line obj => Doc.Line (heapObj obj)

/-! ## pipeline.rs and error.rs -/

inductive CompilerError where
  | StackOverflow (depth maxDepth : Nat) : CompilerError
  | InvalidInput (msg : String) : CompilerError
  | AllocationFailed (msg : String) : CompilerError
deriving Repr, DecidableEq

/-- The ten passes in sequence (body of
`pipeline.rs::compile_safe_with_depth` after the parameter check); `none`
models a Rust panic (an `unreachable!` hit inside a pass). -/
def compilePasses (layout : Layout) : Option Doc := do
  let edsl := broken layout
  let serial := serialize edsl
  let linearDoc ← linearize serial
  let fixedDoc := fixed linearDoc
  let rdoc ← structurize fixedDoc
  let ddoc ← denull rdoc
  let idoc := identities ddoc
  let adoc := reassociate idoc
  let fdoc := rescope adoc
  some (moveToHeap fdoc)

/-- `pipeline.rs::compile_safe_with_depth`.  The source validates
`max_depth` and then runs the ten passes; `max_depth` is not consulted
anywhere else. -/
def compileSafeWithDepth (layout : Layout) (maxDepth : Nat) :
    Option (Except CompilerError Doc) :=
  if maxDepth = 0 then
    some (Except.error (CompilerError.InvalidInput "max_depth must be greater than 0"))
  else (compilePasses layout).map Except.ok

/-- `pipeline.rs::compile_safe`. -/
def compileSafe (layout : Layout) : Option (Except CompilerError Doc) :=
  compileSafeWithDepth layout 10000

/-- `pipeline.rs::compile`: unwraps `compile_safe`, panicking on errors
(both panic sources are `none` here). -/
def compile (layout : Layout) : Option Doc :=
  match compileSafe layout with
  | some (Except.ok doc) => some doc
  | some (Except.error _) => none
  | none => none

/-! ## Renderer: compiler/render/engine.rs

`Text` widths are byte lengths (`data.len()` in Rust =
`String.utf8ByteSize`).  `_get_offset` computes `max(0, lvl - pos)` on
`usize`; since the subtraction itself underflows (panics in debug builds)
whenever `pos > lvl`, it is modelled as `none` in that case — `max(0, ·)`
cannot rescue an unsigned subtraction.  Everything else is total; the
`Option` layer only propagates this one failure point. -/

def strLen (s : String) : Nat := s.utf8ByteSize

structure State where
  width : Nat
  tab : Nat
  head : Bool
  broken : Bool
  lvl : Nat
  pos : Nat
  marks : Map Nat

/-- `engine.rs::_make_state`. -/
def makeState (width tab : Nat) : State :=
  { width := width, tab := tab, head := true, broken := false,
    lvl := 0, pos := 0, marks := Map.empty }

/-- `engine.rs::_inc_pos`. -/
def incPos (n : Nat) (state : State) : State :=
  { state with pos := state.pos + n }

/-- `engine.rs::_indent`. -/
def indent (tab : Nat) (state : State) : State :=
  if tab = 0 then state
  else
    let lvl := state.lvl
    { state with lvl := lvl + (tab - lvl % tab) }

/-- `engine.rs::_newline`. -/
def newlineState (state : State) : State :=
  { state with head := true, pos := 0 }

/-- `engine.rs::_reset`. -/
def resetState (state : State) : State :=
  { state with head := true, broken := false, pos := 0 }

/-- `engine.rs::_get_offset`; `none` models the `usize` underflow of
`lvl - pos` when `head` is set and `pos > lvl`. -/
def getOffset (state : State) : Option Nat :=
  if !state.head then some 0
  else if state.lvl < state.pos then none
  else some (state.lvl - state.pos)

/-- `engine.rs::render::_whitespace`. -/
def whitespace (n : Nat) : String := String.mk (List.replicate n ' ')

/-- `engine.rs::render::_pad`. -/
def padStr (n : Nat) (result : String) : String := result ++ whitespace n

/-- `engine.rs::render::_measure::_visit_fix` (also `_next_comp`'s copy,
which is textually identical). -/
def measureVisitFix : DocObjFix → State → State
  | DocObjFix.text data, state => incPos (strLen data) state
  | DocObjFix.comp left right pad, state =>
    let state1 := measureVisitFix left state
    let state2 := incPos (if pad then 1 else 0) state1
    measureVisitFix right state2

/-- `engine.rs::render::_measure::_visit_obj`. -/
def measureVisitObj : DocObj → State → Option State
  | DocObj.text data, state => some (incPos (strLen data) state)
  | DocObj.fix fix, state => some (measureVisitFix fix state)
  | DocObj.grp obj1, state => measureVisitObj obj1 state
  | DocObj.seq obj1, state => measureVisitObj obj1 state
  | DocObj.nest obj1, state => do
    let lvl := state.lvl
    let state1 := indent state.tab state
    let offset ← getOffset state1
    let state2 := incPos offset state1
    let state3 ← measureVisitObj obj1 state2
    some { state3 with lvl := lvl }
  | DocObj.pack index obj1, state => do
    let lvl := state.lvl
    let marks := state.marks
    match Map.lookup marks index with
    | none =>
      let pos := state.pos
      let marks1 := Map.insert marks index pos
      let state1 := { state with marks := marks1 }
      let state2 := { state1 with lvl := Nat.max lvl pos }
      let state3 ← measureVisitObj obj1 state2
      some { state3 with lvl := lvl }
    | some lvl1 => do
      let state1 := { state with lvl := Nat.max lvl lvl1 }
      let offset ← getOffset state1
      let state2 := incPos offset state1
      let state3 ← measureVisitObj obj1 state2
      some { state3 with lvl := lvl }
  | DocObj.comp left right pad, state => do
    let state1 ← measureVisitObj left state
    let state2 := incPos (if pad then 1 else 0) state1
    let head := state2.head
    let state3 := { state2 with head := false }
    let state4 ← measureVisitObj right state3
    some { state4 with head := head }

/-- `engine.rs::render::_measure`. -/
def measure (obj : DocObj) (state : State) : Option Nat :=
  (measureVisitObj obj state).map State.pos

/-- `engine.rs::render::_next_comp::_visit_obj`. -/
def nextCompVisitObj : DocObj → State → Option State
  | DocObj.text data, state => some (incPos (strLen data) state)
  | DocObj.fix fix, state => some (measureVisitFix fix state)
  | DocObj.grp obj1, state =>
    if state.head then nextCompVisitObj obj1 state
    else do
      let objEndPos ← measure obj1 state
      some { state with pos := objEndPos }
  | DocObj.seq obj1, state => nextCompVisitObj obj1 state
  | DocObj.nest obj1, state => do
    let lvl := state.lvl
    let state1 := indent state.tab state
    let offset ← getOffset state1
    let state2 := incPos offset state1
    let state3 ← nextCompVisitObj obj1 state2
    some { state3 with lvl := lvl }
  | DocObj.pack index obj1, state => do
    let lvl := state.lvl
    let marks := state.marks
    match Map.lookup marks index with
    | none =>
      let pos := state.pos
      let marks1 := Map.insert marks index pos
      let state1 := { state with marks := marks1 }
      let state2 := { state1 with lvl := Nat.max lvl pos }
      let state3 ← nextCompVisitObj obj1 state2
      some { state3 with lvl := lvl }
    | some lvl1 => do
      let state1 := { state with lvl := Nat.max lvl lvl1 }
      let offset ← getOffset state1
      let state2 := incPos offset state1
      let state3 ← nextCompVisitObj obj1 state2
      some { state3 with lvl := lvl }
  | DocObj.comp left _ _, state => nextCompVisitObj left state

/-- `engine.rs::render::_next_comp`. -/
def nextComp (obj : DocObj) (state : State) : Option Nat :=
  (nextCompVisitObj obj state).map State.pos

/-- `engine.rs::render::_will_fit`. -/
def willFit (obj : DocObj) (state : State) : Option Bool := do
  let objEndPos ← measure obj state
  some (decide (objEndPos ≤ state.width))

/-- `engine.rs::render::_should_break`. -/
def shouldBreak (obj : DocObj) (state : State) : Option Bool :=
  if state.broken then some true
  else do
    let nextCompPos ← nextComp obj state
    some (decide (state.width < nextCompPos))

/-- `engine.rs::render::_visit_fix`. -/
def renderVisitFix : DocObjFix → State → String → State × String
  | DocObjFix.text data, state, result =>
    (incPos (strLen data) state, result ++ data)
  | DocObjFix.comp left right pad, state, result =>
    let (state1, result1) := renderVisitFix left state result
    let padding := if pad then 1 else 0
    let result2 := padStr padding result1
    let state2 := incPos padding state1
    renderVisitFix right state2 result2

/-- `engine.rs::render::_visit_obj`. -/
def renderVisitObj : DocObj → State → String → Option (State × String)
  | DocObj.text data, state, result =>
    some (incPos (strLen data) state, result ++ data)
  | DocObj.fix fix, state, result => some (renderVisitFix fix state result)
  | DocObj.grp obj1, state, result => do
    let broken := state.broken
    let state1 := { state with broken := false }
    let (state2, result1) ← renderVisitObj obj1 state1 result
    some ({ state2 with broken := broken }, result1)
  | DocObj.seq obj1, state, result => do
    let fits ← willFit obj1 state
    if fits then renderVisitObj obj1 state result
    else do
      let broken := state.broken
      let state1 := { state with broken := true }
      let (state2, result1) ← renderVisitObj obj1 state1 result
      some ({ state2 with broken := broken }, result1)
  | DocObj.nest obj1, state, result => do
    let lvl := state.lvl
    let state1 := indent state.tab state
    let offset ← getOffset state1
    let state2 := incPos offset state1
    let result1 := padStr offset result
    let (state3, result2) ← renderVisitObj obj1 state2 result1
    some ({ state3 with lvl := lvl }, result2)
  | DocObj.pack index obj1, state, result => do
    let lvl := state.lvl
    let marks := state.marks
    match Map.lookup marks index with
    | none =>
      let pos := state.pos
      let marks1 := Map.insert marks index pos
      let state1 := { state with marks := marks1 }
      let state2 := { state1 with lvl := Nat.max lvl pos }
      let (state3, result1) ← renderVisitObj obj1 state2 result
      some ({ state3 with lvl := lvl }, result1)
    | some lvl1 => do
      let state1 := { state with lvl := Nat.max lvl lvl1 }
      let offset ← getOffset state1
      let state2 := incPos offset state1
      let result1 := padStr offset result
      let (state3, result2) ← renderVisitObj obj1 state2 result1
      some ({ state3 with lvl := lvl }, result2)
  | DocObj.comp left right pad, state, result => do
    let (state1, result1) ← renderVisitObj left state result
    let state2 := incPos (if pad then 1 else 0) state1
    let state3 := { state2 with head := false }
    let breaks ← shouldBreak right state3
    if breaks then do
      let state2 := newlineState state1
      let offset ← getOffset state2
      let state3 := incPos offset state2
      let result2 := padStr offset (result1 ++ "\n")
      renderVisitObj right state3 result2
    else do
      let result2 := padStr (if pad then 1 else 0) result1
      renderVisitObj right state3 result2

/-- `engine.rs::render::_visit_doc`. -/
def renderVisitDoc : Doc → State → Option (State × String)
  | Doc.Eod, state => some (resetState state, "")
  | Doc.Empty doc1, state => do
    let (state2, doc2) ← renderVisitDoc doc1 (resetState state)
    some (state2, "\n" ++ doc2)
  | Doc.Break obj doc1, state => do
    let (state2, obj1) ← renderVisitObj obj (resetState state) ""
    let state3 := resetState state2
    let (state4, doc2) ← renderVisitDoc doc1 state3
    some (state4, obj1 ++ "\n" ++ doc2)
  | Doc.Line obj, state => renderVisitObj obj (resetState state) ""

/-- `engine.rs::render` / `pipeline.rs::render`. -/
def render (doc : Doc) (tab width : Nat) : Option String :=
  (renderVisitDoc doc (makeState width tab)).map Prod.snd

/-- Compile and render: the end-to-end function of the spec's properties
(`render(compile(L), tab, width)`). -/
def renderL (layout : Layout) (tab width : Nat) : Option String := do
  let doc ← compile layout
  render doc tab width

/-! ## Predicates used by the claims -/

/-- `L` contains no `Fix` node and no comp with `attr.fix = true`
("no unbreakable items"). -/
def noFixLayout : Layout → Bool
  | Layout.null => true
  | Layout.text _ => true
  | Layout.fix _ => false
  | Layout.grp x => noFixLayout x
  | Layout.seq x => noFixLayout x
  | Layout.nest x => noFixLayout x
  | Layout.pack x => noFixLayout x
  | Layout.line l r => noFixLayout l && noFixLayout r
  | Layout.comp l r attr => !attr.fix && noFixLayout l && noFixLayout r

/-- `L` contains no `Nest` and no `Pack` node. -/
def noNestPack : Layout → Bool
  | Layout.null => true
  | Layout.text _ => true
  | Layout.fix x => noNestPack x
  | Layout.grp x => noNestPack x
  | Layout.seq x => noNestPack x
  | Layout.nest _ => false
  | Layout.pack _ => false
  | Layout.line l r => noNestPack l && noNestPack r
  | Layout.comp l r _ => noNestPack l && noNestPack r

/-- Every `Text` payload of `L` satisfies `p`. -/
def allTextsL (p : String → Bool) : Layout → Bool
  | Layout.null => true
  | Layout.text data => p data
  | Layout.fix x => allTextsL p x
  | Layout.grp x => allTextsL p x
  | Layout.seq x => allTextsL p x
  | Layout.nest x => allTextsL p x
  | Layout.pack x => allTextsL p x
  | Layout.line l r => allTextsL p l && allTextsL p r
  | Layout.comp l r _ => allTextsL p l && allTextsL p r

/-- The text is newline-free. -/
def nlFree (s : String) : Bool := s.data.all (fun c => c ≠ '\n')

/-- Byte length of one output line (a list of chars). -/
def charsLen (cs : List Char) : Nat := cs.foldl (fun n c => n + c.utf8Size) 0

/-- Split an output string into its lines at `'\n'`. -/
def splitLines (cs : List Char) : List (List Char) :=
  cs.foldr (fun c acc =>
    match acc with
    | [] => if c = '\n' then [[], []] else [[c]]
    | l :: ls => if c = '\n' then [] :: (l :: ls) else (c :: l) :: ls) [[]]

/-- Every line of `s` has byte length at most `width`. -/
def linesLe (s : String) (width : Nat) : Bool :=
  (splitLines s.data).all (fun l => charsLen l ≤ width)

/-- Number of `'\n'` characters in `s`. -/
def countNl (s : String) : Nat := s.data.count '\n'

/-- Number of `Line` nodes of `L`. -/
def lineCount : Layout → Nat
  | Layout.null => 0
  | Layout.text _ => 0
  | Layout.fix x => lineCount x
  | Layout.grp x => lineCount x
  | Layout.seq x => lineCount x
  | Layout.nest x => lineCount x
  | Layout.pack x => lineCount x
  | Layout.line l r => lineCount l + lineCount r + 1
  | Layout.comp l r _ => lineCount l + lineCount r

/-- Every composition of `L` carries `fix = true` on its own `Attr`. -/
def allAttrFixed : Layout → Bool
  | Layout.null => true
  | Layout.text _ => true
  | Layout.fix x => allAttrFixed x
  | Layout.grp x => allAttrFixed x
  | Layout.seq x => allAttrFixed x
  | Layout.nest x => allAttrFixed x
  | Layout.pack x => allAttrFixed x
  | Layout.line l r => allAttrFixed l && allAttrFixed r
  | Layout.comp l r attr => attr.fix && allAttrFixed l && allAttrFixed r

/-- Every composition of `L` is wrapped in `fix` (has a `Fix` ancestor);
the wording of the horizontality property. -/
def allCompsWrappedInFix : Layout → Bool → Bool
  | Layout.null, _ => true
  | Layout.text _, _ => true
  | Layout.fix x, _ => allCompsWrappedInFix x true
  | Layout.grp x, under => allCompsWrappedInFix x under
  | Layout.seq x, under => allCompsWrappedInFix x under
  | Layout.nest x, under => allCompsWrappedInFix x under
  | Layout.pack x, under => allCompsWrappedInFix x under
  | Layout.line l r, under =>
    allCompsWrappedInFix l under && allCompsWrappedInFix r under
  | Layout.comp l r _, under =>
    under && allCompsWrappedInFix l under && allCompsWrappedInFix r under

/-- `Edsl` output predicate: the subtree contains a `Line`. -/
def containsLineE : Edsl → Bool
  | Edsl.null => false
  | Edsl.text _ => false
  | Edsl.fix x => containsLineE x
  | Edsl.grp x => containsLineE x
  | Edsl.seq x => containsLineE x
  | Edsl.nest x => containsLineE x
  | Edsl.pack x => containsLineE x
  | Edsl.line _ _ => true
  | Edsl.comp l r _ => containsLineE l || containsLineE r

/-- There is a `Comp` outside any `Fix` whose subtree contains a `Line`
(what the claim says Pass 1 leaves none of). -/
def hasExposedCompWithLine : Edsl → Bool
  | Edsl.null => false
  | Edsl.text _ => false
  | Edsl.fix _ => false
  | Edsl.grp x => hasExposedCompWithLine x
  | Edsl.seq x => hasExposedCompWithLine x
  | Edsl.nest x => hasExposedCompWithLine x
  | Edsl.pack x => hasExposedCompWithLine x
  | Edsl.line l r => hasExposedCompWithLine l || hasExposedCompWithLine r
  | Edsl.comp l r _ =>
    containsLineE l || containsLineE r ||
      hasExposedCompWithLine l || hasExposedCompWithLine r

/-- Every `Seq` subtree of the `Edsl` is `Line`-free. -/
def seqLineFree : Edsl → Bool
  | Edsl.null => true
  | Edsl.text _ => true
  | Edsl.fix x => seqLineFree x
  | Edsl.grp x => seqLineFree x
  | Edsl.seq x => !containsLineE x && seqLineFree x
  | Edsl.nest x => seqLineFree x
  | Edsl.pack x => seqLineFree x
  | Edsl.line l r => seqLineFree l && seqLineFree r
  | Edsl.comp l r _ => seqLineFree l && seqLineFree r

/-- Every `Comp` reachable without crossing a `Fix`, `Grp` or `Seq`
boundary carries `fix = true` on its `Attr`. -/
def exposedCompsFixed : Edsl → Bool
  | Edsl.null => true
  | Edsl.text _ => true
  | Edsl.fix _ => true
  | Edsl.grp _ => true
  | Edsl.seq _ => true
  | Edsl.nest x => exposedCompsFixed x
  | Edsl.pack x => exposedCompsFixed x
  | Edsl.line l r => exposedCompsFixed l && exposedCompsFixed r
  | Edsl.comp l r attr => attr.fix && exposedCompsFixed l && exposedCompsFixed r

/-- Nesting depth of a layout (for the recursion-bound claim). -/
def layoutDepth : Layout → Nat
  | Layout.null => 1
  | Layout.text _ => 1
  | Layout.fix x => layoutDepth x + 1
  | Layout.grp x => layoutDepth x + 1
  | Layout.seq x => layoutDepth x + 1
  | Layout.nest x => layoutDepth x + 1
  | Layout.pack x => layoutDepth x + 1
  | Layout.line l r => Nat.max (layoutDepth l) (layoutDepth r) + 1
  | Layout.comp l r _ => Nat.max (layoutDepth l) (layoutDepth r) + 1

def exceptIsOk : Except CompilerError Doc → Bool
  | Except.ok _ => true
  | Except.error _ => false

/-- The result is `Err(StackOverflow { .. })`. -/
def returnsStackOverflow : Option (Except CompilerError Doc) → Bool
  | some (Except.error (CompilerError.StackOverflow _ _)) => true
  | _ => false

/-! ## Concrete inputs used by the claims -/

/-- C1 counterexample: three nested `Nest`s around a hard line break. -/
def exC1 : Layout :=
  Layout.nest (Layout.nest (Layout.nest
    (Layout.line (Layout.text "aa") (Layout.text "bb"))))

/-- C2 failing input: depth-6 layout compiled with `max_depth = 1`. -/
def exC2 : Layout :=
  Layout.nest (Layout.nest (Layout.nest (Layout.nest (Layout.nest
    (Layout.text "x")))))

/-- C4 counterexample: a `Comp` whose subtree contains a `Line`, with
`fix = false`, not under any `Fix` or `Seq`. -/
def exC4 : Layout :=
  Layout.comp (Layout.text "a")
    (Layout.line (Layout.text "b") (Layout.text "c"))
    { pad := false, fix := false }

/-- C5 failing input: a `seq` with two compositions, under a `grp` that
opens at the same node (tags interleave in Pass 5). -/
def exC5 : Layout :=
  Layout.comp (Layout.text "x")
    (Layout.grp (Layout.comp
      (Layout.seq (Layout.comp
        (Layout.comp (Layout.text "aaaaaaaa") (Layout.text "bbbbb")
          { pad := false, fix := false })
        (Layout.text "cc") { pad := false, fix := false }))
      (Layout.text "d") { pad := false, fix := false }))
    { pad := false, fix := false }

/-- C6 counterexample: every composition is wrapped in `fix`, but a
`Seq` containing a `Line` sits between the `Fix` and the comp. -/
def exC6 : Layout :=
  Layout.fix (Layout.seq (Layout.line (Layout.text "a")
    (Layout.comp (Layout.text "b") (Layout.text "c")
      { pad := false, fix := false })))

/-- C8 failing input: a `seq` whose enclosing object gets wrapped in an
outermost `grp`. -/
def exC8 : Layout :=
  Layout.seq (Layout.comp
    (Layout.comp (Layout.text "aaa") (Layout.text "bb")
      { pad := false, fix := false })
    (Layout.text "cc") { pad := false, fix := false })

/-- The `Broken` subtree contains a `Line` (marking invariant of Pass 1;
the `Seq` flag itself is not consulted). -/
def containsLineB : Broken → Bool
  | Broken.null => false
  | Broken.text _ => false
  | Broken.fix x => containsLineB x
  | Broken.grp x => containsLineB x
  | Broken.seq _ x => containsLineB x
  | Broken.nest x => containsLineB x
  | Broken.pack x => containsLineB x
  | Broken.line _ _ => true
  | Broken.comp l r _ => containsLineB l || containsLineB r

/-- Every `Seq` flag in the `Broken` tree equals "subtree contains a
Line" (what `_mark` establishes). -/
def marksCorrect : Broken → Bool
  | Broken.null => true
  | Broken.text _ => true
  | Broken.fix x => marksCorrect x
  | Broken.grp x => marksCorrect x
  | Broken.seq b x => (b == containsLineB x) && marksCorrect x
  | Broken.nest x => marksCorrect x
  | Broken.pack x => marksCorrect x
  | Broken.line l r => marksCorrect l && marksCorrect r
  | Broken.comp l r _ => marksCorrect l && marksCorrect r

/-- Renderer state invariant: whenever `head` is set, the current column
does not exceed the indent level (so `_get_offset`'s `lvl - pos` cannot
underflow). -/
def StInv (s : State) : Prop := s.head = true → s.pos ≤ s.lvl

/-! ## Text predicates over the intermediate representations -/

def allTextsB (p : String → Bool) : Broken → Bool
  | Broken.null => true
  | Broken.text data => p data
  | Broken.fix x => allTextsB p x
  | Broken.grp x => allTextsB p x
  | Broken.seq _ x => allTextsB p x
  | Broken.nest x => allTextsB p x
  | Broken.pack x => allTextsB p x
  | Broken.line l r => allTextsB p l && allTextsB p r
  | Broken.comp l r _ => allTextsB p l && allTextsB p r

def allTextsE (p : String → Bool) : Edsl → Bool
  | Edsl.null => true
  | Edsl.text data => p data
  | Edsl.fix x => allTextsE p x
  | Edsl.grp x => allTextsE p x
  | Edsl.seq x => allTextsE p x
  | Edsl.nest x => allTextsE p x
  | Edsl.pack x => allTextsE p x
  | Edsl.line l r => allTextsE p l && allTextsE p r
  | Edsl.comp l r _ => allTextsE p l && allTextsE p r

def allTextsST (p : String → Bool) : SerialTerm → Bool
  | SerialTerm.null => true
  | SerialTerm.text data => p data
  | SerialTerm.nest t => allTextsST p t
  | SerialTerm.pack _ t => allTextsST p t

def allTextsSerial (p : String → Bool) : Serial → Bool
  | Serial.next term _ serial => allTextsST p term && allTextsSerial p serial
  | Serial.last term serial => allTextsST p term && allTextsSerial p serial
  | Serial.past => true

def allTextsLT (p : String → Bool) : LinearTerm → Bool
  | LinearTerm.null => true
  | LinearTerm.text data => p data
  | LinearTerm.nest t => allTextsLT p t
  | LinearTerm.pack _ t => allTextsLT p t

def allTextsLO (p : String → Bool) : LinearObj → Bool
  | LinearObj.next term _ obj => allTextsLT p term && allTextsLO p obj
  | LinearObj.last term => allTextsLT p term

def allTextsLD (p : String → Bool) : LinearDoc → Bool
  | LinearDoc.nil => true
  | LinearDoc.cons obj doc => allTextsLO p obj && allTextsLD p doc

def allTextsFT (p : String → Bool) : FixedTerm → Bool
  | FixedTerm.null => true
  | FixedTerm.text data => p data
  | FixedTerm.nest t => allTextsFT p t
  | FixedTerm.pack _ t => allTextsFT p t

def allTextsFF (p : String → Bool) : FixedFix → Bool
  | FixedFix.next term _ fix => allTextsFT p term && allTextsFF p fix
  | FixedFix.last term => allTextsFT p term

def allTextsFI (p : String → Bool) : FixedItem → Bool
  | FixedItem.fix fix => allTextsFF p fix
  | FixedItem.term term => allTextsFT p term

def allTextsFO (p : String → Bool) : FixedObj → Bool
  | FixedObj.next item _ obj => allTextsFI p item && allTextsFO p obj
  | FixedObj.last item => allTextsFI p item

def allTextsFD (p : String → Bool) : FixedDoc → Bool
  | FixedDoc.Eod => true
  | FixedDoc.Break obj doc => allTextsFO p obj && allTextsFD p doc

mutual

def allTextsGT (p : String → Bool) : GraphTerm → Bool
  | GraphTerm.null => true
  | GraphTerm.text data => p data
  | GraphTerm.fix fix => allTextsGF p fix
  | GraphTerm.nest t => allTextsGT p t
  | GraphTerm.pack _ t => allTextsGT p t

def allTextsGF (p : String → Bool) : GraphFix → Bool
  | GraphFix.last term => allTextsGT p term
  | GraphFix.next term fix _ => allTextsGT p term && allTextsGF p fix

end

def allTextsRT (p : String → Bool) : RebuildTerm → Bool
  | RebuildTerm.null => true
  | RebuildTerm.text data => p data
  | RebuildTerm.nest t => allTextsRT p t
  | RebuildTerm.pack _ t => allTextsRT p t

def allTextsRF (p : String → Bool) : RebuildFix → Bool
  | RebuildFix.term term => allTextsRT p term
  | RebuildFix.comp l r _ => allTextsRF p l && allTextsRF p r

def allTextsRO (p : String → Bool) : RebuildObj → Bool
  | RebuildObj.term term => allTextsRT p term
  | RebuildObj.fix fix => allTextsRF p fix
  | RebuildObj.grp obj => allTextsRO p obj
  | RebuildObj.seq obj => allTextsRO p obj
  | RebuildObj.comp l r _ => allTextsRO p l && allTextsRO p r

def allTextsRD (p : String → Bool) : RebuildDoc → Bool
  | RebuildDoc.Eod => true
  | RebuildDoc.Break obj doc => allTextsRO p obj && allTextsRD p doc

def allTextsDT (p : String → Bool) : DenullTerm → Bool
  | DenullTerm.text data => p data
  | DenullTerm.nest t => allTextsDT p t
  | DenullTerm.pack _ t => allTextsDT p t

def allTextsDF (p : String → Bool) : DenullFix → Bool
  | DenullFix.term term => allTextsDT p term
  | DenullFix.comp l r _ => allTextsDF p l && allTextsDF p r

def allTextsDO (p : String → Bool) : DenullObj → Bool
  | DenullObj.term term => allTextsDT p term
  | DenullObj.fix fix => allTextsDF p fix
  | DenullObj.grp obj => allTextsDO p obj
  | DenullObj.seq obj => allTextsDO p obj
  | DenullObj.comp l r _ => allTextsDO p l && allTextsDO p r

def allTextsDD (p : String → Bool) : DenullDoc → Bool
  | DenullDoc.Eod => true
  | DenullDoc.Line obj => allTextsDO p obj
  | DenullDoc.Empty doc => allTextsDD p doc
  | DenullDoc.Break obj doc => allTextsDO p obj && allTextsDD p doc

def allTextsXF (p : String → Bool) : FinalDocObjFix → Bool
  | FinalDocObjFix.text data => p data
  | FinalDocObjFix.comp l r _ => allTextsXF p l && allTextsXF p r

def allTextsXO (p : String → Bool) : FinalDocObj → Bool
  | FinalDocObj.text data => p data
  | FinalDocObj.fix fix => allTextsXF p fix
  | FinalDocObj.grp obj => allTextsXO p obj
  | FinalDocObj.seq obj => allTextsXO p obj
  | FinalDocObj.nest obj => allTextsXO p obj
  | FinalDocObj.pack _ obj => allTextsXO p obj
  | FinalDocObj.comp l r _ => allTextsXO p l && allTextsXO p r

def allTextsXD (p : String → Bool) : FinalDoc → Bool
  | FinalDoc.Eod => true
  | FinalDoc.Empty doc => allTextsXD p doc
  | FinalDoc.Break obj doc => allTextsXO p obj && allTextsXD p doc
  | FinalDoc.Line obj => allTextsXO p obj

def allTextsOF (p : String → Bool) : DocObjFix → Bool
  | DocObjFix.text data => p data
  | DocObjFix.comp l r _ => allTextsOF p l && allTextsOF p r

def allTextsOO (p : String → Bool) : DocObj → Bool
  | DocObj.text data => p data
  | DocObj.fix fix => allTextsOF p fix
  | DocObj.grp obj => allTextsOO p obj
  | DocObj.seq obj => allTextsOO p obj
  | DocObj.nest obj => allTextsOO p obj
  | DocObj.pack _ obj => allTextsOO p obj
  | DocObj.comp l r _ => allTextsOO p l && allTextsOO p r

def allTextsOD (p : String → Bool) : Doc → Bool
  | Doc.Eod => true
  | Doc.Empty doc => allTextsOD p doc
  | Doc.Break obj doc => allTextsOO p obj && allTextsOD p doc
  | Doc.Line obj => allTextsOO p obj

/-! ## Shape predicates and counters for the horizontality claim -/

def allAttrFixedB : Broken → Bool
  | Broken.null => true
  | Broken.text _ => true
  | Broken.fix x => allAttrFixedB x
  | Broken.grp x => allAttrFixedB x
  | Broken.seq _ x => allAttrFixedB x
  | Broken.nest x => allAttrFixedB x
  | Broken.pack x => allAttrFixedB x
  | Broken.line l r => allAttrFixedB l && allAttrFixedB r
  | Broken.comp l r attr => attr.fix && allAttrFixedB l && allAttrFixedB r

def allAttrFixedE : Edsl → Bool
  | Edsl.null => true
  | Edsl.text _ => true
  | Edsl.fix x => allAttrFixedE x
  | Edsl.grp x => allAttrFixedE x
  | Edsl.seq x => allAttrFixedE x
  | Edsl.nest x => allAttrFixedE x
  | Edsl.pack x => allAttrFixedE x
  | Edsl.line l r => allAttrFixedE l && allAttrFixedE r
  | Edsl.comp l r attr => attr.fix && allAttrFixedE l && allAttrFixedE r

def lineCountB : Broken → Nat
  | Broken.null => 0
  | Broken.text _ => 0
  | Broken.fix x => lineCountB x
  | Broken.grp x => lineCountB x
  | Broken.seq _ x => lineCountB x
  | Broken.nest x => lineCountB x
  | Broken.pack x => lineCountB x
  | Broken.line l r => lineCountB l + lineCountB r + 1
  | Broken.comp l r _ => lineCountB l + lineCountB r

def lineCountE : Edsl → Nat
  | Edsl.null => 0
  | Edsl.text _ => 0
  | Edsl.fix x => lineCountE x
  | Edsl.grp x => lineCountE x
  | Edsl.seq x => lineCountE x
  | Edsl.nest x => lineCountE x
  | Edsl.pack x => lineCountE x
  | Edsl.line l r => lineCountE l + lineCountE r + 1
  | Edsl.comp l r _ => lineCountE l + lineCountE r

/-- The or-folded fix bit of a serial connector (`Line` counts as fixed:
it is not a soft composition). -/
def connFixed : SerialComp → Bool
  | SerialComp.line => true
  | SerialComp.comp attr => attr.fix
  | SerialComp.grp _ c => connFixed c
  | SerialComp.seq _ c => connFixed c

def connIsLine : SerialComp → Bool
  | SerialComp.line => true
  | _ => false

def pairsConnFixed (pairs : List (SerialTerm × SerialComp)) : Bool :=
  pairs.all (fun pr => connFixed pr.2)

def pairsLineCount : List (SerialTerm × SerialComp) → Nat
  | [] => 0
  | pr :: pairs => (if connIsLine pr.2 then 1 else 0) + pairsLineCount pairs

def serialConnsFixed : Serial → Bool
  | Serial.next _ comp serial => connFixed comp && serialConnsFixed serial
  | Serial.last _ serial => serialConnsFixed serial
  | Serial.past => true

def serialLineCount : Serial → Nat
  | Serial.next _ comp serial =>
    (if connIsLine comp then 1 else 0) + serialLineCount serial
  | Serial.last _ serial => serialLineCount serial
  | Serial.past => 0

def linearCompFixed : LinearComp → Bool
  | LinearComp.comp attr => attr.fix
  | LinearComp.grp _ c => linearCompFixed c
  | LinearComp.seq _ c => linearCompFixed c

def linearObjFixed : LinearObj → Bool
  | LinearObj.next _ comp obj => linearCompFixed comp && linearObjFixed obj
  | LinearObj.last _ => true

def linearDocFixed : LinearDoc → Bool
  | LinearDoc.nil => true
  | LinearDoc.cons obj doc => linearObjFixed obj && linearDocFixed doc

def linearNumObjs : LinearDoc → Nat
  | LinearDoc.nil => 0
  | LinearDoc.cons _ doc => linearNumObjs doc + 1

/-- The object consists of a single item (no comps outside fix chains). -/
def fixedObjSingle : FixedObj → Bool
  | FixedObj.last _ => true
  | FixedObj.next _ _ _ => false

def fixedDocSingle : FixedDoc → Bool
  | FixedDoc.Eod => true
  | FixedDoc.Break obj doc => fixedObjSingle obj && fixedDocSingle doc

def fixedNumBreaks : FixedDoc → Nat
  | FixedDoc.Eod => 0
  | FixedDoc.Break _ doc => fixedNumBreaks doc + 1

/-- The rebuilt object is a bare term or fix chain. -/
def rebuildObjAtomic : RebuildObj → Bool
  | RebuildObj.term _ => true
  | RebuildObj.fix _ => true
  | _ => false

def rebuildDocAtomic : RebuildDoc → Bool
  | RebuildDoc.Eod => true
  | RebuildDoc.Break obj doc => rebuildObjAtomic obj && rebuildDocAtomic doc

def rebuildNumBreaks : RebuildDoc → Nat
  | RebuildDoc.Eod => 0
  | RebuildDoc.Break _ doc => rebuildNumBreaks doc + 1

def denullObjAtomic : DenullObj → Bool
  | DenullObj.term _ => true
  | DenullObj.fix _ => true
  | _ => false

def denullDocAtomic : DenullDoc → Bool
  | DenullDoc.Eod => true
  | DenullDoc.Line obj => denullObjAtomic obj
  | DenullDoc.Empty doc => denullDocAtomic doc
  | DenullDoc.Break obj doc => denullObjAtomic obj && denullDocAtomic doc

/-- Newline-emitting spine nodes of a `DenullDoc`. -/
def denullNl : DenullDoc → Nat
  | DenullDoc.Eod => 0
  | DenullDoc.Line _ => 0
  | DenullDoc.Empty doc => denullNl doc + 1
  | DenullDoc.Break _ doc => denullNl doc + 1

/-- No `Comp` constructor at object level (fix chains do not count: the
fix renderer emits no newline). -/
def finalObjCompFree : FinalDocObj → Bool
  | FinalDocObj.text _ => true
  | FinalDocObj.fix _ => true
  | FinalDocObj.grp obj => finalObjCompFree obj
  | FinalDocObj.seq obj => finalObjCompFree obj
  | FinalDocObj.nest obj => finalObjCompFree obj
  | FinalDocObj.pack _ obj => finalObjCompFree obj
  | FinalDocObj.comp _ _ _ => false

def finalDocCompFree : FinalDoc → Bool
  | FinalDoc.Eod => true
  | FinalDoc.Empty doc => finalDocCompFree doc
  | FinalDoc.Break obj doc => finalObjCompFree obj && finalDocCompFree doc
  | FinalDoc.Line obj => finalObjCompFree obj

def finalNl : FinalDoc → Nat
  | FinalDoc.Eod => 0
  | FinalDoc.Empty doc => finalNl doc + 1
  | FinalDoc.Break _ doc => finalNl doc + 1
  | FinalDoc.Line _ => 0

def docObjCompFree : DocObj → Bool
  | DocObj.text _ => true
  | DocObj.fix _ => true
  | DocObj.grp obj => docObjCompFree obj
  | DocObj.seq obj => docObjCompFree obj
  | DocObj.nest obj => docObjCompFree obj
  | DocObj.pack _ obj => docObjCompFree obj
  | DocObj.comp _ _ _ => false

def docCompFree : Doc → Bool
  | Doc.Eod => true
  | Doc.Empty doc => docCompFree doc
  | Doc.Break obj doc => docObjCompFree obj && docCompFree doc
  | Doc.Line obj => docObjCompFree obj

def docNl : Doc → Nat
  | Doc.Eod => 0
  | Doc.Empty doc => docNl doc + 1
  | Doc.Break _ doc => docNl doc + 1
  | Doc.Line _ => 0

/-- All values stored in an AVL tree satisfy `p`. -/
def AvlAll {T : Type} (p : T → Bool) : Avl T → Bool
  | Avl.null => true
  | Avl.node _ _ data l r => p data && AvlAll p l && AvlAll p r

/-- A recorded span opens at node 0 and, if closed, closes at node 0 (the
invariant of `_graphify`'s map on single-item objects). -/
def spanAtZero : Property (Nat × Option Nat) → Bool
  | Property.grp (0, none) => true
  | Property.grp (0, some 0) => true
  | Property.seq (0, none) => true
  | Property.seq (0, some 0) => true
  | _ => false

def entryAtZero : Entry Nat (Property (Nat × Option Nat)) → Bool
  | Entry.peek _ => true
  | Entry.bind _ v => spanAtZero v

/-- The graph consists of exactly one node with no edges (texts satisfying
`p`). -/
def nodeSingle (p : String → Bool) (g : Graph) : Bool :=
  match g.nodes with
  | [n] => allTextsGT p n.term && n.ins.isEmpty && n.outs.isEmpty
  | _ => false

def graphDocSingle (p : String → Bool) : GraphDoc → Bool
  | GraphDoc.Eod => true
  | GraphDoc.Break g pads doc =>
    nodeSingle p g && pads.isEmpty && graphDocSingle p doc

def graphNumBreaks : GraphDoc → Nat
  | GraphDoc.Eod => 0
  | GraphDoc.Break _ _ doc => graphNumBreaks doc + 1

/-! ## Predicates for the width-bound claim: no `Fix`/`Nest`/`Pack` and no
fixed comp anywhere ("NPF"), per intermediate representation -/

def npfB : Broken → Bool
  | Broken.null => true
  | Broken.text _ => true
  | Broken.fix _ => false
  | Broken.grp x => npfB x
  | Broken.seq _ x => npfB x
  | Broken.nest _ => false
  | Broken.pack _ => false
  | Broken.line l r => npfB l && npfB r
  | Broken.comp l r attr => !attr.fix && npfB l && npfB r

def npfE : Edsl → Bool
  | Edsl.null => true
  | Edsl.text _ => true
  | Edsl.fix _ => false
  | Edsl.grp x => npfE x
  | Edsl.seq x => npfE x
  | Edsl.nest _ => false
  | Edsl.pack _ => false
  | Edsl.line l r => npfE l && npfE r
  | Edsl.comp l r attr => !attr.fix && npfE l && npfE r

def npfST : SerialTerm → Bool
  | SerialTerm.null => true
  | SerialTerm.text _ => true
  | _ => false

def connNPF : SerialComp → Bool
  | SerialComp.line => true
  | SerialComp.comp attr => !attr.fix
  | SerialComp.grp _ c => connNPF c
  | SerialComp.seq _ c => connNPF c

def pairsNPF (pairs : List (SerialTerm × SerialComp)) : Bool :=
  pairs.all (fun pr => npfST pr.1 && connNPF pr.2)

def serialNPF : Serial → Bool
  | Serial.next term comp s => npfST term && connNPF comp && serialNPF s
  | Serial.last term s => npfST term && serialNPF s
  | Serial.past => true

def npfLT : LinearTerm → Bool
  | LinearTerm.null => true
  | LinearTerm.text _ => true
  | _ => false

def npfLO : LinearObj → Bool
  | LinearObj.next term comp obj => npfLT term && !linearCompFixed comp && npfLO obj
  | LinearObj.last term => npfLT term

def npfLD : LinearDoc → Bool
  | LinearDoc.nil => true
  | LinearDoc.cons obj doc => npfLO obj && npfLD doc

def npfFT : FixedTerm → Bool
  | FixedTerm.null => true
  | FixedTerm.text _ => true
  | _ => false

def npfFO : FixedObj → Bool
  | FixedObj.next (FixedItem.term term) _ obj => npfFT term && npfFO obj
  | FixedObj.next (FixedItem.fix _) _ _ => false
  | FixedObj.last (FixedItem.term term) => npfFT term
  | FixedObj.last (FixedItem.fix _) => false

def npfFD : FixedDoc → Bool
  | FixedDoc.Eod => true
  | FixedDoc.Break obj doc => npfFO obj && npfFD doc

def npfGT : GraphTerm → Bool
  | GraphTerm.null => true
  | GraphTerm.text _ => true
  | _ => false

/-- All node terms of the graph satisfy `q`. -/
def nodesAll (q : GraphTerm → Bool) (g : Graph) : Bool :=
  g.nodes.all (fun n => q n.term)

def graphDocNodes (q : GraphTerm → Bool) : GraphDoc → Bool
  | GraphDoc.Eod => true
  | GraphDoc.Break g _ doc => nodesAll q g && graphDocNodes q doc

def npfRT : RebuildTerm → Bool
  | RebuildTerm.null => true
  | RebuildTerm.text _ => true
  | _ => false

def npfRO : RebuildObj → Bool
  | RebuildObj.term t => npfRT t
  | RebuildObj.fix _ => false
  | RebuildObj.grp o => npfRO o
  | RebuildObj.seq o => npfRO o
  | RebuildObj.comp l r _ => npfRO l && npfRO r

def npfRD : RebuildDoc → Bool
  | RebuildDoc.Eod => true
  | RebuildDoc.Break obj doc => npfRO obj && npfRD doc

def npfDT : DenullTerm → Bool
  | DenullTerm.text _ => true
  | _ => false

def npfDO : DenullObj → Bool
  | DenullObj.term t => npfDT t
  | DenullObj.fix _ => false
  | DenullObj.grp o => npfDO o
  | DenullObj.seq o => npfDO o
  | DenullObj.comp l r _ => npfDO l && npfDO r

def npfDD : DenullDoc → Bool
  | DenullDoc.Eod => true
  | DenullDoc.Line obj => npfDO obj
  | DenullDoc.Empty doc => npfDD doc
  | DenullDoc.Break obj doc => npfDO obj && npfDD doc

def npfXO : FinalDocObj → Bool
  | FinalDocObj.text _ => true
  | FinalDocObj.fix _ => false
  | FinalDocObj.grp o => npfXO o
  | FinalDocObj.seq o => npfXO o
  | FinalDocObj.nest _ => false
  | FinalDocObj.pack _ _ => false
  | FinalDocObj.comp l r _ => npfXO l && npfXO r

def npfXD : FinalDoc → Bool
  | FinalDoc.Eod => true
  | FinalDoc.Empty doc => npfXD doc
  | FinalDoc.Break obj doc => npfXO obj && npfXD doc
  | FinalDoc.Line obj => npfXO obj

def npfOO : DocObj → Bool
  | DocObj.text _ => true
  | DocObj.fix _ => false
  | DocObj.grp o => npfOO o
  | DocObj.seq o => npfOO o
  | DocObj.nest _ => false
  | DocObj.pack _ _ => false
  | DocObj.comp l r _ => npfOO l && npfOO r

def npfOD : Doc → Bool
  | Doc.Eod => true
  | Doc.Empty doc => npfOD doc
  | Doc.Break obj doc => npfOO obj && npfOD doc
  | Doc.Line obj => npfOO obj

/-- Text predicate of the width-bound claim: byte length at most `width`
and newline-free. -/
def pW (width : Nat) (s : String) : Bool :=
  decide (strLen s ≤ width) && nlFree s



/-! ## Character contents of the intermediate representations

`chars*` collects the characters of every `Text` payload in structural
(left-to-right) order; every pass is shown to preserve it exactly, except
pass 6 which drops empty texts (which contribute no characters). -/

def charsL : Layout → List Char
  | Layout.null => []
  | Layout.text data => data.data
  | Layout.fix x => charsL x
  | Layout.grp x => charsL x
  | Layout.seq x => charsL x
  | Layout.nest x => charsL x
  | Layout.pack x => charsL x
  | Layout.line l r => charsL l ++ charsL r
  | Layout.comp l r _ => charsL l ++ charsL r

def charsB : Broken → List Char
  | Broken.null => []
  | Broken.text data => data.data
  | Broken.fix x => charsB x
  | Broken.grp x => charsB x
  | Broken.seq _ x => charsB x
  | Broken.nest x => charsB x
  | Broken.pack x => charsB x
  | Broken.line l r => charsB l ++ charsB r
  | Broken.comp l r _ => charsB l ++ charsB r

def charsE : Edsl → List Char
  | Edsl.null => []
  | Edsl.text data => data.data
  | Edsl.fix x => charsE x
  | Edsl.grp x => charsE x
  | Edsl.seq x => charsE x
  | Edsl.nest x => charsE x
  | Edsl.pack x => charsE x
  | Edsl.line l r => charsE l ++ charsE r
  | Edsl.comp l r _ => charsE l ++ charsE r

def charsST : SerialTerm → List Char
  | SerialTerm.null => []
  | SerialTerm.text data => data.data
  | SerialTerm.nest t => charsST t
  | SerialTerm.pack _ t => charsST t

def charsPairs : List (SerialTerm × SerialComp) → List Char
  | [] => []
  | (t, _) :: ps => charsST t ++ charsPairs ps

def charsSerial : Serial → List Char
  | Serial.next term _ serial => charsST term ++ charsSerial serial
  | Serial.last term serial => charsST term ++ charsSerial serial
  | Serial.past => []

def charsLT : LinearTerm → List Char
  | LinearTerm.null => []
  | LinearTerm.text data => data.data
  | LinearTerm.nest t => charsLT t
  | LinearTerm.pack _ t => charsLT t

def charsLI : List (LinearTerm × LinearComp) → List Char
  | [] => []
  | (t, _) :: ps => charsLT t ++ charsLI ps

def charsLO : LinearObj → List Char
  | LinearObj.next term _ obj => charsLT term ++ charsLO obj
  | LinearObj.last term => charsLT term

def charsLD : LinearDoc → List Char
  | LinearDoc.nil => []
  | LinearDoc.cons obj doc => charsLO obj ++ charsLD doc

def charsFT : FixedTerm → List Char
  | FixedTerm.null => []
  | FixedTerm.text data => data.data
  | FixedTerm.nest t => charsFT t
  | FixedTerm.pack _ t => charsFT t

def charsFP : List (FixedTerm × FixedComp) → List Char
  | [] => []
  | (t, _) :: ps => charsFT t ++ charsFP ps

def charsFF : FixedFix → List Char
  | FixedFix.next term _ fix => charsFT term ++ charsFF fix
  | FixedFix.last term => charsFT term

def charsFI : FixedItem → List Char
  | FixedItem.fix fix => charsFF fix
  | FixedItem.term term => charsFT term

def charsFO : FixedObj → List Char
  | FixedObj.next item _ obj => charsFI item ++ charsFO obj
  | FixedObj.last item => charsFI item

def charsFD : FixedDoc → List Char
  | FixedDoc.Eod => []
  | FixedDoc.Break obj doc => charsFO obj ++ charsFD doc

mutual

def charsGT : GraphTerm → List Char
  | GraphTerm.null => []
  | GraphTerm.text data => data.data
  | GraphTerm.fix fix => charsGF fix
  | GraphTerm.nest t => charsGT t
  | GraphTerm.pack _ t => charsGT t

def charsGF : GraphFix → List Char
  | GraphFix.last term => charsGT term
  | GraphFix.next term fix _ => charsGT term ++ charsGF fix

end

def charsGTs : List GraphTerm → List Char
  | [] => []
  | t :: ts => charsGT t ++ charsGTs ts

def charsNodes : List GraphNode → List Char
  | [] => []
  | n :: ns => charsGT n.term ++ charsNodes ns

def charsGD : GraphDoc → List Char
  | GraphDoc.Eod => []
  | GraphDoc.Break g _ doc => charsNodes g.nodes ++ charsGD doc

def charsRT : RebuildTerm → List Char
  | RebuildTerm.null => []
  | RebuildTerm.text data => data.data
  | RebuildTerm.nest t => charsRT t
  | RebuildTerm.pack _ t => charsRT t

def charsRF : RebuildFix → List Char
  | RebuildFix.term term => charsRT term
  | RebuildFix.comp l r _ => charsRF l ++ charsRF r

def charsRO : RebuildObj → List Char
  | RebuildObj.term term => charsRT term
  | RebuildObj.fix fix => charsRF fix
  | RebuildObj.grp obj => charsRO obj
  | RebuildObj.seq obj => charsRO obj
  | RebuildObj.comp l r _ => charsRO l ++ charsRO r

def charsRD : RebuildDoc → List Char
  | RebuildDoc.Eod => []
  | RebuildDoc.Break obj doc => charsRO obj ++ charsRD doc

def charsDT : DenullTerm → List Char
  | DenullTerm.text data => data.data
  | DenullTerm.nest t => charsDT t
  | DenullTerm.pack _ t => charsDT t

def charsDF : DenullFix → List Char
  | DenullFix.term term => charsDT term
  | DenullFix.comp l r _ => charsDF l ++ charsDF r

def charsDO : DenullObj → List Char
  | DenullObj.term term => charsDT term
  | DenullObj.fix fix => charsDF fix
  | DenullObj.grp obj => charsDO obj
  | DenullObj.seq obj => charsDO obj
  | DenullObj.comp l r _ => charsDO l ++ charsDO r

def charsDD : DenullDoc → List Char
  | DenullDoc.Eod => []
  | DenullDoc.Line obj => charsDO obj
  | DenullDoc.Empty doc => charsDD doc
  | DenullDoc.Break obj doc => charsDO obj ++ charsDD doc

def charsXF : FinalDocObjFix → List Char
  | FinalDocObjFix.text data => data.data
  | FinalDocObjFix.comp l r _ => charsXF l ++ charsXF r

def charsXO : FinalDocObj → List Char
  | FinalDocObj.text data => data.data
  | FinalDocObj.fix fix => charsXF fix
  | FinalDocObj.grp obj => charsXO obj
  | FinalDocObj.seq obj => charsXO obj
  | FinalDocObj.nest obj => charsXO obj
  | FinalDocObj.pack _ obj => charsXO obj
  | FinalDocObj.comp l r _ => charsXO l ++ charsXO r

def charsXD : FinalDoc → List Char
  | FinalDoc.Eod => []
  | FinalDoc.Empty doc => charsXD doc
  | FinalDoc.Break obj doc => charsXO obj ++ charsXD doc
  | FinalDoc.Line obj => charsXO obj

def charsOF : DocObjFix → List Char
  | DocObjFix.text data => data.data
  | DocObjFix.comp l r _ => charsOF l ++ charsOF r

def charsOO : DocObj → List Char
  | DocObj.text data => data.data
  | DocObj.fix fix => charsOF fix
  | DocObj.grp obj => charsOO obj
  | DocObj.seq obj => charsOO obj
  | DocObj.nest obj => charsOO obj
  | DocObj.pack _ obj => charsOO obj
  | DocObj.comp l r _ => charsOO l ++ charsOO r

def charsOD : Doc → List Char
  | Doc.Eod => []
  | Doc.Empty doc => charsOD doc
  | Doc.Break obj doc => charsOO obj ++ charsOD doc
  | Doc.Line obj => charsOO obj

/-- A non-whitespace character (the claim's "non-whitespace"). -/
def nonWs (c : Char) : Bool := !c.isWhitespace



/-- A rebuild continuation that prepends a fixed character sequence. -/
def AffCont (k : RebuildObj → RebuildObj) (c : List Char) : Prop :=
  ∀ o : RebuildObj, charsRO (k o) = c ++ charsRO o

/-- Stack of prefix-affine continuations; the total is the concatenation
of the constants, innermost (bottom of stack, applied last) first. -/
def AffStack : List RebuildCont → List Char → Prop
  | [], t => t = []
  | k :: rest, t => ∃ c t1, AffCont k c ∧ AffStack rest t1 ∧ t = t1 ++ c



/-- Characters of a denull fix result (`lastNone` carries none). -/
def charsDRF : DenullRes DenullFix → List Char
  | DenullRes.lastNone => []
  | DenullRes.lastSome f => charsDF f
  | DenullRes.nextNone _ f => charsDF f

/-- Characters of a denull object result. -/
def charsDRO : DenullRes DenullObj → List Char
  | DenullRes.lastNone => []
  | DenullRes.lastSome o => charsDO o
  | DenullRes.nextNone _ o => charsDO o

/-- Characters of an optional denulled doc. -/
def charsODD : Option DenullDoc → List Char
  | none => []
  | some dd => charsDD dd

/-! # Theorems for the claims -/

/-- `_get_offset` succeeds under the invariant, and lands exactly on the
indent level when at head. -/
theorem getOffset_spec (s : State) (h : StInv s) :
    ∃ off, getOffset s = some off ∧ (s.head = true → s.pos + off = s.lvl) := by
  unfold getOffset
  cases hh : s.head with
  | false => exact ⟨0, by simp [hh], by simp [hh]⟩
  | true =>
    have hp : s.pos ≤ s.lvl := h hh
    refine ⟨s.lvl - s.pos, ?_, fun _ => ?_⟩
    · simp [hh, Nat.not_lt.mpr hp]
    · omega

theorem indent_lvl_le (tab : Nat) (s : State) : s.lvl ≤ (indent tab s).lvl := by
  unfold indent
  by_cases h : tab = 0
  · simp [h]
  · simp [h]

theorem indent_pos (tab : Nat) (s : State) : (indent tab s).pos = s.pos := by
  unfold indent
  by_cases h : tab = 0 <;> simp [h]

theorem indent_head (tab : Nat) (s : State) : (indent tab s).head = s.head := by
  unfold indent
  by_cases h : tab = 0 <;> simp [h]

/-- The state after the `Nest`/`Pack` offset insertion keeps the
invariant. -/
theorem stInv_indent (s : State) (hs : StInv s) : StInv (indent s.tab s) := by
  intro hh
  rw [indent_head] at hh
  rw [indent_pos]
  exact le_trans (hs hh) (indent_lvl_le s.tab s)

theorem stInv_incOff (s : State) (off : Nat)
    (hoffv : s.head = true → s.pos + off = s.lvl) : StInv (incPos off s) := by
  intro hh
  simp only [incPos] at hh ⊢
  have := hoffv hh
  omega

theorem stInv_packNone (s : State) (index : Nat) :
    StInv { s with marks := Map.insert s.marks index s.pos, lvl := Nat.max s.lvl s.pos } := by
  intro _
  exact Nat.le_max_right _ _

theorem stInv_packSome (s : State) (lvl1 : Nat) (hs : StInv s) :
    StInv { s with lvl := Nat.max s.lvl lvl1 } := by
  intro hh
  exact le_trans (hs hh) (Nat.le_max_left _ _)

/-- `_measure` is total under the state invariant. -/
theorem measureVisitObj_some (obj : DocObj) :
    ∀ s : State, StInv s → (measureVisitObj obj s).isSome = true := by
  induction obj with
  | text data => intro s _; rfl
  | fix fix => intro s _; rfl
  | grp obj1 ih => intro s hs; exact ih s hs
  | seq obj1 ih => intro s hs; exact ih s hs
  | nest obj1 ih =>
    intro s hs
    obtain ⟨off, hoff, hoffv⟩ := getOffset_spec (indent s.tab s) (stInv_indent s hs)
    have hs2 : StInv (incPos off (indent s.tab s)) := by
      refine stInv_incOff _ _ ?_
      intro hh
      rw [indent_head] at hh
      rw [indent_pos] at *
      exact hoffv (by rw [indent_head]; exact hh)
    obtain ⟨s3, hs3⟩ := Option.isSome_iff_exists.mp (ih _ hs2)
    simp [measureVisitObj, hoff, hs3]
  | pack index obj1 ih =>
    intro s hs
    cases hl : Map.lookup s.marks index with
    | none =>
      obtain ⟨s3, hs3⟩ := Option.isSome_iff_exists.mp (ih _ (stInv_packNone s index))
      simp only [measureVisitObj, hl]
      simp [hs3]
    | some lvl1 =>
      obtain ⟨off, hoff, hoffv⟩ := getOffset_spec _ (stInv_packSome s lvl1 hs)
      have hs2 := stInv_incOff _ _ hoffv
      obtain ⟨s3, hs3⟩ := Option.isSome_iff_exists.mp (ih _ hs2)
      simp only [measureVisitObj, hl]
      simp [hoff, hs3]
  | comp left right pad ihl ihr =>
    intro s hs
    obtain ⟨s1, hs1⟩ := Option.isSome_iff_exists.mp (ihl s hs)
    have hinv : StInv { incPos (if pad then 1 else 0) s1 with head := false } := by
      intro hh
      simp at hh
    obtain ⟨s4, hs4⟩ := Option.isSome_iff_exists.mp (ihr _ hinv)
    simp [measureVisitObj, hs1, hs4]

/-- `_next_comp` is total under the state invariant. -/
theorem nextCompVisitObj_some (obj : DocObj) :
    ∀ s : State, StInv s → (nextCompVisitObj obj s).isSome = true := by
  induction obj with
  | text data => intro s _; rfl
  | fix fix => intro s _; rfl
  | grp obj1 ih =>
    intro s hs
    cases hh : s.head with
    | true =>
      obtain ⟨s2, hs2⟩ := Option.isSome_iff_exists.mp (ih s hs)
      simp [nextCompVisitObj, hh, hs2]
    | false =>
      obtain ⟨s2, hs2⟩ := Option.isSome_iff_exists.mp (measureVisitObj_some obj1 s hs)
      simp [nextCompVisitObj, hh, measure, hs2]
  | seq obj1 ih => intro s hs; simpa [nextCompVisitObj] using ih s hs
  | nest obj1 ih =>
    intro s hs
    obtain ⟨off, hoff, hoffv⟩ := getOffset_spec (indent s.tab s) (stInv_indent s hs)
    have hs2 : StInv (incPos off (indent s.tab s)) := by
      refine stInv_incOff _ _ ?_
      intro hh
      exact hoffv hh
    obtain ⟨s3, hs3⟩ := Option.isSome_iff_exists.mp (ih _ hs2)
    simp [nextCompVisitObj, hoff, hs3]
  | pack index obj1 ih =>
    intro s hs
    cases hl : Map.lookup s.marks index with
    | none =>
      obtain ⟨s3, hs3⟩ := Option.isSome_iff_exists.mp (ih _ (stInv_packNone s index))
      simp only [nextCompVisitObj, hl]
      simp [hs3]
    | some lvl1 =>
      obtain ⟨off, hoff, hoffv⟩ := getOffset_spec _ (stInv_packSome s lvl1 hs)
      have hs2 := stInv_incOff _ _ hoffv
      obtain ⟨s3, hs3⟩ := Option.isSome_iff_exists.mp (ih _ hs2)
      simp only [nextCompVisitObj, hl]
      simp [hoff, hs3]
  | comp left right pad ihl ihr =>
    intro s hs
    simpa [nextCompVisitObj] using ihl s hs

/-- The render walk over an object is total under the state invariant. -/
theorem renderVisitObj_some (obj : DocObj) :
    ∀ (s : State) (result : String), StInv s →
      (renderVisitObj obj s result).isSome = true := by
  induction obj with
  | text data => intro s result _; rfl
  | fix fix => intro s result _; rfl
  | grp obj1 ih =>
    intro s result hs
    have hs1 : StInv { s with broken := false } := hs
    obtain ⟨r, hr⟩ := Option.isSome_iff_exists.mp (ih { s with broken := false } result hs1)
    simp [renderVisitObj, hr]
  | seq obj1 ih =>
    intro s result hs
    obtain ⟨sm, hsm⟩ := Option.isSome_iff_exists.mp (measureVisitObj_some obj1 s hs)
    obtain ⟨r1, hr1⟩ := Option.isSome_iff_exists.mp (ih s result hs)
    have hs1 : StInv { s with broken := true } := hs
    obtain ⟨r2, hr2⟩ := Option.isSome_iff_exists.mp (ih { s with broken := true } result hs1)
    by_cases hfit : sm.pos ≤ s.width
    · simp [renderVisitObj, willFit, measure, hsm, hfit, hr1]
    · simp [renderVisitObj, willFit, measure, hsm, hfit, hr2]
  | nest obj1 ih =>
    intro s result hs
    obtain ⟨off, hoff, hoffv⟩ := getOffset_spec (indent s.tab s) (stInv_indent s hs)
    have hs2 : StInv (incPos off (indent s.tab s)) := stInv_incOff _ _ hoffv
    obtain ⟨r, hr⟩ := Option.isSome_iff_exists.mp (ih _ (padStr off result) hs2)
    simp [renderVisitObj, hoff, hr]
  | pack index obj1 ih =>
    intro s result hs
    cases hl : Map.lookup s.marks index with
    | none =>
      obtain ⟨r, hr⟩ := Option.isSome_iff_exists.mp (ih _ result (stInv_packNone s index))
      simp only [renderVisitObj, hl]
      simp [hr]
    | some lvl1 =>
      obtain ⟨off, hoff, hoffv⟩ := getOffset_spec _ (stInv_packSome s lvl1 hs)
      have hs2 := stInv_incOff _ _ hoffv
      obtain ⟨r, hr⟩ := Option.isSome_iff_exists.mp (ih _ (padStr off result) hs2)
      simp only [renderVisitObj, hl]
      simp [hoff, hr]
  | comp left right pad ihl ihr =>
    intro s result hs
    obtain ⟨⟨s1, result1⟩, hs1⟩ := Option.isSome_iff_exists.mp (ihl s result hs)
    have hinv3 : StInv { incPos (if pad then 1 else 0) s1 with head := false } := by
      intro hh
      simp at hh
    obtain ⟨sb, hsb⟩ := Option.isSome_iff_exists.mp (nextCompVisitObj_some right _ hinv3)
    have hnl : StInv (newlineState s1) := by
      intro _
      simp [newlineState]
    obtain ⟨off, hoff, hoffv⟩ := getOffset_spec (newlineState s1) hnl
    have hs3i : StInv (incPos off (newlineState s1)) := stInv_incOff _ _ hoffv
    obtain ⟨rB, hrB⟩ := Option.isSome_iff_exists.mp
      (ihr (incPos off (newlineState s1)) (padStr off (result1 ++ "\n")) hs3i)
    obtain ⟨rN, hrN⟩ := Option.isSome_iff_exists.mp
      (ihr { incPos (if pad then 1 else 0) s1 with head := false }
        (padStr (if pad then 1 else 0) result1) hinv3)
    simp only [incPos, newlineState] at hsb hoff hrB hrN
    simp only [Nat.zero_add] at hrB
    by_cases hbr : s1.broken = true
    · simp only [hbr] at hoff hrB
      simp [renderVisitObj, hs1, shouldBreak, incPos, newlineState, hbr, hoff, hrB]
    · have hbr0 : s1.broken = false := by
        cases h : s1.broken
        · rfl
        · exact absurd h hbr
      simp only [hbr0] at hsb hrN hoff hrB
      by_cases hw : s1.width < sb.pos
      · simp [renderVisitObj, hs1, shouldBreak, incPos, newlineState, hbr0, nextComp,
          hsb, hw, hoff, hrB]
      · simp [renderVisitObj, hs1, shouldBreak, incPos, newlineState, hbr0, nextComp,
          hsb, hw, hrN]

/-- The render walk over the document spine is total. -/
theorem renderVisitDoc_some (doc : Doc) :
    ∀ s : State, (renderVisitDoc doc s).isSome = true := by
  induction doc with
  | Eod => intro s; rfl
  | Empty doc1 ih =>
    intro s
    obtain ⟨r, hr⟩ := Option.isSome_iff_exists.mp (ih (resetState s))
    simp [renderVisitDoc, hr]
  | Break obj doc1 ih =>
    intro s
    have hs : StInv (resetState s) := by
      intro _
      simp [resetState]
    obtain ⟨⟨s2, obj1⟩, hobj⟩ :=
      Option.isSome_iff_exists.mp (renderVisitObj_some obj (resetState s) "" hs)
    obtain ⟨r, hr⟩ := Option.isSome_iff_exists.mp (ih (resetState s2))
    simp [renderVisitDoc, hobj, hr]
  | Line obj =>
    intro s
    have hs : StInv (resetState s) := by
      intro _
      simp [resetState]
    obtain ⟨r, hr⟩ := Option.isSome_iff_exists.mp (renderVisitObj_some obj (resetState s) "" hs)
    simp [renderVisitDoc, hr]

/-- C10: `render` is total on every `Doc` produced by `compile` (indeed on
every `Doc`): each `_get_offset` evaluation reached with `head = true`
satisfies `lvl >= pos`, so the `usize` subtraction never underflows. -/
theorem c10_render_total (layout : Layout) (doc : Doc) (tab width : Nat)
    (h : compile layout = some doc) :
    (render doc tab width).isSome = true := by
  obtain ⟨r, hr⟩ := Option.isSome_iff_exists.mp (renderVisitDoc_some doc (makeState width tab))
  have _ := h
  simp [render, hr]

/-- Witness for C10 at a concrete compiled document. -/
theorem c10_render_total_witness :
    (render (Doc.Line (DocObj.text "hi")) 2 80).isSome = true := by
  have h : compile (Layout.text "hi") = some (Doc.Line (DocObj.text "hi")) := by rfl
  exact c10_render_total (Layout.text "hi") (Doc.Line (DocObj.text "hi")) 2 80 h

/-- `_mark` tags every `Seq` with exactly "subtree contains a Line". -/
theorem markVisit_correct (L : Layout) :
    (markVisit L).1 = containsLineB (markVisit L).2 ∧
      marksCorrect (markVisit L).2 = true := by
  induction L with
  | null => exact ⟨rfl, rfl⟩
  | text data => exact ⟨rfl, rfl⟩
  | fix x ih =>
    rcases hx : markVisit x with ⟨bx, tx⟩
    rw [hx] at ih
    simp only [markVisit, hx, containsLineB, marksCorrect]
    exact ih
  | grp x ih =>
    rcases hx : markVisit x with ⟨bx, tx⟩
    rw [hx] at ih
    simp only [markVisit, hx, containsLineB, marksCorrect]
    exact ih
  | seq x ih =>
    rcases hx : markVisit x with ⟨bx, tx⟩
    rw [hx] at ih
    have ih1 : bx = containsLineB tx := ih.1
    have ih2 : marksCorrect tx = true := ih.2
    simp only [markVisit, hx, containsLineB, marksCorrect]
    simp [ih1, ih2]
  | nest x ih =>
    rcases hx : markVisit x with ⟨bx, tx⟩
    rw [hx] at ih
    simp only [markVisit, hx, containsLineB, marksCorrect]
    exact ih
  | pack x ih =>
    rcases hx : markVisit x with ⟨bx, tx⟩
    rw [hx] at ih
    simp only [markVisit, hx, containsLineB, marksCorrect]
    exact ih
  | line l r ihl ihr =>
    rcases hl : markVisit l with ⟨bl, tl⟩
    rcases hr : markVisit r with ⟨br, tr⟩
    rw [hl] at ihl
    rw [hr] at ihr
    simp only [markVisit, hl, hr, containsLineB, marksCorrect]
    simp [ihl.2, ihr.2]
  | comp l r attr ihl ihr =>
    rcases hl : markVisit l with ⟨bl, tl⟩
    rcases hr : markVisit r with ⟨br, tr⟩
    rw [hl] at ihl
    rw [hr] at ihr
    have h1 : bl = containsLineB tl := ihl.1
    have h2 : br = containsLineB tr := ihr.1
    simp only [markVisit, hl, hr, containsLineB, marksCorrect]
    simp [h1, h2, ihl.2, ihr.2]

/-- Removing with correct marks over a `Line`-free subtree (visited with
`broken = false`) yields a `Line`-free result whose `Seq`s are all
`Line`-free. -/
theorem remove_lineFree (t : Broken) (hm : marksCorrect t = true)
    (hl : containsLineB t = false) :
    containsLineE (remove t false) = false ∧
      seqLineFree (remove t false) = true := by
  induction t with
  | null => exact ⟨rfl, rfl⟩
  | text data => exact ⟨rfl, rfl⟩
  | fix x ih =>
    simp only [marksCorrect] at hm
    simp only [containsLineB] at hl
    simpa [remove, containsLineE, seqLineFree] using ih hm hl
  | grp x ih =>
    simp only [marksCorrect] at hm
    simp only [containsLineB] at hl
    simpa [remove, containsLineE, seqLineFree] using ih hm hl
  | seq b x ih =>
    simp only [marksCorrect, Bool.and_eq_true, beq_iff_eq] at hm
    simp only [containsLineB] at hl
    have hb : b = false := by rw [hm.1, hl]
    subst hb
    have := ih hm.2 hl
    simp [remove, containsLineE, seqLineFree, this.1, this.2]
  | nest x ih =>
    simp only [marksCorrect] at hm
    simp only [containsLineB] at hl
    simpa [remove, containsLineE, seqLineFree] using ih hm hl
  | pack x ih =>
    simp only [marksCorrect] at hm
    simp only [containsLineB] at hl
    simpa [remove, containsLineE, seqLineFree] using ih hm hl
  | line l r ihl ihr =>
    simp [containsLineB] at hl
  | comp l r attr ihl ihr =>
    simp only [marksCorrect, Bool.and_eq_true] at hm
    simp only [containsLineB, Bool.or_eq_false_iff] at hl
    have h1 := ihl hm.1 hl.1
    have h2 := ihr hm.2 hl.2
    simp [remove, containsLineE, seqLineFree, h1.1, h1.2, h2.1, h2.2]

/-- With correct marks, every `Seq` subtree of `_remove`'s output is
`Line`-free (for either value of the inherited `broken` flag). -/
theorem remove_seqLineFree (t : Broken) (b : Bool)
    (hm : marksCorrect t = true) : seqLineFree (remove t b) = true := by
  induction t generalizing b with
  | null => rfl
  | text data => rfl
  | fix x ih =>
    simp only [marksCorrect] at hm
    simpa [remove, seqLineFree] using ih false hm
  | grp x ih =>
    simp only [marksCorrect] at hm
    simpa [remove, seqLineFree] using ih false hm
  | seq bf x ih =>
    simp only [marksCorrect, Bool.and_eq_true, beq_iff_eq] at hm
    by_cases hbf : bf = true
    · subst hbf
      simpa [remove] using ih true hm.2
    · have hbf0 : bf = false := by
        cases bf
        · rfl
        · exact absurd rfl hbf
      subst hbf0
      have hlf : containsLineB x = false := (hm.1).symm
      have := remove_lineFree x hm.2 hlf
      simp [remove, seqLineFree, this.1, this.2]
  | nest x ih =>
    simp only [marksCorrect] at hm
    simpa [remove, seqLineFree] using ih b hm
  | pack x ih =>
    simp only [marksCorrect] at hm
    simpa [remove, seqLineFree] using ih b hm
  | line l r ihl ihr =>
    simp only [marksCorrect, Bool.and_eq_true] at hm
    simp [remove, seqLineFree, ihl b hm.1, ihr b hm.2]
  | comp l r attr ihl ihr =>
    simp only [marksCorrect, Bool.and_eq_true] at hm
    by_cases hb : (b && !attr.fix) = true
    · simp [remove, hb, seqLineFree, ihl b hm.1, ihr b hm.2]
    · simp [remove, hb, seqLineFree, ihl b hm.1, ihr b hm.2]

/-- Under `broken = true`, every comp that `_remove` keeps reachable
outside `Fix`/`Grp`/`Seq` boundaries carries `fix = true`. -/
theorem remove_exposedCompsFixed (t : Broken) :
    exposedCompsFixed (remove t true) = true := by
  induction t with
  | null => rfl
  | text data => rfl
  | fix x ih => simp [remove, exposedCompsFixed]
  | grp x ih => simp [remove, exposedCompsFixed]
  | seq bf x ih =>
    by_cases hbf : bf = true
    · subst hbf
      simpa [remove] using ih
    · have hbf0 : bf = false := by
        cases bf
        · rfl
        · exact absurd rfl hbf
      subst hbf0
      simp [remove, exposedCompsFixed]
  | nest x ih => simpa [remove, exposedCompsFixed] using ih
  | pack x ih => simpa [remove, exposedCompsFixed] using ih
  | line l r ihl ihr => simp [remove, exposedCompsFixed, ihl, ihr]
  | comp l r attr ihl ihr =>
    by_cases hf : attr.fix = true
    · simp [remove, hf, exposedCompsFixed, ihl, ihr]
    · have hf0 : attr.fix = false := by
        cases h : attr.fix
        · rfl
        · exact absurd h hf
      simp [remove, hf0, exposedCompsFixed, ihl, ihr]

/-- C4, amended: Pass 1 (a) replaces every `Seq` whose subtree contained
a `Line` by its rewritten child, so no `Seq` in the output contains a
`Line`; and (b) rewrites a non-fixed `Comp` into a `Line` exactly when it
is visited with the `broken` flag set — which happens only beneath such a
broken `Seq` — so after a `broken = true` traversal every comp reachable
outside `Fix`/`Grp`/`Seq` boundaries has `fix = true` on its `Attr`.  A
`Comp` merely containing a `Line` (as in `exC4`) is kept. -/
theorem c4_amended :
    (∀ L : Layout, seqLineFree (broken L) = true) ∧
      (∀ t : Broken, exposedCompsFixed (remove t true) = true) := by
  constructor
  · intro L
    have h := markVisit_correct L
    exact remove_seqLineFree (markVisit L).2 false h.2
  · exact remove_exposedCompsFixed

/-- C1, counterexample: `exC1` contains no `Fix` and no fixed comp, no
`Text` longer than 5, yet `render(compile(exC1), 2, 5)` has a line of
byte length 8 > 5 (indentation from `Nest` is not budgeted by the claim).
-/
theorem c1_cx :
    noFixLayout exC1 = true ∧
    allTextsL (fun s => decide (strLen s ≤ 5)) exC1 = true ∧
    renderL exC1 2 5 = some "      aa\n      bb" ∧
    linesLe "      aa\n      bb" 5 = false := by
  refine ⟨rfl, rfl, rfl, rfl⟩

/-- C2: `compile_safe_with_depth` does not bound recursion — on the
depth-6 layout `exC2` with `max_depth = 1` it returns `Ok`, and
`StackOverflow` is not returned. -/
theorem c2_depth_not_enforced :
    layoutDepth exC2 = 6 ∧
    (compileSafeWithDepth exC2 1).map exceptIsOk = some true ∧
    returnsStackOverflow (compileSafeWithDepth exC2 1) = false := by
  refine ⟨rfl, rfl, rfl⟩

/-- C3: `values` of the map built by inserting keys 1, 2, 3 (ascending)
yields the bound values in the order `[c, b, a]` — not ascending key
order (`avl.rs::to_list` is not an in-order traversal). -/
theorem c3_values_not_ascending :
    Map.values (Map.insert (Map.insert (Map.insert Map.empty 1 "a") 2 "b") 3 "c")
      = ["c", "b", "a"] := by
  rfl

/-- C4, counterexample: Pass 1 leaves `exC4` as a `Comp` whose subtree
contains a `Line`, outside any `Fix` — the comp is only rewritten under a
broken `Seq`, not whenever its subtree contains a `Line`. -/
theorem c4_cx :
    broken exC4 =
      Edsl.comp (Edsl.text "a") (Edsl.line (Edsl.text "b") (Edsl.text "c"))
        { pad := false, fix := false } ∧
    hasExposedCompWithLine (broken exC4) = true := by
  refine ⟨rfl, rfl⟩

/-- C5: within the single `seq` scope of `exC5` (its two compositions are
at positions p1 < p2, crossing no nested scope), rendering at tab 2 and
width 10 emits a newline at p1 (between `aaaaaaaa` and `bbbbb`) but none
at p2 (`bbbbb` and `cc` share a line) — the all-or-nothing property
fails on the code. -/
theorem c5_seq_not_all_or_nothing :
    renderL exC5 2 10 = some "x\naaaaaaaa\nbbbbbccd" := by
  rfl

/-- C6, counterexample: every composition of `exC6` is wrapped in `fix`,
`exC6` has exactly one `Line` node, yet the output has two newlines (the
broken `Seq` under the `Fix` turns the comp into a hard line: Pass 1
checks only the comp's own `attr.fix`). -/
theorem c6_cx :
    allCompsWrappedInFix exC6 false = true ∧
    lineCount exC6 = 1 ∧
    renderL exC6 2 80 = some "a\nb\nc" ∧
    countNl "a\nb\nc" = 2 := by
  refine ⟨rfl, rfl, rfl, rfl⟩

/-- C8: wrapping `exC8` in an outermost `grp` changes the rendered output
at tab 2, width 6 (the `grp`/`seq` tags open at the same node and Pass 5
resolves them in the map's non-ascending `values` order, swapping the two
scopes). -/
theorem c8_grp_changes_output :
    renderL exC8 2 6 = some "aaa\nbb\ncc" ∧
    renderL (Layout.grp exC8) 2 6 = some "aaabb\ncc" := by
  refine ⟨rfl, rfl⟩



/-! ### C6 amended, lemma chain: Pass 1 under `allAttrFixed`. -/

theorem markVisit_lineCount : ∀ L : Layout, lineCountB (markVisit L).2 = lineCount L := by
  intro L
  induction L with
  | null => rfl
  | text data => rfl
  | fix x ih =>
    rcases hM : markVisit x with ⟨b, t⟩
    have ih' : lineCountB t = lineCount x := by rw [hM] at ih; exact ih
    simp [markVisit, hM, lineCountB, lineCount, ih']
  | grp x ih =>
    rcases hM : markVisit x with ⟨b, t⟩
    have ih' : lineCountB t = lineCount x := by rw [hM] at ih; exact ih
    simp [markVisit, hM, lineCountB, lineCount, ih']
  | seq x ih =>
    rcases hM : markVisit x with ⟨b, t⟩
    have ih' : lineCountB t = lineCount x := by rw [hM] at ih; exact ih
    simp [markVisit, hM, lineCountB, lineCount, ih']
  | nest x ih =>
    rcases hM : markVisit x with ⟨b, t⟩
    have ih' : lineCountB t = lineCount x := by rw [hM] at ih; exact ih
    simp [markVisit, hM, lineCountB, lineCount, ih']
  | pack x ih =>
    rcases hM : markVisit x with ⟨b, t⟩
    have ih' : lineCountB t = lineCount x := by rw [hM] at ih; exact ih
    simp [markVisit, hM, lineCountB, lineCount, ih']
  | line l r ihl ihr =>
    rcases hL : markVisit l with ⟨bl, tl⟩
    rcases hR : markVisit r with ⟨br, tr⟩
    have ihl' : lineCountB tl = lineCount l := by rw [hL] at ihl; exact ihl
    have ihr' : lineCountB tr = lineCount r := by rw [hR] at ihr; exact ihr
    simp [markVisit, hL, hR, lineCountB, lineCount, ihl', ihr']
  | comp l r attr ihl ihr =>
    rcases hL : markVisit l with ⟨bl, tl⟩
    rcases hR : markVisit r with ⟨br, tr⟩
    have ihl' : lineCountB tl = lineCount l := by rw [hL] at ihl; exact ihl
    have ihr' : lineCountB tr = lineCount r := by rw [hR] at ihr; exact ihr
    simp [markVisit, hL, hR, lineCountB, lineCount, ihl', ihr']

theorem markVisit_fixed : ∀ L : Layout, allAttrFixed L = true →
    allAttrFixedB (markVisit L).2 = true := by
  intro L
  induction L with
  | null => intro h; rfl
  | text data => intro h; rfl
  | fix x ih =>
    intro h
    rcases hM : markVisit x with ⟨b, t⟩
    have ih' : allAttrFixedB t = true := by
      have := ih h; rw [hM] at this; exact this
    simp [markVisit, hM, allAttrFixedB, ih']
  | grp x ih =>
    intro h
    rcases hM : markVisit x with ⟨b, t⟩
    have ih' : allAttrFixedB t = true := by
      have := ih h; rw [hM] at this; exact this
    simp [markVisit, hM, allAttrFixedB, ih']
  | seq x ih =>
    intro h
    rcases hM : markVisit x with ⟨b, t⟩
    have ih' : allAttrFixedB t = true := by
      have := ih h; rw [hM] at this; exact this
    simp [markVisit, hM, allAttrFixedB, ih']
  | nest x ih =>
    intro h
    rcases hM : markVisit x with ⟨b, t⟩
    have ih' : allAttrFixedB t = true := by
      have := ih h; rw [hM] at this; exact this
    simp [markVisit, hM, allAttrFixedB, ih']
  | pack x ih =>
    intro h
    rcases hM : markVisit x with ⟨b, t⟩
    have ih' : allAttrFixedB t = true := by
      have := ih h; rw [hM] at this; exact this
    simp [markVisit, hM, allAttrFixedB, ih']
  | line l r ihl ihr =>
    intro h
    simp only [allAttrFixed, Bool.and_eq_true] at h
    rcases hL : markVisit l with ⟨bl, tl⟩
    rcases hR : markVisit r with ⟨br, tr⟩
    have ihl' : allAttrFixedB tl = true := by
      have := ihl h.1; rw [hL] at this; exact this
    have ihr' : allAttrFixedB tr = true := by
      have := ihr h.2; rw [hR] at this; exact this
    simp [markVisit, hL, hR, allAttrFixedB, ihl', ihr']
  | comp l r attr ihl ihr =>
    intro h
    simp only [allAttrFixed, Bool.and_eq_true] at h
    rcases hL : markVisit l with ⟨bl, tl⟩
    rcases hR : markVisit r with ⟨br, tr⟩
    have ihl' : allAttrFixedB tl = true := by
      have := ihl h.1.2; rw [hL] at this; exact this
    have ihr' : allAttrFixedB tr = true := by
      have := ihr h.2; rw [hR] at this; exact this
    simp [markVisit, hL, hR, allAttrFixedB, ihl', ihr', h.1.1]

theorem markVisit_texts (p : String → Bool) : ∀ L : Layout, allTextsL p L = true →
    allTextsB p (markVisit L).2 = true := by
  intro L
  induction L with
  | null => intro h; rfl
  | text data => intro h; exact h
  | fix x ih =>
    intro h
    rcases hM : markVisit x with ⟨b, t⟩
    have ih' : allTextsB p t = true := by
      have := ih h; rw [hM] at this; exact this
    simp [markVisit, hM, allTextsB, ih']
  | grp x ih =>
    intro h
    rcases hM : markVisit x with ⟨b, t⟩
    have ih' : allTextsB p t = true := by
      have := ih h; rw [hM] at this; exact this
    simp [markVisit, hM, allTextsB, ih']
  | seq x ih =>
    intro h
    rcases hM : markVisit x with ⟨b, t⟩
    have ih' : allTextsB p t = true := by
      have := ih h; rw [hM] at this; exact this
    simp [markVisit, hM, allTextsB, ih']
  | nest x ih =>
    intro h
    rcases hM : markVisit x with ⟨b, t⟩
    have ih' : allTextsB p t = true := by
      have := ih h; rw [hM] at this; exact this
    simp [markVisit, hM, allTextsB, ih']
  | pack x ih =>
    intro h
    rcases hM : markVisit x with ⟨b, t⟩
    have ih' : allTextsB p t = true := by
      have := ih h; rw [hM] at this; exact this
    simp [markVisit, hM, allTextsB, ih']
  | line l r ihl ihr =>
    intro h
    simp only [allTextsL, Bool.and_eq_true] at h
    rcases hL : markVisit l with ⟨bl, tl⟩
    rcases hR : markVisit r with ⟨br, tr⟩
    have ihl' : allTextsB p tl = true := by
      have := ihl h.1; rw [hL] at this; exact this
    have ihr' : allTextsB p tr = true := by
      have := ihr h.2; rw [hR] at this; exact this
    simp [markVisit, hL, hR, allTextsB, ihl', ihr']
  | comp l r attr ihl ihr =>
    intro h
    simp only [allTextsL, Bool.and_eq_true] at h
    rcases hL : markVisit l with ⟨bl, tl⟩
    rcases hR : markVisit r with ⟨br, tr⟩
    have ihl' : allTextsB p tl = true := by
      have := ihl h.1; rw [hL] at this; exact this
    have ihr' : allTextsB p tr = true := by
      have := ihr h.2; rw [hR] at this; exact this
    simp [markVisit, hL, hR, allTextsB, ihl', ihr']

theorem remove_fixed : ∀ (t : Broken) (b : Bool), allAttrFixedB t = true →
    allAttrFixedE (remove t b) = true ∧ lineCountE (remove t b) = lineCountB t := by
  intro t
  induction t with
  | null => intro b h; exact ⟨rfl, rfl⟩
  | text data => intro b h; exact ⟨rfl, rfl⟩
  | fix x ih =>
    intro b h
    simp only [allAttrFixedB] at h
    obtain ⟨h1, h2⟩ := ih false h
    exact ⟨by simp [remove, allAttrFixedE, h1],
      by simp [remove, lineCountE, lineCountB, h2]⟩
  | grp x ih =>
    intro b h
    simp only [allAttrFixedB] at h
    obtain ⟨h1, h2⟩ := ih false h
    exact ⟨by simp [remove, allAttrFixedE, h1],
      by simp [remove, lineCountE, lineCountB, h2]⟩
  | seq bSeq x ih =>
    intro b h
    simp only [allAttrFixedB] at h
    cases bSeq with
    | true =>
      obtain ⟨h1, h2⟩ := ih true h
      exact ⟨by simp [remove, h1], by simp [remove, lineCountB, h2]⟩
    | false =>
      obtain ⟨h1, h2⟩ := ih false h
      exact ⟨by simp [remove, allAttrFixedE, h1],
        by simp [remove, lineCountE, lineCountB, h2]⟩
  | nest x ih =>
    intro b h
    simp only [allAttrFixedB] at h
    obtain ⟨h1, h2⟩ := ih b h
    exact ⟨by simp [remove, allAttrFixedE, h1],
      by simp [remove, lineCountE, lineCountB, h2]⟩
  | pack x ih =>
    intro b h
    simp only [allAttrFixedB] at h
    obtain ⟨h1, h2⟩ := ih b h
    exact ⟨by simp [remove, allAttrFixedE, h1],
      by simp [remove, lineCountE, lineCountB, h2]⟩
  | line l r ihl ihr =>
    intro b h
    simp only [allAttrFixedB, Bool.and_eq_true] at h
    obtain ⟨hl1, hl2⟩ := ihl b h.1
    obtain ⟨hr1, hr2⟩ := ihr b h.2
    exact ⟨by simp [remove, allAttrFixedE, hl1, hr1],
      by simp [remove, lineCountE, lineCountB, hl2, hr2]⟩
  | comp l r attr ihl ihr =>
    intro b h
    simp only [allAttrFixedB, Bool.and_eq_true] at h
    obtain ⟨⟨hfx, hl⟩, hr⟩ := h
    obtain ⟨hl1, hl2⟩ := ihl b hl
    obtain ⟨hr1, hr2⟩ := ihr b hr
    constructor
    · simp [remove, hfx, allAttrFixedE, hl1, hr1]
    · simp [remove, hfx, lineCountE, lineCountB, hl2, hr2]

theorem remove_texts (p : String → Bool) : ∀ (t : Broken) (b : Bool),
    allTextsB p t = true → allTextsE p (remove t b) = true := by
  intro t
  induction t with
  | null => intro b h; rfl
  | text data => intro b h; exact h
  | fix x ih =>
    intro b h
    simp only [allTextsB] at h
    simp [remove, allTextsE, ih false h]
  | grp x ih =>
    intro b h
    simp only [allTextsB] at h
    simp [remove, allTextsE, ih false h]
  | seq bSeq x ih =>
    intro b h
    simp only [allTextsB] at h
    cases bSeq with
    | true => simp [remove, ih true h]
    | false => simp [remove, allTextsE, ih false h]
  | nest x ih =>
    intro b h
    simp only [allTextsB] at h
    simp [remove, allTextsE, ih b h]
  | pack x ih =>
    intro b h
    simp only [allTextsB] at h
    simp [remove, allTextsE, ih b h]
  | line l r ihl ihr =>
    intro b h
    simp only [allTextsB, Bool.and_eq_true] at h
    simp [remove, allTextsE, ihl b h.1, ihr b h.2]
  | comp l r attr ihl ihr =>
    intro b h
    simp only [allTextsB, Bool.and_eq_true] at h
    by_cases hc : (b && !attr.fix) = true
    · simp [remove, hc, allTextsE, ihl b h.1, ihr b h.2]
    · simp [remove, hc, allTextsE, ihl b h.1, ihr b h.2]

theorem broken_fixed (L : Layout) (h : allAttrFixed L = true) :
    allAttrFixedE (broken L) = true ∧ lineCountE (broken L) = lineCount L := by
  obtain ⟨h1, h2⟩ := remove_fixed (markVisit L).2 false (markVisit_fixed L h)
  exact ⟨h1, by rw [broken, mark]; rw [h2]; exact markVisit_lineCount L⟩

theorem broken_texts (p : String → Bool) (L : Layout) (h : allTextsL p L = true) :
    allTextsE p (broken L) = true :=
  remove_texts p (markVisit L).2 false (markVisit_texts p L h)

/-! ### Pass 2 (serialize) facts. -/

theorem allTextsST_applyTermWraps (p : String → Bool) :
    ∀ (ws : List TermWrap) (t : SerialTerm),
      allTextsST p (applyTermWraps ws t) = allTextsST p t := by
  intro ws
  induction ws with
  | nil => intro t; rfl
  | cons w ws ih => intro t; cases w <;> simp [applyTermWraps, allTextsST, ih]

theorem connFixed_applyCompWraps :
    ∀ (ws : List CompWrap) (c : SerialComp),
      connFixed (applyCompWraps ws c) = connFixed c := by
  intro ws
  induction ws with
  | nil => intro c; rfl
  | cons w ws ih => intro c; cases w <;> simp [applyCompWraps, connFixed, ih]

theorem connIsLine_applyCompWraps_comp (ws : List CompWrap) (attr : Attr) :
    connIsLine (applyCompWraps ws (SerialComp.comp attr)) = false := by
  cases ws with
  | nil => rfl
  | cons w ws => cases w <;> rfl

theorem pairsConnFixed_append (a b : List (SerialTerm × SerialComp)) :
    pairsConnFixed (a ++ b) = (pairsConnFixed a && pairsConnFixed b) := by
  simp [pairsConnFixed, List.all_append]

theorem pairsLineCount_append : ∀ a b : List (SerialTerm × SerialComp),
    pairsLineCount (a ++ b) = pairsLineCount a + pairsLineCount b := by
  intro a
  induction a with
  | nil => intro b; simp [pairsLineCount]
  | cons pr rest ih => intro b; simp [pairsLineCount, ih]; omega

theorem serializeVisit_lineCount :
    ∀ (e : Edsl) (i j : Nat) (fixed : Bool) (terms : List TermWrap)
      (comps : List CompWrap),
      pairsLineCount (serializeVisit e i j fixed terms comps).2.2.1 = lineCountE e := by
  intro e
  induction e with
  | null => intros; rfl
  | text data => intros; rfl
  | fix x ih =>
    intro i j fixed terms comps
    simp only [serializeVisit, lineCountE]
    exact ih i j true terms comps
  | grp x ih =>
    intro i j fixed terms comps
    simp only [serializeVisit, lineCountE]
    exact ih (i + 1) j fixed terms (comps ++ [CompWrap.grp i])
  | seq x ih =>
    intro i j fixed terms comps
    simp only [serializeVisit, lineCountE]
    exact ih (i + 1) j fixed terms (comps ++ [CompWrap.seq i])
  | nest x ih =>
    intro i j fixed terms comps
    simp only [serializeVisit, lineCountE]
    exact ih i j fixed (terms ++ [TermWrap.nest]) comps
  | pack x ih =>
    intro i j fixed terms comps
    simp only [serializeVisit, lineCountE]
    exact ih i (j + 1) fixed (terms ++ [TermWrap.pack j]) comps
  | line l r ihl ihr =>
    intro i j fixed terms comps
    rcases hL : serializeVisit l i j fixed terms comps with ⟨i1, j1, pairsL, lastL⟩
    rcases hR : serializeVisit r i1 j1 fixed terms comps with ⟨i2, j2, pairsR, lastR⟩
    have hl' : pairsLineCount pairsL = lineCountE l := by
      have := ihl i j fixed terms comps; rw [hL] at this; exact this
    have hr' : pairsLineCount pairsR = lineCountE r := by
      have := ihr i1 j1 fixed terms comps; rw [hR] at this; exact this
    simp [serializeVisit, hL, hR, pairsLineCount_append, pairsLineCount,
      connIsLine, hl', hr', lineCountE]
    omega
  | comp l r attr ihl ihr =>
    intro i j fixed terms comps
    rcases hL : serializeVisit l i j fixed terms comps with ⟨i1, j1, pairsL, lastL⟩
    rcases hR : serializeVisit r i1 j1 fixed terms comps with ⟨i2, j2, pairsR, lastR⟩
    have hl' : pairsLineCount pairsL = lineCountE l := by
      have := ihl i j fixed terms comps; rw [hL] at this; exact this
    have hr' : pairsLineCount pairsR = lineCountE r := by
      have := ihr i1 j1 fixed terms comps; rw [hR] at this; exact this
    simp [serializeVisit, hL, hR, pairsLineCount_append, pairsLineCount,
      connIsLine_applyCompWraps_comp, hl', hr', lineCountE]

theorem serializeVisit_connsFixed :
    ∀ (e : Edsl) (i j : Nat) (fixed : Bool) (terms : List TermWrap)
      (comps : List CompWrap), allAttrFixedE e = true →
      pairsConnFixed (serializeVisit e i j fixed terms comps).2.2.1 = true := by
  intro e
  induction e with
  | null => intros; rfl
  | text data => intros; rfl
  | fix x ih =>
    intro i j fixed terms comps h
    simp only [allAttrFixedE] at h
    simp only [serializeVisit]
    exact ih i j true terms comps h
  | grp x ih =>
    intro i j fixed terms comps h
    simp only [allAttrFixedE] at h
    simp only [serializeVisit]
    exact ih (i + 1) j fixed terms (comps ++ [CompWrap.grp i]) h
  | seq x ih =>
    intro i j fixed terms comps h
    simp only [allAttrFixedE] at h
    simp only [serializeVisit]
    exact ih (i + 1) j fixed terms (comps ++ [CompWrap.seq i]) h
  | nest x ih =>
    intro i j fixed terms comps h
    simp only [allAttrFixedE] at h
    simp only [serializeVisit]
    exact ih i j fixed (terms ++ [TermWrap.nest]) comps h
  | pack x ih =>
    intro i j fixed terms comps h
    simp only [allAttrFixedE] at h
    simp only [serializeVisit]
    exact ih i (j + 1) fixed (terms ++ [TermWrap.pack j]) comps h
  | line l r ihl ihr =>
    intro i j fixed terms comps h
    simp only [allAttrFixedE, Bool.and_eq_true] at h
    rcases hL : serializeVisit l i j fixed terms comps with ⟨i1, j1, pairsL, lastL⟩
    rcases hR : serializeVisit r i1 j1 fixed terms comps with ⟨i2, j2, pairsR, lastR⟩
    have hl' : pairsConnFixed pairsL = true := by
      have := ihl i j fixed terms comps h.1; rw [hL] at this; exact this
    have hr' : pairsConnFixed pairsR = true := by
      have := ihr i1 j1 fixed terms comps h.2; rw [hR] at this; exact this
    simp [serializeVisit, hL, hR, pairsConnFixed, connFixed,
      List.all_append] at hl' hr' ⊢
    all_goals tauto
  | comp l r attr ihl ihr =>
    intro i j fixed terms comps h
    simp only [allAttrFixedE, Bool.and_eq_true] at h
    obtain ⟨⟨hfx, hl⟩, hr⟩ := h
    rcases hL : serializeVisit l i j fixed terms comps with ⟨i1, j1, pairsL, lastL⟩
    rcases hR : serializeVisit r i1 j1 fixed terms comps with ⟨i2, j2, pairsR, lastR⟩
    have hl' : pairsConnFixed pairsL = true := by
      have := ihl i j fixed terms comps hl; rw [hL] at this; exact this
    have hr' : pairsConnFixed pairsR = true := by
      have := ihr i1 j1 fixed terms comps hr; rw [hR] at this; exact this
    simp [serializeVisit, hL, hR, pairsConnFixed, connFixed_applyCompWraps,
      connFixed, hfx, List.all_append] at hl' hr' ⊢
    all_goals tauto

theorem serializeVisit_texts (p : String → Bool) :
    ∀ (e : Edsl) (i j : Nat) (fixed : Bool) (terms : List TermWrap)
      (comps : List CompWrap), allTextsE p e = true →
      ((serializeVisit e i j fixed terms comps).2.2.1.all
          (fun pr => allTextsST p pr.1) = true ∧
        allTextsST p (serializeVisit e i j fixed terms comps).2.2.2 = true) := by
  intro e
  induction e with
  | null => intros; exact ⟨rfl, rfl⟩
  | text data =>
    intro i j fixed terms comps h
    refine ⟨rfl, ?_⟩
    simp only [serializeVisit, allTextsST_applyTermWraps]
    exact h
  | fix x ih =>
    intro i j fixed terms comps h
    simp only [allTextsE] at h
    simp only [serializeVisit]
    exact ih i j true terms comps h
  | grp x ih =>
    intro i j fixed terms comps h
    simp only [allTextsE] at h
    simp only [serializeVisit]
    exact ih (i + 1) j fixed terms (comps ++ [CompWrap.grp i]) h
  | seq x ih =>
    intro i j fixed terms comps h
    simp only [allTextsE] at h
    simp only [serializeVisit]
    exact ih (i + 1) j fixed terms (comps ++ [CompWrap.seq i]) h
  | nest x ih =>
    intro i j fixed terms comps h
    simp only [allTextsE] at h
    simp only [serializeVisit]
    exact ih i j fixed (terms ++ [TermWrap.nest]) comps h
  | pack x ih =>
    intro i j fixed terms comps h
    simp only [allTextsE] at h
    simp only [serializeVisit]
    exact ih i (j + 1) fixed (terms ++ [TermWrap.pack j]) comps h
  | line l r ihl ihr =>
    intro i j fixed terms comps h
    simp only [allTextsE, Bool.and_eq_true] at h
    rcases hL : serializeVisit l i j fixed terms comps with ⟨i1, j1, pairsL, lastL⟩
    rcases hR : serializeVisit r i1 j1 fixed terms comps with ⟨i2, j2, pairsR, lastR⟩
    have hl' := ihl i j fixed terms comps h.1
    have hr' := ihr i1 j1 fixed terms comps h.2
    rw [hL] at hl'; rw [hR] at hr'
    obtain ⟨hl1, hl2⟩ := hl'
    obtain ⟨hr1, hr2⟩ := hr'
    simp [serializeVisit, hL, hR, List.all_append] at hl1 hr1 hl2 hr2 ⊢
    all_goals tauto
  | comp l r attr ihl ihr =>
    intro i j fixed terms comps h
    simp only [allTextsE, Bool.and_eq_true] at h
    rcases hL : serializeVisit l i j fixed terms comps with ⟨i1, j1, pairsL, lastL⟩
    rcases hR : serializeVisit r i1 j1 fixed terms comps with ⟨i2, j2, pairsR, lastR⟩
    have hl' := ihl i j fixed terms comps h.1
    have hr' := ihr i1 j1 fixed terms comps h.2
    rw [hL] at hl'; rw [hR] at hr'
    obtain ⟨hl1, hl2⟩ := hl'
    obtain ⟨hr1, hr2⟩ := hr'
    simp [serializeVisit, hL, hR, List.all_append] at hl1 hr1 hl2 hr2 ⊢
    all_goals tauto

theorem buildSerial_connsFixed : ∀ (pairs : List (SerialTerm × SerialComp))
    (lastT : SerialTerm),
    serialConnsFixed (buildSerial pairs lastT) = pairsConnFixed pairs := by
  intro pairs
  induction pairs with
  | nil => intro lastT; rfl
  | cons pr rest ih =>
    intro lastT
    cases pr with
    | mk t c => simp [buildSerial, serialConnsFixed, pairsConnFixed, ih, List.all_cons]

theorem buildSerial_lineCount : ∀ (pairs : List (SerialTerm × SerialComp))
    (lastT : SerialTerm),
    serialLineCount (buildSerial pairs lastT) = pairsLineCount pairs := by
  intro pairs
  induction pairs with
  | nil => intro lastT; rfl
  | cons pr rest ih =>
    intro lastT
    cases pr with
    | mk t c => simp [buildSerial, serialLineCount, pairsLineCount, ih]

theorem buildSerial_texts (p : String → Bool) :
    ∀ (pairs : List (SerialTerm × SerialComp)) (lastT : SerialTerm),
      pairs.all (fun pr => allTextsST p pr.1) = true → allTextsST p lastT = true →
      allTextsSerial p (buildSerial pairs lastT) = true := by
  intro pairs
  induction pairs with
  | nil =>
    intro lastT hp hl
    simp [buildSerial, allTextsSerial, hl]
  | cons pr rest ih =>
    intro lastT hp hl
    cases pr with
    | mk t c =>
      simp only [List.all_cons, Bool.and_eq_true] at hp
      simp [buildSerial, allTextsSerial, hp.1, ih lastT hp.2 hl]

theorem serialize_connsFixed (e : Edsl) (h : allAttrFixedE e = true) :
    serialConnsFixed (serialize e) = true := by
  rcases hS : serializeVisit e 0 0 false [] [] with ⟨i, j, pairs, lastT⟩
  have := serializeVisit_connsFixed e 0 0 false [] [] h
  rw [hS] at this
  simp [serialize, hS, buildSerial_connsFixed]
  exact this

theorem serialize_lineCount (e : Edsl) :
    serialLineCount (serialize e) = lineCountE e := by
  rcases hS : serializeVisit e 0 0 false [] [] with ⟨i, j, pairs, lastT⟩
  have := serializeVisit_lineCount e 0 0 false [] []
  rw [hS] at this
  simp [serialize, hS, buildSerial_lineCount]
  exact this

theorem serialize_texts (p : String → Bool) (e : Edsl) (h : allTextsE p e = true) :
    allTextsSerial p (serialize e) = true := by
  rcases hS : serializeVisit e 0 0 false [] [] with ⟨i, j, pairs, lastT⟩
  have := serializeVisit_texts p e 0 0 false [] [] h
  rw [hS] at this
  simp [serialize, hS]
  exact buildSerial_texts p pairs lastT this.1 this.2



/-! ### Pass 3 (linearize) facts. -/

theorem linearizeComp_fixed : ∀ (c : SerialComp) (c1 : LinearComp),
    linearizeComp c = some c1 → connFixed c = true → linearCompFixed c1 = true := by
  intro c
  induction c with
  | line => intro c1 h hf; simp [linearizeComp] at h
  | comp attr =>
    intro c1 h hf
    simp only [linearizeComp, Option.some.injEq] at h
    subst h
    simpa [linearCompFixed, connFixed] using hf
  | grp index c ih =>
    intro c1 h hf
    simp only [linearizeComp, Option.map_eq_some'] at h
    obtain ⟨c2, hc2, hh⟩ := h
    subst hh
    simp only [connFixed] at hf
    simp [linearCompFixed, ih c2 hc2 hf]
  | seq index c ih =>
    intro c1 h hf
    simp only [linearizeComp, Option.map_eq_some'] at h
    obtain ⟨c2, hc2, hh⟩ := h
    subst hh
    simp only [connFixed] at hf
    simp [linearCompFixed, ih c2 hc2 hf]

theorem linearizeTerm_texts (p : String → Bool) : ∀ t : SerialTerm,
    allTextsST p t = true → allTextsLT p (linearizeTerm t) = true := by
  intro t
  induction t with
  | null => intro h; rfl
  | text data => intro h; exact h
  | nest t ih => intro h; simp only [allTextsST] at h; simp [linearizeTerm, allTextsLT, ih h]
  | pack index t ih => intro h; simp only [allTextsST] at h; simp [linearizeTerm, allTextsLT, ih h]

theorem buildLinearObj_fixed : ∀ (items : List (LinearTerm × LinearComp))
    (lastT : LinearTerm),
    items.all (fun it => linearCompFixed it.2) = true →
    linearObjFixed (buildLinearObj items lastT) = true := by
  intro items
  induction items with
  | nil => intro lastT h; rfl
  | cons it rest ih =>
    intro lastT h
    cases it with
    | mk t c =>
      simp only [List.all_cons, Bool.and_eq_true] at h
      simp [buildLinearObj, linearObjFixed, h.1, ih lastT h.2]

theorem buildLinearObj_texts (p : String → Bool) :
    ∀ (items : List (LinearTerm × LinearComp)) (lastT : LinearTerm),
      items.all (fun it => allTextsLT p it.1) = true → allTextsLT p lastT = true →
      allTextsLO p (buildLinearObj items lastT) = true := by
  intro items
  induction items with
  | nil => intro lastT h hl; exact hl
  | cons it rest ih =>
    intro lastT h hl
    cases it with
    | mk t c =>
      simp only [List.all_cons, Bool.and_eq_true] at h
      simp [buildLinearObj, allTextsLO, h.1, ih lastT h.2 hl]

theorem linearizeVisit_facts (p : String → Bool) :
    ∀ (s : Serial) (acc : List (LinearTerm × LinearComp)) (d : LinearDoc),
      linearizeVisit s acc = some d →
      (linearNumObjs d = serialLineCount s + 1) ∧
      (serialConnsFixed s = true →
        acc.all (fun it => linearCompFixed it.2) = true → linearDocFixed d = true) ∧
      (allTextsSerial p s = true →
        acc.all (fun it => allTextsLT p it.1) = true → allTextsLD p d = true) := by
  intro s
  induction s with
  | past => intro acc d h; simp [linearizeVisit] at h
  | last term s1 ih =>
    intro acc d h
    cases s1 with
    | past =>
      simp only [linearizeVisit, Option.some.injEq] at h
      subst h
      refine ⟨rfl, ?_, ?_⟩
      · intro hfx hacc
        simp [linearDocFixed, buildLinearObj_fixed acc _ hacc]
      · intro htx hacc
        simp only [allTextsSerial, Bool.and_eq_true] at htx
        simp [allTextsLD,
          buildLinearObj_texts p acc _ hacc (linearizeTerm_texts p term htx.1)]
    | next t2 c2 s2 => simp [linearizeVisit] at h
    | last t2 s2 => simp [linearizeVisit] at h
  | next term comp s1 ih =>
    intro acc d h
    cases comp with
    | line =>
      simp only [linearizeVisit, bind, Option.bind_eq_some, Option.some.injEq] at h
      obtain ⟨rest, hrest, hd⟩ := h
      subst hd
      obtain ⟨ihc, ihf, iht⟩ := ih [] rest hrest
      refine ⟨?_, ?_, ?_⟩
      · simp [linearNumObjs, serialLineCount, connIsLine, ihc]
        omega
      · intro hfx hacc
        simp only [serialConnsFixed, Bool.and_eq_true] at hfx
        simp [linearDocFixed, buildLinearObj_fixed acc _ hacc, ihf hfx.2 rfl]
      · intro htx hacc
        simp only [allTextsSerial, Bool.and_eq_true] at htx
        simp [allTextsLD,
          buildLinearObj_texts p acc _ hacc (linearizeTerm_texts p term htx.1),
          iht htx.2 rfl]
    | comp attr =>
      simp only [linearizeVisit, linearizeComp, bind, Option.bind_eq_some,
        Option.some.injEq] at h
      obtain ⟨c1, hc1, hrec⟩ := h
      subst hc1
      obtain ⟨ihc, ihf, iht⟩ := ih _ d hrec
      refine ⟨?_, ?_, ?_⟩
      · simpa [serialLineCount, connIsLine] using ihc
      · intro hfx hacc
        simp only [serialConnsFixed, Bool.and_eq_true] at hfx
        apply ihf hfx.2
        simp [List.all_append, hacc, linearCompFixed]
        simpa [connFixed] using hfx.1
      · intro htx hacc
        simp only [allTextsSerial, Bool.and_eq_true] at htx
        apply iht htx.2
        simp [List.all_append, hacc, linearizeTerm_texts p term htx.1]
    | grp index c =>
      simp only [linearizeVisit, bind, Option.bind_eq_some] at h
      obtain ⟨c1, hc1, hrec⟩ := h
      obtain ⟨ihc, ihf, iht⟩ := ih _ d hrec
      refine ⟨?_, ?_, ?_⟩
      · simpa [serialLineCount, connIsLine] using ihc
      · intro hfx hacc
        simp only [serialConnsFixed, Bool.and_eq_true] at hfx
        apply ihf hfx.2
        simp [List.all_append, hacc]
        exact linearizeComp_fixed _ _ hc1 hfx.1
      · intro htx hacc
        simp only [allTextsSerial, Bool.and_eq_true] at htx
        apply iht htx.2
        simp [List.all_append, hacc, linearizeTerm_texts p term htx.1]
    | seq index c =>
      simp only [linearizeVisit, bind, Option.bind_eq_some] at h
      obtain ⟨c1, hc1, hrec⟩ := h
      obtain ⟨ihc, ihf, iht⟩ := ih _ d hrec
      refine ⟨?_, ?_, ?_⟩
      · simpa [serialLineCount, connIsLine] using ihc
      · intro hfx hacc
        simp only [serialConnsFixed, Bool.and_eq_true] at hfx
        apply ihf hfx.2
        simp [List.all_append, hacc]
        exact linearizeComp_fixed _ _ hc1 hfx.1
      · intro htx hacc
        simp only [allTextsSerial, Bool.and_eq_true] at htx
        apply iht htx.2
        simp [List.all_append, hacc, linearizeTerm_texts p term htx.1]

/-! ### Pass 4 (fixed) facts. -/

theorem fixedComp_fst : ∀ c : LinearComp, (fixedComp c).1 = linearCompFixed c := by
  intro c
  induction c with
  | comp attr => rfl
  | grp index c ih =>
    rcases hC : fixedComp c with ⟨isF, c1⟩
    rw [hC] at ih
    simp [fixedComp, hC, linearCompFixed, ih]
  | seq index c ih =>
    rcases hC : fixedComp c with ⟨isF, c1⟩
    rw [hC] at ih
    simp [fixedComp, hC, linearCompFixed, ih]

theorem fixedTerm_texts (p : String → Bool) : ∀ t : LinearTerm,
    allTextsLT p t = true → allTextsFT p (fixedTerm t) = true := by
  intro t
  induction t with
  | null => intro h; rfl
  | text data => intro h; exact h
  | nest t ih => intro h; simp only [allTextsLT] at h; simp [fixedTerm, allTextsFT, ih h]
  | pack index t ih => intro h; simp only [allTextsLT] at h; simp [fixedTerm, allTextsFT, ih h]

theorem buildFixedFix_texts (p : String → Bool) :
    ∀ (items : List (FixedTerm × FixedComp)) (lastT : FixedTerm),
      items.all (fun it => allTextsFT p it.1) = true → allTextsFT p lastT = true →
      allTextsFF p (buildFixedFix items lastT) = true := by
  intro items
  induction items with
  | nil => intro lastT h hl; exact hl
  | cons it rest ih =>
    intro lastT h hl
    cases it with
    | mk t c =>
      simp only [List.all_cons, Bool.and_eq_true] at h
      simp [buildFixedFix, allTextsFF, h.1, ih lastT h.2 hl]

theorem fixedVisitFix_single (p : String → Bool) :
    ∀ (obj : LinearObj) (acc : List (FixedTerm × FixedComp)),
      linearObjFixed obj = true → allTextsLO p obj = true →
      acc.all (fun it => allTextsFT p it.1) = true →
      ∃ fx, fixedVisitFix obj acc = FixedObj.last (FixedItem.fix fx) ∧
        allTextsFF p fx = true := by
  intro obj
  induction obj with
  | last term =>
    intro acc hf ht hacc
    refine ⟨buildFixedFix acc (fixedTerm term), rfl, ?_⟩
    exact buildFixedFix_texts p acc _ hacc (fixedTerm_texts p term ht)
  | next term comp obj1 ih =>
    intro acc hf ht hacc
    simp only [linearObjFixed, Bool.and_eq_true] at hf
    simp only [allTextsLO, Bool.and_eq_true] at ht
    rcases hC : fixedComp comp with ⟨isF, comp1⟩
    have hisF : isF = true := by
      have := fixedComp_fst comp
      rw [hC] at this
      simpa [hf.1] using this
    subst hisF
    have hacc' : (acc ++ [(fixedTerm term, comp1)]).all
        (fun it => allTextsFT p it.1) = true := by
      simp [List.all_append, hacc, fixedTerm_texts p term ht.1]
    obtain ⟨fx, hfx, htx⟩ := ih (acc ++ [(fixedTerm term, comp1)]) hf.2 ht.2 hacc'
    exact ⟨fx, by simp [fixedVisitFix, hC, hfx], htx⟩

theorem fixedVisitObj_single (p : String → Bool) (obj : LinearObj)
    (hf : linearObjFixed obj = true) (ht : allTextsLO p obj = true) :
    fixedObjSingle (fixedVisitObj obj) = true ∧
      allTextsFO p (fixedVisitObj obj) = true := by
  cases obj with
  | last term =>
    refine ⟨rfl, ?_⟩
    simpa [fixedVisitObj, allTextsFO, allTextsFI] using fixedTerm_texts p term ht
  | next term comp obj1 =>
    simp only [linearObjFixed, Bool.and_eq_true] at hf
    simp only [allTextsLO, Bool.and_eq_true] at ht
    rcases hC : fixedComp comp with ⟨isF, comp1⟩
    have hisF : isF = true := by
      have := fixedComp_fst comp
      rw [hC] at this
      simpa [hf.1] using this
    subst hisF
    obtain ⟨fx, hfx, htx⟩ := fixedVisitFix_single p obj1 [(fixedTerm term, comp1)]
      hf.2 ht.2 (by simp [fixedTerm_texts p term ht.1])
    constructor
    · simp [fixedVisitObj, hC, hfx, fixedObjSingle]
    · simp [fixedVisitObj, hC, hfx, allTextsFO, allTextsFI, htx]

theorem fixed_single (p : String → Bool) : ∀ d : LinearDoc,
    linearDocFixed d = true → allTextsLD p d = true →
    fixedDocSingle (fixed d) = true ∧ allTextsFD p (fixed d) = true := by
  intro d
  induction d with
  | nil => intro hf ht; exact ⟨rfl, rfl⟩
  | cons obj d1 ih =>
    intro hf ht
    simp only [linearDocFixed, Bool.and_eq_true] at hf
    simp only [allTextsLD, Bool.and_eq_true] at ht
    obtain ⟨h1, h2⟩ := fixedVisitObj_single p obj hf.1 ht.1
    obtain ⟨h3, h4⟩ := ih hf.2 ht.2
    exact ⟨by simp [fixed, fixedDocSingle, h1, h3],
      by simp [fixed, allTextsFD, h2, h4]⟩

theorem fixed_numBreaks : ∀ d : LinearDoc,
    fixedNumBreaks (fixed d) = linearNumObjs d := by
  intro d
  induction d with
  | nil => rfl
  | cons obj d1 ih => simp [fixed, fixedNumBreaks, linearNumObjs, ih]



/-! ### AVL/Map layer: `AvlAll` is preserved by the map operations. -/

theorem avlAll_rotateLeft {T : Type} (p : T → Bool) (t : Avl T)
    (h : AvlAll p t = true) : AvlAll p (Avl.rotateLeft t) = true := by
  cases t with
  | null => exact h
  | node c ht u a q =>
    cases q with
    | null => simpa [Avl.rotateLeft, AvlAll] using h
    | node cq hq v b c2 =>
      simp only [AvlAll, Bool.and_eq_true] at h
      simp only [Avl.rotateLeft, AvlAll, Bool.and_eq_true]
      tauto

theorem avlAll_rotateRight {T : Type} (p : T → Bool) (t : Avl T)
    (h : AvlAll p t = true) : AvlAll p (Avl.rotateRight t) = true := by
  cases t with
  | null => exact h
  | node c ht v q c2 =>
    cases q with
    | null => simpa [Avl.rotateRight, AvlAll] using h
    | node cp hp u a b =>
      simp only [AvlAll, Bool.and_eq_true] at h
      simp only [Avl.rotateRight, AvlAll, Bool.and_eq_true]
      tauto

theorem avlAll_localRebalance {T : Type} (p : T → Bool) (pos : Order) (t : Avl T)
    (h : AvlAll p t = true) : AvlAll p (Avl.localRebalance pos t) = true := by
  unfold Avl.localRebalance
  split
  · exact h
  · exact avlAll_rotateRight p t h
  · exact avlAll_rotateLeft p t h

theorem avlAll_insertVisit {T : Type} (p : T → Bool) (ord : T → T → Order) (x : T)
    (hx : p x = true) :
    ∀ (t : Avl T) (pos : Order), AvlAll p t = true →
      AvlAll p (Avl.insertVisit ord x t pos).2 = true := by
  intro t
  induction t with
  | null => intro pos h; simp [Avl.insertVisit, AvlAll, hx]
  | node count height d l r ihl ihr =>
    intro pos h
    simp only [AvlAll, Bool.and_eq_true] at h
    obtain ⟨⟨hd, hl⟩, hr⟩ := h
    simp only [Avl.insertVisit]
    cases hord : ord x d with
    | EQ => simp [AvlAll, hx, hl, hr]
    | LT =>
      have hall := ihl Order.LT hl
      dsimp only
      rcases hIV : Avl.insertVisit ord x l Order.LT with ⟨b, l1⟩
      rw [hIV] at hall
      cases b with
      | true => simp [AvlAll, hd, hall, hr]
      | false =>
        dsimp only
        apply avlAll_localRebalance
        simp [AvlAll, hd, hall, hr]
    | GT =>
      have hall := ihr Order.GT hr
      dsimp only
      rcases hIV : Avl.insertVisit ord x r Order.GT with ⟨b, r1⟩
      rw [hIV] at hall
      cases b with
      | true => simp [AvlAll, hd, hl, hall]
      | false =>
        dsimp only
        apply avlAll_localRebalance
        simp [AvlAll, hd, hl, hall]

theorem avlAll_insert {T : Type} (p : T → Bool) (ord : T → T → Order) (x : T)
    (t : Avl T) (hx : p x = true) (h : AvlAll p t = true) :
    AvlAll p (Avl.insert ord x t) = true := by
  have hIV' := avlAll_insertVisit p ord x hx t Order.EQ h
  rcases hIV : Avl.insertVisit ord x t Order.EQ with ⟨b, t1⟩
  rw [hIV] at hIV'
  cases b with
  | true => simpa [Avl.insert, hIV] using hIV'
  | false =>
    simp only [Avl.insert, hIV]
    exact avlAll_localRebalance p Order.EQ t1 hIV'

theorem avlAll_mapInsert {V : Type} (p : Entry Nat V → Bool) (m : Map V) (k : Nat)
    (v : V) (h : AvlAll p m = true) (hv : p (Entry.bind k v) = true) :
    AvlAll p (Map.insert m k v) = true :=
  avlAll_insert p Map.entryOrder (Entry.bind k v) m hv h

theorem lookupUnsafe_sound {V : Type} (p : Entry Nat V → Bool) :
    ∀ (m : Avl (Entry Nat V)) (k : Nat) (v : V), AvlAll p m = true →
      Map.lookupUnsafe m k = some v → ∃ key, p (Entry.bind key v) = true := by
  intro m
  induction m with
  | null => intro k v h hl; simp [Map.lookupUnsafe] at hl
  | node count height e l r ihl ihr =>
    intro k v h hl
    simp only [AvlAll, Bool.and_eq_true] at h
    obtain ⟨⟨he, hL⟩, hR⟩ := h
    simp only [Map.lookupUnsafe] at hl
    cases htot : total k (Entry.key e) with
    | LT => rw [htot] at hl; exact ihl k v hL hl
    | GT => rw [htot] at hl; exact ihr k v hR hl
    | EQ =>
      rw [htot] at hl
      cases e with
      | peek k1 => simp at hl
      | bind k1 v1 =>
        simp only [Option.some.injEq] at hl
        subst hl
        exact ⟨k1, he⟩

theorem avlAll_toListVisit {T : Type} (p : T → Bool) :
    ∀ (t : Avl T) (acc : List T), AvlAll p t = true → acc.all p = true →
      (Avl.toListVisit t acc).all p = true := by
  intro t
  induction t with
  | null => intro acc h hacc; exact hacc
  | node c ht d l r ihl ihr =>
    intro acc h hacc
    simp only [AvlAll, Bool.and_eq_true] at h
    obtain ⟨⟨hd, hl⟩, hr⟩ := h
    simp only [Avl.toListVisit]
    exact ihr _ hr (ihl _ hl (by simp [List.all_cons, hd, hacc]))

theorem filterMapValues_all {V : Type} (p : Entry Nat V → Bool) (q : V → Bool)
    (hpq : ∀ k v, p (Entry.bind k v) = true → q v = true) :
    ∀ l : List (Entry Nat V), l.all p = true →
      (l.filterMap (fun entry => match entry with
        | Entry.peek _ => none
        | Entry.bind _ value => some value)).all q = true := by
  intro l
  induction l with
  | nil => intro h; rfl
  | cons e rest ih =>
    intro h
    simp only [List.all_cons, Bool.and_eq_true] at h
    cases e with
    | peek k => simpa [List.filterMap_cons] using ih h.2
    | bind k v => simp [List.filterMap_cons, List.all_cons, hpq k v h.1, ih h.2]

theorem avlAll_values {V : Type} (p : Entry Nat V → Bool) (q : V → Bool)
    (hpq : ∀ k v, p (Entry.bind k v) = true → q v = true)
    (m : Map V) (h : AvlAll p m = true) : (Map.values m).all q = true := by
  have hall : (Avl.toList m).all p = true := avlAll_toListVisit p m [] h rfl
  simp only [Map.values]
  exact filterMapValues_all p q hpq _ hall

/-! ### The props map of `_graphify` keeps all spans at node 0. -/

theorem spanAtZero_grp_elim (f : Nat) (o : Option Nat)
    (h : spanAtZero (Property.grp (f, o)) = true) :
    f = 0 ∧ (o = none ∨ o = some 0) := by
  cases f with
  | zero =>
    cases o with
    | none => exact ⟨rfl, Or.inl rfl⟩
    | some t =>
      cases t with
      | zero => exact ⟨rfl, Or.inr rfl⟩
      | succ n => exact absurd h (by simp [spanAtZero])
  | succ m =>
    cases o with
    | none => exact absurd h (by simp [spanAtZero])
    | some t =>
      cases t with
      | zero => exact absurd h (by simp [spanAtZero])
      | succ n => exact absurd h (by simp [spanAtZero])

theorem spanAtZero_seq_elim (f : Nat) (o : Option Nat)
    (h : spanAtZero (Property.seq (f, o)) = true) :
    f = 0 ∧ (o = none ∨ o = some 0) := by
  cases f with
  | zero =>
    cases o with
    | none => exact ⟨rfl, Or.inl rfl⟩
    | some t =>
      cases t with
      | zero => exact ⟨rfl, Or.inr rfl⟩
      | succ n => exact absurd h (by simp [spanAtZero])
  | succ m =>
    cases o with
    | none => exact absurd h (by simp [spanAtZero])
    | some t =>
      cases t with
      | zero => exact absurd h (by simp [spanAtZero])
      | succ n => exact absurd h (by simp [spanAtZero])

theorem closeProps_atZero :
    ∀ (scope : List (Property Nat)) (props props1 : PropsMap),
      AvlAll entryAtZero props = true →
      closeProps 0 props scope = some props1 →
      AvlAll entryAtZero props1 = true := by
  intro scope
  induction scope with
  | nil =>
    intro props props1 h hc
    simp only [closeProps, Option.some.injEq] at hc
    subst hc
    exact h
  | cons pr rest ih =>
    intro props props1 h hc
    cases pr with
    | grp index =>
      simp only [closeProps] at hc
      cases hLu : Map.lookupUnsafe props index with
      | none => rw [hLu] at hc; simp at hc
      | some v =>
        rw [hLu] at hc
        cases v with
        | seq val => simp at hc
        | grp val =>
          rcases val with ⟨fromNode, opt⟩
          obtain ⟨key, hk⟩ := lookupUnsafe_sound entryAtZero props index _ h hLu
          have hsz : spanAtZero (Property.grp (fromNode, opt)) = true := by
            simpa [entryAtZero] using hk
          obtain ⟨hf, _⟩ := spanAtZero_grp_elim fromNode opt hsz
          subst hf
          exact ih _ _ (avlAll_mapInsert entryAtZero props index _ h
            (by simp [entryAtZero, spanAtZero])) hc
    | seq index =>
      simp only [closeProps] at hc
      cases hLu : Map.lookupUnsafe props index with
      | none => rw [hLu] at hc; simp at hc
      | some v =>
        rw [hLu] at hc
        cases v with
        | grp val => simp at hc
        | seq val =>
          rcases val with ⟨fromNode, opt⟩
          obtain ⟨key, hk⟩ := lookupUnsafe_sound entryAtZero props index _ h hLu
          have hsz : spanAtZero (Property.seq (fromNode, opt)) = true := by
            simpa [entryAtZero] using hk
          obtain ⟨hf, _⟩ := spanAtZero_seq_elim fromNode opt hsz
          subst hf
          exact ih _ _ (avlAll_mapInsert entryAtZero props index _ h
            (by simp [entryAtZero, spanAtZero])) hc

theorem openProps_atZero :
    ∀ (stack : List (Property Nat)) (props : PropsMap),
      AvlAll entryAtZero props = true →
      AvlAll entryAtZero (openProps 0 props stack) = true := by
  intro stack
  induction stack with
  | nil => intro props h; exact h
  | cons pr rest ih =>
    intro props h
    cases pr with
    | grp index =>
      simp only [openProps]
      exact ih _ (avlAll_mapInsert entryAtZero props index _ h
        (by simp [entryAtZero, spanAtZero]))
    | seq index =>
      simp only [openProps]
      exact ih _ (avlAll_mapInsert entryAtZero props index _ h
        (by simp [entryAtZero, spanAtZero]))

theorem updateProps_atZero :
    ∀ (scope stack : List (Property Nat)) (props : PropsMap)
      (stack1 : List (Property Nat)) (props1 : PropsMap),
      AvlAll entryAtZero props = true →
      updateProps 0 props scope stack = some (stack1, props1) →
      AvlAll entryAtZero props1 = true := by
  intro scope
  induction scope with
  | nil =>
    intro stack props stack1 props1 h hu
    cases stack with
    | nil =>
      simp only [updateProps, bind, Option.bind_eq_some] at hu
      obtain ⟨props2, hcp, heq⟩ := hu
      simp only [Option.some.injEq, Prod.mk.injEq] at heq
      obtain ⟨e1, e2⟩ := heq
      subst e2
      simp only [closeProps, Option.some.injEq] at hcp
      subst hcp
      exact h
    | cons tpr trest =>
      simp only [updateProps, Option.some.injEq, Prod.mk.injEq] at hu
      obtain ⟨e1, e2⟩ := hu
      subst e2
      exact openProps_atZero _ props h
  | cons spr srest ih =>
    intro stack props stack1 props1 h hu
    cases stack with
    | nil =>
      simp only [updateProps, bind, Option.bind_eq_some] at hu
      obtain ⟨props2, hcp, heq⟩ := hu
      simp only [Option.some.injEq, Prod.mk.injEq] at heq
      obtain ⟨e1, e2⟩ := heq
      subst e2
      exact closeProps_atZero _ _ _ h hcp
    | cons tpr trest =>
      cases spr with
      | grp li =>
        cases tpr with
        | grp ri =>
          simp only [updateProps] at hu
          split at hu
          · exact absurd hu (by simp)
          · split at hu
            · simp only [bind, Option.bind_eq_some] at hu
              obtain ⟨⟨stack2, props2⟩, hrec, heq2⟩ := hu
              simp only [Option.some.injEq, Prod.mk.injEq] at heq2
              obtain ⟨e1, e2⟩ := heq2
              subst e2
              exact ih trest props stack2 props2 h hrec
            · simp only [bind, Option.bind_eq_some] at hu
              obtain ⟨props2, hcl, heq2⟩ := hu
              simp only [Option.some.injEq, Prod.mk.injEq] at heq2
              obtain ⟨e1, e2⟩ := heq2
              subst e2
              exact openProps_atZero _ _ (closeProps_atZero _ _ _ h hcl)
        | seq ri =>
          simp only [updateProps, bind, Option.bind_eq_some] at hu
          obtain ⟨props2, hcl, heq2⟩ := hu
          simp only [Option.some.injEq, Prod.mk.injEq] at heq2
          obtain ⟨e1, e2⟩ := heq2
          subst e2
          exact openProps_atZero _ _ (closeProps_atZero _ _ _ h hcl)
      | seq li =>
        cases tpr with
        | seq ri =>
          simp only [updateProps] at hu
          split at hu
          · exact absurd hu (by simp)
          · split at hu
            · simp only [bind, Option.bind_eq_some] at hu
              obtain ⟨⟨stack2, props2⟩, hrec, heq2⟩ := hu
              simp only [Option.some.injEq, Prod.mk.injEq] at heq2
              obtain ⟨e1, e2⟩ := heq2
              subst e2
              exact ih trest props stack2 props2 h hrec
            · simp only [bind, Option.bind_eq_some] at hu
              obtain ⟨props2, hcl, heq2⟩ := hu
              simp only [Option.some.injEq, Prod.mk.injEq] at heq2
              obtain ⟨e1, e2⟩ := heq2
              subst e2
              exact openProps_atZero _ _ (closeProps_atZero _ _ _ h hcl)
        | grp ri =>
          simp only [updateProps, bind, Option.bind_eq_some] at hu
          obtain ⟨props2, hcl, heq2⟩ := hu
          simp only [Option.some.injEq, Prod.mk.injEq] at heq2
          obtain ⟨e1, e2⟩ := heq2
          subst e2
          exact openProps_atZero _ _ (closeProps_atZero _ _ _ h hcl)



/-! ### Pass 5 (structurize) on single-item objects. -/

theorem graphifyTerm_texts (p : String → Bool) : ∀ t : FixedTerm,
    allTextsFT p t = true → allTextsGT p (graphifyTerm t) = true := by
  intro t
  induction t with
  | null => intro h; rfl
  | text data => intro h; exact h
  | nest t ih =>
    intro h
    simp only [allTextsFT] at h
    simp [graphifyTerm, allTextsGT, ih h]
  | pack index t ih =>
    intro h
    simp only [allTextsFT] at h
    simp [graphifyTerm, allTextsGT, ih h]

theorem graphifyVisitFix_atZero (p : String → Bool) :
    ∀ (fx : FixedFix) (scope : List (Property Nat)) (props : PropsMap)
      (fix2 : GraphFix) (scope2 : List (Property Nat)) (props2 : PropsMap),
      AvlAll entryAtZero props = true →
      graphifyVisitFix fx 0 scope props = some (fix2, scope2, props2) →
      AvlAll entryAtZero props2 = true ∧
      (allTextsFF p fx = true → allTextsGF p fix2 = true) := by
  intro fx
  induction fx with
  | last term =>
    intro scope props fix2 scope2 props2 h hg
    simp only [graphifyVisitFix, Option.some.injEq, Prod.mk.injEq] at hg
    obtain ⟨e1, e2, e3⟩ := hg
    subst e1; subst e2; subst e3
    refine ⟨h, fun ht => ?_⟩
    simp only [allTextsFF] at ht
    simpa [allTextsGF] using graphifyTerm_texts p term ht
  | next term comp fx1 ih =>
    intro scope props fix2 scope2 props2 h hg
    rcases hLS : liftStack comp with ⟨stack, pad⟩
    simp only [graphifyVisitFix, hLS, bind, Option.bind_eq_some] at hg
    obtain ⟨⟨scope1, props1⟩, hup, hg2⟩ := hg
    obtain ⟨⟨fix3, scope3, props3⟩, hgr, heq⟩ := hg2
    simp only [Option.some.injEq, Prod.mk.injEq] at heq
    obtain ⟨e1, e2, e3⟩ := heq
    subst e1; subst e2; subst e3
    have hP1 := updateProps_atZero scope stack props scope1 props1 h hup
    obtain ⟨hP3, hT3⟩ := ih scope1 props1 fix3 scope3 props3 hP1 hgr
    refine ⟨hP3, fun ht => ?_⟩
    simp only [allTextsFF, Bool.and_eq_true] at ht
    simp [allTextsGF, graphifyTerm_texts p term ht.1, hT3 ht.2]

theorem graphifyVisitObj_single (p : String → Bool) (item : FixedItem)
    (res : List GraphTerm × List Bool × PropsMap)
    (h : graphifyVisitObj (FixedObj.last item) 0 [] [] [] Map.empty = some res) :
    ∃ t, res.1 = [t] ∧ res.2.1 = [] ∧ (Map.values res.2.2).all spanAtZero = true ∧
      (allTextsFI p item = true → allTextsGT p t = true) := by
  have hEmpty : AvlAll entryAtZero (Map.empty : PropsMap) = true := rfl
  cases item with
  | term term =>
    simp only [graphifyVisitObj, closeProps, bind, Option.bind_eq_some,
      Option.some.injEq] at h
    obtain ⟨props2, hp2, heq⟩ := h
    subst hp2
    subst heq
    exact ⟨graphifyTerm term, rfl, rfl, rfl,
      fun ht => graphifyTerm_texts p term ht⟩
  | fix fx =>
    simp only [graphifyVisitObj, bind, Option.bind_eq_some] at h
    obtain ⟨⟨fix1, scope1, props1⟩, hgf, h2⟩ := h
    obtain ⟨props2, hcp, heq⟩ := h2
    simp only [Option.some.injEq] at heq
    subst heq
    obtain ⟨hP1, hT1⟩ :=
      graphifyVisitFix_atZero p fx [] Map.empty fix1 scope1 props1 hEmpty hgf
    have hP2 := closeProps_atZero scope1 props1 props2 hP1 hcp
    refine ⟨GraphTerm.fix fix1, rfl, rfl, ?_, ?_⟩
    · exact avlAll_values entryAtZero spanAtZero
        (fun k v hv => by simpa [entryAtZero] using hv) props2 hP2
    · intro ht
      simpa [allTextsGT] using hT1 ht

theorem transpose_noop : ∀ (vs : List (Property (Nat × Option Nat))) (g g1 : Graph),
    vs.all spanAtZero = true → transpose g vs = some g1 → g1 = g := by
  intro vs
  induction vs with
  | nil =>
    intro g g1 h ht
    simp only [transpose, Option.some.injEq] at ht
    exact ht.symm
  | cons v rest ih =>
    intro g g1 h ht
    simp only [List.all_cons, Bool.and_eq_true] at h
    obtain ⟨hv, hrest⟩ := h
    cases v with
    | grp val =>
      rcases val with ⟨f, o⟩
      obtain ⟨hf, ho⟩ := spanAtZero_grp_elim f o hv
      subst hf
      rcases ho with rfl | rfl
      · simp [transpose] at ht
      · simp only [transpose, if_pos] at ht
        exact ih g g1 hrest ht
    | seq val =>
      rcases val with ⟨f, o⟩
      obtain ⟨hf, ho⟩ := spanAtZero_seq_elim f o hv
      subst hf
      rcases ho with rfl | rfl
      · simp [transpose] at ht
      · simp only [transpose, if_pos] at ht
        exact ih g g1 hrest ht

theorem graphify_single (p : String → Bool) :
    ∀ (fdoc : FixedDoc) (gdoc : GraphDoc),
      fixedDocSingle fdoc = true → allTextsFD p fdoc = true →
      graphify fdoc = some gdoc →
      graphDocSingle p gdoc = true ∧ graphNumBreaks gdoc = fixedNumBreaks fdoc := by
  intro fdoc
  induction fdoc with
  | Eod =>
    intro gdoc hs ht hg
    simp only [graphify, Option.some.injEq] at hg
    subst hg
    exact ⟨rfl, rfl⟩
  | Break obj doc1 ih =>
    intro gdoc hs ht hg
    simp only [fixedDocSingle, Bool.and_eq_true] at hs
    simp only [allTextsFD, Bool.and_eq_true] at ht
    cases obj with
    | next item comp obj1 => simp [fixedObjSingle] at hs
    | last item =>
      simp only [graphify, bind, Option.bind_eq_some] at hg
      obtain ⟨⟨nodes, pads, props⟩, h1, h2⟩ := hg
      obtain ⟨g, hT, h3⟩ := h2
      obtain ⟨doc2, hD, heq⟩ := h3
      simp only [Option.some.injEq] at heq
      subst heq
      obtain ⟨t, hn, hp, hv, htx⟩ := graphifyVisitObj_single p item (nodes, pads, props) h1
      dsimp only at hn hp hv
      subst hn; subst hp
      have hg' : g = Graph.ofTerms [t] := transpose_noop _ _ _ hv hT
      subst hg'
      obtain ⟨hGs, hGn⟩ := ih doc2 hs.2 ht.2 hD
      constructor
      · have htt : allTextsGT p t = true := htx ht.1
        simp [graphDocSingle, nodeSingle, Graph.ofTerms, hGs, htt]
      · simp [graphNumBreaks, fixedNumBreaks, hGn]

theorem nodeSingle_elim (p : String → Bool) (g : Graph) (h : nodeSingle p g = true) :
    ∃ n, g.nodes = [n] ∧ allTextsGT p n.term = true ∧ n.ins = [] ∧ n.outs = [] := by
  unfold nodeSingle at h
  cases hgn : g.nodes with
  | nil => rw [hgn] at h; simp at h
  | cons n tail =>
    cases tail with
    | nil =>
      rw [hgn] at h
      simp only [Bool.and_eq_true, List.isEmpty_eq_true] at h
      exact ⟨n, rfl, h.1.1, h.1.2, h.2⟩
    | cons n2 t2 => rw [hgn] at h; simp at h

theorem solveVisitNode_one (g : Graph) (n : GraphNode) (hgn : g.nodes = [n])
    (hni : n.ins = []) (hno : n.outs = []) : solveVisitNode g 1 0 = some g := by
  have hget : g.getNode 0 = some n := by simp [Graph.getNode, hgn]
  rw [show (1 : Nat) = 0 + 1 from rfl]
  simp [solveVisitNode, hget, hni, hno, bind]

theorem solve_noop (p : String → Bool) :
    ∀ (gdoc gdoc1 : GraphDoc), graphDocSingle p gdoc = true →
      solve gdoc = some gdoc1 → gdoc1 = gdoc := by
  intro gdoc
  induction gdoc with
  | Eod =>
    intro gdoc1 h hs
    simp only [solve, Option.some.injEq] at hs
    exact hs.symm
  | Break g pads d ih =>
    intro gdoc1 h hs
    simp only [graphDocSingle, Bool.and_eq_true] at h
    obtain ⟨⟨hns, hpe⟩, hd⟩ := h
    obtain ⟨n, hgn, hnt, hni, hno⟩ := nodeSingle_elim p g hns
    simp only [solve, bind, Option.bind_eq_some] at hs
    obtain ⟨g1, hg1, hs2⟩ := hs
    obtain ⟨d2, hd2, heq⟩ := hs2
    simp only [Option.some.injEq] at heq
    subst heq
    rw [hgn] at hg1
    simp only [List.length_cons, List.length_nil] at hg1
    rw [solveVisitNode_one g n hgn hni hno] at hg1
    simp only [Option.some.injEq] at hg1
    subst hg1
    rw [ih d2 hd hd2]

theorem topology_single (g : Graph) (n : GraphNode) (hgn : g.nodes = [n])
    (hni : n.ins = []) (hno : n.outs = []) :
    topology g = some ([n.term], [0], [[]]) := by
  have hTN : topologyNode g n = some (n.term, 0, []) := by
    simp [topologyNode, hno, hni, List.mapM, List.mapM.loop, bind, pure]
  simp [topology, hgn, hTN, List.mapM, List.mapM.loop, bind, pure]

theorem rebuildVisitTerm_texts (p : String → Bool) :
    ∀ (t1 : RebuildTerm) (t : GraphTerm),
      rebuildVisitTerm t = some t1 → allTextsGT p t = true →
      allTextsRT p t1 = true := by
  intro t1
  induction t1 with
  | null => intro t h ht; rfl
  | text data =>
    intro t h ht
    cases t with
    | text d2 =>
      simp only [rebuildVisitTerm, Option.some.injEq, RebuildTerm.text.injEq] at h
      subst h
      exact ht
    | null => simp [rebuildVisitTerm] at h
    | nest t2 =>
      simp only [rebuildVisitTerm, Option.map_eq_some'] at h
      obtain ⟨t3, h3, hh⟩ := h
      cases hh
    | pack i t2 =>
      simp only [rebuildVisitTerm, Option.map_eq_some'] at h
      obtain ⟨t3, h3, hh⟩ := h
      cases hh
    | fix fx => simp [rebuildVisitTerm] at h
  | nest t1 ih =>
    intro t h ht
    cases t with
    | text d2 => simp [rebuildVisitTerm] at h
    | null => simp [rebuildVisitTerm] at h
    | nest t2 =>
      simp only [rebuildVisitTerm, Option.map_eq_some'] at h
      obtain ⟨t3, h3, hh⟩ := h
      cases hh
      simp only [allTextsGT] at ht
      simpa [allTextsRT] using ih t2 h3 ht
    | pack i t2 =>
      simp only [rebuildVisitTerm, Option.map_eq_some'] at h
      obtain ⟨t3, h3, hh⟩ := h
      cases hh
    | fix fx => simp [rebuildVisitTerm] at h
  | pack index t1 ih =>
    intro t h ht
    cases t with
    | text d2 => simp [rebuildVisitTerm] at h
    | null => simp [rebuildVisitTerm] at h
    | nest t2 =>
      simp only [rebuildVisitTerm, Option.map_eq_some'] at h
      obtain ⟨t3, h3, hh⟩ := h
      cases hh
    | pack i t2 =>
      simp only [rebuildVisitTerm, Option.map_eq_some'] at h
      obtain ⟨t3, h3, hh⟩ := h
      cases hh
      simp only [allTextsGT] at ht
      simpa [allTextsRT] using ih t2 h3 ht
    | fix fx => simp [rebuildVisitTerm] at h

theorem rebuildVisitFix_texts (p : String → Bool) :
    ∀ (fix1 : RebuildFix) (fx : GraphFix),
      rebuildVisitFix fx = some fix1 → allTextsGF p fx = true →
      allTextsRF p fix1 = true := by
  intro fix1
  induction fix1 with
  | term t1 =>
    intro fx h ht
    cases fx with
    | last term =>
      simp only [rebuildVisitFix, Option.map_eq_some'] at h
      obtain ⟨t2, h2, hh⟩ := h
      cases hh
      simp only [allTextsGF] at ht
      simpa [allTextsRF] using rebuildVisitTerm_texts p _ term h2 ht
    | next term fx2 pad =>
      simp only [rebuildVisitFix, bind, Option.bind_eq_some, Option.some.injEq] at h
      obtain ⟨t2, h2, f2, h4, hh⟩ := h
      cases hh
  | comp l r pad ihl ihr =>
    intro fx h ht
    cases fx with
    | last term =>
      simp only [rebuildVisitFix, Option.map_eq_some'] at h
      obtain ⟨t2, h2, hh⟩ := h
      cases hh
    | next term fx2 pad2 =>
      simp only [rebuildVisitFix, bind, Option.bind_eq_some, Option.some.injEq] at h
      obtain ⟨t2, h2, f2, h4, hh⟩ := h
      cases hh
      simp only [allTextsGF, Bool.and_eq_true] at ht
      simp [allTextsRF, allTextsRT, rebuildVisitTerm_texts p t2 term h2 ht.1,
        ihr fx2 h4 ht.2]

theorem rebuildLine_single (p : String → Bool) (t : GraphTerm) (robj : RebuildObj)
    (ht : allTextsGT p t = true)
    (h : rebuildVisitLine [t] [] [0] [[]] [fun o => o] (fun o => o) = some robj) :
    rebuildObjAtomic robj = true ∧ allTextsRO p robj = true := by
  cases t with
  | fix fx =>
    simp only [rebuildVisitLine, bind, Option.bind_eq_some] at h
    obtain ⟨fix1, hfx, h2⟩ := h
    simp only [rebuildVisitLineLast, rebuildFinal, List.isEmpty_nil, if_true,
      Option.some.injEq] at h2
    subst h2
    refine ⟨rfl, ?_⟩
    simp only [allTextsGT] at ht
    simpa [allTextsRO] using rebuildVisitFix_texts p fix1 fx hfx ht
  | null =>
    simp only [rebuildVisitLine, rebuildVisitTerm, bind, Option.bind_eq_some,
      Option.some.injEq] at h
    obtain ⟨t1, ht1, h2⟩ := h
    subst ht1
    simp only [rebuildVisitLineLast, rebuildFinal, List.isEmpty_nil, if_true,
      Option.some.injEq] at h2
    subst h2
    exact ⟨rfl, rfl⟩
  | text data =>
    simp only [rebuildVisitLine, rebuildVisitTerm, bind, Option.bind_eq_some,
      Option.some.injEq] at h
    obtain ⟨t1, ht1, h2⟩ := h
    subst ht1
    simp only [rebuildVisitLineLast, rebuildFinal, List.isEmpty_nil, if_true,
      Option.some.injEq] at h2
    subst h2
    exact ⟨rfl, ht⟩
  | nest t2 =>
    simp only [rebuildVisitLine, bind, Option.bind_eq_some] at h
    obtain ⟨t1, ht1, h2⟩ := h
    simp only [rebuildVisitLineLast, rebuildFinal, List.isEmpty_nil, if_true,
      Option.some.injEq] at h2
    subst h2
    refine ⟨rfl, ?_⟩
    simpa [allTextsRO] using rebuildVisitTerm_texts p t1 (GraphTerm.nest t2) ht1 ht
  | pack index t2 =>
    simp only [rebuildVisitLine, bind, Option.bind_eq_some] at h
    obtain ⟨t1, ht1, h2⟩ := h
    simp only [rebuildVisitLineLast, rebuildFinal, List.isEmpty_nil, if_true,
      Option.some.injEq] at h2
    subst h2
    refine ⟨rfl, ?_⟩
    simpa [allTextsRO] using rebuildVisitTerm_texts p t1 (GraphTerm.pack index t2) ht1 ht

theorem rebuildDoc_single (p : String → Bool) :
    ∀ (gdoc : GraphDoc) (rdoc : RebuildDoc),
      graphDocSingle p gdoc = true → rebuildDoc gdoc = some rdoc →
      rebuildDocAtomic rdoc = true ∧ allTextsRD p rdoc = true ∧
      rebuildNumBreaks rdoc = graphNumBreaks gdoc := by
  intro gdoc
  induction gdoc with
  | Eod =>
    intro rdoc h hr
    simp only [rebuildDoc, Option.some.injEq] at hr
    subst hr
    exact ⟨rfl, rfl, rfl⟩
  | Break g pads d ih =>
    intro rdoc h hr
    simp only [graphDocSingle, Bool.and_eq_true] at h
    obtain ⟨⟨hns, hpe⟩, hd⟩ := h
    obtain ⟨n, hgn, hnt, hni, hno⟩ := nodeSingle_elim p g hns
    have hpads : pads = [] := List.isEmpty_eq_true.mp hpe
    subst hpads
    simp only [rebuildDoc, bind, Option.bind_eq_some] at hr
    obtain ⟨⟨terms, ins, outs⟩, htp, hr2⟩ := hr
    obtain ⟨obj, hline, hr3⟩ := hr2
    obtain ⟨rest, hrest, heq⟩ := hr3
    simp only [Option.some.injEq] at heq
    subst heq
    rw [topology_single g n hgn hni hno] at htp
    simp only [Option.some.injEq, Prod.mk.injEq] at htp
    obtain ⟨e1, e2, e3⟩ := htp
    subst e1; subst e2; subst e3
    obtain ⟨hA, hT⟩ := rebuildLine_single p n.term obj hnt hline
    obtain ⟨h1, h2, h3⟩ := ih rest hd hrest
    exact ⟨by simp [rebuildDocAtomic, hA, h1],
      by simp [allTextsRD, hT, h2],
      by simp [rebuildNumBreaks, graphNumBreaks, h3]⟩

theorem structurize_single (p : String → Bool) (fdoc : FixedDoc) (rdoc : RebuildDoc)
    (hs : fixedDocSingle fdoc = true) (ht : allTextsFD p fdoc = true)
    (h : structurize fdoc = some rdoc) :
    rebuildDocAtomic rdoc = true ∧ allTextsRD p rdoc = true ∧
    rebuildNumBreaks rdoc = fixedNumBreaks fdoc := by
  simp only [structurize, bind, Option.bind_eq_some] at h
  obtain ⟨gdoc, hg, h2⟩ := h
  obtain ⟨gdoc2, hsv, hrb⟩ := h2
  obtain ⟨hGs, hGn⟩ := graphify_single p fdoc gdoc hs ht hg
  have hEq : gdoc2 = gdoc := solve_noop p gdoc gdoc2 hGs hsv
  subst hEq
  obtain ⟨h1, h2, h3⟩ := rebuildDoc_single p gdoc2 rdoc hGs hrb
  exact ⟨h1, h2, by rw [h3, hGn]⟩



/-! ### Pass 6 (denull) on atomic objects. -/

theorem denullTerm_texts (p : String → Bool) :
    ∀ (t : RebuildTerm) (t1 : DenullTerm), denullTerm t = some t1 →
      allTextsRT p t = true → allTextsDT p t1 = true := by
  intro t
  induction t with
  | null => intro t1 h ht; simp [denullTerm] at h
  | text data =>
    intro t1 h ht
    simp only [denullTerm] at h
    split at h
    · simp at h
    · simp only [Option.some.injEq] at h
      subst h
      exact ht
  | nest t ih =>
    intro t1 h ht
    simp only [denullTerm, Option.map_eq_some'] at h
    obtain ⟨t2, h2, hh⟩ := h
    subst hh
    simp only [allTextsRT] at ht
    simpa [allTextsDT] using ih t2 h2 ht
  | pack index t ih =>
    intro t1 h ht
    simp only [denullTerm, Option.map_eq_some'] at h
    obtain ⟨t2, h2, hh⟩ := h
    subst hh
    simp only [allTextsRT] at ht
    simpa [allTextsDT] using ih t2 h2 ht

theorem denullVisitFix_texts (p : String → Bool) :
    ∀ (fx : RebuildFix) (res : DenullRes DenullFix),
      denullVisitFix fx = some res → allTextsRF p fx = true →
      (∀ f1, res = DenullRes.lastSome f1 → allTextsDF p f1 = true) ∧
      (∀ b f1, res = DenullRes.nextNone b f1 → allTextsDF p f1 = true) := by
  intro fx
  induction fx with
  | term term =>
    intro res h ht
    simp only [denullVisitFix] at h
    cases hD : denullTerm term with
    | none =>
      rw [hD] at h
      simp only [Option.some.injEq] at h
      subst h
      exact ⟨fun f1 hf => (nomatch hf), fun b f1 hf => nomatch hf⟩
    | some t1 =>
      rw [hD] at h
      simp only [Option.some.injEq] at h
      subst h
      refine ⟨fun f1 hf => ?_, fun b f1 hf => nomatch hf⟩
      cases hf
      simpa [allTextsDF] using denullTerm_texts p term t1 hD ht
  | comp l r lPad ihl ihr =>
    intro res h ht
    simp only [allTextsRF, Bool.and_eq_true] at ht
    simp only [denullVisitFix, bind, Option.bind_eq_some] at h
    obtain ⟨lRes, hL, h2⟩ := h
    have ihL := ihl lRes hL ht.1
    cases lRes with
    | lastNone =>
      simp only [bind, Option.bind_eq_some] at h2
      obtain ⟨rRes, hR, h3⟩ := h2
      have ihR := ihr rRes hR ht.2
      cases rRes with
      | lastNone =>
        simp only [Option.some.injEq] at h3
        subst h3
        exact ⟨fun f1 hf => (nomatch hf), fun b f1 hf => nomatch hf⟩
      | lastSome r1 =>
        simp only [Option.some.injEq] at h3
        subst h3
        refine ⟨fun f1 hf => (nomatch hf), fun b f1 hf => ?_⟩
        cases hf
        exact ihR.1 _ rfl
      | nextNone rb r1 =>
        simp only [Option.some.injEq] at h3
        subst h3
        refine ⟨fun f1 hf => (nomatch hf), fun b f1 hf => ?_⟩
        cases hf
        exact ihR.2 rb _ rfl
    | lastSome l1 =>
      simp only [bind, Option.bind_eq_some] at h2
      obtain ⟨rRes, hR, h3⟩ := h2
      have ihR := ihr rRes hR ht.2
      have hl1 : allTextsDF p l1 = true := ihL.1 l1 rfl
      cases rRes with
      | lastNone =>
        simp only [Option.some.injEq] at h3
        subst h3
        refine ⟨fun f1 hf => ?_, fun b f1 hf => nomatch hf⟩
        cases hf
        exact hl1
      | lastSome r1 =>
        simp only [Option.some.injEq] at h3
        subst h3
        refine ⟨fun f1 hf => ?_, fun b f1 hf => nomatch hf⟩
        cases hf
        simp [allTextsDF, hl1, ihR.1 r1 rfl]
      | nextNone rb r1 =>
        simp only [Option.some.injEq] at h3
        subst h3
        refine ⟨fun f1 hf => ?_, fun b f1 hf => nomatch hf⟩
        cases hf
        simp [allTextsDF, hl1, ihR.2 rb r1 rfl]
    | nextNone b1 o1 => simp at h2

theorem denullVisitObj_atomic (p : String → Bool) (obj : RebuildObj)
    (res : DenullRes DenullObj)
    (ha : rebuildObjAtomic obj = true) (ht : allTextsRO p obj = true)
    (h : denullVisitObj obj = some res) :
    res = DenullRes.lastNone ∨
      ∃ obj1, res = DenullRes.lastSome obj1 ∧ denullObjAtomic obj1 = true ∧
        allTextsDO p obj1 = true := by
  cases obj with
  | term term =>
    simp only [denullVisitObj] at h
    cases hD : denullTerm term with
    | none =>
      rw [hD] at h
      simp only [Option.some.injEq] at h
      subst h
      exact Or.inl rfl
    | some t1 =>
      rw [hD] at h
      simp only [Option.some.injEq] at h
      subst h
      exact Or.inr ⟨DenullObj.term t1, rfl, rfl,
        by simpa [allTextsDO] using denullTerm_texts p term t1 hD ht⟩
  | fix fx =>
    simp only [denullVisitObj, bind, Option.bind_eq_some] at h
    obtain ⟨fres, hF, h2⟩ := h
    have hTF := denullVisitFix_texts p fx fres hF (by simpa [allTextsRO] using ht)
    cases fres with
    | lastNone =>
      simp only [Option.some.injEq] at h2
      subst h2
      exact Or.inl rfl
    | lastSome f1 =>
      simp only [Option.some.injEq] at h2
      subst h2
      exact Or.inr ⟨DenullObj.fix f1, rfl, rfl,
        by simpa [allTextsDO] using hTF.1 f1 rfl⟩
    | nextNone b f1 =>
      simp only [Option.some.injEq] at h2
      subst h2
      exact Or.inr ⟨DenullObj.fix f1, rfl, rfl,
        by simpa [allTextsDO] using hTF.2 b f1 rfl⟩
  | grp o => simp [rebuildObjAtomic] at ha
  | seq o => simp [rebuildObjAtomic] at ha
  | comp a b pd => simp [rebuildObjAtomic] at ha

theorem denullVisitDoc_facts (p : String → Bool) :
    ∀ (rdoc : RebuildDoc) (res : Option DenullDoc),
      rebuildDocAtomic rdoc = true → allTextsRD p rdoc = true →
      denullVisitDoc rdoc = some res →
      (res = none → rebuildNumBreaks rdoc = 0) ∧
      (∀ dd, res = some dd → denullDocAtomic dd = true ∧ allTextsDD p dd = true ∧
        denullNl dd + 1 = rebuildNumBreaks rdoc) := by
  intro rdoc
  induction rdoc with
  | Eod =>
    intro res ha ht h
    simp only [denullVisitDoc, Option.some.injEq] at h
    subst h
    exact ⟨fun _ => rfl, fun dd hdd => nomatch hdd⟩
  | Break obj d1 ih =>
    intro res ha ht h
    simp only [rebuildDocAtomic, Bool.and_eq_true] at ha
    simp only [allTextsRD, Bool.and_eq_true] at ht
    simp only [denullVisitDoc, bind, Option.bind_eq_some] at h
    obtain ⟨objRes, hO, h2⟩ := h
    obtain ⟨rest, hRest, h3⟩ := h2
    have hOr := denullVisitObj_atomic p obj objRes ha.1 ht.1 hO
    obtain ⟨ihN, ihS⟩ := ih rest ha.2 ht.2 hRest
    rcases hOr with rfl | ⟨obj1, rfl, hA1, hT1⟩
    · cases rest with
      | none =>
        simp only [Option.some.injEq] at h3
        subst h3
        refine ⟨fun hh => (nomatch hh), fun dd hdd => ?_⟩
        cases hdd
        have hz := ihN rfl
        exact ⟨rfl, rfl, by simp [denullNl, rebuildNumBreaks, hz]⟩
      | some dd1 =>
        simp only [Option.some.injEq] at h3
        subst h3
        refine ⟨fun hh => (nomatch hh), fun dd hdd => ?_⟩
        cases hdd
        obtain ⟨hA, hT, hC⟩ := ihS dd1 rfl
        refine ⟨by simpa [denullDocAtomic] using hA,
          by simpa [allTextsDD] using hT, ?_⟩
        simp only [denullNl, rebuildNumBreaks]
        omega
    · cases rest with
      | none =>
        simp only [Option.some.injEq] at h3
        subst h3
        refine ⟨fun hh => (nomatch hh), fun dd hdd => ?_⟩
        cases hdd
        have hz := ihN rfl
        exact ⟨by simpa [denullDocAtomic] using hA1,
          by simpa [allTextsDD] using hT1,
          by simp [denullNl, rebuildNumBreaks, hz]⟩
      | some dd1 =>
        simp only [Option.some.injEq] at h3
        subst h3
        refine ⟨fun hh => (nomatch hh), fun dd hdd => ?_⟩
        cases hdd
        obtain ⟨hA, hT, hC⟩ := ihS dd1 rfl
        refine ⟨by simp [denullDocAtomic, hA1, hA],
          by simp [allTextsDD, hT1, hT], ?_⟩
        simp only [denullNl, rebuildNumBreaks]
        omega

theorem denull_single (p : String → Bool) (rdoc : RebuildDoc) (dd : DenullDoc)
    (ha : rebuildDocAtomic rdoc = true) (ht : allTextsRD p rdoc = true)
    (h : denull rdoc = some dd) :
    denullDocAtomic dd = true ∧ allTextsDD p dd = true ∧
    (rebuildNumBreaks rdoc = 0 ∨ denullNl dd + 1 = rebuildNumBreaks rdoc) := by
  simp only [denull, bind, Option.bind_eq_some] at h
  obtain ⟨res, hres, heq⟩ := h
  obtain ⟨hN, hS⟩ := denullVisitDoc_facts p rdoc res ha ht hres
  cases res with
  | none =>
    simp only [Option.getD, Option.some.injEq] at heq
    subst heq
    exact ⟨rfl, rfl, Or.inl (hN rfl)⟩
  | some dd1 =>
    simp only [Option.getD, Option.some.injEq] at heq
    subst heq
    obtain ⟨h1, h2, h3⟩ := hS dd1 rfl
    exact ⟨h1, h2, Or.inr h3⟩

/-! ### Pass 7 (identities) on atomic objects. -/

theorem elimSeqsObj_atomic (p : String → Bool) (obj : DenullObj) (b : Bool)
    (ha : denullObjAtomic obj = true) (ht : allTextsDO p obj = true) :
    denullObjAtomic (elimSeqsObj obj b).2 = true ∧
    allTextsDO p (elimSeqsObj obj b).2 = true := by
  cases obj with
  | term t => exact ⟨rfl, by simpa [elimSeqsObj] using ht⟩
  | fix fx =>
    cases fx with
    | term t => exact ⟨rfl, by simpa [elimSeqsObj, allTextsDO, allTextsDF] using ht⟩
    | comp a b2 pd => exact ⟨rfl, by simpa [elimSeqsObj] using ht⟩
  | grp o => simp [denullObjAtomic] at ha
  | seq o => simp [denullObjAtomic] at ha
  | comp a b2 pd => simp [denullObjAtomic] at ha

theorem elimGrpsObj_atomic (p : String → Bool) (obj : DenullObj) (b : Bool)
    (ha : denullObjAtomic obj = true) (ht : allTextsDO p obj = true) :
    denullObjAtomic (elimGrpsObj obj b).2 = true ∧
    allTextsDO p (elimGrpsObj obj b).2 = true := by
  cases obj with
  | term t => exact ⟨rfl, by simpa [elimGrpsObj] using ht⟩
  | fix fx =>
    cases fx with
    | term t => exact ⟨rfl, by simpa [elimGrpsObj, allTextsDO, allTextsDF] using ht⟩
    | comp a b2 pd => exact ⟨rfl, by simpa [elimGrpsObj] using ht⟩
  | grp o => simp [denullObjAtomic] at ha
  | seq o => simp [denullObjAtomic] at ha
  | comp a b2 pd => simp [denullObjAtomic] at ha

theorem elimSeqsDoc_single (p : String → Bool) : ∀ dd : DenullDoc,
    denullDocAtomic dd = true → allTextsDD p dd = true →
    denullDocAtomic (elimSeqsDoc dd) = true ∧
    allTextsDD p (elimSeqsDoc dd) = true ∧
    denullNl (elimSeqsDoc dd) = denullNl dd := by
  intro dd
  induction dd with
  | Eod => intro ha ht; exact ⟨rfl, rfl, rfl⟩
  | Line obj =>
    intro ha ht
    obtain ⟨h1, h2⟩ := elimSeqsObj_atomic p obj false ha ht
    exact ⟨by simpa [elimSeqsDoc, denullDocAtomic] using h1,
      by simpa [elimSeqsDoc, allTextsDD] using h2, rfl⟩
  | Empty d1 ih =>
    intro ha ht
    obtain ⟨h1, h2, h3⟩ := ih (by simpa [denullDocAtomic] using ha)
      (by simpa [allTextsDD] using ht)
    exact ⟨by simpa [elimSeqsDoc, denullDocAtomic] using h1,
      by simpa [elimSeqsDoc, allTextsDD] using h2,
      by simp [elimSeqsDoc, denullNl, h3]⟩
  | Break obj d1 ih =>
    intro ha ht
    simp only [denullDocAtomic, Bool.and_eq_true] at ha
    simp only [allTextsDD, Bool.and_eq_true] at ht
    obtain ⟨h1, h2⟩ := elimSeqsObj_atomic p obj false ha.1 ht.1
    obtain ⟨h3, h4, h5⟩ := ih ha.2 ht.2
    exact ⟨by simp [elimSeqsDoc, denullDocAtomic, h1, h3],
      by simp [elimSeqsDoc, allTextsDD, h2, h4],
      by simp [elimSeqsDoc, denullNl, h5]⟩

theorem elimGrpsDoc_single (p : String → Bool) : ∀ dd : DenullDoc,
    denullDocAtomic dd = true → allTextsDD p dd = true →
    denullDocAtomic (elimGrpsDoc dd) = true ∧
    allTextsDD p (elimGrpsDoc dd) = true ∧
    denullNl (elimGrpsDoc dd) = denullNl dd := by
  intro dd
  induction dd with
  | Eod => intro ha ht; exact ⟨rfl, rfl, rfl⟩
  | Line obj =>
    intro ha ht
    obtain ⟨h1, h2⟩ := elimGrpsObj_atomic p obj true ha ht
    exact ⟨by simpa [elimGrpsDoc, denullDocAtomic] using h1,
      by simpa [elimGrpsDoc, allTextsDD] using h2, rfl⟩
  | Empty d1 ih =>
    intro ha ht
    obtain ⟨h1, h2, h3⟩ := ih (by simpa [denullDocAtomic] using ha)
      (by simpa [allTextsDD] using ht)
    exact ⟨by simpa [elimGrpsDoc, denullDocAtomic] using h1,
      by simpa [elimGrpsDoc, allTextsDD] using h2,
      by simp [elimGrpsDoc, denullNl, h3]⟩
  | Break obj d1 ih =>
    intro ha ht
    simp only [denullDocAtomic, Bool.and_eq_true] at ha
    simp only [allTextsDD, Bool.and_eq_true] at ht
    obtain ⟨h1, h2⟩ := elimGrpsObj_atomic p obj true ha.1 ht.1
    obtain ⟨h3, h4, h5⟩ := ih ha.2 ht.2
    exact ⟨by simp [elimGrpsDoc, denullDocAtomic, h1, h3],
      by simp [elimGrpsDoc, allTextsDD, h2, h4],
      by simp [elimGrpsDoc, denullNl, h5]⟩

theorem identities_single (p : String → Bool) (dd : DenullDoc)
    (ha : denullDocAtomic dd = true) (ht : allTextsDD p dd = true) :
    denullDocAtomic (identities dd) = true ∧
    allTextsDD p (identities dd) = true ∧
    denullNl (identities dd) = denullNl dd := by
  obtain ⟨h1, h2, h3⟩ := elimSeqsDoc_single p dd ha ht
  obtain ⟨h4, h5, h6⟩ := elimGrpsDoc_single p (elimSeqsDoc dd) h1 h2
  exact ⟨h4, h5, by simp [identities, h6, h3]⟩

/-! ### Pass 8 (reassociate) is the identity on atomic objects. -/

theorem reassocObj_atomic (obj : DenullObj) (ha : denullObjAtomic obj = true) :
    reassocObj obj (fun x => x) = obj := by
  cases obj with
  | term t => rfl
  | fix fx => rfl
  | grp o => simp [denullObjAtomic] at ha
  | seq o => simp [denullObjAtomic] at ha
  | comp a b pd => simp [denullObjAtomic] at ha

theorem reassociate_atomic : ∀ dd : DenullDoc, denullDocAtomic dd = true →
    reassociate dd = dd := by
  intro dd
  induction dd with
  | Eod => intro ha; rfl
  | Line obj => intro ha; simp [reassociate, reassocObj_atomic obj ha]
  | Empty d1 ih =>
    intro ha
    simp [reassociate, ih (by simpa [denullDocAtomic] using ha)]
  | Break obj d1 ih =>
    intro ha
    simp only [denullDocAtomic, Bool.and_eq_true] at ha
    simp [reassociate, reassocObj_atomic obj ha.1, ih ha.2]

/-! ### Pass 9 (rescope) on atomic objects. -/

theorem applyProps_compFree : ∀ (ps : List ScopeProp) (obj : FinalDocObj),
    finalObjCompFree obj = true → finalObjCompFree (applyProps ps obj) = true := by
  intro ps
  induction ps with
  | nil => intro obj h; exact h
  | cons pr rest ih =>
    intro obj h
    cases pr <;> simp [applyProps, finalObjCompFree, ih obj h]

theorem applyProps_texts (p : String → Bool) : ∀ (ps : List ScopeProp)
    (obj : FinalDocObj),
    allTextsXO p (applyProps ps obj) = allTextsXO p obj := by
  intro ps
  induction ps with
  | nil => intro obj; rfl
  | cons pr rest ih =>
    intro obj
    cases pr <;> simp [applyProps, allTextsXO, ih obj]

theorem rescopeTerm_facts (p : String → Bool) : ∀ t : DenullTerm,
    finalObjCompFree (rescopeTerm t).2 = true ∧
    (allTextsDT p t = true → allTextsXO p (rescopeTerm t).2 = true) := by
  intro t
  induction t with
  | text data => exact ⟨rfl, fun h => h⟩
  | nest t ih =>
    rcases hR : rescopeTerm t with ⟨props, obj⟩
    rw [hR] at ih
    refine ⟨by simp [rescopeTerm, hR]; exact ih.1, fun h => ?_⟩
    simp only [rescopeTerm, hR]
    exact ih.2 (by simpa [allTextsDT] using h)
  | pack index t ih =>
    rcases hR : rescopeTerm t with ⟨props, obj⟩
    rw [hR] at ih
    refine ⟨by simp [rescopeTerm, hR]; exact ih.1, fun h => ?_⟩
    simp only [rescopeTerm, hR]
    exact ih.2 (by simpa [allTextsDT] using h)

theorem rescopeFixTerm_texts (p : String → Bool) : ∀ t : DenullTerm,
    allTextsDT p t = true → allTextsXF p (rescopeFixTerm t).2 = true := by
  intro t
  induction t with
  | text data => intro h; exact h
  | nest t ih =>
    intro h
    rcases hR : rescopeFixTerm t with ⟨props, obj⟩
    rw [hR] at ih
    simp only [rescopeFixTerm, hR]
    exact ih (by simpa [allTextsDT] using h)
  | pack index t ih =>
    intro h
    rcases hR : rescopeFixTerm t with ⟨props, obj⟩
    rw [hR] at ih
    simp only [rescopeFixTerm, hR]
    exact ih (by simpa [allTextsDT] using h)

theorem rescopeVisitFix_texts (p : String → Bool) : ∀ fx : DenullFix,
    allTextsDF p fx = true → allTextsXF p (rescopeVisitFix fx).2 = true := by
  intro fx
  induction fx with
  | term t =>
    intro h
    simp only [rescopeVisitFix]
    exact rescopeFixTerm_texts p t h
  | comp l r pd ihl ihr =>
    intro h
    simp only [allTextsDF, Bool.and_eq_true] at h
    rcases hL : rescopeVisitFix l with ⟨lProps, left1⟩
    rcases hR : rescopeVisitFix r with ⟨rProps, right1⟩
    rw [hL] at ihl
    rw [hR] at ihr
    simp only [rescopeVisitFix, hL, hR]
    simp [allTextsXF, ihl h.1, ihr h.2]

theorem rescopeVisitObj_atomic (p : String → Bool) (obj : DenullObj)
    (ha : denullObjAtomic obj = true) (ht : allTextsDO p obj = true) :
    finalObjCompFree (rescopeVisitObj obj).2 = true ∧
    allTextsXO p (rescopeVisitObj obj).2 = true := by
  cases obj with
  | term t =>
    have hF := rescopeTerm_facts p t
    exact ⟨by simpa [rescopeVisitObj] using hF.1,
      by simpa [rescopeVisitObj] using hF.2 ht⟩
  | fix fx =>
    rcases hF : rescopeVisitFix fx with ⟨props, fix1⟩
    have hT := rescopeVisitFix_texts p fx (by simpa [allTextsDO] using ht)
    rw [hF] at hT
    exact ⟨by simp [rescopeVisitObj, hF, finalObjCompFree],
      by simpa [rescopeVisitObj, hF, allTextsXO] using hT⟩
  | grp o => simp [denullObjAtomic] at ha
  | seq o => simp [denullObjAtomic] at ha
  | comp a b pd => simp [denullObjAtomic] at ha

theorem rescope_single (p : String → Bool) : ∀ dd : DenullDoc,
    denullDocAtomic dd = true → allTextsDD p dd = true →
    finalDocCompFree (rescope dd) = true ∧ allTextsXD p (rescope dd) = true ∧
    finalNl (rescope dd) = denullNl dd := by
  intro dd
  induction dd with
  | Eod => intro ha ht; exact ⟨rfl, rfl, rfl⟩
  | Line obj =>
    intro ha ht
    obtain ⟨h1, h2⟩ := rescopeVisitObj_atomic p obj ha ht
    rcases hRO : rescopeVisitObj obj with ⟨props, obj1⟩
    rw [hRO] at h1 h2
    refine ⟨?_, ?_, rfl⟩
    · simp only [rescope, hRO, finalDocCompFree]
      exact applyProps_compFree props obj1 h1
    · simp only [rescope, hRO, allTextsXD]
      rw [applyProps_texts]
      exact h2
  | Empty d1 ih =>
    intro ha ht
    obtain ⟨h1, h2, h3⟩ := ih (by simpa [denullDocAtomic] using ha)
      (by simpa [allTextsDD] using ht)
    exact ⟨by simpa [rescope, finalDocCompFree] using h1,
      by simpa [rescope, allTextsXD] using h2,
      by simp [rescope, finalNl, denullNl, h3]⟩
  | Break obj d1 ih =>
    intro ha ht
    simp only [denullDocAtomic, Bool.and_eq_true] at ha
    simp only [allTextsDD, Bool.and_eq_true] at ht
    obtain ⟨h1, h2⟩ := rescopeVisitObj_atomic p obj ha.1 ht.1
    obtain ⟨h3, h4, h5⟩ := ih ha.2 ht.2
    rcases hRO : rescopeVisitObj obj with ⟨props, obj1⟩
    rw [hRO] at h1 h2
    refine ⟨?_, ?_, ?_⟩
    · simp only [rescope, hRO, finalDocCompFree, Bool.and_eq_true]
      exact ⟨applyProps_compFree props obj1 h1, h3⟩
    · simp only [rescope, hRO, allTextsXD, Bool.and_eq_true]
      rw [applyProps_texts]
      exact ⟨h2, h4⟩
    · simp [rescope, hRO, finalNl, denullNl, h5]

/-! ### Pass 10 (heap) is a structural copy. -/

theorem heapFix_texts (p : String → Bool) : ∀ fx : FinalDocObjFix,
    allTextsOF p (heapFix fx) = allTextsXF p fx := by
  intro fx
  induction fx with
  | text data => rfl
  | comp l r pd ihl ihr => simp [heapFix, allTextsOF, allTextsXF, ihl, ihr]

theorem heapObj_compFree : ∀ obj : FinalDocObj,
    docObjCompFree (heapObj obj) = finalObjCompFree obj := by
  intro obj
  induction obj with
  | text data => rfl
  | fix fx => rfl
  | grp o ih => simp [heapObj, docObjCompFree, finalObjCompFree, ih]
  | seq o ih => simp [heapObj, docObjCompFree, finalObjCompFree, ih]
  | nest o ih => simp [heapObj, docObjCompFree, finalObjCompFree, ih]
  | pack index o ih => simp [heapObj, docObjCompFree, finalObjCompFree, ih]
  | comp l r pd ihl ihr => rfl

theorem heapObj_texts (p : String → Bool) : ∀ obj : FinalDocObj,
    allTextsOO p (heapObj obj) = allTextsXO p obj := by
  intro obj
  induction obj with
  | text data => rfl
  | fix fx => simp [heapObj, allTextsOO, allTextsXO, heapFix_texts]
  | grp o ih => simp [heapObj, allTextsOO, allTextsXO, ih]
  | seq o ih => simp [heapObj, allTextsOO, allTextsXO, ih]
  | nest o ih => simp [heapObj, allTextsOO, allTextsXO, ih]
  | pack index o ih => simp [heapObj, allTextsOO, allTextsXO, ih]
  | comp l r pd ihl ihr => simp [heapObj, allTextsOO, allTextsXO, ihl, ihr]

theorem moveToHeap_compFree : ∀ fd : FinalDoc,
    docCompFree (moveToHeap fd) = finalDocCompFree fd := by
  intro fd
  induction fd with
  | Eod => rfl
  | Empty d1 ih => simp [moveToHeap, docCompFree, finalDocCompFree, ih]
  | Break obj d1 ih =>
    simp [moveToHeap, docCompFree, finalDocCompFree, heapObj_compFree, ih]
  | Line obj => simp [moveToHeap, docCompFree, finalDocCompFree, heapObj_compFree]

theorem moveToHeap_texts (p : String → Bool) : ∀ fd : FinalDoc,
    allTextsOD p (moveToHeap fd) = allTextsXD p fd := by
  intro fd
  induction fd with
  | Eod => rfl
  | Empty d1 ih => simp [moveToHeap, allTextsOD, allTextsXD, ih]
  | Break obj d1 ih => simp [moveToHeap, allTextsOD, allTextsXD, heapObj_texts, ih]
  | Line obj => simp [moveToHeap, allTextsOD, allTextsXD, heapObj_texts]

theorem moveToHeap_nl : ∀ fd : FinalDoc, docNl (moveToHeap fd) = finalNl fd := by
  intro fd
  induction fd with
  | Eod => rfl
  | Empty d1 ih => simp [moveToHeap, docNl, finalNl, ih]
  | Break obj d1 ih => simp [moveToHeap, docNl, finalNl, ih]
  | Line obj => rfl



/-! ### Renderer: newline counting on comp-free documents. -/

theorem countNl_append (a b : String) : countNl (a ++ b) = countNl a + countNl b := by
  cases a with
  | mk da =>
    cases b with
    | mk db => simp [countNl, String.append, List.count_append]

theorem countNl_whitespace (n : Nat) : countNl (whitespace n) = 0 := by
  induction n with
  | zero => rfl
  | succ m ih =>
    simp only [countNl, whitespace, List.replicate] at ih ⊢
    simpa [List.count_cons] using ih

theorem countNl_padStr (n : Nat) (r : String) : countNl (padStr n r) = countNl r := by
  simp [padStr, countNl_append, countNl_whitespace]

theorem nlFree_countNl (s : String) (h : nlFree s = true) : countNl s = 0 := by
  simp only [nlFree, List.all_eq_true] at h
  simp only [countNl]
  rw [List.count_eq_zero]
  intro hmem
  have := h _ hmem
  simp at this

theorem renderVisitFix_countNl :
    ∀ (fx : DocObjFix) (s : State) (r : String), allTextsOF nlFree fx = true →
      countNl (renderVisitFix fx s r).2 = countNl r := by
  intro fx
  induction fx with
  | text data =>
    intro s r h
    simp [renderVisitFix, countNl_append, nlFree_countNl data h]
  | comp l r2 pd ihl ihr =>
    intro s r h
    simp only [allTextsOF, Bool.and_eq_true] at h
    rcases hL : renderVisitFix l s r with ⟨s1, r1⟩
    have h1 : countNl r1 = countNl r := by
      have := ihl s r h.1; rw [hL] at this; exact this
    simp only [renderVisitFix, hL]
    rw [ihr _ _ h.2]
    simp [countNl_padStr, h1]

theorem renderVisitObj_countNl :
    ∀ (obj : DocObj) (s : State) (r : String) (s1 : State) (r1 : String),
      docObjCompFree obj = true → allTextsOO nlFree obj = true →
      renderVisitObj obj s r = some (s1, r1) →
      countNl r1 = countNl r := by
  intro obj
  induction obj with
  | text data =>
    intro s r s1 r1 hc ht h
    simp only [renderVisitObj, Option.some.injEq, Prod.mk.injEq] at h
    obtain ⟨e1, e2⟩ := h
    subst e2
    simp [countNl_append, nlFree_countNl data ht]
  | fix fx =>
    intro s r s1 r1 hc ht h
    simp only [renderVisitObj, Option.some.injEq] at h
    have hF := renderVisitFix_countNl fx s r ht
    rw [h] at hF
    exact hF
  | grp o ih =>
    intro s r s1 r1 hc ht h
    simp only [docObjCompFree] at hc
    simp only [allTextsOO] at ht
    simp only [renderVisitObj, bind, Option.bind_eq_some] at h
    obtain ⟨⟨s2, r2⟩, h2, heq⟩ := h
    simp only [Option.some.injEq, Prod.mk.injEq] at heq
    obtain ⟨e1, e2⟩ := heq
    subst e2
    exact ih _ _ _ _ hc ht h2
  | seq o ih =>
    intro s r s1 r1 hc ht h
    simp only [docObjCompFree] at hc
    simp only [allTextsOO] at ht
    simp only [renderVisitObj, bind, Option.bind_eq_some] at h
    obtain ⟨fits, hfits, h2⟩ := h
    cases fits with
    | true =>
      simp only [if_true] at h2
      exact ih _ _ _ _ hc ht h2
    | false =>
      simp only [Bool.false_eq_true, if_false, bind, Option.bind_eq_some] at h2
      obtain ⟨⟨s2, r2⟩, h3, heq⟩ := h2
      simp only [Option.some.injEq, Prod.mk.injEq] at heq
      obtain ⟨e1, e2⟩ := heq
      subst e2
      exact ih _ _ _ _ hc ht h3
  | nest o ih =>
    intro s r s1 r1 hc ht h
    simp only [docObjCompFree] at hc
    simp only [allTextsOO] at ht
    simp only [renderVisitObj, bind, Option.bind_eq_some] at h
    obtain ⟨off, hoff, h2⟩ := h
    obtain ⟨⟨s3, r3⟩, h3, heq⟩ := h2
    simp only [Option.some.injEq, Prod.mk.injEq] at heq
    obtain ⟨e1, e2⟩ := heq
    subst e2
    have hR := ih _ _ _ _ hc ht h3
    simp [hR, countNl_padStr]
  | pack index o ih =>
    intro s r s1 r1 hc ht h
    simp only [docObjCompFree] at hc
    simp only [allTextsOO] at ht
    simp only [renderVisitObj] at h
    cases hLk : Map.lookup s.marks index with
    | none =>
      rw [hLk] at h
      simp only [bind, Option.bind_eq_some] at h
      obtain ⟨⟨s3, r3⟩, h3, heq⟩ := h
      simp only [Option.some.injEq, Prod.mk.injEq] at heq
      obtain ⟨e1, e2⟩ := heq
      subst e2
      exact ih _ _ _ _ hc ht h3
    | some lvl1 =>
      rw [hLk] at h
      simp only [bind, Option.bind_eq_some] at h
      obtain ⟨off, hoff, h2⟩ := h
      obtain ⟨⟨s3, r3⟩, h3, heq⟩ := h2
      simp only [Option.some.injEq, Prod.mk.injEq] at heq
      obtain ⟨e1, e2⟩ := heq
      subst e2
      have hR := ih _ _ _ _ hc ht h3
      simp [hR, countNl_padStr]
  | comp a b pd ihl ihr =>
    intro s r s1 r1 hc ht h
    simp [docObjCompFree] at hc

theorem countNl_newline : countNl "\n" = 1 := rfl

theorem renderVisitDoc_countNl :
    ∀ (doc : Doc) (s s1 : State) (out : String),
      docCompFree doc = true → allTextsOD nlFree doc = true →
      renderVisitDoc doc s = some (s1, out) →
      countNl out = docNl doc := by
  intro doc
  induction doc with
  | Eod =>
    intro s s1 out hc ht h
    simp only [renderVisitDoc, Option.some.injEq, Prod.mk.injEq] at h
    obtain ⟨e1, e2⟩ := h
    subst e2
    rfl
  | Empty d1 ih =>
    intro s s1 out hc ht h
    simp only [docCompFree] at hc
    simp only [allTextsOD] at ht
    simp only [renderVisitDoc, bind, Option.bind_eq_some] at h
    obtain ⟨⟨s2, d2⟩, h2, heq⟩ := h
    simp only [Option.some.injEq, Prod.mk.injEq] at heq
    obtain ⟨e1, e2⟩ := heq
    subst e2
    have hR := ih _ _ _ hc ht h2
    simp [docNl, countNl_append, countNl_newline, hR]
    omega
  | Break obj d1 ih =>
    intro s s1 out hc ht h
    simp only [docCompFree, Bool.and_eq_true] at hc
    simp only [allTextsOD, Bool.and_eq_true] at ht
    simp only [renderVisitDoc, bind, Option.bind_eq_some] at h
    obtain ⟨⟨s2, o1⟩, h2, h3⟩ := h
    obtain ⟨⟨s4, d2⟩, h4, heq⟩ := h3
    simp only [Option.some.injEq, Prod.mk.injEq] at heq
    obtain ⟨e1, e2⟩ := heq
    subst e2
    have hO : countNl o1 = 0 := by
      have := renderVisitObj_countNl obj _ _ _ _ hc.1 ht.1 h2
      simpa [countNl] using this
    have hD := ih _ _ _ hc.2 ht.2 h4
    simp [docNl, countNl_append, countNl_newline, hO, hD]
    omega
  | Line obj =>
    intro s s1 out hc ht h
    simp only [docCompFree] at hc
    simp only [allTextsOD] at ht
    simp only [renderVisitDoc] at h
    have := renderVisitObj_countNl obj _ _ _ _ hc ht h
    simpa [docNl, countNl] using this

theorem compile_eq_passes (L : Layout) : compile L = compilePasses L := by
  cases hCP : compilePasses L with
  | none => simp [compile, compileSafe, compileSafeWithDepth, hCP]
  | some d => simp [compile, compileSafe, compileSafeWithDepth, hCP]

/-- C6 (amended): for every layout whose compositions all carry
`fix = true` on their own `Attr` and whose texts are newline-free, the
rendered output has exactly `lineCount L` newline characters, for every
tab and width (whenever compile and render succeed). -/
theorem c6_fixed_horizontality (L : Layout) (tab width : Nat) (out : String)
    (hfix : allAttrFixed L = true) (hnl : allTextsL nlFree L = true)
    (h : renderL L tab width = some out) :
    countNl out = lineCount L := by
  simp only [renderL, bind, Option.bind_eq_some] at h
  obtain ⟨doc, hcomp, hrend⟩ := h
  rw [compile_eq_passes] at hcomp
  simp only [compilePasses, bind, Option.bind_eq_some, Option.some.injEq] at hcomp
  obtain ⟨ld, hlin, rdoc, hstr, ddoc, hden, hdoc⟩ := hcomp
  obtain ⟨hE1, hE2⟩ := broken_fixed L hfix
  have hE3 := broken_texts nlFree L hnl
  have hS1 := serialize_connsFixed (broken L) hE1
  have hS2 := serialize_lineCount (broken L)
  have hS3 := serialize_texts nlFree (broken L) hE3
  obtain ⟨hL1, hL2', hL3'⟩ := linearizeVisit_facts nlFree (serialize (broken L)) [] ld hlin
  have hL2 := hL2' hS1 rfl
  have hL3 := hL3' hS3 rfl
  obtain ⟨hF1, hF2⟩ := fixed_single nlFree ld hL2 hL3
  have hF3 := fixed_numBreaks ld
  obtain ⟨hR1, hR2, hR3⟩ := structurize_single nlFree (fixed ld) rdoc hF1 hF2 hstr
  obtain ⟨hD1, hD2, hD3⟩ := denull_single nlFree rdoc ddoc hR1 hR2 hden
  have hCnt : rebuildNumBreaks rdoc = lineCount L + 1 := by
    rw [hR3, hF3, hL1, hS2, hE2]
  have hD4 : denullNl ddoc = lineCount L := by
    rcases hD3 with h0 | h1
    · omega
    · omega
  obtain ⟨hI1, hI2, hI3⟩ := identities_single nlFree ddoc hD1 hD2
  have hRe := reassociate_atomic (identities ddoc) hI1
  obtain ⟨hX1, hX2, hX3⟩ := rescope_single nlFree (identities ddoc) hI1 hI2
  rw [hRe] at hdoc
  subst hdoc
  simp only [render, Option.map_eq_some'] at hrend
  obtain ⟨⟨sEnd, outS⟩, hrv, hout⟩ := hrend
  dsimp only at hout
  subst hout
  have hHc : docCompFree (moveToHeap (rescope (identities ddoc))) = true := by
    rw [moveToHeap_compFree]
    exact hX1
  have hHt : allTextsOD nlFree (moveToHeap (rescope (identities ddoc))) = true := by
    rw [moveToHeap_texts]
    exact hX2
  have hHn : docNl (moveToHeap (rescope (identities ddoc))) = lineCount L := by
    rw [moveToHeap_nl, hX3, hI3, hD4]
  have hFin := renderVisitDoc_countNl _ _ _ _ hHc hHt hrv
  rw [hFin, hHn]

/-- C6 witness: the amended horizontality theorem applied to
`line(text "a", fix-comp(text "b", text "c"))` at tab 2, width 10. -/
theorem c6_fixed_horizontality_witness :
    countNl "a\nbc" = lineCount (Layout.line (Layout.text "a")
      (Layout.comp (Layout.text "b") (Layout.text "c") ⟨false, true⟩)) :=
  c6_fixed_horizontality
    (Layout.line (Layout.text "a")
      (Layout.comp (Layout.text "b") (Layout.text "c") ⟨false, true⟩))
    2 10 "a\nbc" (by rfl) (by rfl) (by rfl)



/-! ### C1 amended, lemma chain: Passes 1-4 on NPF layouts. -/

theorem markVisit_npf : ∀ L : Layout, noFixLayout L = true → noNestPack L = true →
    npfB (markVisit L).2 = true := by
  intro L
  induction L with
  | null => intro h1 h2; rfl
  | text data => intro h1 h2; rfl
  | fix x ih => intro h1 h2; simp [noFixLayout] at h1
  | grp x ih =>
    intro h1 h2
    simp only [noFixLayout] at h1
    simp only [noNestPack] at h2
    rcases hM : markVisit x with ⟨b, t⟩
    have ih' : npfB t = true := by
      have := ih h1 h2; rw [hM] at this; exact this
    simp [markVisit, hM, npfB, ih']
  | seq x ih =>
    intro h1 h2
    simp only [noFixLayout] at h1
    simp only [noNestPack] at h2
    rcases hM : markVisit x with ⟨b, t⟩
    have ih' : npfB t = true := by
      have := ih h1 h2; rw [hM] at this; exact this
    simp [markVisit, hM, npfB, ih']
  | nest x ih => intro h1 h2; simp [noNestPack] at h2
  | pack x ih => intro h1 h2; simp [noNestPack] at h2
  | line l r ihl ihr =>
    intro h1 h2
    simp only [noFixLayout, Bool.and_eq_true] at h1
    simp only [noNestPack, Bool.and_eq_true] at h2
    rcases hL : markVisit l with ⟨bl, tl⟩
    rcases hR : markVisit r with ⟨br, tr⟩
    have ihl' : npfB tl = true := by
      have := ihl h1.1 h2.1; rw [hL] at this; exact this
    have ihr' : npfB tr = true := by
      have := ihr h1.2 h2.2; rw [hR] at this; exact this
    simp [markVisit, hL, hR, npfB, ihl', ihr']
  | comp l r attr ihl ihr =>
    intro h1 h2
    simp only [noFixLayout, Bool.and_eq_true] at h1
    simp only [noNestPack, Bool.and_eq_true] at h2
    rcases hL : markVisit l with ⟨bl, tl⟩
    rcases hR : markVisit r with ⟨br, tr⟩
    have ihl' : npfB tl = true := by
      have := ihl h1.1.2 h2.1; rw [hL] at this; exact this
    have ihr' : npfB tr = true := by
      have := ihr h1.2 h2.2; rw [hR] at this; exact this
    simp [markVisit, hL, hR, npfB, ihl', ihr', h1.1.1]

theorem remove_npf : ∀ (t : Broken) (b : Bool), npfB t = true →
    npfE (remove t b) = true := by
  intro t
  induction t with
  | null => intro b h; rfl
  | text data => intro b h; rfl
  | fix x ih => intro b h; simp [npfB] at h
  | grp x ih =>
    intro b h
    simp only [npfB] at h
    simp [remove, npfE, ih false h]
  | seq bSeq x ih =>
    intro b h
    simp only [npfB] at h
    cases bSeq with
    | true => simp [remove, ih true h]
    | false => simp [remove, npfE, ih false h]
  | nest x ih => intro b h; simp [npfB] at h
  | pack x ih => intro b h; simp [npfB] at h
  | line l r ihl ihr =>
    intro b h
    simp only [npfB, Bool.and_eq_true] at h
    simp [remove, npfE, ihl b h.1, ihr b h.2]
  | comp l r attr ihl ihr =>
    intro b h
    simp only [npfB, Bool.and_eq_true] at h
    obtain ⟨⟨hfx, hl⟩, hr⟩ := h
    cases b with
    | true => simp [remove, hfx, npfE, ihl true hl, ihr true hr]
    | false => simp [remove, npfE, ihl false hl, ihr false hr, hfx]

theorem broken_npf (L : Layout) (h1 : noFixLayout L = true)
    (h2 : noNestPack L = true) : npfE (broken L) = true :=
  remove_npf (markVisit L).2 false (markVisit_npf L h1 h2)

/-! ### Pass 2 on NPF layouts: no term wrappers are ever pending and no
fix bit is ever set. -/

theorem connNPF_applyCompWraps :
    ∀ (ws : List CompWrap) (c : SerialComp),
      connNPF (applyCompWraps ws c) = connNPF c := by
  intro ws
  induction ws with
  | nil => intro c; rfl
  | cons w ws ih => intro c; cases w <;> simp [applyCompWraps, connNPF, ih]

theorem pairsNPF_append (a b : List (SerialTerm × SerialComp)) :
    pairsNPF (a ++ b) = (pairsNPF a && pairsNPF b) := by
  simp [pairsNPF, List.all_append]

theorem serializeVisit_npf :
    ∀ (e : Edsl) (i j : Nat) (comps : List CompWrap), npfE e = true →
      (pairsNPF (serializeVisit e i j false [] comps).2.2.1 = true ∧
        npfST (serializeVisit e i j false [] comps).2.2.2 = true) := by
  intro e
  induction e with
  | null => intros; exact ⟨rfl, rfl⟩
  | text data => intros; exact ⟨rfl, rfl⟩
  | fix x ih => intro i j comps h; simp [npfE] at h
  | grp x ih =>
    intro i j comps h
    simp only [npfE] at h
    simp only [serializeVisit]
    exact ih (i + 1) j (comps ++ [CompWrap.grp i]) h
  | seq x ih =>
    intro i j comps h
    simp only [npfE] at h
    simp only [serializeVisit]
    exact ih (i + 1) j (comps ++ [CompWrap.seq i]) h
  | nest x ih => intro i j comps h; simp [npfE] at h
  | pack x ih => intro i j comps h; simp [npfE] at h
  | line l r ihl ihr =>
    intro i j comps h
    simp only [npfE, Bool.and_eq_true] at h
    rcases hL : serializeVisit l i j false [] comps with ⟨i1, j1, pairsL, lastL⟩
    rcases hR : serializeVisit r i1 j1 false [] comps with ⟨i2, j2, pairsR, lastR⟩
    have hl' := ihl i j comps h.1
    have hr' := ihr i1 j1 comps h.2
    rw [hL] at hl'; rw [hR] at hr'
    obtain ⟨hl1, hl2⟩ := hl'
    obtain ⟨hr1, hr2⟩ := hr'
    dsimp only at hl1 hl2 hr1 hr2
    refine ⟨?_, by simp [serializeVisit, hL, hR]; exact hr2⟩
    simp only [serializeVisit, hL, hR]
    rw [pairsNPF_append, pairsNPF_append]
    simp [pairsNPF, npfST, connNPF] at hl1 hr1 ⊢
    exact ⟨⟨hl1, hl2⟩, hr1⟩
  | comp l r attr ihl ihr =>
    intro i j comps h
    simp only [npfE, Bool.and_eq_true] at h
    obtain ⟨⟨hfx, hl⟩, hr⟩ := h
    simp only [Bool.not_eq_true'] at hfx
    rcases hL : serializeVisit l i j false [] comps with ⟨i1, j1, pairsL, lastL⟩
    rcases hR : serializeVisit r i1 j1 false [] comps with ⟨i2, j2, pairsR, lastR⟩
    have hl' := ihl i j comps hl
    have hr' := ihr i1 j1 comps hr
    rw [hL] at hl'; rw [hR] at hr'
    obtain ⟨hl1, hl2⟩ := hl'
    obtain ⟨hr1, hr2⟩ := hr'
    dsimp only at hl1 hl2 hr1 hr2
    refine ⟨?_, by simp [serializeVisit, hL, hR]; exact hr2⟩
    simp only [serializeVisit, hL, hR]
    rw [pairsNPF_append, pairsNPF_append]
    simp [pairsNPF, npfST, connNPF, connNPF_applyCompWraps, hfx] at hl1 hr1 ⊢
    exact ⟨⟨hl1, hl2⟩, hr1⟩

theorem buildSerial_npf : ∀ (pairs : List (SerialTerm × SerialComp))
    (lastT : SerialTerm), pairsNPF pairs = true → npfST lastT = true →
    serialNPF (buildSerial pairs lastT) = true := by
  intro pairs
  induction pairs with
  | nil => intro lastT hp hl; simp [buildSerial, serialNPF, hl]
  | cons pr rest ih =>
    intro lastT hp hl
    cases pr with
    | mk t c =>
      simp only [pairsNPF, List.all_cons, Bool.and_eq_true] at hp
      simp [buildSerial, serialNPF, hp.1.1, hp.1.2, ih lastT hp.2 hl]

theorem serialize_npf (e : Edsl) (h : npfE e = true) :
    serialNPF (serialize e) = true := by
  rcases hS : serializeVisit e 0 0 false [] [] with ⟨i, j, pairs, lastT⟩
  have := serializeVisit_npf e 0 0 [] h
  rw [hS] at this
  simp only [serialize, hS]
  exact buildSerial_npf pairs lastT this.1 this.2

/-! ### Pass 3 on NPF serials. -/

theorem linearizeComp_npf : ∀ (c : SerialComp) (c1 : LinearComp),
    linearizeComp c = some c1 → connNPF c = true → linearCompFixed c1 = false := by
  intro c
  induction c with
  | line => intro c1 h hf; simp [linearizeComp] at h
  | comp attr =>
    intro c1 h hf
    simp only [linearizeComp, Option.some.injEq] at h
    subst h
    simp only [connNPF, Bool.not_eq_true'] at hf
    simp [linearCompFixed, hf]
  | grp index c ih =>
    intro c1 h hf
    simp only [linearizeComp, Option.map_eq_some'] at h
    obtain ⟨c2, hc2, hh⟩ := h
    subst hh
    simp only [connNPF] at hf
    simp [linearCompFixed, ih c2 hc2 hf]
  | seq index c ih =>
    intro c1 h hf
    simp only [linearizeComp, Option.map_eq_some'] at h
    obtain ⟨c2, hc2, hh⟩ := h
    subst hh
    simp only [connNPF] at hf
    simp [linearCompFixed, ih c2 hc2 hf]

theorem linearizeTerm_npf : ∀ t : SerialTerm, npfST t = true →
    npfLT (linearizeTerm t) = true := by
  intro t
  cases t with
  | null => intro h; rfl
  | text data => intro h; rfl
  | nest t => intro h; simp [npfST] at h
  | pack index t => intro h; simp [npfST] at h

theorem buildLinearObj_npf : ∀ (items : List (LinearTerm × LinearComp))
    (lastT : LinearTerm),
    items.all (fun it => npfLT it.1 && !linearCompFixed it.2) = true →
    npfLT lastT = true →
    npfLO (buildLinearObj items lastT) = true := by
  intro items
  induction items with
  | nil => intro lastT h hl; exact hl
  | cons it rest ih =>
    intro lastT h hl
    cases it with
    | mk t c =>
      simp only [List.all_cons, Bool.and_eq_true] at h
      simp [buildLinearObj, npfLO, h.1.1, h.1.2, ih lastT h.2 hl]

theorem linearizeVisit_npf :
    ∀ (s : Serial) (acc : List (LinearTerm × LinearComp)) (d : LinearDoc),
      linearizeVisit s acc = some d → serialNPF s = true →
      acc.all (fun it => npfLT it.1 && !linearCompFixed it.2) = true →
      npfLD d = true := by
  intro s
  induction s with
  | past => intro acc d h; simp [linearizeVisit] at h
  | last term s1 ih =>
    intro acc d h hs hacc
    cases s1 with
    | past =>
      simp only [linearizeVisit, Option.some.injEq] at h
      subst h
      simp only [serialNPF, Bool.and_eq_true] at hs
      simp [npfLD, buildLinearObj_npf acc _ hacc (linearizeTerm_npf term hs.1)]
    | next t2 c2 s2 => simp [linearizeVisit] at h
    | last t2 s2 => simp [linearizeVisit] at h
  | next term comp s1 ih =>
    intro acc d h hs hacc
    simp only [serialNPF, Bool.and_eq_true] at hs
    obtain ⟨⟨hterm, hconn⟩, hrest⟩ := hs
    cases comp with
    | line =>
      simp only [linearizeVisit, bind, Option.bind_eq_some, Option.some.injEq] at h
      obtain ⟨rest, hrec, hd⟩ := h
      subst hd
      simp [npfLD, buildLinearObj_npf acc _ hacc (linearizeTerm_npf term hterm),
        ih [] rest hrec hrest rfl]
    | comp attr =>
      simp only [linearizeVisit, linearizeComp, bind, Option.bind_eq_some,
        Option.some.injEq] at h
      obtain ⟨c1, hc1, hrec⟩ := h
      subst hc1
      apply ih _ d hrec hrest
      simp only [connNPF, Bool.not_eq_true'] at hconn
      simp [List.all_append, hacc, linearizeTerm_npf term hterm,
        linearCompFixed, hconn]
    | grp index c =>
      simp only [linearizeVisit, bind, Option.bind_eq_some] at h
      obtain ⟨c1, hc1, hrec⟩ := h
      apply ih _ d hrec hrest
      simp [List.all_append, hacc, linearizeTerm_npf term hterm,
        linearizeComp_npf _ _ hc1 hconn]
    | seq index c =>
      simp only [linearizeVisit, bind, Option.bind_eq_some] at h
      obtain ⟨c1, hc1, hrec⟩ := h
      apply ih _ d hrec hrest
      simp [List.all_append, hacc, linearizeTerm_npf term hterm,
        linearizeComp_npf _ _ hc1 hconn]

/-! ### Pass 4 on NPF docs: no fix chain is ever opened. -/

theorem fixedTerm_npf : ∀ t : LinearTerm, npfLT t = true →
    npfFT (fixedTerm t) = true := by
  intro t
  cases t with
  | null => intro h; rfl
  | text data => intro h; rfl
  | nest t => intro h; simp [npfLT] at h
  | pack index t => intro h; simp [npfLT] at h

theorem fixedVisitObj_npf (p : String → Bool) : ∀ obj : LinearObj,
    npfLO obj = true → allTextsLO p obj = true →
    npfFO (fixedVisitObj obj) = true ∧ allTextsFO p (fixedVisitObj obj) = true := by
  intro obj
  induction obj with
  | last term =>
    intro hn ht
    exact ⟨by simpa [fixedVisitObj, npfFO] using fixedTerm_npf term hn,
      by simpa [fixedVisitObj, allTextsFO, allTextsFI] using fixedTerm_texts p term ht⟩
  | next term comp obj1 ih =>
    intro hn ht
    simp only [npfLO, Bool.and_eq_true] at hn
    obtain ⟨⟨hterm, hcomp⟩, hobj⟩ := hn
    simp only [allTextsLO, Bool.and_eq_true] at ht
    rcases hC : fixedComp comp with ⟨isF, comp1⟩
    have hisF : isF = false := by
      have := fixedComp_fst comp
      rw [hC] at this
      simp only [Bool.not_eq_true'] at hcomp
      simpa [hcomp] using this
    subst hisF
    obtain ⟨ih1, ih2⟩ := ih hobj ht.2
    constructor
    · simp [fixedVisitObj, hC, npfFO, fixedTerm_npf term hterm, ih1]
    · simp [fixedVisitObj, hC, allTextsFO, allTextsFI,
        fixedTerm_texts p term ht.1, ih2]

theorem fixed_npf (p : String → Bool) : ∀ d : LinearDoc,
    npfLD d = true → allTextsLD p d = true →
    npfFD (fixed d) = true ∧ allTextsFD p (fixed d) = true := by
  intro d
  induction d with
  | nil => intro hn ht; exact ⟨rfl, rfl⟩
  | cons obj d1 ih =>
    intro hn ht
    simp only [npfLD, Bool.and_eq_true] at hn
    simp only [allTextsLD, Bool.and_eq_true] at ht
    obtain ⟨h1, h2⟩ := fixedVisitObj_npf p obj hn.1 ht.1
    obtain ⟨h3, h4⟩ := ih hn.2 ht.2
    exact ⟨by simp [fixed, npfFD, h1, h3], by simp [fixed, allTextsFD, h2, h4]⟩



/-! ### Pass 5 on NPF docs, part 1: the graph's node terms satisfy a
predicate `q` through graphify, transpose and solve (edges move, terms
never change). -/

theorem list_all_set {α : Type} (p : α → Bool) :
    ∀ (l : List α) (i : Nat) (a : α), l.all p = true → p a = true →
      (l.set i a).all p = true := by
  intro l
  induction l with
  | nil => intro i a h ha; exact h
  | cons x xs ih =>
    intro i a h ha
    simp only [List.all_cons, Bool.and_eq_true] at h
    cases i with
    | zero => simp [List.set, List.all_cons, ha, h.2]
    | succ n => simp [List.set, List.all_cons, h.1, ih n a h.2 ha]

theorem getNode_all (q : GraphTerm → Bool) (g : Graph) (i : Nat) (n : GraphNode)
    (h : nodesAll q g = true) (hg : g.getNode i = some n) : q n.term = true := by
  simp only [nodesAll, List.all_eq_true] at h
  simp only [Graph.getNode] at hg
  exact h n (List.get?_mem hg)

theorem setNode_all (q : GraphTerm → Bool) (g : Graph) (i : Nat) (n : GraphNode)
    (h : nodesAll q g = true) (hn : q n.term = true) :
    nodesAll q (g.setNode i n) = true := by
  simp only [nodesAll, Graph.setNode]
  exact list_all_set _ g.nodes i n h hn

theorem setEdge_nodesAll (q : GraphTerm → Bool) (g : Graph) (i : Nat)
    (e : GraphEdge) : nodesAll q (g.setEdge i e) = nodesAll q g := rfl

theorem addEdge_nodesAll (q : GraphTerm → Bool) (g : Graph)
    (prop : Property Unit) (a b : Nat) (g' : Graph)
    (h : nodesAll q g = true) (hE : g.addEdge prop a b = some g') :
    nodesAll q g' = true := by
  simp only [Graph.addEdge, bind, Option.bind_eq_some] at hE
  obtain ⟨fromNode, hFrom, hE2⟩ := hE
  obtain ⟨toNode, hTo, hE3⟩ := hE2
  obtain ⟨fromNode2, hFrom2, hE4⟩ := hE3
  split at hE4
  · simp at hE4
  · simp only [bind, Option.bind_eq_some] at hE4
    obtain ⟨toNode1, hTo1, heq⟩ := hE4
    simp only [Option.some.injEq] at heq
    subst heq
    have h1 : nodesAll q { g with edges := g.edges ++ [⟨prop, a, b⟩] } = true := h
    have h2 := setNode_all q { g with edges := g.edges ++ [⟨prop, a, b⟩] } a
      { fromNode with outs := fromNode.outs ++ [g.edges.length] } h1
      (getNode_all q g a fromNode h hFrom)
    exact setNode_all q _ b
      { toNode1 with ins := toNode1.ins ++ [g.edges.length] } h2
      (getNode_all q _ b toNode1 h2 hTo1)

theorem transpose_nodesAll (q : GraphTerm → Bool) :
    ∀ (vs : List (Property (Nat × Option Nat))) (g g' : Graph),
      nodesAll q g = true → transpose g vs = some g' → nodesAll q g' = true := by
  intro vs
  induction vs with
  | nil =>
    intro g g' h ht
    simp only [transpose, Option.some.injEq] at ht
    subst ht
    exact h
  | cons v rest ih =>
    intro g g' h ht
    cases v with
    | grp val =>
      rcases val with ⟨f, o⟩
      cases o with
      | none => simp [transpose] at ht
      | some t =>
        simp only [transpose] at ht
        split at ht
        · exact ih g g' h ht
        · simp only [bind, Option.bind_eq_some] at ht
          obtain ⟨g1, hE, ht2⟩ := ht
          exact ih g1 g' (addEdge_nodesAll q g _ f t g1 h hE) ht2
    | seq val =>
      rcases val with ⟨f, o⟩
      cases o with
      | none => simp [transpose] at ht
      | some t =>
        simp only [transpose] at ht
        split at ht
        · exact ih g g' h ht
        · simp only [bind, Option.bind_eq_some] at ht
          obtain ⟨g1, hE, ht2⟩ := ht
          exact ih g1 g' (addEdge_nodesAll q g _ f t g1 h hE) ht2

theorem graphifyTerm_npf : ∀ t : FixedTerm, npfFT t = true →
    npfGT (graphifyTerm t) = true := by
  intro t
  cases t with
  | null => intro h; rfl
  | text data => intro h; rfl
  | nest t => intro h; simp [npfFT] at h
  | pack index t => intro h; simp [npfFT] at h

theorem graphifyVisitObj_nodes (p : String → Bool) :
    ∀ (obj : FixedObj) (index : Nat) (scope : List (Property Nat))
      (nodes : List GraphTerm) (pads : List Bool) (props : PropsMap)
      (res : List GraphTerm × List Bool × PropsMap),
      npfFO obj = true → allTextsFO p obj = true →
      nodes.all (fun t => npfGT t && allTextsGT p t) = true →
      graphifyVisitObj obj index scope nodes pads props = some res →
      res.1.all (fun t => npfGT t && allTextsGT p t) = true := by
  intro obj
  induction obj with
  | last item =>
    intro index scope nodes pads props res hn ht hall h
    cases item with
    | fix fx => simp [npfFO] at hn
    | term term =>
      simp only [graphifyVisitObj, bind, Option.bind_eq_some] at h
      obtain ⟨props1, hcp, heq⟩ := h
      simp only [Option.some.injEq] at heq
      subst heq
      simp only [npfFO] at hn
      simp only [allTextsFO, allTextsFI] at ht
      simp [List.all_append, hall, graphifyTerm_npf term hn,
        graphifyTerm_texts p term ht]
  | next item comp obj1 ih =>
    intro index scope nodes pads props res hn ht hall h
    cases item with
    | fix fx => simp [npfFO] at hn
    | term term =>
      simp only [npfFO, Bool.and_eq_true] at hn
      simp only [allTextsFO, allTextsFI, Bool.and_eq_true] at ht
      rcases hLS : liftStack comp with ⟨stack, pad⟩
      simp only [graphifyVisitObj, hLS, bind, Option.bind_eq_some] at h
      obtain ⟨⟨scope1, props1⟩, hup, hrec⟩ := h
      apply ih (index + 1) scope1 _ _ props1 res hn.2 ht.2 _ hrec
      simp [List.all_append, hall, graphifyTerm_npf term hn.1,
        graphifyTerm_texts p term ht.1]

theorem graphify_nodes (p : String → Bool) :
    ∀ (fdoc : FixedDoc) (gdoc : GraphDoc),
      npfFD fdoc = true → allTextsFD p fdoc = true →
      graphify fdoc = some gdoc →
      graphDocNodes (fun t => npfGT t && allTextsGT p t) gdoc = true := by
  intro fdoc
  induction fdoc with
  | Eod =>
    intro gdoc hn ht hg
    simp only [graphify, Option.some.injEq] at hg
    subst hg
    rfl
  | Break obj doc1 ih =>
    intro gdoc hn ht hg
    simp only [npfFD, Bool.and_eq_true] at hn
    simp only [allTextsFD, Bool.and_eq_true] at ht
    simp only [graphify, bind, Option.bind_eq_some] at hg
    obtain ⟨⟨nodes, pads, props⟩, h1, g, hT, doc2, hD, heq⟩ := hg
    simp only [Option.some.injEq] at heq
    subst heq
    have hNodes := graphifyVisitObj_nodes p obj 0 [] [] [] Map.empty
      (nodes, pads, props) hn.1 ht.1 rfl h1
    dsimp only at hNodes
    have hOf : nodesAll (fun t => npfGT t && allTextsGT p t)
        (Graph.ofTerms nodes) = true := by
      simp only [nodesAll, Graph.ofTerms, List.all_map]
      simpa [Function.comp] using hNodes
    have hG := transpose_nodesAll _ _ _ _ hOf hT
    simp [graphDocNodes, hG, ih doc2 hn.2 ht.2 hD]

/-! ### solve only rewires edges; node terms are untouched. -/

theorem foldl_setEdge_nodesAll (q : GraphTerm → Bool) (toIndex : Nat) :
    ∀ (block : List Nat) (g : Graph), nodesAll q g = true →
      nodesAll q (block.foldl (fun acc id =>
        match acc.getEdge id with
        | none => acc
        | some e => acc.setEdge id { e with target := toIndex }) g) = true := by
  intro block
  induction block with
  | nil => intro g h; exact h
  | cons x xs ih =>
    intro g h
    simp only [List.foldl_cons]
    apply ih
    cases hE : g.getEdge x with
    | none => simpa [hE] using h
    | some e => simpa [hE, setEdge_nodesAll] using h

theorem moveIns_nodesAll (q : GraphTerm → Bool) (g : Graph) (block : List Nat)
    (anchorId : Nat) (g' : Graph) (h : nodesAll q g = true)
    (hm : moveIns g block anchorId = some g') : nodesAll q g' = true := by
  cases block with
  | nil => simp [moveIns] at hm
  | cons headId rest =>
    simp only [moveIns, bind, Option.bind_eq_some] at hm
    obtain ⟨headE, hHE, fromNode, hFN, anchor, hA, toNode, hTN, ins1, hSp, heq⟩ := hm
    simp only [Option.some.injEq] at heq
    subst heq
    have h1 := setNode_all q g headE.target { fromNode with ins := [] } h
      (getNode_all q g _ fromNode h hFN)
    have h2 := foldl_setEdge_nodesAll q anchor.target (headId :: rest)
      (g.setNode headE.target { fromNode with ins := [] }) h1
    exact setNode_all q _ anchor.target { toNode with ins := ins1 } h2
      (getNode_all q _ _ toNode h2 hTN)

theorem moveOut_nodesAll (q : GraphTerm → Bool) (g : Graph) (currId anchorId : Nat)
    (g' : Graph) (h : nodesAll q g = true) (hm : moveOut g currId anchorId = some g') :
    nodesAll q g' = true := by
  simp only [moveOut, bind, Option.bind_eq_some] at hm
  obtain ⟨currE, hCE, srcNode, hSN, anchor, hA, nodeN, hNN, outs1, hSp, heq⟩ := hm
  simp only [Option.some.injEq] at heq
  subst heq
  have h1 := setNode_all q g currE.source
    { srcNode with outs := srcNode.outs.erase currId } h
    (getNode_all q g _ srcNode h hSN)
  have h2 : nodesAll q ((g.setNode currE.source
      { srcNode with outs := srcNode.outs.erase currId }).setEdge currId
      { currE with source := anchor.source }) = true := by
    rw [setEdge_nodesAll]
    exact h1
  exact setNode_all q _ anchor.source { nodeN with outs := outs1 } h2
    (getNode_all q _ _ nodeN h2 hNN)

theorem resolveVisit_nodesAll (q : GraphTerm → Bool) :
    ∀ (outsIds : List Nat) (g : Graph) (edgeId : Nat)
      (res : Graph × Option Nat), nodesAll q g = true →
      resolveVisit g outsIds edgeId = some res → nodesAll q res.1 = true := by
  intro outsIds
  induction outsIds with
  | nil =>
    intro g edgeId res h hr
    simp only [resolveVisit, Option.some.injEq] at hr
    subst hr
    exact h
  | cons currId rest ih =>
    intro g edgeId res h hr
    simp only [resolveVisit, bind, Option.bind_eq_some] at hr
    obtain ⟨currE, hCE, hr2⟩ := hr
    cases hp : currE.prop with
    | grp u =>
      rw [hp] at hr2
      simp only [Option.some.injEq] at hr2
      subst hr2
      exact h
    | seq u =>
      rw [hp] at hr2
      simp only [bind, Option.bind_eq_some] at hr2
      obtain ⟨g1, hmo, hr3⟩ := hr2
      exact ih g1 currId res (moveOut_nodesAll q g currId edgeId g1 h hmo) hr3

theorem solveVisitNode_nodesAll (q : GraphTerm → Bool) :
    ∀ (remaining : Nat) (g : Graph) (index : Nat) (g' : Graph),
      nodesAll q g = true → solveVisitNode g remaining index = some g' →
      nodesAll q g' = true := by
  intro remaining
  induction remaining with
  | zero =>
    intro g index g' h hs
    simp only [solveVisitNode, Option.some.injEq] at hs
    subst hs
    exact h
  | succ rem ih =>
    intro g index g' h hs
    simp only [solveVisitNode, bind, Option.bind_eq_some] at hs
    obtain ⟨node, hN, hs2⟩ := hs
    split at hs2
    · simp only [bind, Option.bind_eq_some] at hs2
      obtain ⟨insFirst, hIF, ⟨g1, found⟩, hRes, hs3⟩ := hs2
      have hg1 := resolveVisit_nodesAll q node.outs g insFirst (g1, found) h hRes
      dsimp only at hg1
      cases found with
      | none => exact ih g1 (index + 1) g' hg1 hs3
      | some grpId =>
        simp only [bind, Option.bind_eq_some] at hs3
        obtain ⟨g2, hMI, hs4⟩ := hs3
        exact ih g2 (index + 1) g'
          (moveIns_nodesAll q g1 node.ins grpId g2 hg1 hMI) hs4
    · exact ih g (index + 1) g' h hs2

theorem solve_nodesAll (q : GraphTerm → Bool) :
    ∀ (gdoc gdoc' : GraphDoc), graphDocNodes q gdoc = true →
      solve gdoc = some gdoc' → graphDocNodes q gdoc' = true := by
  intro gdoc
  induction gdoc with
  | Eod =>
    intro gdoc' h hs
    simp only [solve, Option.some.injEq] at hs
    subst hs
    exact h
  | Break g pads d ih =>
    intro gdoc' h hs
    simp only [graphDocNodes, Bool.and_eq_true] at h
    simp only [solve, bind, Option.bind_eq_some] at hs
    obtain ⟨g1, hg1, d2, hd2, heq⟩ := hs
    simp only [Option.some.injEq] at heq
    subst heq
    simp [graphDocNodes, solveVisitNode_nodesAll q _ g 0 g1 h.1 hg1,
      ih d2 h.2 hd2]



/-! ### Pass 5 on NPF docs, part 2: rebuild.  Every continuation on the
stack maps NPF objects with good texts to NPF objects with good texts. -/

theorem rebuildVisitTerm_npf : ∀ (t : GraphTerm) (t1 : RebuildTerm),
    rebuildVisitTerm t = some t1 → npfGT t = true → npfRT t1 = true := by
  intro t t1 h hn
  cases t with
  | null =>
    simp only [rebuildVisitTerm, Option.some.injEq] at h
    subst h
    rfl
  | text data =>
    simp only [rebuildVisitTerm, Option.some.injEq] at h
    subst h
    rfl
  | nest t2 => simp [npfGT] at hn
  | pack i t2 => simp [npfGT] at hn
  | fix fx => simp [npfGT] at hn

theorem rebuildOpenVisit_ok (p : String → Bool) :
    ∀ (props : List (Property Unit)) (stack : List RebuildCont),
      (∀ f ∈ stack, ∀ o : RebuildObj, npfRO o = true → allTextsRO p o = true →
        npfRO (f o) = true ∧ allTextsRO p (f o) = true) →
      (∀ f ∈ rebuildOpenVisit props stack, ∀ o : RebuildObj,
        npfRO o = true → allTextsRO p o = true →
        npfRO (f o) = true ∧ allTextsRO p (f o) = true) := by
  intro props
  induction props with
  | nil => intro stack h; exact h
  | cons pr rest ih =>
    intro stack h
    cases pr with
    | grp u =>
      apply ih
      intro f hf o ho hto
      rcases List.mem_cons.mp hf with hf | hf
      · subst hf
        exact ⟨by simpa [npfRO] using ho, by simpa [allTextsRO] using hto⟩
      · exact h f hf o ho hto
    | seq u =>
      apply ih
      intro f hf o ho hto
      rcases List.mem_cons.mp hf with hf | hf
      · subst hf
        exact ⟨by simpa [npfRO] using ho, by simpa [allTextsRO] using hto⟩
      · exact h f hf o ho hto

theorem rebuildOpen_ok (p : String → Bool) (props : List (Property Unit))
    (stack : List RebuildCont) (part : RebuildObj → RebuildObj)
    (stack1 : List RebuildCont)
    (hstack : ∀ f ∈ stack, ∀ o : RebuildObj, npfRO o = true →
      allTextsRO p o = true → npfRO (f o) = true ∧ allTextsRO p (f o) = true)
    (hpart : ∀ o : RebuildObj, npfRO o = true → allTextsRO p o = true →
      npfRO (part o) = true ∧ allTextsRO p (part o) = true)
    (h : rebuildOpen props stack part = some stack1) :
    ∀ f ∈ stack1, ∀ o : RebuildObj, npfRO o = true → allTextsRO p o = true →
      npfRO (f o) = true ∧ allTextsRO p (f o) = true := by
  cases stack with
  | nil => simp [rebuildOpen] at h
  | cons top rest =>
    simp only [rebuildOpen, Option.some.injEq] at h
    subst h
    apply rebuildOpenVisit_ok
    intro f hf o ho hto
    rcases List.mem_cons.mp hf with hf | hf
    · subst hf
      obtain ⟨h1, h2⟩ := hpart o ho hto
      exact hstack top (List.mem_cons_self _ _) _ h1 h2
    · exact hstack f (List.mem_cons_of_mem _ hf) o ho hto

theorem rebuildClose_ok (p : String → Bool) :
    ∀ (count : Nat) (stack : List RebuildCont) (result : RebuildObj)
      (stack1 : List RebuildCont) (res1 : RebuildObj),
      (∀ f ∈ stack, ∀ o : RebuildObj, npfRO o = true → allTextsRO p o = true →
        npfRO (f o) = true ∧ allTextsRO p (f o) = true) →
      npfRO result = true → allTextsRO p result = true →
      rebuildClose count stack result = some (stack1, res1) →
      (∀ f ∈ stack1, ∀ o : RebuildObj, npfRO o = true → allTextsRO p o = true →
        npfRO (f o) = true ∧ allTextsRO p (f o) = true) ∧
      npfRO res1 = true ∧ allTextsRO p res1 = true := by
  intro count
  induction count with
  | zero =>
    intro stack result stack1 res1 hstack hr htr h
    simp only [rebuildClose, Option.some.injEq, Prod.mk.injEq] at h
    obtain ⟨e1, e2⟩ := h
    subst e1; subst e2
    exact ⟨hstack, hr, htr⟩
  | succ n ih =>
    intro stack result stack1 res1 hstack hr htr h
    cases stack with
    | nil => simp [rebuildClose] at h
    | cons top rest =>
      simp only [rebuildClose] at h
      obtain ⟨h1, h2⟩ := hstack top (List.mem_cons_self _ _) result hr htr
      exact ih rest (top result) stack1 res1
        (fun f hf => hstack f (List.mem_cons_of_mem _ hf)) h1 h2 h

theorem rebuildFinal_ok (p : String → Bool) (stack : List RebuildCont)
    (term : RebuildObj) (r : RebuildObj)
    (hstack : ∀ f ∈ stack, ∀ o : RebuildObj, npfRO o = true →
      allTextsRO p o = true → npfRO (f o) = true ∧ allTextsRO p (f o) = true)
    (ht : npfRO term = true) (htt : allTextsRO p term = true)
    (h : rebuildFinal stack term = some r) :
    npfRO r = true ∧ allTextsRO p r = true := by
  cases stack with
  | nil => simp [rebuildFinal] at h
  | cons top rest =>
    cases rest with
    | cons x xs => simp [rebuildFinal] at h
    | nil =>
      simp only [rebuildFinal, Option.some.injEq] at h
      subst h
      exact hstack top (List.mem_cons_self _ _) term ht htt

theorem rebuildVisitLineStep_ok (p : String → Bool) (item : RebuildObj)
    (ins : List Nat) (outs : List (List (Property Unit)))
    (stack : List RebuildCont) (part : RebuildObj → RebuildObj) (pad : Bool)
    (res : List Nat × List (List (Property Unit)) × List RebuildCont ×
      (RebuildObj → RebuildObj))
    (hitem : npfRO item = true) (htitem : allTextsRO p item = true)
    (hstack : ∀ f ∈ stack, ∀ o : RebuildObj, npfRO o = true →
      allTextsRO p o = true → npfRO (f o) = true ∧ allTextsRO p (f o) = true)
    (hpart : ∀ o : RebuildObj, npfRO o = true → allTextsRO p o = true →
      npfRO (part o) = true ∧ allTextsRO p (part o) = true)
    (h : rebuildVisitLineStep item ins outs stack part pad = some res) :
    (∀ f ∈ res.2.2.1, ∀ o : RebuildObj, npfRO o = true → allTextsRO p o = true →
      npfRO (f o) = true ∧ allTextsRO p (f o) = true) ∧
    (∀ o : RebuildObj, npfRO o = true → allTextsRO p o = true →
      npfRO (res.2.2.2 o) = true ∧ allTextsRO p (res.2.2.2 o) = true) := by
  cases ins with
  | nil => simp [rebuildVisitLineStep] at h
  | cons inProps ins1 =>
    cases outs with
    | nil => simp [rebuildVisitLineStep] at h
    | cons outProps outs1 =>
      simp only [rebuildVisitLineStep] at h
      split at h
      · simp only [Option.some.injEq] at h
        subst h
        refine ⟨hstack, fun o ho hto => ?_⟩
        apply hpart
        · simp [npfRO, hitem, ho]
        · simp [allTextsRO, htitem, hto]
      · split at h
        · simp only [bind, Option.bind_eq_some] at h
          obtain ⟨⟨stack2, closed⟩, hcl, heq⟩ := h
          simp only [Option.some.injEq] at heq
          subst heq
          obtain ⟨hp1, hp2⟩ := hpart item hitem htitem
          obtain ⟨hs1, hc1, hc2⟩ := rebuildClose_ok p inProps stack (part item)
            stack2 closed hstack hp1 hp2 hcl
          refine ⟨hs1, fun o ho hto => ?_⟩
          exact ⟨by simp [npfRO, hc1, ho], by simp [allTextsRO, hc2, hto]⟩
        · split at h
          · simp only [bind, Option.bind_eq_some] at h
            obtain ⟨stack2, hop, heq⟩ := h
            simp only [Option.some.injEq] at heq
            subst heq
            refine ⟨rebuildOpen_ok p outProps stack part stack2 hstack hpart hop,
              fun o ho hto => ?_⟩
            exact ⟨by simp [npfRO, hitem, ho], by simp [allTextsRO, htitem, hto]⟩
          · simp at h

theorem rebuildVisitLineLast_ok (p : String → Bool) (item : RebuildObj)
    (ins : List Nat) (outs : List (List (Property Unit)))
    (stack : List RebuildCont) (part : RebuildObj → RebuildObj) (r : RebuildObj)
    (hitem : npfRO item = true) (htitem : allTextsRO p item = true)
    (hstack : ∀ f ∈ stack, ∀ o : RebuildObj, npfRO o = true →
      allTextsRO p o = true → npfRO (f o) = true ∧ allTextsRO p (f o) = true)
    (hpart : ∀ o : RebuildObj, npfRO o = true → allTextsRO p o = true →
      npfRO (part o) = true ∧ allTextsRO p (part o) = true)
    (h : rebuildVisitLineLast item ins outs stack part = some r) :
    npfRO r = true ∧ allTextsRO p r = true := by
  cases ins with
  | nil => simp [rebuildVisitLineLast] at h
  | cons inProps ins1 =>
    cases ins1 with
    | cons x xs => simp [rebuildVisitLineLast] at h
    | nil =>
      cases outs with
      | nil => simp [rebuildVisitLineLast] at h
      | cons outProps outs1 =>
        cases outs1 with
        | cons y ys => simp [rebuildVisitLineLast] at h
        | nil =>
          simp only [rebuildVisitLineLast] at h
          split at h
          · split at h
            · obtain ⟨hp1, hp2⟩ := hpart item hitem htitem
              exact rebuildFinal_ok p stack (part item) r hstack hp1 hp2 h
            · simp only [bind, Option.bind_eq_some] at h
              obtain ⟨⟨stack2, closed⟩, hcl, hfin⟩ := h
              obtain ⟨hp1, hp2⟩ := hpart item hitem htitem
              obtain ⟨hs1, hc1, hc2⟩ := rebuildClose_ok p inProps stack
                (part item) stack2 closed hstack hp1 hp2 hcl
              exact rebuildFinal_ok p stack2 closed r hs1 hc1 hc2 hfin
          · simp at h

theorem rebuildVisitLine_ok (p : String → Bool) :
    ∀ (terms : List GraphTerm) (pads : List Bool) (ins : List Nat)
      (outs : List (List (Property Unit))) (stack : List RebuildCont)
      (part : RebuildObj → RebuildObj) (obj : RebuildObj),
      terms.all (fun t => npfGT t && allTextsGT p t) = true →
      (∀ f ∈ stack, ∀ o : RebuildObj, npfRO o = true → allTextsRO p o = true →
        npfRO (f o) = true ∧ allTextsRO p (f o) = true) →
      (∀ o : RebuildObj, npfRO o = true → allTextsRO p o = true →
        npfRO (part o) = true ∧ allTextsRO p (part o) = true) →
      rebuildVisitLine terms pads ins outs stack part = some obj →
      npfRO obj = true ∧ allTextsRO p obj = true := by
  intro terms
  induction terms with
  | nil => intro pads ins outs stack part obj hq hstack hpart h; simp [rebuildVisitLine] at h
  | cons t terms1 ih =>
    intro pads ins outs stack part obj hq hstack hpart h
    simp only [List.all_cons, Bool.and_eq_true] at hq
    obtain ⟨⟨hqn, hqt⟩, hqrest⟩ := hq
    cases t with
    | fix fx => simp [npfGT] at hqn
    | null =>
      cases terms1 with
      | nil =>
        cases pads with
        | nil =>
          simp only [rebuildVisitLine, rebuildVisitTerm, bind,
            Option.bind_eq_some, Option.some.injEq] at h
          obtain ⟨t1, ht1, h2⟩ := h
          subst ht1
          exact rebuildVisitLineLast_ok p (RebuildObj.term RebuildTerm.null)
            ins outs stack part obj rfl rfl hstack hpart h2
        | cons pad pads1 =>
          simp only [rebuildVisitLine, rebuildVisitTerm, bind,
            Option.bind_eq_some, Option.some.injEq] at h
          obtain ⟨t1, ht1, step, hstep, h2⟩ := h
          simp [rebuildVisitLine] at h2
      | cons t2 terms2 =>
        cases pads with
        | nil => simp [rebuildVisitLine] at h
        | cons pad pads1 =>
          simp only [rebuildVisitLine, rebuildVisitTerm, bind,
            Option.bind_eq_some, Option.some.injEq] at h
          obtain ⟨t1, ht1, ⟨ins1, outs1, stack1, part1⟩, hstep, h2⟩ := h
          subst ht1
          obtain ⟨hs1, hp1⟩ := rebuildVisitLineStep_ok p
            (RebuildObj.term RebuildTerm.null) ins outs stack part
            pad _ rfl rfl hstack hpart hstep
          exact ih pads1 ins1 outs1 stack1 part1 obj hqrest hs1 hp1 h2
    | text data =>
      cases terms1 with
      | nil =>
        cases pads with
        | nil =>
          simp only [rebuildVisitLine, rebuildVisitTerm, bind,
            Option.bind_eq_some, Option.some.injEq] at h
          obtain ⟨t1, ht1, h2⟩ := h
          subst ht1
          exact rebuildVisitLineLast_ok p
            (RebuildObj.term (RebuildTerm.text data)) ins outs stack part obj rfl
            (by simpa [allTextsRO, allTextsRT] using hqt) hstack hpart h2
        | cons pad pads1 =>
          simp only [rebuildVisitLine, rebuildVisitTerm, bind,
            Option.bind_eq_some, Option.some.injEq] at h
          obtain ⟨t1, ht1, step, hstep, h2⟩ := h
          simp [rebuildVisitLine] at h2
      | cons t2 terms2 =>
        cases pads with
        | nil => simp [rebuildVisitLine] at h
        | cons pad pads1 =>
          simp only [rebuildVisitLine, rebuildVisitTerm, bind,
            Option.bind_eq_some, Option.some.injEq] at h
          obtain ⟨t1, ht1, ⟨ins1, outs1, stack1, part1⟩, hstep, h2⟩ := h
          subst ht1
          obtain ⟨hs1, hp1⟩ := rebuildVisitLineStep_ok p
            (RebuildObj.term (RebuildTerm.text data)) ins outs stack part
            pad _ rfl (by simpa [allTextsRO, allTextsRT] using hqt) hstack hpart hstep
          exact ih pads1 ins1 outs1 stack1 part1 obj hqrest hs1 hp1 h2
    | nest t0 => simp [npfGT] at hqn
    | pack i t0 => simp [npfGT] at hqn

theorem topologyNode_fst (g : Graph) (n : GraphNode)
    (row : GraphTerm × Nat × List (Property Unit))
    (h : topologyNode g n = some row) : row.1 = n.term := by
  simp only [topologyNode, bind, Option.bind_eq_some, Option.some.injEq] at h
  obtain ⟨propOuts, hp, heq⟩ := h
  subst heq
  rfl

theorem mapM_loop_terms (g : Graph) :
    ∀ (l : List GraphNode) (acc rows : List (GraphTerm × Nat × List (Property Unit))),
      List.mapM.loop (topologyNode g) l acc = some rows →
      rows.map (fun r => r.1) =
        (acc.reverse.map (fun r => r.1)) ++ l.map (fun n => n.term) := by
  intro l
  induction l with
  | nil =>
    intro acc rows h
    simp only [List.mapM.loop, pure, Option.some.injEq] at h
    subst h
    simp
  | cons n l1 ih =>
    intro acc rows h
    simp only [List.mapM.loop, bind, Option.bind_eq_some] at h
    obtain ⟨row, hrow, h2⟩ := h
    have := ih (row :: acc) rows h2
    rw [this]
    simp [topologyNode_fst g n row hrow]

theorem topology_terms (g : Graph)
    (res : List GraphTerm × List Nat × List (List (Property Unit)))
    (h : topology g = some res) : res.1 = g.nodes.map (fun n => n.term) := by
  simp only [topology, List.mapM, bind, pure, Option.bind_eq_some,
    Option.some.injEq] at h
  obtain ⟨rows, hrows, heq⟩ := h
  subst heq
  simpa using mapM_loop_terms g g.nodes [] rows hrows

theorem rebuildDoc_npf (p : String → Bool) :
    ∀ (gdoc : GraphDoc) (rdoc : RebuildDoc),
      graphDocNodes (fun t => npfGT t && allTextsGT p t) gdoc = true →
      rebuildDoc gdoc = some rdoc →
      npfRD rdoc = true ∧ allTextsRD p rdoc = true := by
  intro gdoc
  induction gdoc with
  | Eod =>
    intro rdoc h hr
    simp only [rebuildDoc, Option.some.injEq] at hr
    subst hr
    exact ⟨rfl, rfl⟩
  | Break g pads d ih =>
    intro rdoc h hr
    simp only [graphDocNodes, Bool.and_eq_true] at h
    simp only [rebuildDoc, bind, Option.bind_eq_some] at hr
    obtain ⟨⟨terms, ins, outs⟩, htp, obj, hline, rest, hrest, heq⟩ := hr
    simp only [Option.some.injEq] at heq
    subst heq
    have hterms : terms = g.nodes.map (fun n => n.term) :=
      topology_terms g (terms, ins, outs) htp
    have hq : terms.all (fun t => npfGT t && allTextsGT p t) = true := by
      subst hterms
      simpa [List.all_map, Function.comp, nodesAll] using h.1
    have hid : ∀ o : RebuildObj, npfRO o = true → allTextsRO p o = true →
        npfRO ((fun o => o) o) = true ∧ allTextsRO p ((fun o => o) o) = true :=
      fun o ho hto => ⟨ho, hto⟩
    have hstack : ∀ f ∈ [fun (o : RebuildObj) => o], ∀ o : RebuildObj,
        npfRO o = true → allTextsRO p o = true →
        npfRO (f o) = true ∧ allTextsRO p (f o) = true := by
      intro f hf o ho hto
      rcases List.mem_cons.mp hf with hf | hf
      · subst hf; exact ⟨ho, hto⟩
      · simp at hf
    obtain ⟨h1, h2⟩ := rebuildVisitLine_ok p terms pads ins outs _ _ obj hq
      hstack hid hline
    obtain ⟨h3, h4⟩ := ih rest h.2 hrest
    exact ⟨by simp [npfRD, h1, h3], by simp [allTextsRD, h2, h4]⟩

theorem structurize_npf (p : String → Bool) (fdoc : FixedDoc) (rdoc : RebuildDoc)
    (hn : npfFD fdoc = true) (ht : allTextsFD p fdoc = true)
    (h : structurize fdoc = some rdoc) :
    npfRD rdoc = true ∧ allTextsRD p rdoc = true := by
  simp only [structurize, bind, Option.bind_eq_some] at h
  obtain ⟨gdoc, hg, gdoc2, hsv, hrb⟩ := h
  have hN := graphify_nodes p fdoc gdoc hn ht hg
  have hN2 := solve_nodesAll _ gdoc gdoc2 hN hsv
  exact rebuildDoc_npf p gdoc2 rdoc hN2 hrb



/-! ### Passes 6-10 on general NPF objects. -/

theorem denullTerm_npf : ∀ (t : RebuildTerm) (t1 : DenullTerm),
    denullTerm t = some t1 → npfRT t = true → npfDT t1 = true := by
  intro t t1 h hn
  cases t with
  | null => simp [denullTerm] at h
  | text data =>
    simp only [denullTerm] at h
    split at h
    · simp at h
    · simp only [Option.some.injEq] at h
      subst h
      rfl
  | nest t2 => simp [npfRT] at hn
  | pack i t2 => simp [npfRT] at hn

theorem denullVisitObj_npf (p : String → Bool) :
    ∀ (obj : RebuildObj) (res : DenullRes DenullObj),
      npfRO obj = true → allTextsRO p obj = true →
      denullVisitObj obj = some res →
      (∀ obj1, res = DenullRes.lastSome obj1 →
        npfDO obj1 = true ∧ allTextsDO p obj1 = true) ∧
      (∀ b obj1, res = DenullRes.nextNone b obj1 →
        npfDO obj1 = true ∧ allTextsDO p obj1 = true) := by
  intro obj
  induction obj with
  | fix fx => intro res hn ht h; simp [npfRO] at hn
  | term term =>
    intro res hn ht h
    simp only [denullVisitObj] at h
    cases hD : denullTerm term with
    | none =>
      rw [hD] at h
      simp only [Option.some.injEq] at h
      subst h
      exact ⟨fun o1 hf => (nomatch hf), fun b o1 hf => nomatch hf⟩
    | some t1 =>
      rw [hD] at h
      simp only [Option.some.injEq] at h
      subst h
      refine ⟨fun o1 hf => ?_, fun b o1 hf => nomatch hf⟩
      cases hf
      exact ⟨by simpa [npfDO] using denullTerm_npf term t1 hD hn,
        by simpa [allTextsDO] using denullTerm_texts p term t1 hD ht⟩
  | grp o ih =>
    intro res hn ht h
    simp only [npfRO] at hn
    simp only [allTextsRO] at ht
    simp only [denullVisitObj, bind, Option.bind_eq_some] at h
    obtain ⟨res1, hres1, h2⟩ := h
    have ihR := ih res1 hn ht hres1
    cases res1 with
    | lastNone =>
      simp only [Option.some.injEq] at h2
      subst h2
      exact ⟨fun o1 hf => (nomatch hf), fun b o1 hf => nomatch hf⟩
    | lastSome o2 =>
      simp only [Option.some.injEq] at h2
      subst h2
      refine ⟨fun o1 hf => ?_, fun b o1 hf => nomatch hf⟩
      cases hf
      obtain ⟨h1, h2⟩ := ihR.1 o2 rfl
      exact ⟨by simpa [npfDO] using h1, by simpa [allTextsDO] using h2⟩
    | nextNone b2 o2 =>
      simp only [Option.some.injEq] at h2
      subst h2
      refine ⟨fun o1 hf => ?_, fun b o1 hf => nomatch hf⟩
      cases hf
      obtain ⟨h1, h2⟩ := ihR.2 b2 o2 rfl
      exact ⟨by simpa [npfDO] using h1, by simpa [allTextsDO] using h2⟩
  | seq o ih =>
    intro res hn ht h
    simp only [npfRO] at hn
    simp only [allTextsRO] at ht
    simp only [denullVisitObj, bind, Option.bind_eq_some] at h
    obtain ⟨res1, hres1, h2⟩ := h
    have ihR := ih res1 hn ht hres1
    cases res1 with
    | lastNone =>
      simp only [Option.some.injEq] at h2
      subst h2
      exact ⟨fun o1 hf => (nomatch hf), fun b o1 hf => nomatch hf⟩
    | lastSome o2 =>
      simp only [Option.some.injEq] at h2
      subst h2
      refine ⟨fun o1 hf => ?_, fun b o1 hf => nomatch hf⟩
      cases hf
      obtain ⟨h1, h2⟩ := ihR.1 o2 rfl
      exact ⟨by simpa [npfDO] using h1, by simpa [allTextsDO] using h2⟩
    | nextNone b2 o2 =>
      simp only [Option.some.injEq] at h2
      subst h2
      refine ⟨fun o1 hf => ?_, fun b o1 hf => nomatch hf⟩
      cases hf
      obtain ⟨h1, h2⟩ := ihR.2 b2 o2 rfl
      exact ⟨by simpa [npfDO] using h1, by simpa [allTextsDO] using h2⟩
  | comp l r lPad ihl ihr =>
    intro res hn ht h
    simp only [npfRO, Bool.and_eq_true] at hn
    simp only [allTextsRO, Bool.and_eq_true] at ht
    simp only [denullVisitObj, bind, Option.bind_eq_some] at h
    obtain ⟨lRes, hL, h2⟩ := h
    have ihL := ihl lRes hn.1 ht.1 hL
    cases lRes with
    | lastNone =>
      simp only [bind, Option.bind_eq_some] at h2
      obtain ⟨rRes, hR, h3⟩ := h2
      have ihR := ihr rRes hn.2 ht.2 hR
      cases rRes with
      | lastNone =>
        simp only [Option.some.injEq] at h3
        subst h3
        exact ⟨fun o1 hf => (nomatch hf), fun b o1 hf => nomatch hf⟩
      | lastSome r1 =>
        simp only [Option.some.injEq] at h3
        subst h3
        refine ⟨fun o1 hf => (nomatch hf), fun b o1 hf => ?_⟩
        cases hf
        exact ihR.1 _ rfl
      | nextNone rb r1 =>
        simp only [Option.some.injEq] at h3
        subst h3
        refine ⟨fun o1 hf => (nomatch hf), fun b o1 hf => ?_⟩
        cases hf
        exact ihR.2 rb _ rfl
    | lastSome l1 =>
      simp only [bind, Option.bind_eq_some] at h2
      obtain ⟨rRes, hR, h3⟩ := h2
      have ihR := ihr rRes hn.2 ht.2 hR
      obtain ⟨hl1, hl2⟩ := ihL.1 l1 rfl
      cases rRes with
      | lastNone =>
        simp only [Option.some.injEq] at h3
        subst h3
        refine ⟨fun o1 hf => ?_, fun b o1 hf => nomatch hf⟩
        cases hf
        exact ⟨hl1, hl2⟩
      | lastSome r1 =>
        simp only [Option.some.injEq] at h3
        subst h3
        refine ⟨fun o1 hf => ?_, fun b o1 hf => nomatch hf⟩
        cases hf
        obtain ⟨hr1, hr2⟩ := ihR.1 r1 rfl
        exact ⟨by simp [npfDO, hl1, hr1], by simp [allTextsDO, hl2, hr2]⟩
      | nextNone rb r1 =>
        simp only [Option.some.injEq] at h3
        subst h3
        refine ⟨fun o1 hf => ?_, fun b o1 hf => nomatch hf⟩
        cases hf
        obtain ⟨hr1, hr2⟩ := ihR.2 rb r1 rfl
        exact ⟨by simp [npfDO, hl1, hr1], by simp [allTextsDO, hl2, hr2]⟩
    | nextNone b1 o1 => simp at h2

theorem denullVisitDoc_npf (p : String → Bool) :
    ∀ (rdoc : RebuildDoc) (res : Option DenullDoc),
      npfRD rdoc = true → allTextsRD p rdoc = true →
      denullVisitDoc rdoc = some res →
      ∀ dd, res = some dd → npfDD dd = true ∧ allTextsDD p dd = true := by
  intro rdoc
  induction rdoc with
  | Eod =>
    intro res hn ht h
    simp only [denullVisitDoc, Option.some.injEq] at h
    subst h
    exact fun dd hdd => nomatch hdd
  | Break obj d1 ih =>
    intro res hn ht h
    simp only [npfRD, Bool.and_eq_true] at hn
    simp only [allTextsRD, Bool.and_eq_true] at ht
    simp only [denullVisitDoc, bind, Option.bind_eq_some] at h
    obtain ⟨objRes, hO, rest, hRest, h3⟩ := h
    have hObj := denullVisitObj_npf p obj objRes hn.1 ht.1 hO
    have ihR := ih rest hn.2 ht.2 hRest
    cases objRes with
    | lastNone =>
      cases rest with
      | none =>
        simp only [Option.some.injEq] at h3
        subst h3
        intro dd hdd
        cases hdd
        exact ⟨rfl, rfl⟩
      | some dd1 =>
        simp only [Option.some.injEq] at h3
        subst h3
        intro dd hdd
        cases hdd
        obtain ⟨h1, h2⟩ := ihR dd1 rfl
        exact ⟨by simpa [npfDD] using h1, by simpa [allTextsDD] using h2⟩
    | lastSome obj1 =>
      obtain ⟨ho1, ho2⟩ := hObj.1 obj1 rfl
      cases rest with
      | none =>
        simp only [Option.some.injEq] at h3
        subst h3
        intro dd hdd
        cases hdd
        exact ⟨by simpa [npfDD] using ho1, by simpa [allTextsDD] using ho2⟩
      | some dd1 =>
        simp only [Option.some.injEq] at h3
        subst h3
        intro dd hdd
        cases hdd
        obtain ⟨h1, h2⟩ := ihR dd1 rfl
        exact ⟨by simp [npfDD, ho1, h1], by simp [allTextsDD, ho2, h2]⟩
    | nextNone b obj1 =>
      obtain ⟨ho1, ho2⟩ := hObj.2 b obj1 rfl
      cases rest with
      | none =>
        simp only [Option.some.injEq] at h3
        subst h3
        intro dd hdd
        cases hdd
        exact ⟨by simpa [npfDD] using ho1, by simpa [allTextsDD] using ho2⟩
      | some dd1 =>
        simp only [Option.some.injEq] at h3
        subst h3
        intro dd hdd
        cases hdd
        obtain ⟨h1, h2⟩ := ihR dd1 rfl
        exact ⟨by simp [npfDD, ho1, h1], by simp [allTextsDD, ho2, h2]⟩

theorem denull_npf (p : String → Bool) (rdoc : RebuildDoc) (dd : DenullDoc)
    (hn : npfRD rdoc = true) (ht : allTextsRD p rdoc = true)
    (h : denull rdoc = some dd) : npfDD dd = true ∧ allTextsDD p dd = true := by
  simp only [denull, bind, Option.bind_eq_some] at h
  obtain ⟨res, hres, heq⟩ := h
  have hD := denullVisitDoc_npf p rdoc res hn ht hres
  cases res with
  | none =>
    simp only [Option.getD, Option.some.injEq] at heq
    subst heq
    exact ⟨rfl, rfl⟩
  | some dd1 =>
    simp only [Option.getD, Option.some.injEq] at heq
    subst heq
    exact hD dd1 rfl

/-! ### Pass 7 on general NPF objects. -/

theorem elimSeqsObj_npf (p : String → Bool) :
    ∀ (obj : DenullObj) (b : Bool), npfDO obj = true → allTextsDO p obj = true →
      npfDO (elimSeqsObj obj b).2 = true ∧
      allTextsDO p (elimSeqsObj obj b).2 = true := by
  intro obj
  induction obj with
  | term t => intro b hn ht; exact ⟨hn, ht⟩
  | fix fx => intro b hn ht; simp [npfDO] at hn
  | grp o ih =>
    intro b hn ht
    simp only [npfDO] at hn
    simp only [allTextsDO] at ht
    rcases hE : elimSeqsObj o false with ⟨cnt, obj2⟩
    have ihE := ih false hn ht
    rw [hE] at ihE
    exact ⟨by simp [elimSeqsObj, hE, npfDO]; exact ihE.1,
      by simp [elimSeqsObj, hE, allTextsDO]; exact ihE.2⟩
  | seq o ih =>
    intro b hn ht
    simp only [npfDO] at hn
    simp only [allTextsDO] at ht
    cases b with
    | true =>
      have ihE := ih true hn ht
      simpa [elimSeqsObj] using ihE
    | false =>
      rcases hE : elimSeqsObj o true with ⟨cnt, obj2⟩
      have ihE := ih true hn ht
      rw [hE] at ihE
      cases cnt with
      | zero => simpa [elimSeqsObj, hE] using ihE
      | one => simpa [elimSeqsObj, hE] using ihE
      | many =>
        exact ⟨by simp [elimSeqsObj, hE, npfDO]; exact ihE.1,
          by simp [elimSeqsObj, hE, allTextsDO]; exact ihE.2⟩
  | comp l r pd ihl ihr =>
    intro b hn ht
    simp only [npfDO, Bool.and_eq_true] at hn
    simp only [allTextsDO, Bool.and_eq_true] at ht
    rcases hL : elimSeqsObj l b with ⟨lc, l1⟩
    rcases hR : elimSeqsObj r b with ⟨rc, r1⟩
    have ihL := ihl b hn.1 ht.1
    have ihR := ihr b hn.2 ht.2
    rw [hL] at ihL
    rw [hR] at ihR
    exact ⟨by simp [elimSeqsObj, hL, hR, npfDO]; exact ⟨ihL.1, ihR.1⟩,
      by simp [elimSeqsObj, hL, hR, allTextsDO]; exact ⟨ihL.2, ihR.2⟩⟩

theorem elimGrpsObj_npf (p : String → Bool) :
    ∀ (obj : DenullObj) (b : Bool), npfDO obj = true → allTextsDO p obj = true →
      npfDO (elimGrpsObj obj b).2 = true ∧
      allTextsDO p (elimGrpsObj obj b).2 = true := by
  intro obj
  induction obj with
  | term t => intro b hn ht; exact ⟨hn, ht⟩
  | fix fx => intro b hn ht; simp [npfDO] at hn
  | grp o ih =>
    intro b hn ht
    simp only [npfDO] at hn
    simp only [allTextsDO] at ht
    cases b with
    | true =>
      have ihE := ih true hn ht
      simpa [elimGrpsObj] using ihE
    | false =>
      rcases hE : elimGrpsObj o false with ⟨cnt, obj2⟩
      have ihE := ih false hn ht
      rw [hE] at ihE
      cases cnt with
      | zero => simpa [elimGrpsObj, hE] using ihE
      | one =>
        exact ⟨by simp [elimGrpsObj, hE, npfDO]; exact ihE.1,
          by simp [elimGrpsObj, hE, allTextsDO]; exact ihE.2⟩
      | many =>
        exact ⟨by simp [elimGrpsObj, hE, npfDO]; exact ihE.1,
          by simp [elimGrpsObj, hE, allTextsDO]; exact ihE.2⟩
  | seq o ih =>
    intro b hn ht
    simp only [npfDO] at hn
    simp only [allTextsDO] at ht
    rcases hE : elimGrpsObj o false with ⟨cnt, obj2⟩
    have ihE := ih false hn ht
    rw [hE] at ihE
    exact ⟨by simp [elimGrpsObj, hE, npfDO]; exact ihE.1,
      by simp [elimGrpsObj, hE, allTextsDO]; exact ihE.2⟩
  | comp l r pd ihl ihr =>
    intro b hn ht
    simp only [npfDO, Bool.and_eq_true] at hn
    simp only [allTextsDO, Bool.and_eq_true] at ht
    rcases hL : elimGrpsObj l b with ⟨lc, l1⟩
    rcases hR : elimGrpsObj r false with ⟨rc, r1⟩
    have ihL := ihl b hn.1 ht.1
    have ihR := ihr false hn.2 ht.2
    rw [hL] at ihL
    rw [hR] at ihR
    exact ⟨by simp [elimGrpsObj, hL, hR, npfDO]; exact ⟨ihL.1, ihR.1⟩,
      by simp [elimGrpsObj, hL, hR, allTextsDO]; exact ⟨ihL.2, ihR.2⟩⟩

theorem identities_npf (p : String → Bool) : ∀ dd : DenullDoc,
    npfDD dd = true → allTextsDD p dd = true →
    npfDD (identities dd) = true ∧ allTextsDD p (identities dd) = true := by
  have hSeqs : ∀ dd : DenullDoc, npfDD dd = true → allTextsDD p dd = true →
      npfDD (elimSeqsDoc dd) = true ∧ allTextsDD p (elimSeqsDoc dd) = true := by
    intro dd
    induction dd with
    | Eod => intro hn ht; exact ⟨rfl, rfl⟩
    | Line obj =>
      intro hn ht
      obtain ⟨h1, h2⟩ := elimSeqsObj_npf p obj false hn ht
      exact ⟨by simpa [elimSeqsDoc, npfDD] using h1,
        by simpa [elimSeqsDoc, allTextsDD] using h2⟩
    | Empty d1 ih =>
      intro hn ht
      obtain ⟨h1, h2⟩ := ih (by simpa [npfDD] using hn)
        (by simpa [allTextsDD] using ht)
      exact ⟨by simpa [elimSeqsDoc, npfDD] using h1,
        by simpa [elimSeqsDoc, allTextsDD] using h2⟩
    | Break obj d1 ih =>
      intro hn ht
      simp only [npfDD, Bool.and_eq_true] at hn
      simp only [allTextsDD, Bool.and_eq_true] at ht
      obtain ⟨h1, h2⟩ := elimSeqsObj_npf p obj false hn.1 ht.1
      obtain ⟨h3, h4⟩ := ih hn.2 ht.2
      exact ⟨by simp [elimSeqsDoc, npfDD, h1, h3],
        by simp [elimSeqsDoc, allTextsDD, h2, h4]⟩
  have hGrps : ∀ dd : DenullDoc, npfDD dd = true → allTextsDD p dd = true →
      npfDD (elimGrpsDoc dd) = true ∧ allTextsDD p (elimGrpsDoc dd) = true := by
    intro dd
    induction dd with
    | Eod => intro hn ht; exact ⟨rfl, rfl⟩
    | Line obj =>
      intro hn ht
      obtain ⟨h1, h2⟩ := elimGrpsObj_npf p obj true hn ht
      exact ⟨by simpa [elimGrpsDoc, npfDD] using h1,
        by simpa [elimGrpsDoc, allTextsDD] using h2⟩
    | Empty d1 ih =>
      intro hn ht
      obtain ⟨h1, h2⟩ := ih (by simpa [npfDD] using hn)
        (by simpa [allTextsDD] using ht)
      exact ⟨by simpa [elimGrpsDoc, npfDD] using h1,
        by simpa [elimGrpsDoc, allTextsDD] using h2⟩
    | Break obj d1 ih =>
      intro hn ht
      simp only [npfDD, Bool.and_eq_true] at hn
      simp only [allTextsDD, Bool.and_eq_true] at ht
      obtain ⟨h1, h2⟩ := elimGrpsObj_npf p obj true hn.1 ht.1
      obtain ⟨h3, h4⟩ := ih hn.2 ht.2
      exact ⟨by simp [elimGrpsDoc, npfDD, h1, h3],
        by simp [elimGrpsDoc, allTextsDD, h2, h4]⟩
  intro dd hn ht
  obtain ⟨h1, h2⟩ := hSeqs dd hn ht
  obtain ⟨h3, h4⟩ := hGrps (elimSeqsDoc dd) h1 h2
  exact ⟨by simpa [identities] using h3, by simpa [identities] using h4⟩

/-! ### Pass 8 on general NPF objects. -/

theorem reassocObj_npf (p : String → Bool) :
    ∀ (obj : DenullObj) (part : DenullObj → DenullObj),
      npfDO obj = true → allTextsDO p obj = true →
      (∀ o : DenullObj, npfDO o = true → allTextsDO p o = true →
        npfDO (part o) = true ∧ allTextsDO p (part o) = true) →
      npfDO (reassocObj obj part) = true ∧
      allTextsDO p (reassocObj obj part) = true := by
  intro obj
  induction obj with
  | term t => intro part hn ht hpart; exact hpart _ hn ht
  | fix fx => intro part hn ht hpart; simp [npfDO] at hn
  | grp o ih =>
    intro part hn ht hpart
    simp only [npfDO] at hn
    simp only [allTextsDO] at ht
    obtain ⟨h1, h2⟩ := ih (fun o => o) hn ht (fun o a b => ⟨a, b⟩)
    exact hpart _ (by simpa [npfDO] using h1) (by simpa [allTextsDO] using h2)
  | seq o ih =>
    intro part hn ht hpart
    simp only [npfDO] at hn
    simp only [allTextsDO] at ht
    obtain ⟨h1, h2⟩ := ih (fun o => o) hn ht (fun o a b => ⟨a, b⟩)
    exact hpart _ (by simpa [npfDO] using h1) (by simpa [allTextsDO] using h2)
  | comp l r pd ihl ihr =>
    intro part hn ht hpart
    simp only [npfDO, Bool.and_eq_true] at hn
    simp only [allTextsDO, Bool.and_eq_true] at ht
    apply ihl _ hn.1 ht.1
    intro o ho hto
    obtain ⟨h1, h2⟩ := ihr part hn.2 ht.2 hpart
    exact ⟨by simp [npfDO, ho, h1], by simp [allTextsDO, hto, h2]⟩

theorem reassociate_npf (p : String → Bool) : ∀ dd : DenullDoc,
    npfDD dd = true → allTextsDD p dd = true →
    npfDD (reassociate dd) = true ∧ allTextsDD p (reassociate dd) = true := by
  intro dd
  induction dd with
  | Eod => intro hn ht; exact ⟨rfl, rfl⟩
  | Line obj =>
    intro hn ht
    obtain ⟨h1, h2⟩ := reassocObj_npf p obj (fun o => o) hn ht (fun o a b => ⟨a, b⟩)
    exact ⟨by simpa [reassociate, npfDD] using h1,
      by simpa [reassociate, allTextsDD] using h2⟩
  | Empty d1 ih =>
    intro hn ht
    obtain ⟨h1, h2⟩ := ih (by simpa [npfDD] using hn) (by simpa [allTextsDD] using ht)
    exact ⟨by simpa [reassociate, npfDD] using h1,
      by simpa [reassociate, allTextsDD] using h2⟩
  | Break obj d1 ih =>
    intro hn ht
    simp only [npfDD, Bool.and_eq_true] at hn
    simp only [allTextsDD, Bool.and_eq_true] at ht
    obtain ⟨h1, h2⟩ := reassocObj_npf p obj (fun o => o) hn.1 ht.1 (fun o a b => ⟨a, b⟩)
    obtain ⟨h3, h4⟩ := ih hn.2 ht.2
    exact ⟨by simp [reassociate, npfDD, h1, h3],
      by simp [reassociate, allTextsDD, h2, h4]⟩

/-! ### Pass 9 on general NPF objects: no wrappers are ever peeled off. -/

theorem rescopeVisitObj_npf (p : String → Bool) :
    ∀ obj : DenullObj, npfDO obj = true → allTextsDO p obj = true →
      (rescopeVisitObj obj).1 = [] ∧ npfXO (rescopeVisitObj obj).2 = true ∧
      allTextsXO p (rescopeVisitObj obj).2 = true := by
  intro obj
  induction obj with
  | term t =>
    intro hn ht
    cases t with
    | text data => exact ⟨rfl, rfl, ht⟩
    | nest t2 => simp [npfDO, npfDT] at hn
    | pack i t2 => simp [npfDO, npfDT] at hn
  | fix fx => intro hn ht; simp [npfDO] at hn
  | grp o ih =>
    intro hn ht
    simp only [npfDO] at hn
    simp only [allTextsDO] at ht
    rcases hR : rescopeVisitObj o with ⟨props, obj2⟩
    have ihR := ih hn ht
    rw [hR] at ihR
    dsimp only at ihR
    obtain ⟨e1, e2, e3⟩ := ihR
    subst e1
    exact ⟨by simp [rescopeVisitObj, hR],
      by simp [rescopeVisitObj, hR, npfXO, e2],
      by simp [rescopeVisitObj, hR, allTextsXO, e3]⟩
  | seq o ih =>
    intro hn ht
    simp only [npfDO] at hn
    simp only [allTextsDO] at ht
    rcases hR : rescopeVisitObj o with ⟨props, obj2⟩
    have ihR := ih hn ht
    rw [hR] at ihR
    dsimp only at ihR
    obtain ⟨e1, e2, e3⟩ := ihR
    subst e1
    exact ⟨by simp [rescopeVisitObj, hR],
      by simp [rescopeVisitObj, hR, npfXO, e2],
      by simp [rescopeVisitObj, hR, allTextsXO, e3]⟩
  | comp l r pd ihl ihr =>
    intro hn ht
    simp only [npfDO, Bool.and_eq_true] at hn
    simp only [allTextsDO, Bool.and_eq_true] at ht
    rcases hL : rescopeVisitObj l with ⟨lProps, left1⟩
    rcases hR : rescopeVisitObj r with ⟨rProps, right1⟩
    have ihL := ihl hn.1 ht.1
    have ihR := ihr hn.2 ht.2
    rw [hL] at ihL
    rw [hR] at ihR
    dsimp only at ihL ihR
    obtain ⟨el1, el2, el3⟩ := ihL
    obtain ⟨er1, er2, er3⟩ := ihR
    subst el1
    subst er1
    refine ⟨by simp [rescopeVisitObj, hL, hR, joinProps], ?_, ?_⟩
    · simp [rescopeVisitObj, hL, hR, joinProps, applyProps, npfXO, el2, er2]
    · simp [rescopeVisitObj, hL, hR, joinProps, applyProps, allTextsXO, el3, er3]

theorem rescope_npf (p : String → Bool) : ∀ dd : DenullDoc,
    npfDD dd = true → allTextsDD p dd = true →
    npfXD (rescope dd) = true ∧ allTextsXD p (rescope dd) = true := by
  intro dd
  induction dd with
  | Eod => intro hn ht; exact ⟨rfl, rfl⟩
  | Line obj =>
    intro hn ht
    rcases hR : rescopeVisitObj obj with ⟨props, obj1⟩
    have h := rescopeVisitObj_npf p obj hn ht
    rw [hR] at h
    dsimp only at h
    obtain ⟨e1, e2, e3⟩ := h
    subst e1
    exact ⟨by simp [rescope, hR, npfXD, applyProps, e2],
      by simp [rescope, hR, allTextsXD, applyProps, e3]⟩
  | Empty d1 ih =>
    intro hn ht
    obtain ⟨h1, h2⟩ := ih (by simpa [npfDD] using hn) (by simpa [allTextsDD] using ht)
    exact ⟨by simpa [rescope, npfXD] using h1,
      by simpa [rescope, allTextsXD] using h2⟩
  | Break obj d1 ih =>
    intro hn ht
    simp only [npfDD, Bool.and_eq_true] at hn
    simp only [allTextsDD, Bool.and_eq_true] at ht
    rcases hR : rescopeVisitObj obj with ⟨props, obj1⟩
    have h := rescopeVisitObj_npf p obj hn.1 ht.1
    rw [hR] at h
    dsimp only at h
    obtain ⟨e1, e2, e3⟩ := h
    subst e1
    obtain ⟨h3, h4⟩ := ih hn.2 ht.2
    exact ⟨by simp [rescope, hR, npfXD, applyProps, e2, h3],
      by simp [rescope, hR, allTextsXD, applyProps, e3, h4]⟩

/-! ### Pass 10 on general NPF objects. -/

theorem heapObj_npf : ∀ obj : FinalDocObj,
    npfOO (heapObj obj) = npfXO obj := by
  intro obj
  induction obj with
  | text data => rfl
  | fix fx => rfl
  | grp o ih => simp [heapObj, npfOO, npfXO, ih]
  | seq o ih => simp [heapObj, npfOO, npfXO, ih]
  | nest o ih => rfl
  | pack index o ih => rfl
  | comp l r pd ihl ihr => simp [heapObj, npfOO, npfXO, ihl, ihr]

theorem moveToHeap_npf : ∀ fd : FinalDoc, npfOD (moveToHeap fd) = npfXD fd := by
  intro fd
  induction fd with
  | Eod => rfl
  | Empty d1 ih => simp [moveToHeap, npfOD, npfXD, ih]
  | Break obj d1 ih => simp [moveToHeap, npfOD, npfXD, heapObj_npf, ih]
  | Line obj => simp [moveToHeap, npfOD, npfXD, heapObj_npf]



/-! ### Output lines: facts about `splitLines` and `charsLen`. -/

theorem splitLines_cons (c : Char) (cs : List Char) :
    splitLines (c :: cs) =
      match splitLines cs with
      | [] => if c = '\n' then [[], []] else [[c]]
      | l :: ls => if c = '\n' then [] :: l :: ls else (c :: l) :: ls := rfl

theorem splitLines_ne_nil : ∀ cs : List Char, splitLines cs ≠ [] := by
  intro cs
  induction cs with
  | nil => simp [splitLines]
  | cons c cs ih =>
    rw [splitLines_cons]
    cases splitLines cs <;> dsimp only <;> split <;> simp

theorem splitLines_append : ∀ (a b : List Char) (lines : List (List Char))
    (lastL : List Char) (hb : List Char) (tb : List (List Char)),
    splitLines a = lines ++ [lastL] → splitLines b = hb :: tb →
    splitLines (a ++ b) = lines ++ [lastL ++ hb] ++ tb := by
  intro a
  induction a with
  | nil =>
    intro b lines lastL hb tb ha hbb
    have ha0 : ([[]] : List (List Char)) = lines ++ [lastL] := ha
    cases lines with
    | nil =>
      simp only [List.nil_append] at ha0 ⊢
      injection ha0 with h1 h2
      subst h1
      simpa using hbb
    | cons l0 ls0 =>
      simp only [List.cons_append] at ha0
      injection ha0 with h1 h2
      simp at h2
  | cons c a1 ih =>
    intro b lines lastL hb tb ha hbb
    by_cases hc : c = '\n'
    · subst hc
      cases hS : splitLines a1 with
      | nil => exact absurd hS (splitLines_ne_nil a1)
      | cons l1 ls1 =>
        rw [splitLines_cons, hS] at ha
        simp only [if_pos rfl] at ha
        cases lines with
        | nil =>
          simp only [List.nil_append] at ha
          injection ha with h1 h2
          simp at h2
        | cons l0 ls0 =>
          simp only [List.cons_append] at ha
          injection ha with h1 h2
          have hrec := ih b ls0 lastL hb tb (by rw [hS]; exact h2) hbb
          have hnn := splitLines_ne_nil (a1 ++ b)
          cases hS2 : splitLines (a1 ++ b) with
          | nil => exact absurd hS2 hnn
          | cons l2 ls2 =>
            rw [List.cons_append, splitLines_cons, hS2]
            simp only [if_pos rfl]
            rw [hS2] at hrec
            rw [hrec, ← h1]
            simp
    · cases hS : splitLines a1 with
      | nil => exact absurd hS (splitLines_ne_nil a1)
      | cons l1 ls1 =>
        rw [splitLines_cons, hS] at ha
        simp only [if_neg hc] at ha
        cases lines with
        | nil =>
          simp only [List.nil_append] at ha
          injection ha with h1 h2
          subst h2
          have hrec := ih b [] l1 hb tb (by simp [hS]) hbb
          simp only [List.nil_append] at hrec
          rw [List.cons_append, splitLines_cons]
          rw [show splitLines (a1 ++ b) = (l1 ++ hb) :: tb from by simpa using hrec]
          simp only [if_neg hc]
          rw [← h1]
          simp
        | cons l0 ls0 =>
          simp only [List.cons_append] at ha
          injection ha with h1 h2
          have hrec := ih b (l1 :: ls0) lastL hb tb (by simp [hS, h2]) hbb
          cases hS2 : splitLines (a1 ++ b) with
          | nil => exact absurd hS2 (splitLines_ne_nil (a1 ++ b))
          | cons l2 ls2 =>
            rw [List.cons_append, splitLines_cons, hS2]
            simp only [if_neg hc]
            rw [hS2] at hrec
            injection hrec with h3 h4
            rw [h3, h4, ← h1]
            simp

theorem splitLines_nlFree : ∀ cs : List Char,
    cs.all (fun c => c ≠ '\n') = true → splitLines cs = [cs] := by
  intro cs
  induction cs with
  | nil => intro h; rfl
  | cons c cs ih =>
    intro h
    simp only [List.all_cons, Bool.and_eq_true, decide_eq_true_eq] at h
    rw [splitLines_cons, ih (by simpa using h.2)]
    simp [h.1]

theorem splitLines_decomp (cs : List Char) :
    ∃ lines lastL, splitLines cs = lines ++ [lastL] := by
  have h := splitLines_ne_nil cs
  exact ⟨(splitLines cs).dropLast, (splitLines cs).getLast h,
    ((splitLines cs).dropLast_append_getLast h).symm⟩

theorem splitLines_append_nlFree (a b : List Char) (lines : List (List Char))
    (lastL : List Char) (ha : splitLines a = lines ++ [lastL])
    (hb : b.all (fun c => c ≠ '\n') = true) :
    splitLines (a ++ b) = lines ++ [lastL ++ b] := by
  have hsb : splitLines b = [b] := splitLines_nlFree b hb
  have := splitLines_append a b lines lastL b [] ha hsb
  simpa using this

theorem splitLines_append_break (a b : List Char) :
    splitLines (a ++ '\n' :: b) = splitLines a ++ splitLines b := by
  obtain ⟨lines, lastL, hd⟩ := splitLines_decomp a
  cases hS : splitLines b with
  | nil => exact absurd hS (splitLines_ne_nil b)
  | cons hb tb =>
    have hnb : splitLines ('\n' :: b) = [] :: hb :: tb := by
      rw [splitLines_cons, hS]
      simp
    have := splitLines_append a ('\n' :: b) lines lastL [] (hb :: tb) hd hnb
    simp [this, hd, hS]

theorem charsLen_acc : ∀ (cs : List Char) (n : Nat),
    cs.foldl (fun m c => m + c.utf8Size) n = n + charsLen cs := by
  intro cs
  induction cs with
  | nil => intro n; simp [charsLen]
  | cons c cs ih =>
    intro n
    simp only [charsLen, List.foldl_cons]
    rw [ih (n + c.utf8Size), ih (0 + c.utf8Size)]
    omega

theorem charsLen_cons (c : Char) (cs : List Char) :
    charsLen (c :: cs) = c.utf8Size + charsLen cs := by
  simp only [charsLen, List.foldl_cons]
  rw [charsLen_acc]
  simp only [charsLen]
  omega

theorem charsLen_append (a b : List Char) :
    charsLen (a ++ b) = charsLen a + charsLen b := by
  induction a with
  | nil => simp [charsLen]
  | cons c a ih =>
    simp only [List.cons_append, charsLen_cons, ih]
    omega

theorem charsLen_replicate_space (n : Nat) :
    charsLen (List.replicate n ' ') = n := by
  induction n with
  | zero => rfl
  | succ m ih =>
    have hsz : (' ' : Char).utf8Size = 1 := rfl
    rw [List.replicate_succ, charsLen_cons, ih, hsz]
    omega

theorem charsLen_go : ∀ cs : List Char,
    charsLen cs = String.utf8ByteSize.go cs := by
  intro cs
  induction cs with
  | nil => rfl
  | cons c cs ih =>
    rw [charsLen_cons, ih]
    simp only [String.utf8ByteSize.go]
    omega

theorem charsLen_strLen (s : String) : charsLen s.data = strLen s := by
  cases s with
  | mk data => simp [strLen, String.utf8ByteSize, charsLen_go]

theorem whitespace_nlFree (n : Nat) :
    (whitespace n).data.all (fun c => c ≠ '\n') = true := by
  simp only [whitespace]
  induction n with
  | zero => rfl
  | succ m ih => simpa [List.replicate_succ] using ih

theorem whitespace_charsLen (n : Nat) : charsLen (whitespace n).data = n := by
  simpa [whitespace] using charsLen_replicate_space n

/-! ### measure/next-comp on NPF objects: independence of `broken`,
monotonicity, totality, and the head-chunk bound. -/

theorem measureVisitObj_broken (b : Bool) :
    ∀ (obj : DocObj) (s : State), npfOO obj = true →
      measureVisitObj obj { s with broken := b } =
        (measureVisitObj obj s).map (fun t => { t with broken := b }) := by
  intro obj
  induction obj with
  | text data => intro s hn; rfl
  | fix fx => intro s hn; simp [npfOO] at hn
  | nest o ih => intro s hn; simp [npfOO] at hn
  | pack i o ih => intro s hn; simp [npfOO] at hn
  | grp o ih =>
    intro s hn
    simp only [npfOO] at hn
    simp only [measureVisitObj]
    exact ih s hn
  | seq o ih =>
    intro s hn
    simp only [npfOO] at hn
    simp only [measureVisitObj]
    exact ih s hn
  | comp l r pad ihl ihr =>
    intro s hn
    simp only [npfOO, Bool.and_eq_true] at hn
    simp only [measureVisitObj, bind]
    rw [ihl s hn.1]
    cases hL : measureVisitObj l s with
    | none => rfl
    | some s1 =>
      simp only [Option.map_some', Option.some_bind]
      have := ihr { incPos (if pad then 1 else 0) s1 with head := false } hn.2
      simp only [incPos] at this ⊢
      rw [this]
      cases hR : measureVisitObj r { s1 with
          pos := s1.pos + if pad then 1 else 0, head := false } with
      | none => rfl
      | some s4 => rfl

theorem measureVisitObj_npf_some : ∀ (obj : DocObj) (s : State),
    npfOO obj = true → ∃ t, measureVisitObj obj s = some t := by
  intro obj
  induction obj with
  | text data => intro s hn; exact ⟨_, rfl⟩
  | fix fx => intro s hn; simp [npfOO] at hn
  | nest o ih => intro s hn; simp [npfOO] at hn
  | pack i o ih => intro s hn; simp [npfOO] at hn
  | grp o ih =>
    intro s hn
    simp only [npfOO] at hn
    simpa [measureVisitObj] using ih s hn
  | seq o ih =>
    intro s hn
    simp only [npfOO] at hn
    simpa [measureVisitObj] using ih s hn
  | comp l r pad ihl ihr =>
    intro s hn
    simp only [npfOO, Bool.and_eq_true] at hn
    obtain ⟨s1, hs1⟩ := ihl s hn.1
    obtain ⟨s4, hs4⟩ := ihr { s1 with pos := s1.pos + (if pad then 1 else 0), head := false } hn.2
    refine ⟨{ s4 with head := s1.head }, ?_⟩
    simp only [measureVisitObj, bind, hs1, Option.some_bind]
    simp only [incPos] at hs4 ⊢
    rw [hs4]
    rfl

theorem measureVisitObj_pos_mono : ∀ (obj : DocObj) (s t : State),
    npfOO obj = true → measureVisitObj obj s = some t → s.pos ≤ t.pos := by
  intro obj
  induction obj with
  | text data =>
    intro s t hn h
    simp only [measureVisitObj, Option.some.injEq] at h
    subst h
    simp [incPos]
  | fix fx => intro s t hn h; simp [npfOO] at hn
  | nest o ih => intro s t hn h; simp [npfOO] at hn
  | pack i o ih => intro s t hn h; simp [npfOO] at hn
  | grp o ih =>
    intro s t hn h
    simp only [npfOO] at hn
    simp only [measureVisitObj] at h
    exact ih s t hn h
  | seq o ih =>
    intro s t hn h
    simp only [npfOO] at hn
    simp only [measureVisitObj] at h
    exact ih s t hn h
  | comp l r pad ihl ihr =>
    intro s t hn h
    simp only [npfOO, Bool.and_eq_true] at hn
    simp only [measureVisitObj, bind, Option.bind_eq_some, Option.some.injEq] at h
    obtain ⟨s1, hs1, s4, hs4, heq⟩ := h
    subst heq
    have h1 := ihl s s1 hn.1 hs1
    have h2 := ihr _ s4 hn.2 hs4
    simp only [incPos] at h2
    simp only []
    omega

theorem nextCompVisitObj_broken (b : Bool) :
    ∀ (obj : DocObj) (s : State), npfOO obj = true →
      nextCompVisitObj obj { s with broken := b } =
        (nextCompVisitObj obj s).map (fun t => { t with broken := b }) := by
  intro obj
  induction obj with
  | text data => intro s hn; rfl
  | fix fx => intro s hn; simp [npfOO] at hn
  | nest o ih => intro s hn; simp [npfOO] at hn
  | pack i o ih => intro s hn; simp [npfOO] at hn
  | grp o ih =>
    intro s hn
    simp only [npfOO] at hn
    simp only [nextCompVisitObj]
    by_cases hh : s.head = true
    · dsimp only
      simp only [if_pos hh]
      exact ih s hn
    · dsimp only
      simp only [if_neg hh, measure, bind]
      rw [measureVisitObj_broken b o s hn]
      cases hM : measureVisitObj o s with
      | none => rfl
      | some m => rfl
  | seq o ih =>
    intro s hn
    simp only [npfOO] at hn
    simp only [nextCompVisitObj]
    exact ih s hn
  | comp l r pad ihl ihr =>
    intro s hn
    simp only [npfOO, Bool.and_eq_true] at hn
    simp only [nextCompVisitObj]
    exact ihl s hn.1

theorem nextCompVisitObj_npf_some : ∀ (obj : DocObj) (s : State),
    npfOO obj = true → ∃ t, nextCompVisitObj obj s = some t := by
  intro obj
  induction obj with
  | text data => intro s hn; exact ⟨_, rfl⟩
  | fix fx => intro s hn; simp [npfOO] at hn
  | nest o ih => intro s hn; simp [npfOO] at hn
  | pack i o ih => intro s hn; simp [npfOO] at hn
  | grp o ih =>
    intro s hn
    simp only [npfOO] at hn
    simp only [nextCompVisitObj]
    by_cases hh : s.head = true
    · simpa [hh] using ih s hn
    · obtain ⟨m, hm⟩ := measureVisitObj_npf_some o s hn
      exact ⟨{ s with pos := m.pos }, by simp [hh, measure, bind, hm]⟩
  | seq o ih =>
    intro s hn
    simp only [npfOO] at hn
    simpa [nextCompVisitObj] using ih s hn
  | comp l r pad ihl ihr =>
    intro s hn
    simp only [npfOO, Bool.and_eq_true] at hn
    simpa [nextCompVisitObj] using ihl s hn.1

theorem nextComp_le_measure : ∀ (obj : DocObj) (s t u : State),
    npfOO obj = true → nextCompVisitObj obj s = some t →
    measureVisitObj obj s = some u → t.pos ≤ u.pos := by
  intro obj
  induction obj with
  | text data =>
    intro s t u hn h1 h2
    simp only [nextCompVisitObj, Option.some.injEq] at h1
    simp only [measureVisitObj, Option.some.injEq] at h2
    subst h1
    subst h2
    exact Nat.le_refl _
  | fix fx => intro s t u hn h1 h2; simp [npfOO] at hn
  | nest o ih => intro s t u hn h1 h2; simp [npfOO] at hn
  | pack i o ih => intro s t u hn h1 h2; simp [npfOO] at hn
  | grp o ih =>
    intro s t u hn h1 h2
    simp only [npfOO] at hn
    simp only [measureVisitObj] at h2
    simp only [nextCompVisitObj] at h1
    by_cases hh : s.head = true
    · rw [if_pos hh] at h1
      exact ih s t u hn h1 h2
    · rw [if_neg hh] at h1
      simp only [measure, bind, h2, Option.map_some', Option.some_bind,
        Option.some.injEq] at h1
      subst h1
      simp
  | seq o ih =>
    intro s t u hn h1 h2
    simp only [npfOO] at hn
    simp only [measureVisitObj] at h2
    simp only [nextCompVisitObj] at h1
    exact ih s t u hn h1 h2
  | comp l r pad ihl ihr =>
    intro s t u hn h1 h2
    simp only [npfOO, Bool.and_eq_true] at hn
    simp only [nextCompVisitObj] at h1
    simp only [measureVisitObj, bind, Option.bind_eq_some, Option.some.injEq] at h2
    obtain ⟨s1, hs1, s4, hs4, heq⟩ := h2
    subst heq
    have hA := ihl s t s1 hn.1 h1 hs1
    have hB := measureVisitObj_pos_mono r _ s4 hn.2 hs4
    simp only [incPos] at hB
    simp only []
    omega

theorem pW_le (width : Nat) (s : String) (h : pW width s = true) :
    strLen s ≤ width := by
  simp only [pW, Bool.and_eq_true, decide_eq_true_eq] at h
  exact h.1

theorem pW_nlFree (width : Nat) (s : String) (h : pW width s = true) :
    nlFree s = true := by
  simp only [pW, Bool.and_eq_true] at h
  exact h.2

theorem nextComp_head_le (width : Nat) :
    ∀ (obj : DocObj) (s t : State), npfOO obj = true →
      allTextsOO (pW width) obj = true → s.head = true → s.pos = 0 →
      nextCompVisitObj obj s = some t → t.pos ≤ width := by
  intro obj
  induction obj with
  | text data =>
    intro s t hn ht hh hp h
    simp only [nextCompVisitObj, Option.some.injEq] at h
    subst h
    simp only [incPos, hp]
    simpa using pW_le width data ht
  | fix fx => intro s t hn ht hh hp h; simp [npfOO] at hn
  | nest o ih => intro s t hn ht hh hp h; simp [npfOO] at hn
  | pack i o ih => intro s t hn ht hh hp h; simp [npfOO] at hn
  | grp o ih =>
    intro s t hn ht hh hp h
    simp only [npfOO] at hn
    simp only [allTextsOO] at ht
    simp only [nextCompVisitObj, hh, if_true] at h
    exact ih s t hn ht hh hp h
  | seq o ih =>
    intro s t hn ht hh hp h
    simp only [npfOO] at hn
    simp only [allTextsOO] at ht
    simp only [nextCompVisitObj] at h
    exact ih s t hn ht hh hp h
  | comp l r pad ihl ihr =>
    intro s t hn ht hh hp h
    simp only [npfOO, Bool.and_eq_true] at hn
    simp only [allTextsOO, Bool.and_eq_true] at ht
    simp only [nextCompVisitObj] at h
    exact ihl s t hn.1 ht.1 hh hp h



/-! ### Width bound: the pending-line invariant through the renderer. -/

theorem strLen_whitespace (n : Nat) : strLen (whitespace n) = n := by
  rw [← charsLen_strLen]
  exact whitespace_charsLen n

theorem strInv_append_nlFree (width : Nat) (res t : String) (pos : Nat)
    (h : ∃ lines lastL, splitLines res.data = lines ++ [lastL] ∧
      (lines.all fun l => decide (charsLen l ≤ width)) = true ∧
      charsLen lastL = pos)
    (hnl : nlFree t = true) :
    ∃ lines lastL, splitLines (res ++ t).data = lines ++ [lastL] ∧
      (lines.all fun l => decide (charsLen l ≤ width)) = true ∧
      charsLen lastL = pos + strLen t := by
  obtain ⟨lines, lastL, hsp, hle, hlen⟩ := h
  refine ⟨lines, lastL ++ t.data, ?_, hle, ?_⟩
  · rw [String.data_append]
    exact splitLines_append_nlFree _ _ _ _ hsp hnl
  · rw [charsLen_append, hlen, charsLen_strLen]

theorem strInv_append_newline (width : Nat) (res : String) (pos : Nat)
    (hp : pos ≤ width)
    (h : ∃ lines lastL, splitLines res.data = lines ++ [lastL] ∧
      (lines.all fun l => decide (charsLen l ≤ width)) = true ∧
      charsLen lastL = pos) :
    ∃ lines lastL, splitLines (res ++ "\n").data = lines ++ [lastL] ∧
      (lines.all fun l => decide (charsLen l ≤ width)) = true ∧
      charsLen lastL = 0 := by
  obtain ⟨lines, lastL, hsp, hle, hlen⟩ := h
  refine ⟨lines ++ [lastL], [], ?_, ?_, rfl⟩
  · rw [String.data_append]
    have hnl : ("\n" : String).data = '\n' :: [] := rfl
    rw [hnl, splitLines_append_break, hsp]
    rfl
  · rw [List.all_append, hle]
    simp [hlen, hp]

theorem shouldBreak_false_elim (width : Nat) (obj : DocObj) (s : State)
    (hn : npfOO obj = true) (hw : s.width = width)
    (h : shouldBreak obj s = some false) :
    ∀ t, nextCompVisitObj obj s = some t → t.pos ≤ width := by
  intro t htc
  simp only [shouldBreak] at h
  by_cases hbr : s.broken = true
  · rw [if_pos hbr] at h
    exact absurd h (by simp)
  · rw [if_neg hbr] at h
    simp only [nextComp, bind, Option.bind_eq_some, Option.map_eq_some',
      Option.some.injEq] at h
    obtain ⟨n, ⟨t3, ht3, htn⟩, hdec⟩ := h
    subst htn
    rw [ht3] at htc
    injection htc with htc
    subst htc
    rw [decide_eq_false_iff_not] at hdec
    omega

theorem renderVisitObj_width : ∀ (obj : DocObj) (width : Nat) (s : State)
    (res : String) (s2 : State) (res2 : String),
    npfOO obj = true → allTextsOO (pW width) obj = true →
    s.width = width → s.lvl = 0 →
    (∀ t, nextCompVisitObj obj s = some t → t.pos ≤ width) →
    (∃ lines lastL, splitLines res.data = lines ++ [lastL] ∧
      (lines.all fun l => decide (charsLen l ≤ width)) = true ∧
      charsLen lastL = s.pos) →
    renderVisitObj obj s res = some (s2, res2) →
    s2.width = width ∧ s2.lvl = 0 ∧ s2.broken = s.broken ∧ s2.pos ≤ width ∧
    (∃ lines lastL, splitLines res2.data = lines ++ [lastL] ∧
      (lines.all fun l => decide (charsLen l ≤ width)) = true ∧
      charsLen lastL = s2.pos) := by
  intro obj
  induction obj with
  | text data =>
    intro width s res s2 res2 hn ht hw hl hchunk hinv h
    simp only [renderVisitObj, Option.some.injEq, Prod.mk.injEq] at h
    obtain ⟨hs2, hres2⟩ := h
    subst hs2
    subst hres2
    simp only [allTextsOO] at ht
    have hchunk1 := hchunk (incPos (strLen data) s) rfl
    refine ⟨hw, hl, rfl, hchunk1, ?_⟩
    have := strInv_append_nlFree width res data s.pos hinv (pW_nlFree width data ht)
    exact this
  | fix fx =>
    intro width s res s2 res2 hn ht hw hl hchunk hinv h
    simp [npfOO] at hn
  | nest o ih =>
    intro width s res s2 res2 hn ht hw hl hchunk hinv h
    simp [npfOO] at hn
  | pack i o ih =>
    intro width s res s2 res2 hn ht hw hl hchunk hinv h
    simp [npfOO] at hn
  | grp o ih =>
    intro width s res s2 res2 hn ht hw hl hchunk hinv h
    simp only [npfOO] at hn
    simp only [allTextsOO] at ht
    have hchunk1 : ∀ t, nextCompVisitObj o { s with broken := false } = some t →
        t.pos ≤ width := by
      intro t htc
      rw [nextCompVisitObj_broken false o s hn] at htc
      rcases hM : nextCompVisitObj o s with _ | t0 <;> rw [hM] at htc
      · simp at htc
      · simp only [Option.map_some', Option.some.injEq] at htc
        subst htc
        by_cases hh : s.head = true
        · have := hchunk t0 (by simp [nextCompVisitObj, hh, hM])
          simpa using this
        · obtain ⟨u, hu⟩ := measureVisitObj_npf_some o s hn
          have hbd := hchunk { s with pos := u.pos }
            (by simp [nextCompVisitObj, hh, measure, bind, hu])
          have hle := nextComp_le_measure o s t0 u hn hM hu
          have hbd' : u.pos ≤ width := by simpa using hbd
          simpa using Nat.le_trans hle hbd'
    simp only [renderVisitObj, bind, Option.bind_eq_some, Option.some.injEq] at h
    obtain ⟨⟨t2, r1⟩, hr, heq⟩ := h
    simp only [Prod.mk.injEq] at heq
    obtain ⟨he1, he2⟩ := heq
    subst he1
    subst he2
    have hI := ih width { s with broken := false } res t2 r1 hn ht hw hl hchunk1 hinv hr
    obtain ⟨hI1, hI2, hI3, hI4, hI5⟩ := hI
    exact ⟨hI1, hI2, rfl, hI4, hI5⟩
  | seq o ih =>
    intro width s res s2 res2 hn ht hw hl hchunk hinv h
    simp only [npfOO] at hn
    simp only [allTextsOO] at ht
    have hchunk1 : ∀ t, nextCompVisitObj o s = some t → t.pos ≤ width := by
      intro t htc
      exact hchunk t (by simpa [nextCompVisitObj] using htc)
    simp only [renderVisitObj, bind, Option.bind_eq_some] at h
    obtain ⟨fits, hfits, h⟩ := h
    cases fits with
    | true =>
      rw [if_pos rfl] at h
      exact ih width s res s2 res2 hn ht hw hl hchunk1 hinv h
    | false =>
      rw [if_neg (by simp)] at h
      simp only [bind, Option.bind_eq_some, Option.some.injEq] at h
      obtain ⟨⟨t2, r1⟩, hr, heq⟩ := h
      simp only [Prod.mk.injEq] at heq
      obtain ⟨he1, he2⟩ := heq
      subst he1
      subst he2
      have hchunk2 : ∀ t, nextCompVisitObj o { s with broken := true } = some t →
          t.pos ≤ width := by
        intro t htc
        rw [nextCompVisitObj_broken true o s hn] at htc
        rcases hM : nextCompVisitObj o s with _ | t0 <;> rw [hM] at htc
        · simp at htc
        · simp only [Option.map_some', Option.some.injEq] at htc
          subst htc
          simpa using hchunk1 t0 hM
      have hI := ih width { s with broken := true } res t2 r1 hn ht hw hl hchunk2 hinv hr
      obtain ⟨hI1, hI2, hI3, hI4, hI5⟩ := hI
      exact ⟨hI1, hI2, rfl, hI4, hI5⟩
  | comp l r pad ihl ihr =>
    intro width s res s2 res2 hn ht hw hl hchunk hinv h
    simp only [npfOO, Bool.and_eq_true] at hn
    simp only [allTextsOO, Bool.and_eq_true] at ht
    simp only [renderVisitObj, bind, Option.bind_eq_some] at h
    obtain ⟨⟨s1, r1⟩, hL, h⟩ := h
    have hchunkL : ∀ t, nextCompVisitObj l s = some t → t.pos ≤ width := by
      intro t htc
      exact hchunk t (by simpa [nextCompVisitObj] using htc)
    have hIL := ihl width s res s1 r1 hn.1 ht.1 hw hl hchunkL hinv hL
    obtain ⟨hL1, hL2, hL3, hL4, lines1, lastL1, hsp1, hle1, hlen1⟩ := hIL
    obtain ⟨breaks, hB, h⟩ := h
    cases breaks with
    | false =>
      rw [if_neg (by simp)] at h
      have hchunkR := shouldBreak_false_elim width r _ hn.2 (by exact hL1) hB
      have hinv2 := strInv_append_nlFree width r1 (whitespace (if pad then 1 else 0))
        s1.pos ⟨lines1, lastL1, hsp1, hle1, hlen1⟩ (whitespace_nlFree _)
      rw [strLen_whitespace] at hinv2
      have hIR := ihr width _ _ s2 res2 hn.2 ht.2 (by exact hL1) (by exact hL2)
        hchunkR (by exact hinv2) h
      obtain ⟨hR1, hR2, hR3, hR4, hR5⟩ := hIR
      exact ⟨hR1, hR2, hR3.trans hL3, hR4, hR5⟩
    | true =>
      rw [if_pos rfl] at h
      simp only [bind, Option.bind_eq_some] at h
      obtain ⟨off, hoff, h⟩ := h
      have hoff0 : off = 0 := by
        simp [getOffset, newlineState, hL2] at hoff
        omega
      subst hoff0
      have hinv2 := strInv_append_nlFree width (r1 ++ "\n") (whitespace 0) 0
        (strInv_append_newline width r1 s1.pos hL4 ⟨lines1, lastL1, hsp1, hle1, hlen1⟩)
        (whitespace_nlFree 0)
      rw [strLen_whitespace] at hinv2
      have hchunkR : ∀ t, nextCompVisitObj r (incPos 0 (newlineState s1)) = some t →
          t.pos ≤ width := by
        intro t htc
        exact nextComp_head_le width r _ t hn.2 ht.2 rfl rfl htc
      have hIR := ihr width _ _ s2 res2 hn.2 ht.2 (by exact hL1) (by exact hL2)
        (by exact hchunkR) (by exact hinv2) h
      obtain ⟨hR1, hR2, hR3, hR4, hR5⟩ := hIR
      exact ⟨hR1, hR2, hR3.trans hL3, hR4, hR5⟩

theorem linesLe_newline_prepend (d : String) (width : Nat)
    (h : linesLe d width = true) : linesLe ("\n" ++ d) width = true := by
  simp only [linesLe] at h ⊢
  have hdata : ("\n" ++ d).data = [] ++ '\n' :: d.data := by
    rw [String.data_append]
    rfl
  rw [hdata, splitLines_append_break]
  simp only [List.all_append, Bool.and_eq_true]
  exact ⟨by simp [splitLines, charsLen], h⟩

theorem linesLe_glue (a d : String) (width : Nat)
    (ha : ∃ lines lastL, splitLines a.data = lines ++ [lastL] ∧
      (lines.all fun l => decide (charsLen l ≤ width)) = true ∧
      charsLen lastL ≤ width)
    (hd : linesLe d width = true) : linesLe (a ++ "\n" ++ d) width = true := by
  obtain ⟨lines, lastL, hsp, hle, hlast⟩ := ha
  simp only [linesLe] at hd ⊢
  have h1 : ("\n" : String).data = ['\n'] := rfl
  have hdata : (a ++ "\n" ++ d).data = a.data ++ '\n' :: d.data := by
    rw [String.data_append, String.data_append, h1]
    simp
  rw [hdata, splitLines_append_break, hsp]
  simp only [List.all_append, Bool.and_eq_true]
  exact ⟨⟨hle, by simp [hlast]⟩, hd⟩

theorem renderVisitDoc_width : ∀ (doc : Doc) (width : Nat) (s s2 : State)
    (out : String),
    npfOD doc = true → allTextsOD (pW width) doc = true →
    s.width = width → s.lvl = 0 →
    renderVisitDoc doc s = some (s2, out) →
    linesLe out width = true ∧ s2.width = width ∧ s2.lvl = 0 := by
  intro doc
  induction doc with
  | Eod =>
    intro width s s2 out hn ht hw hl h
    simp only [renderVisitDoc, Option.some.injEq, Prod.mk.injEq] at h
    obtain ⟨h1, h2⟩ := h
    subst h1
    subst h2
    exact ⟨by simp [linesLe, splitLines, charsLen], hw, hl⟩
  | Empty d1 ih =>
    intro width s s2 out hn ht hw hl h
    simp only [npfOD] at hn
    simp only [allTextsOD] at ht
    simp only [renderVisitDoc, bind, Option.bind_eq_some, Option.some.injEq,
      Prod.mk.injEq] at h
    obtain ⟨⟨t2, d2⟩, hr, he1, he2⟩ := h
    subst he1
    subst he2
    have hIH := ih width (resetState s) t2 d2 hn ht hw hl hr
    obtain ⟨hA, hB, hC⟩ := hIH
    exact ⟨linesLe_newline_prepend d2 width hA, hB, hC⟩
  | Break obj d1 ih =>
    intro width s s2 out hn ht hw hl h
    simp only [npfOD, Bool.and_eq_true] at hn
    simp only [allTextsOD, Bool.and_eq_true] at ht
    simp only [renderVisitDoc, bind, Option.bind_eq_some, Option.some.injEq,
      Prod.mk.injEq] at h
    obtain ⟨⟨t2, o1⟩, hro, ⟨t4, d2⟩, hrd, he1, he2⟩ := h
    subst he1
    subst he2
    have hchunk : ∀ t, nextCompVisitObj obj (resetState s) = some t →
        t.pos ≤ width := by
      intro t htc
      exact nextComp_head_le width obj _ t hn.1 ht.1 rfl rfl htc
    have hO := renderVisitObj_width obj width (resetState s) "" t2 o1 hn.1 ht.1
      hw hl hchunk ⟨[], [], rfl, rfl, rfl⟩ hro
    obtain ⟨hO1, hO2, hO3, hO4, lines, lastL, hsp, hle, hlen⟩ := hO
    have hIH := ih width (resetState t2) t4 d2 hn.2 ht.2 hO1 hO2 hrd
    obtain ⟨hA, hB, hC⟩ := hIH
    refine ⟨?_, hB, hC⟩
    exact linesLe_glue o1 d2 width ⟨lines, lastL, hsp, hle, hlen ▸ hO4⟩ hA
  | Line obj =>
    intro width s s2 out hn ht hw hl h
    simp only [npfOD] at hn
    simp only [allTextsOD] at ht
    simp only [renderVisitDoc] at h
    have hchunk : ∀ t, nextCompVisitObj obj (resetState s) = some t →
        t.pos ≤ width := by
      intro t htc
      exact nextComp_head_le width obj _ t hn ht rfl rfl htc
    have hO := renderVisitObj_width obj width (resetState s) "" s2 out hn ht
      hw hl hchunk ⟨[], [], rfl, rfl, rfl⟩ h
    obtain ⟨hO1, hO2, hO3, hO4, lines, lastL, hsp, hle, hlen⟩ := hO
    refine ⟨?_, hO1, hO2⟩
    simp only [linesLe, hsp, List.all_append, Bool.and_eq_true]
    refine ⟨hle, ?_⟩
    simp [hlen ▸ hO4]



/-- C1 (amended): for every layout with no unbreakable content (no `Fix`
node and no composition attribute with `fix = true`) and no `Nest`/`Pack`
node, whose text literals are newline-free and at most `width` bytes long,
every line of the rendered output is at most `width` bytes long, for every
tab and width (whenever compile and render succeed). -/
theorem c1_width_bound (L : Layout) (tab width : Nat) (out : String)
    (hnf : noFixLayout L = true) (hnp : noNestPack L = true)
    (ht : allTextsL (pW width) L = true)
    (h : renderL L tab width = some out) : linesLe out width = true := by
  simp only [renderL, bind, Option.bind_eq_some] at h
  obtain ⟨doc, hcomp, hrend⟩ := h
  rw [compile_eq_passes] at hcomp
  simp only [compilePasses, bind, Option.bind_eq_some, Option.some.injEq] at hcomp
  obtain ⟨ld, hlin, rdoc, hstr, ddoc, hden, hdoc⟩ := hcomp
  have hE := broken_npf L hnf hnp
  have hE3 := broken_texts (pW width) L ht
  have hS := serialize_npf (broken L) hE
  have hS3 := serialize_texts (pW width) (broken L) hE3
  have hLn := linearizeVisit_npf (serialize (broken L)) [] ld hlin hS rfl
  have hL3 := (linearizeVisit_facts (pW width) (serialize (broken L)) [] ld hlin).2.2
    hS3 rfl
  obtain ⟨hF1, hF2⟩ := fixed_npf (pW width) ld hLn hL3
  obtain ⟨hR1, hR2⟩ := structurize_npf (pW width) (fixed ld) rdoc hF1 hF2 hstr
  obtain ⟨hD1, hD2⟩ := denull_npf (pW width) rdoc ddoc hR1 hR2 hden
  obtain ⟨hI1, hI2⟩ := identities_npf (pW width) ddoc hD1 hD2
  obtain ⟨hA1, hA2⟩ := reassociate_npf (pW width) (identities ddoc) hI1 hI2
  obtain ⟨hX1, hX2⟩ := rescope_npf (pW width) (reassociate (identities ddoc)) hA1 hA2
  subst hdoc
  have hHn : npfOD (moveToHeap (rescope (reassociate (identities ddoc)))) = true := by
    rw [moveToHeap_npf]
    exact hX1
  have hHt : allTextsOD (pW width)
      (moveToHeap (rescope (reassociate (identities ddoc)))) = true := by
    rw [moveToHeap_texts]
    exact hX2
  simp only [render, Option.map_eq_some'] at hrend
  obtain ⟨⟨sEnd, outS⟩, hrv, hout⟩ := hrend
  dsimp only at hout
  subst hout
  exact (renderVisitDoc_width _ width _ sEnd outS hHn hHt rfl rfl hrv).1

/-- C1 witness: the amended width-bound theorem applied to
`line(text "ab", comp(text "cd", text "ef"))` (all attributes false) at
tab 0, width 2: the output "ab\nlinecd\nlineef" has all lines within 2 bytes. -/
theorem c1_width_bound_witness : linesLe "ab\ncd\nef" 2 = true :=
  c1_width_bound
    (Layout.line (Layout.text "ab")
      (Layout.comp (Layout.text "cd") (Layout.text "ef") ⟨false, false⟩))
    0 2 "ab\ncd\nef" (by rfl) (by rfl) (by rfl) (by rfl)

/-! ### Pass 1 preserves the characters. -/

theorem markVisit_chars : ∀ L : Layout, charsB (markVisit L).2 = charsL L := by
  intro L
  induction L with
  | null => rfl
  | text data => rfl
  | fix x ih =>
    rcases hM : markVisit x with ⟨b, t⟩
    have ih' : charsB t = charsL x := by rw [hM] at ih; exact ih
    simp [markVisit, hM, charsB, charsL, ih']
  | grp x ih =>
    rcases hM : markVisit x with ⟨b, t⟩
    have ih' : charsB t = charsL x := by rw [hM] at ih; exact ih
    simp [markVisit, hM, charsB, charsL, ih']
  | seq x ih =>
    rcases hM : markVisit x with ⟨b, t⟩
    have ih' : charsB t = charsL x := by rw [hM] at ih; exact ih
    simp [markVisit, hM, charsB, charsL, ih']
  | nest x ih =>
    rcases hM : markVisit x with ⟨b, t⟩
    have ih' : charsB t = charsL x := by rw [hM] at ih; exact ih
    simp [markVisit, hM, charsB, charsL, ih']
  | pack x ih =>
    rcases hM : markVisit x with ⟨b, t⟩
    have ih' : charsB t = charsL x := by rw [hM] at ih; exact ih
    simp [markVisit, hM, charsB, charsL, ih']
  | line l r ihl ihr =>
    rcases hL : markVisit l with ⟨bl, tl⟩
    rcases hR : markVisit r with ⟨br, tr⟩
    have ihl' : charsB tl = charsL l := by rw [hL] at ihl; exact ihl
    have ihr' : charsB tr = charsL r := by rw [hR] at ihr; exact ihr
    simp [markVisit, hL, hR, charsB, charsL, ihl', ihr']
  | comp l r attr ihl ihr =>
    rcases hL : markVisit l with ⟨bl, tl⟩
    rcases hR : markVisit r with ⟨br, tr⟩
    have ihl' : charsB tl = charsL l := by rw [hL] at ihl; exact ihl
    have ihr' : charsB tr = charsL r := by rw [hR] at ihr; exact ihr
    simp [markVisit, hL, hR, charsB, charsL, ihl', ihr']

theorem remove_chars : ∀ (x : Broken) (b : Bool), charsE (remove x b) = charsB x := by
  intro x
  induction x with
  | null => intro b; rfl
  | text data => intro b; rfl
  | fix y ih => intro b; simp [remove, charsE, charsB, ih]
  | grp y ih => intro b; simp [remove, charsE, charsB, ih]
  | seq bs y ih =>
    intro b
    simp only [remove]
    split <;> simp [charsE, charsB, ih]
  | nest y ih => intro b; simp [remove, charsE, charsB, ih]
  | pack y ih => intro b; simp [remove, charsE, charsB, ih]
  | line l r ihl ihr => intro b; simp [remove, charsE, charsB, ihl, ihr]
  | comp l r attr ihl ihr =>
    intro b
    simp only [remove]
    split <;> simp [charsE, charsB, ihl, ihr]

theorem broken_chars (L : Layout) : charsE (broken L) = charsL L := by
  rw [broken, remove_chars, mark, markVisit_chars]

/-! ### Pass 2 preserves the characters. -/

theorem charsST_applyTermWraps :
    ∀ (ws : List TermWrap) (t : SerialTerm),
      charsST (applyTermWraps ws t) = charsST t := by
  intro ws
  induction ws with
  | nil => intro t; rfl
  | cons w rest ih =>
    intro t
    cases w <;> simp [applyTermWraps, charsST, ih]

theorem charsPairs_append (a b : List (SerialTerm × SerialComp)) :
    charsPairs (a ++ b) = charsPairs a ++ charsPairs b := by
  induction a with
  | nil => rfl
  | cons p rest ih =>
    rcases p with ⟨t, c⟩
    simp [charsPairs, ih]

theorem serializeVisit_chars : ∀ (e : Edsl) (i j : Nat) (f : Bool)
    (terms : List TermWrap) (comps : List CompWrap),
    charsPairs (serializeVisit e i j f terms comps).2.2.1 ++
      charsST (serializeVisit e i j f terms comps).2.2.2 = charsE e := by
  intro e
  induction e with
  | null => intro i j f terms comps; rfl
  | text data =>
    intro i j f terms comps
    simp [serializeVisit, charsPairs, charsST_applyTermWraps, charsE, charsST]
  | fix x ih =>
    intro i j f terms comps
    simp only [serializeVisit, charsE]
    exact ih i j true terms comps
  | grp x ih =>
    intro i j f terms comps
    simp only [serializeVisit, charsE]
    exact ih (i + 1) j f terms (comps ++ [CompWrap.grp i])
  | seq x ih =>
    intro i j f terms comps
    simp only [serializeVisit, charsE]
    exact ih (i + 1) j f terms (comps ++ [CompWrap.seq i])
  | nest x ih =>
    intro i j f terms comps
    simp only [serializeVisit, charsE]
    exact ih i j f (terms ++ [TermWrap.nest]) comps
  | pack x ih =>
    intro i j f terms comps
    simp only [serializeVisit, charsE]
    exact ih i (j + 1) f (terms ++ [TermWrap.pack j]) comps
  | line l r ihl ihr =>
    intro i j f terms comps
    simp only [serializeVisit]
    rcases hL : serializeVisit l i j f terms comps with ⟨i1, j1, pairsL, lastL⟩
    rcases hR : serializeVisit r i1 j1 f terms comps with ⟨i2, j2, pairsR, lastR⟩
    have ihl' := ihl i j f terms comps
    have ihr' := ihr i1 j1 f terms comps
    rw [hL] at ihl'
    rw [hR] at ihr'
    dsimp only at ihl' ihr' ⊢
    rw [charsPairs_append, charsPairs_append]
    simp only [charsPairs, charsE, List.append_nil, List.append_assoc]
    rw [← ihl', ← ihr']
    simp [List.append_assoc]
  | comp l r attr ihl ihr =>
    intro i j f terms comps
    simp only [serializeVisit]
    rcases hL : serializeVisit l i j f terms comps with ⟨i1, j1, pairsL, lastL⟩
    rcases hR : serializeVisit r i1 j1 f terms comps with ⟨i2, j2, pairsR, lastR⟩
    have ihl' := ihl i j f terms comps
    have ihr' := ihr i1 j1 f terms comps
    rw [hL] at ihl'
    rw [hR] at ihr'
    dsimp only at ihl' ihr' ⊢
    rw [charsPairs_append, charsPairs_append]
    simp only [charsPairs, charsE, List.append_nil, List.append_assoc]
    rw [← ihl', ← ihr']
    simp [List.append_assoc]

theorem buildSerial_chars : ∀ (pairs : List (SerialTerm × SerialComp))
    (lastT : SerialTerm),
    charsSerial (buildSerial pairs lastT) = charsPairs pairs ++ charsST lastT := by
  intro pairs
  induction pairs with
  | nil => intro lastT; simp [buildSerial, charsSerial, charsPairs]
  | cons p rest ih =>
    intro lastT
    rcases p with ⟨t, c⟩
    simp [buildSerial, charsSerial, charsPairs, ih]

theorem serialize_chars (e : Edsl) : charsSerial (serialize e) = charsE e := by
  rcases hS : serializeVisit e 0 0 false [] [] with ⟨i, j, pairs, lastT⟩
  have h := serializeVisit_chars e 0 0 false [] []
  rw [hS] at h
  dsimp only at h
  simp only [serialize, hS]
  rw [buildSerial_chars]
  exact h

/-! ### Pass 3 preserves the characters. -/

theorem linearizeTerm_chars : ∀ t : SerialTerm,
    charsLT (linearizeTerm t) = charsST t := by
  intro t
  induction t with
  | null => rfl
  | text data => rfl
  | nest t1 ih => simp [linearizeTerm, charsLT, charsST, ih]
  | pack i t1 ih => simp [linearizeTerm, charsLT, charsST, ih]

theorem charsLI_append (a b : List (LinearTerm × LinearComp)) :
    charsLI (a ++ b) = charsLI a ++ charsLI b := by
  induction a with
  | nil => rfl
  | cons p rest ih =>
    rcases p with ⟨t, c⟩
    simp [charsLI, ih]

theorem buildLinearObj_chars : ∀ (items : List (LinearTerm × LinearComp))
    (lastT : LinearTerm),
    charsLO (buildLinearObj items lastT) = charsLI items ++ charsLT lastT := by
  intro items
  induction items with
  | nil => intro lastT; simp [buildLinearObj, charsLO, charsLI]
  | cons p rest ih =>
    intro lastT
    rcases p with ⟨t, c⟩
    simp [buildLinearObj, charsLO, charsLI, ih]

theorem linearizeVisit_chars :
    ∀ (s : Serial) (acc : List (LinearTerm × LinearComp)) (d : LinearDoc),
      linearizeVisit s acc = some d → charsLD d = charsLI acc ++ charsSerial s := by
  intro s
  induction s with
  | past => intro acc d h; simp [linearizeVisit] at h
  | next term comp s1 ih =>
    intro acc d h
    cases comp with
    | line =>
      simp only [linearizeVisit, bind, Option.bind_eq_some, Option.some.injEq] at h
      obtain ⟨rest, hrest, heq⟩ := h
      subst heq
      have hr := ih [] rest hrest
      simp only [charsLI] at hr
      simp [charsLD, buildLinearObj_chars, hr, charsSerial,
        linearizeTerm_chars, List.append_assoc]
    | comp attr =>
      simp only [linearizeVisit, bind, Option.bind_eq_some] at h
      obtain ⟨c1, hc1, h⟩ := h
      have hr := ih (acc ++ [(linearizeTerm term, c1)]) d h
      rw [hr, charsLI_append]
      simp [charsLI, charsSerial, linearizeTerm_chars, List.append_assoc]
    | grp idx c1 =>
      simp only [linearizeVisit, bind, Option.bind_eq_some] at h
      obtain ⟨c2, hc2, h⟩ := h
      have hr := ih (acc ++ [(linearizeTerm term, c2)]) d h
      rw [hr, charsLI_append]
      simp [charsLI, charsSerial, linearizeTerm_chars, List.append_assoc]
    | seq idx c1 =>
      simp only [linearizeVisit, bind, Option.bind_eq_some] at h
      obtain ⟨c2, hc2, h⟩ := h
      have hr := ih (acc ++ [(linearizeTerm term, c2)]) d h
      rw [hr, charsLI_append]
      simp [charsLI, charsSerial, linearizeTerm_chars, List.append_assoc]
  | last term s1 ih =>
    intro acc d h
    cases s1 with
    | past =>
      simp only [linearizeVisit, Option.some.injEq] at h
      subst h
      simp [charsLD, buildLinearObj_chars, charsSerial, linearizeTerm_chars]
    | next t2 c2 s2 => simp [linearizeVisit] at h
    | last t2 s2 => simp [linearizeVisit] at h

theorem linearize_chars (s : Serial) (d : LinearDoc)
    (h : linearize s = some d) : charsLD d = charsSerial s := by
  have := linearizeVisit_chars s [] d h
  simpa [charsLI] using this



/-! ### Pass 4 preserves the characters. -/

theorem fixedTerm_chars : ∀ t : LinearTerm, charsFT (fixedTerm t) = charsLT t := by
  intro t
  induction t with
  | null => rfl
  | text data => rfl
  | nest t1 ih => simp [fixedTerm, charsFT, charsLT, ih]
  | pack i t1 ih => simp [fixedTerm, charsFT, charsLT, ih]

theorem charsFP_append (a b : List (FixedTerm × FixedComp)) :
    charsFP (a ++ b) = charsFP a ++ charsFP b := by
  induction a with
  | nil => rfl
  | cons p rest ih =>
    rcases p with ⟨t, c⟩
    simp [charsFP, ih]

theorem buildFixedFix_chars : ∀ (items : List (FixedTerm × FixedComp))
    (lastT : FixedTerm),
    charsFF (buildFixedFix items lastT) = charsFP items ++ charsFT lastT := by
  intro items
  induction items with
  | nil => intro lastT; simp [buildFixedFix, charsFF, charsFP]
  | cons p rest ih =>
    intro lastT
    rcases p with ⟨t, c⟩
    simp [buildFixedFix, charsFF, charsFP, ih]

theorem fixedVisit_chars : ∀ obj : LinearObj,
    charsFO (fixedVisitObj obj) = charsLO obj ∧
    (∀ acc : List (FixedTerm × FixedComp),
      charsFO (fixedVisitFix obj acc) = charsFP acc ++ charsLO obj) := by
  intro obj
  induction obj with
  | last term =>
    constructor
    · simp [fixedVisitObj, charsFO, charsFI, fixedTerm_chars, charsLO]
    · intro acc
      simp [fixedVisitFix, charsFO, charsFI, buildFixedFix_chars,
        fixedTerm_chars, charsLO]
  | next term comp obj1 ih =>
    rcases hC : fixedComp comp with ⟨isF, comp1⟩
    constructor
    · cases isF with
      | true =>
        simp only [fixedVisitObj, hC, if_true]
        rw [ih.2 [(fixedTerm term, comp1)]]
        simp [charsFP, fixedTerm_chars, charsLO]
      | false =>
        simp only [fixedVisitObj, hC, if_false]
        simp [charsFO, charsFI, fixedTerm_chars, charsLO, ih.1]
    · intro acc
      cases isF with
      | true =>
        simp only [fixedVisitFix, hC, if_true]
        rw [ih.2 (acc ++ [(fixedTerm term, comp1)]), charsFP_append]
        simp [charsFP, fixedTerm_chars, charsLO]
      | false =>
        simp only [fixedVisitFix, hC, if_false]
        simp [charsFO, charsFI, buildFixedFix_chars, fixedTerm_chars,
          charsLO, ih.1]

theorem fixed_chars : ∀ d : LinearDoc, charsFD (fixed d) = charsLD d := by
  intro d
  induction d with
  | nil => rfl
  | cons obj d1 ih =>
    simp [fixed, charsFD, charsLD, (fixedVisit_chars obj).1, ih]

/-! ### Pass 5, graphify: the node list collects the characters in order. -/

theorem graphifyTerm_chars : ∀ t : FixedTerm,
    charsGT (graphifyTerm t) = charsFT t := by
  intro t
  induction t with
  | null => rfl
  | text data => rfl
  | nest t1 ih => simp [graphifyTerm, charsGT, charsFT, ih]
  | pack i t1 ih => simp [graphifyTerm, charsGT, charsFT, ih]

theorem charsGTs_append (a b : List GraphTerm) :
    charsGTs (a ++ b) = charsGTs a ++ charsGTs b := by
  induction a with
  | nil => rfl
  | cons t rest ih => simp [charsGTs, ih]

theorem graphifyVisitFix_chars : ∀ (fix : FixedFix) (index : Nat)
    (scope : List (Property Nat)) (props : PropsMap)
    (res : GraphFix × List (Property Nat) × PropsMap),
    graphifyVisitFix fix index scope props = some res →
    charsGF res.1 = charsFF fix := by
  intro fix
  induction fix with
  | last term =>
    intro index scope props res h
    simp only [graphifyVisitFix, Option.some.injEq] at h
    subst h
    simp [charsGF, charsFF, graphifyTerm_chars]
  | next term comp fix1 ih =>
    intro index scope props res h
    rcases hLS : liftStack comp with ⟨stack, pad⟩
    simp only [graphifyVisitFix, hLS, bind, Option.bind_eq_some] at h
    obtain ⟨⟨scope1, props1⟩, hup, ⟨fix2, scope2, props2⟩, hrec, heq⟩ := h
    simp only [Option.some.injEq] at heq
    subst heq
    have := ih index scope1 props1 (fix2, scope2, props2) hrec
    dsimp only at this ⊢
    simp [charsGF, charsFF, graphifyTerm_chars, this]

theorem graphifyVisitObj_chars : ∀ (obj : FixedObj) (index : Nat)
    (scope : List (Property Nat)) (nodes : List GraphTerm) (pads : List Bool)
    (props : PropsMap) (res : List GraphTerm × List Bool × PropsMap),
    graphifyVisitObj obj index scope nodes pads props = some res →
    charsGTs res.1 = charsGTs nodes ++ charsFO obj := by
  intro obj
  induction obj with
  | last item =>
    intro index scope nodes pads props res h
    cases item with
    | term term =>
      simp only [graphifyVisitObj, bind, Option.bind_eq_some] at h
      obtain ⟨props1, hcp, heq⟩ := h
      simp only [Option.some.injEq] at heq
      subst heq
      simp [charsGTs_append, charsGTs, charsFO, charsFI, graphifyTerm_chars]
    | fix fx =>
      simp only [graphifyVisitObj, bind, Option.bind_eq_some] at h
      obtain ⟨⟨fix1, scope1, props1⟩, hgf, props2, hcp, heq⟩ := h
      simp only [Option.some.injEq] at heq
      subst heq
      have := graphifyVisitFix_chars fx index scope props (fix1, scope1, props1) hgf
      dsimp only at this
      simp [charsGTs_append, charsGTs, charsFO, charsFI, charsGT, this]
  | next item comp obj1 ih =>
    intro index scope nodes pads props res h
    cases item with
    | term term =>
      rcases hLS : liftStack comp with ⟨stack, pad⟩
      simp only [graphifyVisitObj, hLS, bind, Option.bind_eq_some] at h
      obtain ⟨⟨scope1, props1⟩, hup, hrec⟩ := h
      rw [ih (index + 1) scope1 _ _ props1 res hrec]
      simp [charsGTs_append, charsGTs, charsFO, charsFI, graphifyTerm_chars,
        List.append_assoc]
    | fix fx =>
      rcases hLS : liftStack comp with ⟨stack, pad⟩
      simp only [graphifyVisitObj, hLS, bind, Option.bind_eq_some] at h
      obtain ⟨⟨fix1, scope1, props1⟩, hgf, ⟨scope2, props2⟩, hup, hrec⟩ := h
      rw [ih (index + 1) scope2 _ _ props2 res hrec]
      have := graphifyVisitFix_chars fx index scope props (fix1, scope1, props1) hgf
      dsimp only at this
      simp [charsGTs_append, charsGTs, charsFO, charsFI, charsGT, this,
        List.append_assoc]

theorem ofTerms_chars (terms : List GraphTerm) :
    charsNodes (Graph.ofTerms terms).nodes = charsGTs terms := by
  simp only [Graph.ofTerms]
  induction terms with
  | nil => rfl
  | cons t rest ih => simp [charsNodes, charsGTs, ih]

theorem charsNodes_set : ∀ (l : List GraphNode) (i : Nat) (n n' : GraphNode),
    l.get? i = some n → n'.term = n.term →
    charsNodes (l.set i n') = charsNodes l := by
  intro l
  induction l with
  | nil => intro i n n' h ht; simp at h
  | cons x xs ih =>
    intro i n n' h ht
    cases i with
    | zero =>
      simp only [List.get?_cons_zero, Option.some.injEq] at h
      subst h
      simp [List.set, charsNodes, ht]
    | succ m =>
      simp only [List.get?_cons_succ] at h
      simp [List.set, charsNodes, ih m n n' h ht]

theorem charsNodes_setNode (g : Graph) (i : Nat) (n n' : GraphNode)
    (h : g.getNode i = some n) (ht : n'.term = n.term) :
    charsNodes (g.setNode i n').nodes = charsNodes g.nodes := by
  simp only [Graph.setNode]
  exact charsNodes_set g.nodes i n n' h ht

theorem addEdge_chars (g : Graph) (prop : Property Unit) (a b : Nat) (g' : Graph)
    (hE : g.addEdge prop a b = some g') :
    charsNodes g'.nodes = charsNodes g.nodes := by
  simp only [Graph.addEdge, bind, Option.bind_eq_some] at hE
  obtain ⟨fromNode, hFrom, hE2⟩ := hE
  obtain ⟨toNode, hTo, hE3⟩ := hE2
  obtain ⟨fromNode2, hFrom2, hE4⟩ := hE3
  split at hE4
  · simp at hE4
  · simp only [bind, Option.bind_eq_some] at hE4
    obtain ⟨toNode1, hTo1, heq⟩ := hE4
    simp only [Option.some.injEq] at heq
    subst heq
    rw [charsNodes_setNode _ b toNode1
        { toNode1 with ins := toNode1.ins ++ [g.edges.length] } hTo1 rfl,
      charsNodes_setNode { g with edges := g.edges ++ [⟨prop, a, b⟩] } a fromNode
        { fromNode with outs := fromNode.outs ++ [g.edges.length] } hFrom rfl]

theorem transpose_chars :
    ∀ (vs : List (Property (Nat × Option Nat))) (g g' : Graph),
      transpose g vs = some g' → charsNodes g'.nodes = charsNodes g.nodes := by
  intro vs
  induction vs with
  | nil =>
    intro g g' ht
    simp only [transpose, Option.some.injEq] at ht
    subst ht
    rfl
  | cons v rest ih =>
    intro g g' ht
    cases v with
    | grp val =>
      rcases val with ⟨f, o⟩
      cases o with
      | none => simp [transpose] at ht
      | some t =>
        simp only [transpose] at ht
        split at ht
        · exact ih g g' ht
        · simp only [bind, Option.bind_eq_some] at ht
          obtain ⟨g1, hE, ht2⟩ := ht
          rw [ih g1 g' ht2, addEdge_chars g _ f t g1 hE]
    | seq val =>
      rcases val with ⟨f, o⟩
      cases o with
      | none => simp [transpose] at ht
      | some t =>
        simp only [transpose] at ht
        split at ht
        · exact ih g g' ht
        · simp only [bind, Option.bind_eq_some] at ht
          obtain ⟨g1, hE, ht2⟩ := ht
          rw [ih g1 g' ht2, addEdge_chars g _ f t g1 hE]

theorem graphify_chars : ∀ (fdoc : FixedDoc) (gdoc : GraphDoc),
    graphify fdoc = some gdoc → charsGD gdoc = charsFD fdoc := by
  intro fdoc
  induction fdoc with
  | Eod =>
    intro gdoc hg
    simp only [graphify, Option.some.injEq] at hg
    subst hg
    rfl
  | Break obj doc1 ih =>
    intro gdoc hg
    simp only [graphify, bind, Option.bind_eq_some] at hg
    obtain ⟨⟨nodes, pads, props⟩, h1, g, hT, doc2, hD, heq⟩ := hg
    simp only [Option.some.injEq] at heq
    subst heq
    have hNodes := graphifyVisitObj_chars obj 0 [] [] [] Map.empty
      (nodes, pads, props) h1
    dsimp only at hNodes
    simp only [charsGTs] at hNodes
    rw [charsGD, transpose_chars _ _ _ hT, ofTerms_chars, hNodes,
      ih doc2 hD, charsFD]
    simp

/-! ### Pass 5, solve: node terms (hence characters) are untouched. -/

theorem foldl_chars_preserved : ∀ (f : Graph → Nat → Graph),
    (∀ (gx : Graph) (id : Nat), charsNodes (f gx id).nodes = charsNodes gx.nodes) →
    ∀ (block : List Nat) (g : Graph),
      charsNodes (block.foldl f g).nodes = charsNodes g.nodes := by
  intro f hf block
  induction block with
  | nil => intro g; rfl
  | cons x xs ih =>
    intro g
    rw [List.foldl_cons, ih, hf]

theorem moveIns_chars (g : Graph) (block : List Nat) (anchorId : Nat)
    (g' : Graph) (hm : moveIns g block anchorId = some g') :
    charsNodes g'.nodes = charsNodes g.nodes := by
  cases block with
  | nil => simp [moveIns] at hm
  | cons headId rest =>
    simp only [moveIns, bind, Option.bind_eq_some] at hm
    obtain ⟨headE, hHE, fromNode, hFN, anchor, hA, toNode, hTN, ins1, hSp, heq⟩ := hm
    simp only [Option.some.injEq] at heq
    subst heq
    rw [charsNodes_setNode _ anchor.target toNode { toNode with ins := ins1 } hTN rfl]
    refine Eq.trans (foldl_chars_preserved _ ?_ (headId :: rest) _) ?_
    · intro gx id
      cases hE : gx.getEdge id with
      | none => simp [hE]
      | some e => simp [hE, Graph.setEdge]
    · exact charsNodes_setNode g headE.target fromNode
        { fromNode with ins := [] } hFN rfl

theorem moveOut_chars (g : Graph) (currId anchorId : Nat) (g' : Graph)
    (hm : moveOut g currId anchorId = some g') :
    charsNodes g'.nodes = charsNodes g.nodes := by
  simp only [moveOut, bind, Option.bind_eq_some] at hm
  obtain ⟨currE, hCE, srcNode, hSN, anchor, hA, nodeN, hNN, outs1, hSp, heq⟩ := hm
  simp only [Option.some.injEq] at heq
  subst heq
  rw [charsNodes_setNode _ anchor.source nodeN { nodeN with outs := outs1 } hNN rfl]
  exact charsNodes_setNode g currE.source srcNode
    { srcNode with outs := srcNode.outs.erase currId } hSN rfl

theorem resolveVisit_chars :
    ∀ (outsIds : List Nat) (g : Graph) (edgeId : Nat) (res : Graph × Option Nat),
      resolveVisit g outsIds edgeId = some res →
      charsNodes res.1.nodes = charsNodes g.nodes := by
  intro outsIds
  induction outsIds with
  | nil =>
    intro g edgeId res hr
    simp only [resolveVisit, Option.some.injEq] at hr
    subst hr
    rfl
  | cons currId rest ih =>
    intro g edgeId res hr
    simp only [resolveVisit, bind, Option.bind_eq_some] at hr
    obtain ⟨currE, hCE, hr2⟩ := hr
    cases hp : currE.prop with
    | grp u =>
      rw [hp] at hr2
      simp only [Option.some.injEq] at hr2
      subst hr2
      rfl
    | seq u =>
      rw [hp] at hr2
      simp only [bind, Option.bind_eq_some] at hr2
      obtain ⟨g1, hmo, hr3⟩ := hr2
      rw [ih g1 currId res hr3, moveOut_chars g currId edgeId g1 hmo]

theorem solveVisitNode_chars :
    ∀ (remaining : Nat) (g : Graph) (index : Nat) (g' : Graph),
      solveVisitNode g remaining index = some g' →
      charsNodes g'.nodes = charsNodes g.nodes := by
  intro remaining
  induction remaining with
  | zero =>
    intro g index g' hs
    simp only [solveVisitNode, Option.some.injEq] at hs
    subst hs
    rfl
  | succ rem ih =>
    intro g index g' hs
    simp only [solveVisitNode, bind, Option.bind_eq_some] at hs
    obtain ⟨node, hN, hs2⟩ := hs
    split at hs2
    · simp only [bind, Option.bind_eq_some] at hs2
      obtain ⟨insFirst, hIF, ⟨g1, found⟩, hRes, hs3⟩ := hs2
      have hg1 := resolveVisit_chars node.outs g insFirst (g1, found) hRes
      dsimp only at hg1
      cases found with
      | none => rw [ih g1 (index + 1) g' hs3, hg1]
      | some grpId =>
        simp only [bind, Option.bind_eq_some] at hs3
        obtain ⟨g2, hMI, hs4⟩ := hs3
        rw [ih g2 (index + 1) g' hs4, moveIns_chars g1 node.ins grpId g2 hMI, hg1]
    · exact ih g (index + 1) g' hs2

theorem solve_chars : ∀ (gdoc gdoc' : GraphDoc),
    solve gdoc = some gdoc' → charsGD gdoc' = charsGD gdoc := by
  intro gdoc
  induction gdoc with
  | Eod =>
    intro gdoc' hs
    simp only [solve, Option.some.injEq] at hs
    subst hs
    rfl
  | Break g pads d ih =>
    intro gdoc' hs
    simp only [solve, bind, Option.bind_eq_some] at hs
    obtain ⟨g1, hg1, d2, hd2, heq⟩ := hs
    simp only [Option.some.injEq] at heq
    subst heq
    simp [charsGD, solveVisitNode_chars _ g 0 g1 hg1, ih d2 hd2]

/-! ### rebuild: the continuation stack carries the characters in order. -/

theorem rebuildVisitTerm_chars : ∀ (t1 : RebuildTerm) (t : GraphTerm),
    rebuildVisitTerm t = some t1 → charsRT t1 = charsGT t := by
  intro t1
  induction t1 with
  | null =>
    intro t h
    cases t with
    | null => rfl
    | text d2 => simp [rebuildVisitTerm] at h
    | nest t2 =>
      simp only [rebuildVisitTerm, Option.map_eq_some'] at h
      obtain ⟨t3, h3, hh⟩ := h
      cases hh
    | pack i t2 =>
      simp only [rebuildVisitTerm, Option.map_eq_some'] at h
      obtain ⟨t3, h3, hh⟩ := h
      cases hh
    | fix fx => simp [rebuildVisitTerm] at h
  | text data =>
    intro t h
    cases t with
    | text d2 =>
      simp only [rebuildVisitTerm, Option.some.injEq, RebuildTerm.text.injEq] at h
      subst h
      rfl
    | null => simp [rebuildVisitTerm] at h
    | nest t2 =>
      simp only [rebuildVisitTerm, Option.map_eq_some'] at h
      obtain ⟨t3, h3, hh⟩ := h
      cases hh
    | pack i t2 =>
      simp only [rebuildVisitTerm, Option.map_eq_some'] at h
      obtain ⟨t3, h3, hh⟩ := h
      cases hh
    | fix fx => simp [rebuildVisitTerm] at h
  | nest t1 ih =>
    intro t h
    cases t with
    | text d2 => simp [rebuildVisitTerm] at h
    | null => simp [rebuildVisitTerm] at h
    | nest t2 =>
      simp only [rebuildVisitTerm, Option.map_eq_some'] at h
      obtain ⟨t3, h3, hh⟩ := h
      cases hh
      simpa [charsRT, charsGT] using ih t2 h3
    | pack i t2 =>
      simp only [rebuildVisitTerm, Option.map_eq_some'] at h
      obtain ⟨t3, h3, hh⟩ := h
      cases hh
    | fix fx => simp [rebuildVisitTerm] at h
  | pack index t1 ih =>
    intro t h
    cases t with
    | text d2 => simp [rebuildVisitTerm] at h
    | null => simp [rebuildVisitTerm] at h
    | nest t2 =>
      simp only [rebuildVisitTerm, Option.map_eq_some'] at h
      obtain ⟨t3, h3, hh⟩ := h
      cases hh
    | pack i t2 =>
      simp only [rebuildVisitTerm, Option.map_eq_some'] at h
      obtain ⟨t3, h3, hh⟩ := h
      cases hh
      simpa [charsRT, charsGT] using ih t2 h3
    | fix fx => simp [rebuildVisitTerm] at h

theorem rebuildVisitFix_chars : ∀ (fix1 : RebuildFix) (fx : GraphFix),
    rebuildVisitFix fx = some fix1 → charsRF fix1 = charsGF fx := by
  intro fix1
  induction fix1 with
  | term t1 =>
    intro fx h
    cases fx with
    | last term =>
      simp only [rebuildVisitFix, Option.map_eq_some'] at h
      obtain ⟨t2, h2, hh⟩ := h
      cases hh
      simpa [charsRF, charsGF] using rebuildVisitTerm_chars _ term h2
    | next term fx2 pad =>
      simp only [rebuildVisitFix, bind, Option.bind_eq_some, Option.some.injEq] at h
      obtain ⟨t2, h2, f2, h4, hh⟩ := h
      cases hh
  | comp l r pad ihl ihr =>
    intro fx h
    cases fx with
    | last term =>
      simp only [rebuildVisitFix, Option.map_eq_some'] at h
      obtain ⟨t2, h2, hh⟩ := h
      cases hh
    | next term fx2 pad2 =>
      simp only [rebuildVisitFix, bind, Option.bind_eq_some, Option.some.injEq] at h
      obtain ⟨t2, h2, f2, h4, hh⟩ := h
      cases hh
      simp [charsRF, charsGF, charsRT, rebuildVisitTerm_chars t2 term h2,
        ihr fx2 h4]

theorem append_shuffle (a b c d e : List Char) (h : a ++ b = c ++ d) :
    a ++ (b ++ e) = c ++ (d ++ e) := by
  rw [← List.append_assoc, h, List.append_assoc]

theorem rebuildOpenVisit_chars : ∀ (props : List (Property Unit))
    (stack : List RebuildCont) (t : List Char),
    AffStack stack t → AffStack (rebuildOpenVisit props stack) t := by
  intro props
  induction props with
  | nil => intro stack t h; exact h
  | cons pr rest ih =>
    intro stack t h
    cases pr with
    | grp u =>
      apply ih
      exact ⟨[], t, fun o => by simp [charsRO], h, by simp⟩
    | seq u =>
      apply ih
      exact ⟨[], t, fun o => by simp [charsRO], h, by simp⟩

theorem rebuildOpen_chars (props : List (Property Unit))
    (stack : List RebuildCont) (part : RebuildObj → RebuildObj)
    (stack1 : List RebuildCont) (t p : List Char)
    (hstack : AffStack stack t) (hpart : AffCont part p)
    (h : rebuildOpen props stack part = some stack1) :
    AffStack stack1 (t ++ p) := by
  cases stack with
  | nil => simp [rebuildOpen] at h
  | cons top rest =>
    simp only [rebuildOpen, Option.some.injEq] at h
    subst h
    obtain ⟨c, t1, htop, hrest, ht⟩ := hstack
    apply rebuildOpenVisit_chars
    refine ⟨c ++ p, t1, ?_, hrest, ?_⟩
    · intro o
      rw [htop (part o), hpart o]
      simp [List.append_assoc]
    · rw [ht]
      simp [List.append_assoc]

theorem rebuildClose_chars : ∀ (count : Nat) (stack : List RebuildCont)
    (result : RebuildObj) (stack1 : List RebuildCont) (res1 : RebuildObj)
    (t : List Char), AffStack stack t →
    rebuildClose count stack result = some (stack1, res1) →
    ∃ t1 c, AffStack stack1 t1 ∧ t = t1 ++ c ∧
      charsRO res1 = c ++ charsRO result := by
  intro count
  induction count with
  | zero =>
    intro stack result stack1 res1 t hstack h
    simp only [rebuildClose, Option.some.injEq, Prod.mk.injEq] at h
    obtain ⟨e1, e2⟩ := h
    subst e1
    subst e2
    exact ⟨t, [], hstack, by simp, by simp⟩
  | succ n ih =>
    intro stack result stack1 res1 t hstack h
    cases stack with
    | nil => simp [rebuildClose] at h
    | cons top rest =>
      simp only [rebuildClose] at h
      obtain ⟨c, t1, htop, hrest, ht⟩ := hstack
      obtain ⟨t2, c2, hst, ht2, hchars⟩ := ih rest (top result) stack1 res1 t1 hrest h
      refine ⟨t2, c2 ++ c, hst, ?_, ?_⟩
      · rw [ht, ht2]
        simp [List.append_assoc]
      · rw [hchars, htop]
        simp [List.append_assoc]

theorem rebuildFinal_chars (stack : List RebuildCont) (term : RebuildObj)
    (r : RebuildObj) (t : List Char) (hstack : AffStack stack t)
    (h : rebuildFinal stack term = some r) :
    charsRO r = t ++ charsRO term := by
  cases stack with
  | nil => simp [rebuildFinal] at h
  | cons top rest =>
    cases rest with
    | cons x xs => simp [rebuildFinal] at h
    | nil =>
      simp only [rebuildFinal, Option.some.injEq] at h
      subst h
      obtain ⟨c, t1, htop, hrest, ht⟩ := hstack
      have ht1 : t1 = [] := hrest
      subst ht1
      rw [htop, ht]
      simp

theorem rebuildVisitLineStep_chars (item : RebuildObj) (ins : List Nat)
    (outs : List (List (Property Unit))) (stack : List RebuildCont)
    (part : RebuildObj → RebuildObj) (pad : Bool)
    (res : List Nat × List (List (Property Unit)) × List RebuildCont ×
      (RebuildObj → RebuildObj)) (t p : List Char)
    (hstack : AffStack stack t) (hpart : AffCont part p)
    (h : rebuildVisitLineStep item ins outs stack part pad = some res) :
    ∃ t1 p1, AffStack res.2.2.1 t1 ∧ AffCont res.2.2.2 p1 ∧
      t1 ++ p1 = t ++ (p ++ charsRO item) := by
  cases ins with
  | nil => simp [rebuildVisitLineStep] at h
  | cons inProps ins1 =>
    cases outs with
    | nil => simp [rebuildVisitLineStep] at h
    | cons outProps outs1 =>
      simp only [rebuildVisitLineStep] at h
      split at h
      · simp only [Option.some.injEq] at h
        subst h
        refine ⟨t, p ++ charsRO item, hstack, ?_, rfl⟩
        intro o
        rw [hpart]
        simp [charsRO, List.append_assoc]
      · split at h
        · simp only [bind, Option.bind_eq_some] at h
          obtain ⟨⟨stack2, closed⟩, hcl, heq⟩ := h
          simp only [Option.some.injEq] at heq
          subst heq
          obtain ⟨t2, c2, hst2, ht2, hcc⟩ :=
            rebuildClose_chars inProps stack (part item) stack2 closed t hstack hcl
          refine ⟨t2, charsRO closed, hst2, ?_, ?_⟩
          · intro o
            simp [charsRO]
          · rw [hcc, hpart, ht2]
            simp [List.append_assoc]
        · split at h
          · simp only [bind, Option.bind_eq_some] at h
            obtain ⟨stack2, hop, heq⟩ := h
            simp only [Option.some.injEq] at heq
            subst heq
            refine ⟨t ++ p, charsRO item,
              rebuildOpen_chars outProps stack part stack2 t p hstack hpart hop,
              ?_, by simp [List.append_assoc]⟩
            intro o
            simp [charsRO]
          · simp at h

theorem rebuildVisitLineLast_chars (item : RebuildObj) (ins : List Nat)
    (outs : List (List (Property Unit))) (stack : List RebuildCont)
    (part : RebuildObj → RebuildObj) (r : RebuildObj) (t p : List Char)
    (hstack : AffStack stack t) (hpart : AffCont part p)
    (h : rebuildVisitLineLast item ins outs stack part = some r) :
    charsRO r = t ++ (p ++ charsRO item) := by
  cases ins with
  | nil => simp [rebuildVisitLineLast] at h
  | cons inProps ins1 =>
    cases ins1 with
    | cons x xs => simp [rebuildVisitLineLast] at h
    | nil =>
      cases outs with
      | nil => simp [rebuildVisitLineLast] at h
      | cons outProps outs1 =>
        cases outs1 with
        | cons y ys => simp [rebuildVisitLineLast] at h
        | nil =>
          simp only [rebuildVisitLineLast] at h
          split at h
          · split at h
            · rw [rebuildFinal_chars stack (part item) r t hstack h, hpart]
            · simp only [bind, Option.bind_eq_some] at h
              obtain ⟨⟨stack2, closed⟩, hcl, hfin⟩ := h
              obtain ⟨t2, c2, hst2, ht2, hcc⟩ :=
                rebuildClose_chars inProps stack (part item) stack2 closed t
                  hstack hcl
              rw [rebuildFinal_chars stack2 closed r t2 hst2 hfin, hcc, hpart, ht2]
              simp [List.append_assoc]
          · simp at h

theorem rebuildVisitLine_chars :
    ∀ (terms : List GraphTerm) (pads : List Bool) (ins : List Nat)
      (outs : List (List (Property Unit))) (stack : List RebuildCont)
      (part : RebuildObj → RebuildObj) (obj : RebuildObj) (t p : List Char),
      AffStack stack t → AffCont part p →
      rebuildVisitLine terms pads ins outs stack part = some obj →
      charsRO obj = t ++ (p ++ charsGTs terms) := by
  intro terms
  induction terms with
  | nil =>
    intro pads ins outs stack part obj t p hstack hpart h
    simp [rebuildVisitLine] at h
  | cons tm terms1 ih =>
    intro pads ins outs stack part obj t p hstack hpart h
    cases tm with
    | fix fx =>
      cases terms1 with
      | nil =>
        cases pads with
        | nil =>
          simp only [rebuildVisitLine, bind, Option.bind_eq_some] at h
          obtain ⟨fix1, hf1, h2⟩ := h
          rw [rebuildVisitLineLast_chars (RebuildObj.fix fix1) ins outs stack
            part obj t p hstack hpart h2]
          simp [charsRO, charsGTs, charsGT, rebuildVisitFix_chars fix1 fx hf1]
        | cons pad pads1 =>
          simp only [rebuildVisitLine, bind, Option.bind_eq_some] at h
          obtain ⟨fix1, hf1, step, hstep, h2⟩ := h
          simp [rebuildVisitLine] at h2
      | cons t2 terms2 =>
        cases pads with
        | nil => simp [rebuildVisitLine] at h
        | cons pad pads1 =>
          simp only [rebuildVisitLine, bind, Option.bind_eq_some] at h
          obtain ⟨fix1, hf1, ⟨ins1, outs1, stack1, part1⟩, hstep, h2⟩ := h
          obtain ⟨t1, p1, hs1, hp1, hsum⟩ := rebuildVisitLineStep_chars
            (RebuildObj.fix fix1) ins outs stack part pad _ t p hstack hpart hstep
          dsimp only at hs1 hp1
          rw [ih pads1 ins1 outs1 stack1 part1 obj t1 p1 hs1 hp1 h2,
            append_shuffle t1 p1 t (p ++ charsRO (RebuildObj.fix fix1))
              (charsGTs (t2 :: terms2)) hsum]
          simp [charsRO, charsGTs, charsGT, rebuildVisitFix_chars fix1 fx hf1,
            List.append_assoc]
    | null =>
      cases terms1 with
      | nil =>
        cases pads with
        | nil =>
          simp only [rebuildVisitLine, bind, Option.bind_eq_some] at h
          obtain ⟨t1, ht1, h2⟩ := h
          rw [rebuildVisitLineLast_chars (RebuildObj.term t1) ins outs stack
            part obj t p hstack hpart h2]
          simp [charsRO, charsGTs, rebuildVisitTerm_chars t1 _ ht1]
        | cons pad pads1 =>
          simp only [rebuildVisitLine, bind, Option.bind_eq_some] at h
          obtain ⟨t1, ht1, step, hstep, h2⟩ := h
          simp [rebuildVisitLine] at h2
      | cons t2 terms2 =>
        cases pads with
        | nil => simp [rebuildVisitLine] at h
        | cons pad pads1 =>
          simp only [rebuildVisitLine, bind, Option.bind_eq_some] at h
          obtain ⟨t1, ht1, ⟨ins1, outs1, stack1, part1⟩, hstep, h2⟩ := h
          obtain ⟨tA, pA, hs1, hp1, hsum⟩ := rebuildVisitLineStep_chars
            (RebuildObj.term t1) ins outs stack part pad _ t p hstack hpart hstep
          dsimp only at hs1 hp1
          rw [ih pads1 ins1 outs1 stack1 part1 obj tA pA hs1 hp1 h2,
            append_shuffle tA pA t (p ++ charsRO (RebuildObj.term t1))
              (charsGTs (t2 :: terms2)) hsum]
          simp [charsRO, charsGTs, rebuildVisitTerm_chars t1 _ ht1,
            List.append_assoc]
    | text data =>
      cases terms1 with
      | nil =>
        cases pads with
        | nil =>
          simp only [rebuildVisitLine, bind, Option.bind_eq_some] at h
          obtain ⟨t1, ht1, h2⟩ := h
          rw [rebuildVisitLineLast_chars (RebuildObj.term t1) ins outs stack
            part obj t p hstack hpart h2]
          simp [charsRO, charsGTs, rebuildVisitTerm_chars t1 _ ht1]
        | cons pad pads1 =>
          simp only [rebuildVisitLine, bind, Option.bind_eq_some] at h
          obtain ⟨t1, ht1, step, hstep, h2⟩ := h
          simp [rebuildVisitLine] at h2
      | cons t2 terms2 =>
        cases pads with
        | nil => simp [rebuildVisitLine] at h
        | cons pad pads1 =>
          simp only [rebuildVisitLine, bind, Option.bind_eq_some] at h
          obtain ⟨t1, ht1, ⟨ins1, outs1, stack1, part1⟩, hstep, h2⟩ := h
          obtain ⟨tA, pA, hs1, hp1, hsum⟩ := rebuildVisitLineStep_chars
            (RebuildObj.term t1) ins outs stack part pad _ t p hstack hpart hstep
          dsimp only at hs1 hp1
          rw [ih pads1 ins1 outs1 stack1 part1 obj tA pA hs1 hp1 h2,
            append_shuffle tA pA t (p ++ charsRO (RebuildObj.term t1))
              (charsGTs (t2 :: terms2)) hsum]
          simp [charsRO, charsGTs, rebuildVisitTerm_chars t1 _ ht1,
            List.append_assoc]
    | nest tIn =>
      cases terms1 with
      | nil =>
        cases pads with
        | nil =>
          simp only [rebuildVisitLine, bind, Option.bind_eq_some] at h
          obtain ⟨t1, ht1, h2⟩ := h
          rw [rebuildVisitLineLast_chars (RebuildObj.term t1) ins outs stack
            part obj t p hstack hpart h2]
          simp [charsRO, charsGTs, rebuildVisitTerm_chars t1 _ ht1]
        | cons pad pads1 =>
          simp only [rebuildVisitLine, bind, Option.bind_eq_some] at h
          obtain ⟨t1, ht1, step, hstep, h2⟩ := h
          simp [rebuildVisitLine] at h2
      | cons t2 terms2 =>
        cases pads with
        | nil => simp [rebuildVisitLine] at h
        | cons pad pads1 =>
          simp only [rebuildVisitLine, bind, Option.bind_eq_some] at h
          obtain ⟨t1, ht1, ⟨ins1, outs1, stack1, part1⟩, hstep, h2⟩ := h
          obtain ⟨tA, pA, hs1, hp1, hsum⟩ := rebuildVisitLineStep_chars
            (RebuildObj.term t1) ins outs stack part pad _ t p hstack hpart hstep
          dsimp only at hs1 hp1
          rw [ih pads1 ins1 outs1 stack1 part1 obj tA pA hs1 hp1 h2,
            append_shuffle tA pA t (p ++ charsRO (RebuildObj.term t1))
              (charsGTs (t2 :: terms2)) hsum]
          simp [charsRO, charsGTs, rebuildVisitTerm_chars t1 _ ht1,
            List.append_assoc]
    | pack idx tIn =>
      cases terms1 with
      | nil =>
        cases pads with
        | nil =>
          simp only [rebuildVisitLine, bind, Option.bind_eq_some] at h
          obtain ⟨t1, ht1, h2⟩ := h
          rw [rebuildVisitLineLast_chars (RebuildObj.term t1) ins outs stack
            part obj t p hstack hpart h2]
          simp [charsRO, charsGTs, rebuildVisitTerm_chars t1 _ ht1]
        | cons pad pads1 =>
          simp only [rebuildVisitLine, bind, Option.bind_eq_some] at h
          obtain ⟨t1, ht1, step, hstep, h2⟩ := h
          simp [rebuildVisitLine] at h2
      | cons t2 terms2 =>
        cases pads with
        | nil => simp [rebuildVisitLine] at h
        | cons pad pads1 =>
          simp only [rebuildVisitLine, bind, Option.bind_eq_some] at h
          obtain ⟨t1, ht1, ⟨ins1, outs1, stack1, part1⟩, hstep, h2⟩ := h
          obtain ⟨tA, pA, hs1, hp1, hsum⟩ := rebuildVisitLineStep_chars
            (RebuildObj.term t1) ins outs stack part pad _ t p hstack hpart hstep
          dsimp only at hs1 hp1
          rw [ih pads1 ins1 outs1 stack1 part1 obj tA pA hs1 hp1 h2,
            append_shuffle tA pA t (p ++ charsRO (RebuildObj.term t1))
              (charsGTs (t2 :: terms2)) hsum]
          simp [charsRO, charsGTs, rebuildVisitTerm_chars t1 _ ht1,
            List.append_assoc]

theorem charsGTs_map_term : ∀ l : List GraphNode,
    charsGTs (l.map (fun n => n.term)) = charsNodes l := by
  intro l
  induction l with
  | nil => rfl
  | cons n rest ih => simp [charsGTs, charsNodes, ih]

theorem rebuildDoc_chars : ∀ (gdoc : GraphDoc) (rdoc : RebuildDoc),
    rebuildDoc gdoc = some rdoc → charsRD rdoc = charsGD gdoc := by
  intro gdoc
  induction gdoc with
  | Eod =>
    intro rdoc hr
    simp only [rebuildDoc, Option.some.injEq] at hr
    subst hr
    rfl
  | Break g pads d ih =>
    intro rdoc hr
    simp only [rebuildDoc, bind, Option.bind_eq_some] at hr
    obtain ⟨⟨terms, ins, outs⟩, htop, obj, hline, doc2, hd, heq⟩ := hr
    simp only [Option.some.injEq] at heq
    subst heq
    have hterms := topology_terms g (terms, ins, outs) htop
    dsimp only at hterms
    have hline' := rebuildVisitLine_chars terms pads ins outs
      [fun obj => obj] (fun obj => obj) obj [] []
      ⟨[], [], fun o => by simp, rfl, by simp⟩ (fun o => by simp) hline
    rw [charsRD, hline', ih doc2 hd, hterms, charsGTs_map_term]
    simp [charsGD]

theorem structurize_chars (fdoc : FixedDoc) (rdoc : RebuildDoc)
    (h : structurize fdoc = some rdoc) : charsRD rdoc = charsFD fdoc := by
  simp only [structurize, bind, Option.bind_eq_some] at h
  obtain ⟨gdoc, hg, gdoc2, hsv, hrb⟩ := h
  rw [rebuildDoc_chars gdoc2 rdoc hrb, solve_chars gdoc gdoc2 hsv,
    graphify_chars fdoc gdoc hg]

/-! ### Pass 6 preserves the characters (empty texts carry none). -/

theorem isEmpty_data (s : String) (h : s.isEmpty = true) : s.data = [] := by
  rw [String.isEmpty_iff] at h
  subst h
  rfl

theorem denullTerm_chars : ∀ t : RebuildTerm,
    (denullTerm t = none → charsRT t = []) ∧
    (∀ t1, denullTerm t = some t1 → charsDT t1 = charsRT t) := by
  intro t
  induction t with
  | null =>
    exact ⟨fun _ => rfl, fun t1 h => by simp [denullTerm] at h⟩
  | text data =>
    constructor
    · intro h
      simp only [denullTerm] at h
      split at h
      · rename_i hemp
        simpa [charsRT] using isEmpty_data data hemp
      · simp at h
    · intro t1 h
      simp only [denullTerm] at h
      split at h
      · simp at h
      · simp only [Option.some.injEq] at h
        subst h
        rfl
  | nest t0 ih =>
    constructor
    · intro h
      simp only [denullTerm, Option.map_eq_none'] at h
      simpa [charsRT] using ih.1 h
    · intro t1 h
      simp only [denullTerm, Option.map_eq_some'] at h
      obtain ⟨t2, h2, heq⟩ := h
      subst heq
      simpa [charsDT, charsRT] using ih.2 t2 h2
  | pack idx t0 ih =>
    constructor
    · intro h
      simp only [denullTerm, Option.map_eq_none'] at h
      simpa [charsRT] using ih.1 h
    · intro t1 h
      simp only [denullTerm, Option.map_eq_some'] at h
      obtain ⟨t2, h2, heq⟩ := h
      subst heq
      simpa [charsDT, charsRT] using ih.2 t2 h2

theorem denullVisitFix_chars : ∀ (fx : RebuildFix) (res : DenullRes DenullFix),
    denullVisitFix fx = some res → charsDRF res = charsRF fx := by
  intro fx
  induction fx with
  | term term =>
    intro res h
    simp only [denullVisitFix] at h
    cases hT : denullTerm term with
    | none =>
      rw [hT] at h
      simp only [Option.some.injEq] at h
      subst h
      simp [charsDRF, charsRF, (denullTerm_chars term).1 hT]
    | some t1 =>
      rw [hT] at h
      simp only [Option.some.injEq] at h
      subst h
      simp [charsDRF, charsRF, charsDF, (denullTerm_chars term).2 t1 hT]
  | comp l r lPad ihl ihr =>
    intro res h
    simp only [denullVisitFix, bind, Option.bind_eq_some] at h
    obtain ⟨lRes, hl, h2⟩ := h
    have ihl' := ihl lRes hl
    cases lRes with
    | lastNone =>
      simp only [bind, Option.bind_eq_some] at h2
      obtain ⟨rRes, hr, h3⟩ := h2
      have ihr' := ihr rRes hr
      cases rRes with
      | lastNone =>
        simp only [Option.some.injEq] at h3
        subst h3
        simp only [charsDRF] at ihl' ihr' ⊢
        simp [charsRF, ← ihl', ← ihr']
      | lastSome f1 =>
        simp only [Option.some.injEq] at h3
        subst h3
        simp only [charsDRF] at ihl' ihr' ⊢
        simp [charsRF, ← ihl', ihr']
      | nextNone pd f1 =>
        simp only [Option.some.injEq] at h3
        subst h3
        simp only [charsDRF] at ihl' ihr' ⊢
        simp [charsRF, ← ihl', ihr']
    | lastSome f1 =>
      simp only [bind, Option.bind_eq_some] at h2
      obtain ⟨rRes, hr, h3⟩ := h2
      have ihr' := ihr rRes hr
      cases rRes with
      | lastNone =>
        simp only [Option.some.injEq] at h3
        subst h3
        simp only [charsDRF] at ihl' ihr' ⊢
        simp [charsRF, ihl', ← ihr']
      | lastSome f2 =>
        simp only [Option.some.injEq] at h3
        subst h3
        simp only [charsDRF] at ihl' ihr' ⊢
        simp [charsRF, charsDF, ihl', ihr']
      | nextNone pd f2 =>
        simp only [Option.some.injEq] at h3
        subst h3
        simp only [charsDRF] at ihl' ihr' ⊢
        simp [charsRF, charsDF, ihl', ihr']
    | nextNone pd f1 => simp at h2

theorem denullVisitObj_chars : ∀ (obj : RebuildObj) (res : DenullRes DenullObj),
    denullVisitObj obj = some res → charsDRO res = charsRO obj := by
  intro obj
  induction obj with
  | term term =>
    intro res h
    simp only [denullVisitObj] at h
    cases hT : denullTerm term with
    | none =>
      rw [hT] at h
      simp only [Option.some.injEq] at h
      subst h
      simp [charsDRO, charsRO, (denullTerm_chars term).1 hT]
    | some t1 =>
      rw [hT] at h
      simp only [Option.some.injEq] at h
      subst h
      simp [charsDRO, charsRO, charsDO, (denullTerm_chars term).2 t1 hT]
  | fix fx =>
    intro res h
    simp only [denullVisitObj, bind, Option.bind_eq_some] at h
    obtain ⟨fRes, hf, h2⟩ := h
    have hfc := denullVisitFix_chars fx fRes hf
    cases fRes with
    | lastNone =>
      simp only [Option.some.injEq] at h2
      subst h2
      simp only [charsDRF] at hfc
      simp [charsDRO, charsRO, ← hfc]
    | lastSome f1 =>
      simp only [Option.some.injEq] at h2
      subst h2
      simp only [charsDRF] at hfc
      simp [charsDRO, charsRO, charsDO, hfc]
    | nextNone pd f1 =>
      simp only [Option.some.injEq] at h2
      subst h2
      simp only [charsDRF] at hfc
      simp [charsDRO, charsRO, charsDO, hfc]
  | grp o ih =>
    intro res h
    simp only [denullVisitObj, bind, Option.bind_eq_some] at h
    obtain ⟨oRes, ho, h2⟩ := h
    have ihc := ih oRes ho
    cases oRes with
    | lastNone =>
      simp only [Option.some.injEq] at h2
      subst h2
      simp only [charsDRO] at ihc
      simp [charsDRO, charsRO, ← ihc]
    | lastSome o1 =>
      simp only [Option.some.injEq] at h2
      subst h2
      simp only [charsDRO] at ihc
      simp [charsDRO, charsRO, charsDO, ihc]
    | nextNone pd o1 =>
      simp only [Option.some.injEq] at h2
      subst h2
      simp only [charsDRO] at ihc
      simp [charsDRO, charsRO, charsDO, ihc]
  | seq o ih =>
    intro res h
    simp only [denullVisitObj, bind, Option.bind_eq_some] at h
    obtain ⟨oRes, ho, h2⟩ := h
    have ihc := ih oRes ho
    cases oRes with
    | lastNone =>
      simp only [Option.some.injEq] at h2
      subst h2
      simp only [charsDRO] at ihc
      simp [charsDRO, charsRO, ← ihc]
    | lastSome o1 =>
      simp only [Option.some.injEq] at h2
      subst h2
      simp only [charsDRO] at ihc
      simp [charsDRO, charsRO, charsDO, ihc]
    | nextNone pd o1 =>
      simp only [Option.some.injEq] at h2
      subst h2
      simp only [charsDRO] at ihc
      simp [charsDRO, charsRO, charsDO, ihc]
  | comp l r lPad ihl ihr =>
    intro res h
    simp only [denullVisitObj, bind, Option.bind_eq_some] at h
    obtain ⟨lRes, hl, h2⟩ := h
    have ihl' := ihl lRes hl
    cases lRes with
    | lastNone =>
      simp only [bind, Option.bind_eq_some] at h2
      obtain ⟨rRes, hr, h3⟩ := h2
      have ihr' := ihr rRes hr
      cases rRes with
      | lastNone =>
        simp only [Option.some.injEq] at h3
        subst h3
        simp only [charsDRO] at ihl' ihr' ⊢
        simp [charsRO, ← ihl', ← ihr']
      | lastSome o1 =>
        simp only [Option.some.injEq] at h3
        subst h3
        simp only [charsDRO] at ihl' ihr' ⊢
        simp [charsRO, ← ihl', ihr']
      | nextNone pd o1 =>
        simp only [Option.some.injEq] at h3
        subst h3
        simp only [charsDRO] at ihl' ihr' ⊢
        simp [charsRO, ← ihl', ihr']
    | lastSome o1 =>
      simp only [bind, Option.bind_eq_some] at h2
      obtain ⟨rRes, hr, h3⟩ := h2
      have ihr' := ihr rRes hr
      cases rRes with
      | lastNone =>
        simp only [Option.some.injEq] at h3
        subst h3
        simp only [charsDRO] at ihl' ihr' ⊢
        simp [charsRO, ihl', ← ihr']
      | lastSome o2 =>
        simp only [Option.some.injEq] at h3
        subst h3
        simp only [charsDRO] at ihl' ihr' ⊢
        simp [charsRO, charsDO, ihl', ihr']
      | nextNone pd o2 =>
        simp only [Option.some.injEq] at h3
        subst h3
        simp only [charsDRO] at ihl' ihr' ⊢
        simp [charsRO, charsDO, ihl', ihr']
    | nextNone pd o1 => simp at h2

theorem denullVisitDoc_chars : ∀ (rd : RebuildDoc) (o : Option DenullDoc),
    denullVisitDoc rd = some o → charsODD o = charsRD rd := by
  intro rd
  induction rd with
  | Eod =>
    intro o h
    simp only [denullVisitDoc, Option.some.injEq] at h
    subst h
    rfl
  | Break obj doc1 ih =>
    intro o h
    simp only [denullVisitDoc, bind, Option.bind_eq_some] at h
    obtain ⟨objRes, ho, rest, hrest, h3⟩ := h
    have hobj := denullVisitObj_chars obj objRes ho
    have hr := ih rest hrest
    cases objRes with
    | lastNone =>
      simp only [charsDRO] at hobj
      cases rest with
      | none =>
        simp only [Option.some.injEq] at h3
        subst h3
        simp only [charsODD] at hr
        simp [charsODD, charsDD, charsRD, ← hobj, ← hr]
      | some doc2 =>
        simp only [Option.some.injEq] at h3
        subst h3
        simp only [charsODD] at hr
        simp [charsODD, charsDD, charsRD, ← hobj, hr]
    | lastSome obj1 =>
      simp only [charsDRO] at hobj
      cases rest with
      | none =>
        simp only [Option.some.injEq] at h3
        subst h3
        simp only [charsODD] at hr
        simp [charsODD, charsDD, charsRD, hobj, ← hr]
      | some doc2 =>
        simp only [Option.some.injEq] at h3
        subst h3
        simp only [charsODD] at hr
        simp [charsODD, charsDD, charsRD, hobj, hr]
    | nextNone pd obj1 =>
      simp only [charsDRO] at hobj
      cases rest with
      | none =>
        simp only [Option.some.injEq] at h3
        subst h3
        simp only [charsODD] at hr
        simp [charsODD, charsDD, charsRD, hobj, ← hr]
      | some doc2 =>
        simp only [Option.some.injEq] at h3
        subst h3
        simp only [charsODD] at hr
        simp [charsODD, charsDD, charsRD, hobj, hr]

theorem denull_chars (rd : RebuildDoc) (dd : DenullDoc)
    (h : denull rd = some dd) : charsDD dd = charsRD rd := by
  simp only [denull, bind, Option.bind_eq_some, Option.some.injEq] at h
  obtain ⟨res, hres, heq⟩ := h
  subst heq
  have := denullVisitDoc_chars rd res hres
  cases res with
  | none =>
    simp only [charsODD] at this
    exact Eq.trans (rfl : charsDD (Option.getD none DenullDoc.Eod) = ([] : List Char)) this
  | some dd2 =>
    simp only [charsODD] at this
    exact this

/-! ### Pass 7 preserves the characters. -/

theorem elimSeqsObj_chars : ∀ (obj : DenullObj) (u : Bool),
    charsDO (elimSeqsObj obj u).2 = charsDO obj := by
  intro obj
  induction obj with
  | term term => intro u; rfl
  | fix fx =>
    intro u
    cases fx with
    | term t => rfl
    | comp a b pd => rfl
  | grp o ih =>
    intro u
    rcases hE : elimSeqsObj o false with ⟨c, o2⟩
    have := ih false
    rw [hE] at this
    simp [elimSeqsObj, hE, charsDO, this]
  | seq o ih =>
    intro u
    rcases hE : elimSeqsObj o true with ⟨c, o2⟩
    have := ih true
    rw [hE] at this
    cases u with
    | true => simp [elimSeqsObj, hE, charsDO, this]
    | false =>
      cases c with
      | zero => simp [elimSeqsObj, hE, charsDO, this]
      | one => simp [elimSeqsObj, hE, charsDO, this]
      | many => simp [elimSeqsObj, hE, charsDO, this]
  | comp l r pad ihl ihr =>
    intro u
    rcases hL : elimSeqsObj l u with ⟨cl, l1⟩
    rcases hR : elimSeqsObj r u with ⟨cr, r1⟩
    have hl := ihl u
    have hr := ihr u
    rw [hL] at hl
    rw [hR] at hr
    simp [elimSeqsObj, hL, hR, charsDO, hl, hr]

theorem elimGrpsObj_chars : ∀ (obj : DenullObj) (u : Bool),
    charsDO (elimGrpsObj obj u).2 = charsDO obj := by
  intro obj
  induction obj with
  | term term => intro u; rfl
  | fix fx =>
    intro u
    cases fx with
    | term t => rfl
    | comp a b pd => rfl
  | grp o ih =>
    intro u
    rcases hE : elimGrpsObj o false with ⟨c, o2⟩
    have hfalse := ih false
    rw [hE] at hfalse
    cases u with
    | true =>
      rcases hE2 : elimGrpsObj o true with ⟨c2, o3⟩
      have htrue := ih true
      rw [hE2] at htrue
      simp [elimGrpsObj, hE2, charsDO, htrue]
    | false =>
      cases c with
      | zero => simp [elimGrpsObj, hE, charsDO, hfalse]
      | one => simp [elimGrpsObj, hE, charsDO, hfalse]
      | many => simp [elimGrpsObj, hE, charsDO, hfalse]
  | seq o ih =>
    intro u
    rcases hE : elimGrpsObj o false with ⟨c, o2⟩
    have := ih false
    rw [hE] at this
    simp [elimGrpsObj, hE, charsDO, this]
  | comp l r pad ihl ihr =>
    intro u
    rcases hL : elimGrpsObj l u with ⟨cl, l1⟩
    rcases hR : elimGrpsObj r false with ⟨cr, r1⟩
    have hl := ihl u
    have hr := ihr false
    rw [hL] at hl
    rw [hR] at hr
    simp [elimGrpsObj, hL, hR, charsDO, hl, hr]

theorem elimSeqsDoc_chars : ∀ dd : DenullDoc, charsDD (elimSeqsDoc dd) = charsDD dd := by
  intro dd
  induction dd with
  | Eod => rfl
  | Line obj => simp [elimSeqsDoc, charsDD, elimSeqsObj_chars]
  | Empty d1 ih => simp [elimSeqsDoc, charsDD, ih]
  | Break obj d1 ih => simp [elimSeqsDoc, charsDD, elimSeqsObj_chars, ih]

theorem elimGrpsDoc_chars : ∀ dd : DenullDoc, charsDD (elimGrpsDoc dd) = charsDD dd := by
  intro dd
  induction dd with
  | Eod => rfl
  | Line obj => simp [elimGrpsDoc, charsDD, elimGrpsObj_chars]
  | Empty d1 ih => simp [elimGrpsDoc, charsDD, ih]
  | Break obj d1 ih => simp [elimGrpsDoc, charsDD, elimGrpsObj_chars, ih]

theorem identities_chars (dd : DenullDoc) : charsDD (identities dd) = charsDD dd := by
  rw [identities, elimGrpsDoc_chars, elimSeqsDoc_chars]

/-! ### Pass 8 preserves the characters. -/

theorem reassocObj_chars : ∀ (obj : DenullObj) (part : DenullObj → DenullObj)
    (c : List Char), (∀ o, charsDO (part o) = charsDO o ++ c) →
    charsDO (reassocObj obj part) = charsDO obj ++ c := by
  intro obj
  induction obj with
  | term term => intro part c hpart; exact hpart _
  | fix fx => intro part c hpart; exact hpart _
  | grp o ih =>
    intro part c hpart
    simp only [reassocObj]
    rw [hpart]
    have := ih (fun o => o) [] (fun o => by simp)
    simp [charsDO, this]
  | seq o ih =>
    intro part c hpart
    simp only [reassocObj]
    rw [hpart]
    have := ih (fun o => o) [] (fun o => by simp)
    simp [charsDO, this]
  | comp l r pad ihl ihr =>
    intro part c hpart
    simp only [reassocObj]
    rw [ihl _ (charsDO r ++ c) (fun o1 => by
      simp [charsDO, ihr part c hpart, List.append_assoc])]
    simp [charsDO, List.append_assoc]

theorem reassociate_chars : ∀ dd : DenullDoc,
    charsDD (reassociate dd) = charsDD dd := by
  intro dd
  induction dd with
  | Eod => rfl
  | Line obj =>
    have := reassocObj_chars obj (fun o => o) [] (fun o => by simp)
    simp [reassociate, charsDD, this]
  | Empty d1 ih => simp [reassociate, charsDD, ih]
  | Break obj d1 ih =>
    have := reassocObj_chars obj (fun o => o) [] (fun o => by simp)
    simp [reassociate, charsDD, this, ih]

/-! ### Pass 9 preserves the characters. -/

theorem applyProps_chars : ∀ (props : List ScopeProp) (obj : FinalDocObj),
    charsXO (applyProps props obj) = charsXO obj := by
  intro props
  induction props with
  | nil => intro obj; rfl
  | cons pr rest ih =>
    intro obj
    cases pr with
    | nest => simp [applyProps, charsXO, ih]
    | pack idx => simp [applyProps, charsXO, ih]

theorem rescopeTerm_chars : ∀ t : DenullTerm,
    charsXO (rescopeTerm t).2 = charsDT t := by
  intro t
  induction t with
  | text data => rfl
  | nest t0 ih =>
    rcases hR : rescopeTerm t0 with ⟨props, obj⟩
    rw [hR] at ih
    simp [rescopeTerm, hR, charsDT, ih]
  | pack idx t0 ih =>
    rcases hR : rescopeTerm t0 with ⟨props, obj⟩
    rw [hR] at ih
    simp [rescopeTerm, hR, charsDT, ih]

theorem rescopeFixTerm_chars : ∀ t : DenullTerm,
    charsXF (rescopeFixTerm t).2 = charsDT t := by
  intro t
  induction t with
  | text data => rfl
  | nest t0 ih =>
    rcases hR : rescopeFixTerm t0 with ⟨props, obj⟩
    rw [hR] at ih
    simp [rescopeFixTerm, hR, charsDT, ih]
  | pack idx t0 ih =>
    rcases hR : rescopeFixTerm t0 with ⟨props, obj⟩
    rw [hR] at ih
    simp [rescopeFixTerm, hR, charsDT, ih]

theorem rescopeVisitFix_chars : ∀ fx : DenullFix,
    charsXF (rescopeVisitFix fx).2 = charsDF fx := by
  intro fx
  induction fx with
  | term t => simpa [rescopeVisitFix, charsDF] using rescopeFixTerm_chars t
  | comp l r pad ihl ihr =>
    rcases hL : rescopeVisitFix l with ⟨lProps, l1⟩
    rcases hR : rescopeVisitFix r with ⟨rProps, r1⟩
    rw [hL] at ihl
    rw [hR] at ihr
    simp [rescopeVisitFix, hL, hR, charsXF, charsDF, ihl, ihr]

theorem rescopeVisitObj_chars : ∀ obj : DenullObj,
    charsXO (rescopeVisitObj obj).2 = charsDO obj := by
  intro obj
  induction obj with
  | term t => simpa [rescopeVisitObj, charsDO] using rescopeTerm_chars t
  | fix fx =>
    rcases hF : rescopeVisitFix fx with ⟨props, fix1⟩
    have := rescopeVisitFix_chars fx
    rw [hF] at this
    simp [rescopeVisitObj, hF, charsXO, charsDO, this]
  | grp o ih =>
    rcases hO : rescopeVisitObj o with ⟨props, o1⟩
    rw [hO] at ih
    simp [rescopeVisitObj, hO, charsXO, charsDO, ih]
  | seq o ih =>
    rcases hO : rescopeVisitObj o with ⟨props, o1⟩
    rw [hO] at ih
    simp [rescopeVisitObj, hO, charsXO, charsDO, ih]
  | comp l r pad ihl ihr =>
    rcases hL : rescopeVisitObj l with ⟨lProps, l1⟩
    rcases hR : rescopeVisitObj r with ⟨rProps, r1⟩
    rw [hL] at ihl
    rw [hR] at ihr
    rcases hJ : joinProps lProps rProps with ⟨lProps1, rProps1, cProps⟩
    simp [rescopeVisitObj, hL, hR, hJ, charsXO, charsDO, applyProps_chars,
      ihl, ihr]

theorem rescope_chars : ∀ dd : DenullDoc, charsXD (rescope dd) = charsDD dd := by
  intro dd
  induction dd with
  | Eod => rfl
  | Empty d1 ih => simp [rescope, charsXD, charsDD, ih]
  | Line obj =>
    rcases hO : rescopeVisitObj obj with ⟨props, obj1⟩
    have := rescopeVisitObj_chars obj
    rw [hO] at this
    simp [rescope, hO, charsXD, charsDD, applyProps_chars, this]
  | Break obj d1 ih =>
    rcases hO : rescopeVisitObj obj with ⟨props, obj1⟩
    have := rescopeVisitObj_chars obj
    rw [hO] at this
    simp [rescope, hO, charsXD, charsDD, applyProps_chars, this, ih]

/-! ### Pass 10 preserves the characters. -/

theorem heapFix_chars : ∀ fx : FinalDocObjFix, charsOF (heapFix fx) = charsXF fx := by
  intro fx
  induction fx with
  | text data => rfl
  | comp l r pad ihl ihr => simp [heapFix, charsOF, charsXF, ihl, ihr]

theorem heapObj_chars : ∀ obj : FinalDocObj, charsOO (heapObj obj) = charsXO obj := by
  intro obj
  induction obj with
  | text data => rfl
  | fix fx => simp [heapObj, charsOO, charsXO, heapFix_chars]
  | grp o ih => simp [heapObj, charsOO, charsXO, ih]
  | seq o ih => simp [heapObj, charsOO, charsXO, ih]
  | nest o ih => simp [heapObj, charsOO, charsXO, ih]
  | pack idx o ih => simp [heapObj, charsOO, charsXO, ih]
  | comp l r pad ihl ihr => simp [heapObj, charsOO, charsXO, ihl, ihr]

theorem moveToHeap_chars : ∀ fd : FinalDoc, charsOD (moveToHeap fd) = charsXD fd := by
  intro fd
  induction fd with
  | Eod => rfl
  | Empty d1 ih => simp [moveToHeap, charsOD, charsXD, ih]
  | Break obj d1 ih => simp [moveToHeap, charsOD, charsXD, heapObj_chars, ih]
  | Line obj => simp [moveToHeap, charsOD, charsXD, heapObj_chars]



/-! ### The renderer only inserts whitespace around the text payloads. -/

theorem nonWs_space : nonWs ' ' = false := rfl

theorem nonWs_newline : nonWs '\n' = false := rfl

theorem whitespace_filter (n : Nat) :
    (whitespace n).data.filter nonWs = [] := by
  simp only [whitespace]
  induction n with
  | zero => rfl
  | succ m ih => simpa [List.replicate_succ, List.filter, nonWs_space] using ih

theorem padStr_filter (n : Nat) (res : String) :
    (padStr n res).data.filter nonWs = res.data.filter nonWs := by
  simp [padStr, String.data_append, List.filter_append, whitespace_filter]

theorem renderVisitFix_chars : ∀ (fx : DocObjFix) (s : State) (res : String),
    ((renderVisitFix fx s res).2).data.filter nonWs =
      res.data.filter nonWs ++ (charsOF fx).filter nonWs := by
  intro fx
  induction fx with
  | text data =>
    intro s res
    simp [renderVisitFix, charsOF, String.data_append, List.filter_append]
  | comp l r pad ihl ihr =>
    intro s res
    rcases hL : renderVisitFix l s res with ⟨s1, r1⟩
    have ihl' := ihl s res
    rw [hL] at ihl'
    dsimp only at ihl'
    simp only [renderVisitFix, hL]
    rw [ihr, padStr_filter, ihl']
    simp [charsOF, List.filter_append, List.append_assoc]

theorem renderVisitObj_chars : ∀ (obj : DocObj) (s : State) (res : String)
    (s2 : State) (res2 : String),
    renderVisitObj obj s res = some (s2, res2) →
    res2.data.filter nonWs = res.data.filter nonWs ++ (charsOO obj).filter nonWs := by
  intro obj
  induction obj with
  | text data =>
    intro s res s2 res2 h
    simp only [renderVisitObj, Option.some.injEq, Prod.mk.injEq] at h
    obtain ⟨h1, h2⟩ := h
    subst h2
    simp [charsOO, String.data_append, List.filter_append]
  | fix fx =>
    intro s res s2 res2 h
    simp only [renderVisitObj, Option.some.injEq] at h
    rcases hF : renderVisitFix fx s res with ⟨s1, r1⟩
    rw [hF] at h
    rw [Prod.mk.injEq] at h
    obtain ⟨h1, h2⟩ := h
    subst h2
    have := renderVisitFix_chars fx s res
    rw [hF] at this
    exact this
  | grp o ih =>
    intro s res s2 res2 h
    simp only [renderVisitObj, bind, Option.bind_eq_some, Option.some.injEq] at h
    obtain ⟨⟨t2, r1⟩, hr, heq⟩ := h
    rw [Prod.mk.injEq] at heq
    obtain ⟨he1, he2⟩ := heq
    subst he2
    have := ih _ res t2 r1 hr
    simpa [charsOO] using this
  | seq o ih =>
    intro s res s2 res2 h
    simp only [renderVisitObj, bind, Option.bind_eq_some] at h
    obtain ⟨fits, hfits, h⟩ := h
    cases fits with
    | true =>
      rw [if_pos rfl] at h
      exact ih s res s2 res2 h
    | false =>
      rw [if_neg (by simp)] at h
      simp only [bind, Option.bind_eq_some, Option.some.injEq] at h
      obtain ⟨⟨t2, r1⟩, hr, heq⟩ := h
      rw [Prod.mk.injEq] at heq
      obtain ⟨he1, he2⟩ := heq
      subst he2
      exact ih _ res t2 r1 hr
  | nest o ih =>
    intro s res s2 res2 h
    simp only [renderVisitObj, bind, Option.bind_eq_some, Option.some.injEq] at h
    obtain ⟨off, hoff, ⟨t3, r2⟩, hr, heq⟩ := h
    rw [Prod.mk.injEq] at heq
    obtain ⟨he1, he2⟩ := heq
    subst he2
    have := ih _ (padStr off res) t3 r2 hr
    rw [this, padStr_filter]
    simp [charsOO]
  | pack idx o ih =>
    intro s res s2 res2 h
    simp only [renderVisitObj] at h
    cases hM : Map.lookup s.marks idx with
    | none =>
      rw [hM] at h
      simp only [bind, Option.bind_eq_some, Option.some.injEq] at h
      obtain ⟨⟨t3, r1⟩, hr, heq⟩ := h
      rw [Prod.mk.injEq] at heq
      obtain ⟨he1, he2⟩ := heq
      subst he2
      exact ih _ res t3 r1 hr
    | some lvl1 =>
      rw [hM] at h
      simp only [bind, Option.bind_eq_some, Option.some.injEq] at h
      obtain ⟨off, hoff, ⟨t3, r2⟩, hr, heq⟩ := h
      rw [Prod.mk.injEq] at heq
      obtain ⟨he1, he2⟩ := heq
      subst he2
      have := ih _ (padStr off res) t3 r2 hr
      rw [this, padStr_filter]
      simp [charsOO]
  | comp l r pad ihl ihr =>
    intro s res s2 res2 h
    simp only [renderVisitObj, bind, Option.bind_eq_some] at h
    obtain ⟨⟨s1, r1⟩, hL, h⟩ := h
    have ihl' := ihl s res s1 r1 hL
    obtain ⟨breaks, hB, h⟩ := h
    cases breaks with
    | false =>
      rw [if_neg (by simp)] at h
      have := ihr _ _ s2 res2 h
      rw [this, padStr_filter, ihl']
      simp [charsOO, List.filter_append, List.append_assoc]
    | true =>
      rw [if_pos rfl] at h
      simp only [bind, Option.bind_eq_some] at h
      obtain ⟨off, hoff, h⟩ := h
      have := ihr _ _ s2 res2 h
      rw [this, padStr_filter, String.data_append]
      rw [List.filter_append, ihl']
      have hnl : (("\n" : String)).data.filter nonWs = [] := rfl
      rw [hnl]
      simp [charsOO, List.filter_append, List.append_assoc]

theorem renderVisitDoc_chars : ∀ (doc : Doc) (s s2 : State) (out : String),
    renderVisitDoc doc s = some (s2, out) →
    out.data.filter nonWs = (charsOD doc).filter nonWs := by
  intro doc
  induction doc with
  | Eod =>
    intro s s2 out h
    simp only [renderVisitDoc, Option.some.injEq, Prod.mk.injEq] at h
    obtain ⟨h1, h2⟩ := h
    subst h2
    rfl
  | Empty d1 ih =>
    intro s s2 out h
    simp only [renderVisitDoc, bind, Option.bind_eq_some, Option.some.injEq,
      Prod.mk.injEq] at h
    obtain ⟨⟨t2, d2⟩, hr, he1, he2⟩ := h
    subst he2
    have := ih _ t2 d2 hr
    rw [String.data_append, List.filter_append, this]
    have hnl : (("\n" : String)).data.filter nonWs = [] := rfl
    rw [hnl]
    simp [charsOD]
  | Break obj d1 ih =>
    intro s s2 out h
    simp only [renderVisitDoc, bind, Option.bind_eq_some, Option.some.injEq,
      Prod.mk.injEq] at h
    obtain ⟨⟨t2, o1⟩, hro, ⟨t4, d2⟩, hrd, he1, he2⟩ := h
    subst he2
    have hobj := renderVisitObj_chars obj _ "" t2 o1 hro
    have hdoc := ih _ t4 d2 hrd
    rw [String.data_append, String.data_append, List.filter_append,
      List.filter_append, hobj, hdoc]
    have hnl : (("\n" : String)).data.filter nonWs = [] := rfl
    rw [hnl]
    simp [charsOD]
  | Line obj =>
    intro s s2 out h
    simp only [renderVisitDoc] at h
    have hobj := renderVisitObj_chars obj _ "" s2 out h
    simpa [charsOD] using hobj

/-- C9: for every layout, tab and width, the multiset of non-whitespace
characters of the rendered output equals the multiset of non-whitespace
characters across the layout's `Text` payloads (whenever compile and
render succeed): the ten passes preserve the payload characters (pass 6
drops only empty texts) and the renderer inserts only spaces and
newlines. -/
theorem c9_nonws_preserved (L : Layout) (tab width : Nat) (out : String)
    (h : renderL L tab width = some out) :
    (↑(out.data.filter nonWs) : Multiset Char) =
      (↑((charsL L).filter nonWs) : Multiset Char) := by
  simp only [renderL, bind, Option.bind_eq_some] at h
  obtain ⟨doc, hcomp, hrend⟩ := h
  rw [compile_eq_passes] at hcomp
  simp only [compilePasses, bind, Option.bind_eq_some, Option.some.injEq] at hcomp
  obtain ⟨ld, hlin, rdoc, hstr, ddoc, hden, hdoc⟩ := hcomp
  subst hdoc
  have hchain : charsOD (moveToHeap (rescope (reassociate (identities ddoc))))
      = charsL L := by
    rw [moveToHeap_chars, rescope_chars, reassociate_chars, identities_chars,
      denull_chars rdoc ddoc hden, structurize_chars (fixed ld) rdoc hstr,
      fixed_chars, linearize_chars _ ld hlin, serialize_chars, broken_chars]
  simp only [render, Option.map_eq_some'] at hrend
  obtain ⟨⟨sEnd, outS⟩, hrv, hout⟩ := hrend
  dsimp only at hout
  subst hout
  rw [renderVisitDoc_chars _ _ sEnd outS hrv, hchain]

/-- C9 witness: the claim theorem at a concrete layout with nest, grp,
null and padded comp, tab 2, width 3: the output is "  a b\n  cd". -/
theorem c9_nonws_preserved_witness :
    (↑(("  a b\n  cd" : String).data.filter nonWs) : Multiset Char) =
      (↑((charsL (Layout.nest (Layout.line (Layout.text "a b")
        (Layout.grp (Layout.comp (Layout.text "cd") Layout.null
          ⟨true, false⟩))))).filter nonWs) : Multiset Char) :=
  c9_nonws_preserved
    (Layout.nest (Layout.line (Layout.text "a b")
      (Layout.grp (Layout.comp (Layout.text "cd") Layout.null ⟨true, false⟩))))
    2 3 "  a b\n  cd" (by rfl)

end Typeset
